import Mathlib

/-!
# A verification development for the BitTorrent client in `src/app`

The Go sources are embedded shallowly: every Go function that a property
speaks about becomes a Lean function of the same name.

* A Go `string` / `[]byte` is a list of bytes (`Fin 256`).
* A Go `interface{}` holding a bencode value is the inductive type `Value`.
* A Go `map` is an association list kept in strictly ascending key order
  (the canonical representation of a finite map); `mapSet` is `m[k] = v`.
  Where a function walks a map with `range` and the order of the walk could
  matter (`combineBlocks`, `combinePieces`, `encodeBencode`), its theorems
  take the entries in any order, each key once.
* A Go function returning `(T, error)` returns `Except Fault T`; a run-time
  panic (index out of range, slice bounds out of range) is the fault `panic`.
* A `net.Conn` is the stream of bytes still to be read together with the log
  of writes performed so far.
* Go `int` is 64 bit; where a sum or product of values taken from the input
  can leave that range the model wraps it with `wrap64`.
* `make([]byte, 0, n)` panics when `n` is negative or above `maxAlloc`, the
  largest size of one allocation (`2^48` bytes on linux/amd64); an allocation
  within that limit is taken to succeed.
* A concurrent run of a coordinator is an interleaving of the calls its
  sessions make on the shared `WorkQueue` and `PieceBuffer`: each of these
  calls is a method that holds the mutex for its whole body, and everything
  else a session does touches only its own connection.
-/

namespace BitTorrent

/-! ## Bytes, faults -/

abbrev Byte := Fin 256

abbrev Bytes := List Byte

/-- How a Go call can fail: it returns a non-nil `error`, it panics, or (for
the fuel-indexed loops of this model only) the fuel ran out. -/
inductive Fault where
  | error
  | panic
  | fuel
  deriving DecidableEq, Repr

/-- Go's wrap-around of a mathematical integer into the 64-bit `int` range. -/
def wrap64 (x : Int) : Int := (x + 2 ^ 63) % 2 ^ 64 - 2 ^ 63

/-- Go's `s[lo:hi]` on a byte string, for bounds already checked. -/
def slice (s : Bytes) (lo hi : Nat) : Bytes := (s.drop lo).take (hi - lo)

/-- The constant `maxAlloc` of the Go runtime on linux/amd64: `makeslice`
panics when the capacity asked for is negative or takes more bytes. -/
def maxAlloc : Int := 2 ^ 48

/-! ## Decimal numerals: `strconv.Atoi` and `fmt.Sprintf("%d")` -/

/-- The predicate `unicode.IsDigit(rune(b))` on a single byte: for code points
below 256 it holds exactly for the ASCII digits. -/
def isDigit (b : Byte) : Bool := decide (48 ≤ b.val) && decide (b.val ≤ 57)

/-- The ASCII digit of `d % 10`. -/
def digitByte (d : Nat) : Byte := ⟨48 + d % 10, by omega⟩

/-- The accumulation loop of `strconv.Atoi`: `n = n*10 + int(ch - '0')`. -/
def decimalValue (ds : Bytes) : Nat := ds.foldl (fun n b => n * 10 + (b.val - 48)) 0

/-- The digits of `fmt.Sprintf("%d", n)` for a natural number, most
significant first; `fuel` bounds the number of digits. -/
def formatNatFuel : Nat → Nat → Bytes
  | 0, _ => []
  | fuel + 1, n =>
    if n < 10 then [digitByte n] else formatNatFuel fuel (n / 10) ++ [digitByte (n % 10)]

/-- The output of `fmt.Sprintf("%d", n)` for `n ≥ 0`. -/
def formatNat (n : Nat) : Bytes := formatNatFuel (n + 1) n

/-- The output of `fmt.Sprintf("%d", v)` for a Go `int`. -/
def formatInt (v : Int) : Bytes :=
  if v < 0 then (45 : Byte) :: formatNat v.natAbs else formatNat v.toNat

/-- The part of `strconv.Atoi` after the sign: a non-empty run of ASCII digits
whose value fits the 64-bit `int`. -/
def atoiDigits (neg : Bool) (ds : Bytes) : Option Int :=
  if ds = [] then none
  else if ds.all isDigit then
    if neg then
      if decimalValue ds ≤ 2 ^ 63 then some (-(decimalValue ds : Int)) else none
    else
      if decimalValue ds < 2 ^ 63 then some (decimalValue ds : Int) else none
  else none

/-- Go's `strconv.Atoi` (standard library): an optional sign `+` or `-`, then
one or more decimal digits, the value within `[-2^63, 2^63-1]`; anything else
is an error (`none`). Leading zeros and `-0` are accepted. -/
def atoi : Bytes → Option Int
  | [] => none
  | c :: r =>
    if c = 45 then atoiDigits true r
    else if c = 43 then atoiDigits false r
    else atoiDigits false (c :: r)

/-- The position of the first byte equal to `c`, as `strings.Index` with a
one-byte pattern reports it (`none` for `-1`). -/
def indexByte (c : Byte) : Bytes → Option Nat
  | [] => none
  | b :: r => if b = c then some 0 else (indexByte c r).map (· + 1)

/-! ## Go string order and maps -/

/-- Go's `<` on strings: byte-wise lexicographic, a proper prefix is smaller. -/
def bytesLt : Bytes → Bytes → Bool
  | [], [] => false
  | [], _ :: _ => true
  | _ :: _, [] => false
  | a :: as, b :: bs => if a < b then true else if b < a then false else bytesLt as bs

/-- The Go statement `m[k] = v` on a map kept in ascending key order. -/
def mapSet {κ β : Type} (lt : κ → κ → Bool) (m : List (κ × β)) (k : κ) (v : β) :
    List (κ × β) :=
  match m with
  | [] => [(k, v)]
  | (k0, v0) :: rest =>
    if lt k k0 then (k, v) :: (k0, v0) :: rest
    else if lt k0 k then (k0, v0) :: mapSet lt rest k v
    else (k, v) :: rest

/-- The Go expression `v, ok := m[k]`. -/
def mapGet {κ β : Type} [DecidableEq κ] (m : List (κ × β)) (k : κ) : Option β :=
  match m with
  | [] => none
  | (k0, v0) :: rest => if k0 = k then some v0 else mapGet rest k

/-- Strictly ascending keys: the representation invariant of a map. -/
def ascending {κ : Type} (lt : κ → κ → Bool) : List κ → Bool
  | [] => true
  | [_] => true
  | a :: b :: rest => lt a b && ascending lt (b :: rest)

/-- Insertion of one key into a sorted list of keys. -/
def insertKey (k : Bytes) : List Bytes → List Bytes
  | [] => [k]
  | x :: xs => if bytesLt x k then x :: insertKey k xs else k :: x :: xs

/-- Go's `sort.Strings`: the keys in ascending string order. -/
def sortStrings : List Bytes → List Bytes
  | [] => []
  | k :: ks => insertKey k (sortStrings ks)

/-! ## Bencode values, `encodeBencode`, `decodeBencode` -/

/-- The dynamic values the codec handles: Go `int`, `string`, `[]byte`,
`[]interface{}`, `map[string]interface{}`, and `other` for every other
dynamic type (which `encodeBencode` rejects). -/
inductive Value where
  | int (n : Int)
  | str (s : Bytes)
  | bytes (b : Bytes)
  | list (items : List Value)
  | dict (entries : List (Bytes × Value))
  | other

/-- The Go literal `"%d:" + s` of `encodeBencode` for strings and byte slices. -/
def encodeString (s : Bytes) : Bytes := formatNat s.length ++ (58 : Byte) :: s

/-- The emission loop of the `map` case of `encodeBencode`: for each key in
sorted order, the encoded key followed by the encoding of `v[k]`. The values
are looked up in the map of already encoded values. -/
def emitEntries (encoded : List (Bytes × Bytes)) : List Bytes → Bytes
  | [] => []
  | k :: ks => encodeString k ++ (mapGet encoded k).getD [] ++ emitEntries encoded ks

mutual
/-- The function `encodeBencode` of `encode.go`. -/
def encodeBencode : Value → Except Fault Bytes
  | .int v => .ok ((105 : Byte) :: formatInt v ++ [(101 : Byte)])
  | .str v => .ok (encodeString v)
  | .bytes v => .ok (encodeString v)
  | .list v =>
    match encodeItems v with
    | .ok r => .ok ((108 : Byte) :: r ++ [(101 : Byte)])
    | .error e => .error e
  | .dict v =>
    match encodeValues v with
    | .ok encoded =>
      .ok ((100 : Byte) :: emitEntries encoded (sortStrings (encoded.map Prod.fst))
            ++ [(101 : Byte)])
    | .error e => .error e
  | .other => .error Fault.error
/-- The loop of the list case: the encodings of the items, concatenated. -/
def encodeItems : List Value → Except Fault Bytes
  | [] => .ok []
  | item :: rest =>
    match encodeBencode item with
    | .error e => .error e
    | .ok encoded =>
      match encodeItems rest with
      | .error e => .error e
      | .ok r => .ok (encoded ++ r)
/-- The encodings of the values of a map, key by key. -/
def encodeValues : List (Bytes × Value) → Except Fault (List (Bytes × Bytes))
  | [] => .ok []
  | (k, v) :: rest =>
    match encodeBencode v with
    | .error e => .error e
    | .ok encoded =>
      match encodeValues rest with
      | .error e => .error e
      | .ok r => .ok ((k, encoded) :: r)
end

mutual
/-- The function `decodeBencode` of `decode.go`, with `fuel` bounding the
depth of calls; the result is the value and the number of bytes consumed. -/
def decodeFuel : Nat → Bytes → Except Fault (Value × Nat)
  | 0, _ => .error Fault.fuel
  | fuel + 1, s =>
    match s with
    | [] => .error Fault.panic
    | c :: _ =>
      if isDigit c then
        let firstColonIndex := (indexByte 58 s).getD 0
        let lengthStr := s.take firstColonIndex
        match atoi lengthStr with
        | none => .error Fault.error
        | some length =>
          if length < 0 ∨ (firstColonIndex : Int) + 1 + length > s.length then
            .error Fault.panic
          else
            .ok (.str (slice s (firstColonIndex + 1) (firstColonIndex + 1 + length.toNat)),
                 firstColonIndex + 1 + length.toNat)
      else if c = 105 then
        match indexByte 101 (s.drop 1) with
        | none => .error Fault.error
        | some index =>
          match atoi (slice s 1 (index + 1)) with
          | none => .error Fault.error
          | some value => .ok (.int value, index + 2)
      else if c = 108 then decodeListLoop fuel s 1 []
      else if c = 100 then decodeDictLoop fuel s 1 []
      else .error Fault.error
/-- The `for` loop of the list case, from position `index` with the items
decoded so far. -/
def decodeListLoop : Nat → Bytes → Nat → List Value → Except Fault (Value × Nat)
  | 0, _, _, _ => .error Fault.fuel
  | fuel + 1, s, index, result =>
    if index < s.length ∧ s.get? index ≠ some 101 then
      match decodeFuel fuel (s.drop index) with
      | .error e => .error e
      | .ok (value, consumed) => decodeListLoop fuel s (index + consumed) (result ++ [value])
    else if index ≥ s.length ∨ s.get? index ≠ some 101 then .error Fault.error
    else .ok (.list result, index + 1)
/-- The `for` loop of the dictionary case. -/
def decodeDictLoop : Nat → Bytes → Nat → List (Bytes × Value) → Except Fault (Value × Nat)
  | 0, _, _, _ => .error Fault.fuel
  | fuel + 1, s, index, result =>
    if index < s.length ∧ s.get? index ≠ some 101 then
      match decodeFuel fuel (s.drop index) with
      | .error e => .error e
      | .ok (key, consumed) =>
        match decodeFuel fuel (s.drop (index + consumed)) with
        | .error e => .error e
        | .ok (value, consumed2) =>
          match key with
          | .str keyStr =>
            decodeDictLoop fuel s (index + consumed + consumed2) (mapSet bytesLt result keyStr value)
          | _ => .error Fault.error
    else if index ≥ s.length ∨ s.get? index ≠ some 101 then .error Fault.error
    else .ok (.dict result, index + 1)
end

/-- The function `decodeBencode`: every call and every pass of a loop consumes
at least one byte of the input, so `2 * s.length + 1` units of fuel are
enough (the fuel fault never occurs, see `decodeBencode_total`). -/
def decodeBencode (s : Bytes) : Except Fault (Value × Nat) :=
  decodeFuel (2 * s.length + 1) s

mutual
/-- A bencode value as Go holds it: an `int` (64 bit), a `string` (shorter
than `2^63` bytes, as every Go string is), a list of bencode values, or a map
from strings to bencode values (keys strictly ascending: the representation
invariant of maps). -/
def Value.IsBencode : Value → Prop
  | .int n => -2 ^ 63 ≤ n ∧ n < 2 ^ 63
  | .str s => s.length < 2 ^ 63
  | .bytes _ => False
  | .list items => Value.AllBencode items
  | .dict entries =>
    ascending bytesLt (entries.map Prod.fst) = true ∧ Value.EntriesBencode entries
  | .other => False
/-- Every item of a list is a bencode value. -/
def Value.AllBencode : List Value → Prop
  | [] => True
  | v :: vs => Value.IsBencode v ∧ Value.AllBencode vs
/-- Every entry of a map has a Go string as key and a bencode value. -/
def Value.EntriesBencode : List (Bytes × Value) → Prop
  | [] => True
  | (k, v) :: rest => k.length < 2 ^ 63 ∧ Value.IsBencode v ∧ Value.EntriesBencode rest
end

/-- A decimal numeral in minimal form: at least one digit, only digits, and a
leading zero only when the numeral is `0` itself. -/
def MinimalDecimal (ds : Bytes) : Prop :=
  ds ≠ [] ∧ (∀ b ∈ ds, isDigit b = true) ∧ (∀ r, ds = 48 :: r → r = [])

/-- The grammar of well-formed canonical bencodings: integers `i<n>e` in
minimal decimal form within the 64-bit range (no `-0`), strings
`<len>:<bytes>` whose length numeral has no leading zero, lists `l...e` of
canonical items, dictionaries `d...e` of canonical string keys, strictly
ascending by raw bytes, each followed by a canonical value. A dictionary is
given by its entries (length numeral, key bytes, encoded value). -/
inductive Canonical : Bytes → Prop where
  | nat (ds : Bytes) : MinimalDecimal ds → decimalValue ds < 2 ^ 63 →
      Canonical ((105 : Byte) :: ds ++ [(101 : Byte)])
  | neg (ds : Bytes) : MinimalDecimal ds → ds ≠ [(48 : Byte)] → decimalValue ds ≤ 2 ^ 63 →
      Canonical ((105 : Byte) :: (45 : Byte) :: ds ++ [(101 : Byte)])
  | str (ds s : Bytes) : MinimalDecimal ds → decimalValue ds = s.length →
      Canonical (ds ++ (58 : Byte) :: s)
  | list (items : List Bytes) : (∀ x ∈ items, Canonical x) →
      Canonical ((108 : Byte) :: items.flatten ++ [(101 : Byte)])
  | dict (entries : List (Bytes × Bytes × Bytes)) :
      (∀ e ∈ entries, MinimalDecimal e.1 ∧ decimalValue e.1 = e.2.1.length) →
      (∀ e ∈ entries, Canonical e.2.2) →
      ascending bytesLt (entries.map (fun e => e.2.1)) = true →
      Canonical ((100 : Byte) ::
        (entries.map (fun e => e.1 ++ (58 : Byte) :: e.2.1 ++ e.2.2)).flatten ++ [(101 : Byte)])

/-! ## The metainfo view: `getInfoHashBytesFromDict`, `getPieceInfoFromDict` -/

/-- The Go string literal `"info"`. -/
def keyInfo : Bytes := [105, 110, 102, 111]

/-- The Go string literal `"pieces"`. -/
def keyPieces : Bytes := [112, 105, 101, 99, 101, 115]

/-- The Go string literal `"length"`. -/
def keyLength : Bytes := [108, 101, 110, 103, 116, 104]

/-- The Go string literal `"piece length"`. -/
def keyPieceLength : Bytes := [112, 105, 101, 99, 101, 32, 108, 101, 110, 103, 116, 104]

/-- The loop of `getInfoHashBytesFromDict` that builds `infoDictForEncoding`:
every entry is copied, the value under `"pieces"` converted from `string` to
`[]byte`; a `"pieces"` value that is not a string is an error. -/
def infoDictForEncoding :
    List (Bytes × Value) → List (Bytes × Value) → Except Fault (List (Bytes × Value))
  | [], acc => .ok acc
  | (k, v) :: rest, acc =>
    if k = keyPieces then
      match v with
      | .str piecesStr => infoDictForEncoding rest (mapSet bytesLt acc k (.bytes piecesStr))
      | _ => .error Fault.error
    else infoDictForEncoding rest (mapSet bytesLt acc k v)

/-- The function `getInfoHashBytesFromDict` of `torrent.go`; `sha1` stands for
`crypto/sha1.Sum`. -/
def getInfoHashBytesFromDict (sha1 : Bytes → Bytes) (torrentDict : List (Bytes × Value)) :
    Except Fault Bytes :=
  match mapGet torrentDict keyInfo with
  | none => .error Fault.error
  | some (.dict infoDict) =>
    match infoDictForEncoding infoDict [] with
    | .error e => .error e
    | .ok forEncoding =>
      match encodeBencode (.dict forEncoding) with
      | .error e => .error e
      | .ok encodedInfo => .ok (sha1 encodedInfo)
  | some _ => .error Fault.error

/-- The function `getPieceInfoFromDict` of `utils.go`: the actual length of
the piece and its 20-byte hash. Sums and products of Go `int`s wrap at 64
bits; `pieceHashesBytes[hashStart:hashEnd]` panics on a negative or inverted
range. -/
def getPieceInfoFromDict (infoDict : List (Bytes × Value)) (pieceIndex : Int) :
    Except Fault (Int × Bytes) :=
  match mapGet infoDict keyPieceLength with
  | some (.int pieceLengthInt) =>
    match mapGet infoDict keyLength with
    | some (.int totalLength) =>
      match mapGet infoDict keyPieces with
      | some (.str pieceHashesBytes) =>
        let hashStart := wrap64 (pieceIndex * 20)
        let hashEnd := wrap64 (hashStart + 20)
        if hashEnd > pieceHashesBytes.length then .error Fault.error
        else if hashStart < 0 ∨ hashEnd < hashStart then .error Fault.panic
        else
          let pieceHash := slice pieceHashesBytes hashStart.toNat hashEnd.toNat
          let expectedStart := wrap64 (pieceIndex * pieceLengthInt)
          let actualPieceLength :=
            if wrap64 (expectedStart + pieceLengthInt) > totalLength then
              wrap64 (totalLength - expectedStart)
            else pieceLengthInt
          .ok (actualPieceLength, pieceHash)
      | _ => .error Fault.error
    | _ => .error Fault.error
  | _ => .error Fault.error

/-- The number of pieces `ceil(length / pieceLength)`. -/
def pieceCount (length pieceLength : Nat) : Nat := (length + pieceLength - 1) / pieceLength

/-- The length the metainfo prescribes for piece `i`: the piece length, and
for the final piece what remains of the file. -/
def expectedPieceLength (length pieceLength : Nat) (i : Nat) : Int :=
  if i + 1 < pieceCount length pieceLength then (pieceLength : Int)
  else (length : Int) - ((pieceCount length pieceLength : Int) - 1) * (pieceLength : Int)

/-- An info dictionary with `length` 100, `piece length` 40 and three hashes. -/
def sampleInfo : List (Bytes × Value) :=
  [(keyLength, .int 100), (keyPieceLength, .int 40),
   (keyPieces, .str (List.replicate 20 1 ++ List.replicate 20 2 ++ List.replicate 20 3))]

/-- An info dictionary whose `length` is `2^63 - 1` and whose `piece length`
is `2^62 + 1`: two pieces, two hashes. -/
def overflowInfo : List (Bytes × Value) :=
  [(keyLength, .int 9223372036854775807), (keyPieceLength, .int 4611686018427387905),
   (keyPieces, .str (List.replicate 40 0))]

/-- What the conversion loop does to one entry of the info dictionary. -/
def piecesToBytes (e : Bytes × Value) : Bytes × Value :=
  if e.1 = keyPieces then
    match e.2 with
    | .str piecesStr => (e.1, .bytes piecesStr)
    | v => (e.1, v)
  else e

/-- A stand-in for SHA-1 used to run the model on concrete inputs: twenty
bytes, each the sum of the input bytes modulo 256 plus its position. -/
def toySha1 (b : Bytes) : Bytes :=
  (List.range 20).map (fun i => Fin.ofNat ((b.map Fin.val).sum + i))

/-- A torrent dictionary: `announce`, and an `info` dictionary with `length`
100, `name`, `piece length` 50 and 40 bytes of `pieces` (0x00 and 0xff in it). -/
def sampleTorrent : List (Bytes × Value) :=
  [([97, 110, 110, 111, 117, 110, 99, 101], .str [104, 116, 116, 112]),
   (keyInfo, .dict
     [(keyLength, .int 100),
      ([110, 97, 109, 101], .str [120]),
      (keyPieceLength, .int 50),
      (keyPieces, .str ([0, 255, 101, 58, 128] ++ List.replicate 35 7))])]

/-! ## The peer wire: connections and framing -/

/-- A `net.Conn` as the session sees it: the bytes the peer sends from now on
(`input`), the messages written so far (`output`, oldest first), and the
number of writes that will still succeed (`writeBudget`; a write after that
returns an error). -/
structure Conn where
  input : Bytes
  output : List Bytes
  writeBudget : Nat

/-- The call `conn.Write(msg)`. -/
def Conn.write (conn : Conn) (msg : Bytes) : Except Fault Unit × Conn :=
  match conn.writeBudget with
  | 0 => (.error Fault.error, conn)
  | n + 1 => (.ok (), { conn with output := conn.output ++ [msg], writeBudget := n })

/-- The call `io.ReadFull(conn, buf)` with `len(buf) = n`: the next `n` bytes,
or an error when the stream ends before them. -/
def readFull (conn : Conn) (n : Nat) : Option Bytes × Conn :=
  if n ≤ conn.input.length then
    (some (conn.input.take n), { conn with input := conn.input.drop n })
  else (none, { conn with input := [] })

/-- Go's conversion `byte(n)`. -/
def toByte (n : Nat) : Byte := ⟨n % 256, by omega⟩

/-- The bytes `binary.BigEndian.PutUint32` stores for `uint32(v)`. -/
def putUint32 (v : Nat) : Bytes :=
  [toByte (v % 2 ^ 32 / 2 ^ 24), toByte (v % 2 ^ 32 / 2 ^ 16), toByte (v % 2 ^ 32 / 2 ^ 8),
   toByte (v % 2 ^ 32)]

/-- The value `binary.BigEndian.Uint32` reads from the first four bytes. -/
def beUint32 : Bytes → Nat
  | b0 :: b1 :: b2 :: b3 :: _ => b0.val * 2 ^ 24 + b1.val * 2 ^ 16 + b2.val * 2 ^ 8 + b3.val
  | _ => 0

/-- The function `buildPeerMessage` of `utils.go`. -/
def buildPeerMessage (messageID : Byte) (payload : Bytes) : Bytes :=
  let messageLen := (1 + payload.length) % 2 ^ 32
  putUint32 messageLen ++ [messageID] ++ payload

/-- The function `readPeerMessage` of `utils.go`. A nil payload is the empty
list: the function never returns an empty payload that is not nil. -/
def readPeerMessage (conn : Conn) : Except Fault (Byte × Bytes) × Conn :=
  match readFull conn 4 with
  | (none, c) => (.error Fault.error, c)
  | (some messageLenBytes, c1) =>
    let messageLen := beUint32 messageLenBytes
    if messageLen = 0 then (.ok (0, []), c1)
    else
      match readFull c1 1 with
      | (none, c) => (.error Fault.error, c)
      | (some messageIDBytes, c2) =>
        let messageID := messageIDBytes.headD 0
        if messageLen > 1 then
          match readFull c2 (messageLen - 1) with
          | (none, c) => (.error Fault.error, c)
          | (some payload, c3) => (.ok (messageID, payload), c3)
        else (.ok (messageID, []), c2)

/-! ## Reassembling a piece: `combineBlocks` -/

/-- Go's `<` on `int`, the order of the keys of a `map[int]...`. -/
def intLt (a b : Int) : Bool := decide (a < b)

/-- One insertion step of `sort.Slice(entries, less)` with
`less = entries[i].begin < entries[j].begin`. -/
def insertEntry (e : Int × Bytes) : List (Int × Bytes) → List (Int × Bytes)
  | [] => [e]
  | x :: xs => if x.1 < e.1 then x :: insertEntry e xs else e :: x :: xs

/-- The entries of the map sorted by `begin`, as `sort.Slice` leaves them. -/
def sortByBegin : List (Int × Bytes) → List (Int × Bytes)
  | [] => []
  | e :: es => insertEntry e (sortByBegin es)

/-- The loop of `combineBlocks` over the sorted entries: `result` and
`totalLength` so far; a block that does not begin at `totalLength` is an
error. -/
def combineLoop : List (Int × Bytes) → Bytes → Int → Except Fault (Bytes × Int)
  | [], result, totalLength => .ok (result, totalLength)
  | (begin, data) :: rest, result, totalLength =>
    if totalLength ≠ begin then .error Fault.error
    else combineLoop rest (result ++ data) (totalLength + data.length)

/-- The function `combineBlocks` of `utils.go`; `blocks` is the map from
begin offset to block data, given by its entries in the order in which the
walk `for begin, data := range blocks` yields them. The allocation
`make([]byte, 0, pieceLength)` panics on a capacity that is negative or above
`maxAlloc`. -/
def combineBlocks (blocks : List (Int × Bytes)) (pieceLength : Int) : Except Fault Bytes :=
  if blocks.length = 0 then .error Fault.error
  else if pieceLength < 0 ∨ pieceLength > maxAlloc then .error Fault.panic
  else
    match combineLoop (sortByBegin blocks) [] 0 with
    | .error e => .error e
    | .ok (result, totalLength) =>
      if totalLength ≠ pieceLength then .error Fault.error else .ok result

/-- The struct `WorkQueue` (without its mutex): the queue of piece indices,
the retry counters (`none` is the nil map of the zero value) and the cap. -/
structure WorkQueue where
  queue : List Int
  retryCount : Option (List (Int × Int))
  maxRetries : Int

/-- The zero value `&WorkQueue{}` with which both coordinators start. -/
def WorkQueue.empty : WorkQueue := ⟨[], none, 0⟩

/-- The method `WorkQueue.Add`. -/
def WorkQueue.Add (wq : WorkQueue) (piece : Int) : WorkQueue :=
  let counters := match wq.retryCount with
    | none => []
    | some m => m
  let maxRetries := match wq.retryCount with
    | none => 3
    | some _ => wq.maxRetries
  let retryCount := (mapGet counters piece).getD 0
  if retryCount ≥ maxRetries then
    { queue := wq.queue, retryCount := some counters, maxRetries := maxRetries }
  else
    { queue := wq.queue ++ [piece],
      retryCount := some (mapSet intLt counters piece (retryCount + 1)),
      maxRetries := maxRetries }

/-- The method `WorkQueue.Get`: the first index and `true`, or `(0, false)`
on an empty queue. -/
def WorkQueue.Get (wq : WorkQueue) : (Int × Bool) × WorkQueue :=
  match wq.queue with
  | [] => ((0, false), wq)
  | piece :: rest => ((piece, true), { wq with queue := rest })

/-- The method `WorkQueue.IsEmpty`. -/
def WorkQueue.IsEmpty (wq : WorkQueue) : Bool := wq.queue.length == 0

/-- The retry counter `wq.retryCount[piece]` (0 for an absent key or a nil
map). -/
def WorkQueue.counter (wq : WorkQueue) (piece : Int) : Int :=
  match wq.retryCount with
  | none => 0
  | some m => (mapGet m piece).getD 0

/-- The invariant of a work queue that started as the zero value: once the
counters exist, the cap is 3. -/
def WorkQueue.Started (wq : WorkQueue) : Prop :=
  wq.retryCount = none ∨ wq.maxRetries = 3

/-- A call on the work queue. -/
inductive QueueOp where
  | add (piece : Int)
  | get

/-- The queue after one call. -/
def WorkQueue.step (wq : WorkQueue) : QueueOp → WorkQueue
  | .add piece => wq.Add piece
  | .get => (wq.Get).2

/-- The queue after a sequence of calls. -/
def WorkQueue.run (wq : WorkQueue) (ops : List QueueOp) : WorkQueue := ops.foldl WorkQueue.step wq

/-- How many of the calls `ops`, run from `wq`, append `piece` to the queue. -/
def appendCount (piece : Int) : WorkQueue → List QueueOp → Nat
  | _, [] => 0
  | wq, .get :: ops => appendCount piece (wq.Get).2 ops
  | wq, .add p :: ops =>
    (if p = piece ∧ (wq.Add p).queue = wq.queue ++ [p] then 1 else 0)
      + appendCount piece (wq.Add p) ops

/-- How many of the calls `ops`, run from `wq`, are a `Get` that hands out
`piece`. -/
def dispatchCount (piece : Int) : WorkQueue → List QueueOp → Nat
  | _, [] => 0
  | wq, .get :: ops =>
    (if (wq.Get).1 = (piece, true) then 1 else 0) + dispatchCount piece (wq.Get).2 ops
  | wq, .add p :: ops => dispatchCount piece (wq.Add p) ops

/-- The struct `PieceBuffer` (without its mutex): the map from piece index to
piece data. -/
structure PieceBuffer where
  pieces : List (Int × Bytes)

/-- The method `PieceBuffer.Set`. -/
def PieceBuffer.Set (pb : PieceBuffer) (pieceIndex : Int) (data : Bytes) : PieceBuffer :=
  ⟨mapSet intLt pb.pieces pieceIndex data⟩

/-- The method `PieceBuffer.Get`. -/
def PieceBuffer.Get (pb : PieceBuffer) (pieceIndex : Int) : Option Bytes :=
  mapGet pb.pieces pieceIndex

/-! ## Downloading one piece over an open connection (`torrent.go`) -/

/-- The struct `BlockInfo` of `download.go`. -/
structure BlockInfo where
  Index : Int
  Begin : Int
  Length : Int

/-- Go's conversion `uint32(x)` of an `int`. -/
def uint32 (x : Int) : Nat := (x % 2 ^ 32).toNat

/-- The function `sendRequest` of `utils.go`. -/
def sendRequest (conn : Conn) (blockInfo : BlockInfo) : Except Fault Unit × Conn :=
  let payload := putUint32 (uint32 blockInfo.Index) ++ putUint32 (uint32 blockInfo.Begin)
    ++ putUint32 (uint32 blockInfo.Length)
  conn.write (buildPeerMessage 6 payload)

/-- The function `receivePiece` of `utils.go`: index, begin and block data of
the next message, which must be a `piece` message (id 7). -/
def receivePiece (conn : Conn) : Except Fault (Int × Int × Bytes) × Conn :=
  match readPeerMessage conn with
  | (.error e, c) => (.error e, c)
  | (.ok (messageID, payload), c) =>
    if messageID ≠ 7 then (.error Fault.error, c)
    else if payload.length < 8 then (.error Fault.error, c)
    else
      (.ok ((beUint32 (payload.take 4) : Int), (beUint32 (slice payload 4 8) : Int),
        payload.drop 8), c)

/-- The function `verifyPieceHash` of `utils.go`; `sha1` stands for
`crypto/sha1.Sum`. -/
def verifyPieceHash (sha1 : Bytes → Bytes) (piece expectedHash : Bytes) : Bool :=
  decide (sha1 piece = expectedHash)

/-- The block requested for block index `i` of a piece (the same computation
in both loops of `downloadPieceReuseConn`): `begin = i * blockSize`, and the
length cut down when `begin + blockSize` exceeds the piece length. -/
def blockRequest (pieceIndex pieceLength i : Int) : BlockInfo :=
  let begin := wrap64 (i * 16384)
  let length :=
    if wrap64 (begin + 16384) > pieceLength then wrap64 (pieceLength - begin) else 16384
  ⟨pieceIndex, begin, length⟩

/-- The first loop of `downloadPieceReuseConn`: `n` requests, for the block
indices `i`, `i + 1`, ... -/
def sendInitialRequests (pieceIndex pieceLength : Int) :
    Nat → Int → Conn → Except Fault Unit × Conn
  | 0, _, conn => (.ok (), conn)
  | n + 1, i, conn =>
    match sendRequest conn (blockRequest pieceIndex pieceLength i) with
    | (.error e, c) => (.error e, c)
    | (.ok _, c) => sendInitialRequests pieceIndex pieceLength n (i + 1) c

/-- The second loop of `downloadPieceReuseConn`, `for len(blocks) < numBlocks`:
receive a block, record it under its begin offset, and request the next
block that has not been requested yet. `fuel` bounds the iterations. -/
def receiveBlocks (pieceIndex pieceLength numBlocks : Int) :
    Nat → Conn → List (Int × Bytes) → Int → Int → Except Fault (List (Int × Bytes)) × Conn
  | 0, conn, _, _, _ => (.error Fault.fuel, conn)
  | fuel + 1, conn, blocks, nextBlockIndex, pendingRequests =>
    if (blocks.length : Int) < numBlocks then
      match receivePiece conn with
      | (.error e, c) => (.error e, c)
      | (.ok (index, begin, block), c) =>
        if index ≠ pieceIndex then (.error Fault.error, c)
        else if nextBlockIndex < numBlocks then
          match sendRequest c (blockRequest pieceIndex pieceLength nextBlockIndex) with
          | (.error e, c2) => (.error e, c2)
          | (.ok _, c2) =>
            receiveBlocks pieceIndex pieceLength numBlocks fuel c2
              (mapSet intLt blocks begin block) (nextBlockIndex + 1) (pendingRequests - 1 + 1)
        else
          receiveBlocks pieceIndex pieceLength numBlocks fuel c
            (mapSet intLt blocks begin block) nextBlockIndex (pendingRequests - 1)
    else (.ok blocks, conn)

/-- The function `downloadPieceReuseConn` of `torrent.go`. Every pass of the
receive loop consumes at least one message of the input, so
`input.length + 1` units of fuel are enough. -/
def downloadPieceReuseConn (sha1 : Bytes → Bytes) (conn : Conn)
    (infoDict : List (Bytes × Value)) (pieceIndex : Int) : Except Fault Bytes × Conn :=
  match getPieceInfoFromDict infoDict pieceIndex with
  | .error e => (.error e, conn)
  | .ok (pieceLength, pieceHash) =>
    let numBlocks := (wrap64 (wrap64 (pieceLength + 16384) - 1)).tdiv 16384
    let initialRequests := if numBlocks < 5 then numBlocks else 5
    match sendInitialRequests pieceIndex pieceLength initialRequests.toNat 0 conn with
    | (.error e, c) => (.error e, c)
    | (.ok _, c) =>
      match receiveBlocks pieceIndex pieceLength numBlocks (c.input.length + 1) c []
          (initialRequests.toNat : Int) (initialRequests.toNat : Int) with
      | (.error e, c2) => (.error e, c2)
      | (.ok blocks, c2) =>
        match combineBlocks blocks pieceLength with
        | .error e => (.error e, c2)
        | .ok piece =>
          if verifyPieceHash sha1 piece pieceHash then (.ok piece, c2)
          else (.error Fault.error, c2)

/-- The `for` loop of `downloadPieceWithPeer` (`utils.go`), entered once the
connection is set up: take an index from the queue, skip it when the buffer
has it, download it, and on failure put it back; a panic ends the session. -/
def downloadPieceWithPeer (sha1 : Bytes → Bytes) (infoDict : List (Bytes × Value)) :
    Nat → Conn → WorkQueue → PieceBuffer → Except Fault (Conn × WorkQueue × PieceBuffer)
  | 0, _, _, _ => .error Fault.fuel
  | fuel + 1, conn, queue, buffer =>
    if queue.IsEmpty then .ok (conn, queue, buffer)
    else
      match queue.Get with
      | ((_, false), queue1) => .ok (conn, queue1, buffer)
      | ((pieceIndex, true), queue1) =>
        match buffer.Get pieceIndex with
        | some _ => downloadPieceWithPeer sha1 infoDict fuel conn queue1 buffer
        | none =>
          match downloadPieceReuseConn sha1 conn infoDict pieceIndex with
          | (.error Fault.panic, _) => .error Fault.panic
          | (.error _, conn1) =>
            downloadPieceWithPeer sha1 infoDict fuel conn1 (queue1.Add pieceIndex) buffer
          | (.ok data, conn1) =>
            downloadPieceWithPeer sha1 infoDict fuel conn1 queue1 (buffer.Set pieceIndex data)

/-- What the metainfo demands of the data of piece `i`: its SHA-1 is the hash
listed for `i` and its length the actual piece length of `i`. -/
def PieceVerified (sha1 : Bytes → Bytes) (infoDict : List (Bytes × Value)) (i : Int)
    (data : Bytes) : Prop :=
  ∃ (pieceLength : Int) (pieceHash : Bytes),
    getPieceInfoFromDict infoDict i = .ok (pieceLength, pieceHash) ∧
    sha1 data = pieceHash ∧ (data.length : Int) = pieceLength

/-! ## The pipeline of requests, with a log of what goes over the wire -/

/-- What goes over the wire during the download of a piece: a `request`
message is sent, a `piece` message is received. -/
inductive WireEvent where
  | requestSent
  | pieceReceived
  deriving DecidableEq, Repr

/-- The number of requests sent minus the number of piece messages received
in a log of events. -/
def inFlight : List WireEvent → Int
  | [] => 0
  | .requestSent :: rest => inFlight rest + 1
  | .pieceReceived :: rest => inFlight rest - 1

/-- The first loop of `downloadPieceReuseConn` as in `sendInitialRequests`,
with every request sent appended to `log`. -/
def sendInitialRequestsLog (pieceIndex pieceLength : Int) :
    Nat → Int → Conn → List WireEvent → (Except Fault Unit × Conn) × List WireEvent
  | 0, _, conn, log => ((.ok (), conn), log)
  | n + 1, i, conn, log =>
    match sendRequest conn (blockRequest pieceIndex pieceLength i) with
    | (.error e, c) => ((.error e, c), log)
    | (.ok _, c) =>
      sendInitialRequestsLog pieceIndex pieceLength n (i + 1) c (log ++ [.requestSent])

/-- The second loop of `downloadPieceReuseConn` as in `receiveBlocks`, with
every piece message received and every request sent appended to `log`. -/
def receiveBlocksLog (pieceIndex pieceLength numBlocks : Int) :
    Nat → Conn → List (Int × Bytes) → Int → Int → List WireEvent →
      (Except Fault (List (Int × Bytes)) × Conn) × List WireEvent
  | 0, conn, _, _, _, log => ((.error Fault.fuel, conn), log)
  | fuel + 1, conn, blocks, nextBlockIndex, pendingRequests, log =>
    if (blocks.length : Int) < numBlocks then
      match receivePiece conn with
      | (.error e, c) => ((.error e, c), log)
      | (.ok (index, begin, block), c) =>
        if index ≠ pieceIndex then ((.error Fault.error, c), log ++ [.pieceReceived])
        else if nextBlockIndex < numBlocks then
          match sendRequest c (blockRequest pieceIndex pieceLength nextBlockIndex) with
          | (.error e, c2) => ((.error e, c2), log ++ [.pieceReceived])
          | (.ok _, c2) =>
            receiveBlocksLog pieceIndex pieceLength numBlocks fuel c2
              (mapSet intLt blocks begin block) (nextBlockIndex + 1) (pendingRequests - 1 + 1)
              (log ++ [.pieceReceived] ++ [.requestSent])
        else
          receiveBlocksLog pieceIndex pieceLength numBlocks fuel c
            (mapSet intLt blocks begin block) nextBlockIndex (pendingRequests - 1)
            (log ++ [.pieceReceived])
    else ((.ok blocks, conn), log)

/-- The function `downloadPieceReuseConn` with the log of its requests and
piece messages, in the order in which they go over the wire. -/
def downloadPieceReuseConnLog (sha1 : Bytes → Bytes) (conn : Conn)
    (infoDict : List (Bytes × Value)) (pieceIndex : Int) :
    (Except Fault Bytes × Conn) × List WireEvent :=
  match getPieceInfoFromDict infoDict pieceIndex with
  | .error e => ((.error e, conn), [])
  | .ok (pieceLength, pieceHash) =>
    let numBlocks := (wrap64 (wrap64 (pieceLength + 16384) - 1)).tdiv 16384
    let initialRequests := if numBlocks < 5 then numBlocks else 5
    match sendInitialRequestsLog pieceIndex pieceLength initialRequests.toNat 0 conn [] with
    | ((.error e, c), log) => ((.error e, c), log)
    | ((.ok _, c), log) =>
      match receiveBlocksLog pieceIndex pieceLength numBlocks (c.input.length + 1) c []
          (initialRequests.toNat : Int) (initialRequests.toNat : Int) log with
      | ((.error e, c2), log2) => ((.error e, c2), log2)
      | ((.ok blocks, c2), log2) =>
        match combineBlocks blocks pieceLength with
        | .error e => ((.error e, c2), log2)
        | .ok piece =>
          if verifyPieceHash sha1 piece pieceHash then ((.ok piece, c2), log2)
          else ((.error Fault.error, c2), log2)

/-! ## Assembling the file (`utils.go`, `download.go`, `torrent.go`) -/

/-- The method `PieceBuffer.HasAll`. -/
def PieceBuffer.HasAll (pb : PieceBuffer) (totalPieces : Int) : Bool :=
  decide ((pb.pieces.length : Int) = totalPieces)

/-- The entries of the map sorted by `index`, as `sort.Slice` leaves them in
`combinePieces`: the comparison is that of `combineBlocks`, on the key. -/
def sortByIndex (entries : List (Int × Bytes)) : List (Int × Bytes) := sortByBegin entries

/-- The function `combinePieces` of `utils.go`; `pieces` is the map from piece
index to piece data, given by its entries in the order in which the walk
`for k, v := range pieces` yields them. The allocation
`make([]byte, 0, length)` panics on a capacity that is negative or above
`maxAlloc`. -/
def combinePieces (pieces : List (Int × Bytes)) (length : Int) : Except Fault Bytes :=
  if length < 0 ∨ length > maxAlloc then .error Fault.panic
  else
    let result := ((sortByIndex pieces).map Prod.snd).flatten
    if (result.length : Int) ≠ length then .error Fault.error else .ok result

/-- The last steps of `downloadFileConcurrent` (`torrent.go`), once all
workers are done: the check of `HasAll`, then `combinePieces`; the result is
the data written to the file. -/
def assembleFile (buffer : PieceBuffer) (piecesLen dataLen : Int) : Except Fault Bytes :=
  if !buffer.HasAll piecesLen then .error Fault.error
  else combinePieces buffer.pieces dataLen

/-! ## The peers of a tracker response (`torrent.go`, `utils.go`) -/

/-- The struct `Address` of `download.go`. -/
structure Address where
  IP : Bytes
  Port : Int
  deriving DecidableEq, Repr

/-- The Go string literal `"peers"`. -/
def keyPeers : Bytes := [112, 101, 101, 114, 115]

/-- The output of `fmt.Sprintf("%d.%d.%d.%d", b0, b1, b2, b3)`. -/
def dottedDecimal (b0 b1 b2 b3 : Byte) : Bytes :=
  formatNat b0.val ++ (46 : Byte) :: formatNat b1.val ++ (46 : Byte) :: formatNat b2.val
    ++ (46 : Byte) :: formatNat b3.val

/-- The loop `for i := 0; i < len(peersBytes); i += 6` of both tracker paths,
on a string whose length is a multiple of 6: an address for every group of
six bytes, the port being `int(b4)<<8 | int(b5)`. -/
def peerAddresses : Bytes → List Address
  | b0 :: b1 :: b2 :: b3 :: b4 :: b5 :: rest =>
    ⟨dottedDecimal b0 b1 b2 b3, (((b4.val <<< 8) ||| b5.val : Nat) : Int)⟩
      :: peerAddresses rest
  | _ => []

/-- The function `getPeerAddressFromDict` of `torrent.go` from the point where
the body of the tracker's response is read. The Go function reports a
failure as a message with a nil list; that is the error of the model. -/
def getPeerAddressFromDict (body : Bytes) : Except Fault (List Address) :=
  match decodeBencode body with
  | .error e => .error e
  | .ok (.dict responseDict, _) =>
    match mapGet responseDict keyPeers with
    | some (.str peersStr) =>
      if peersStr.length % 6 ≠ 0 then .error Fault.error
      else .ok (peerAddresses peersStr)
    | _ => .error Fault.error
  | .ok _ => .error Fault.error

/-- The function `getPeerAddressFromMagnet` of `utils.go` from the point where
the body of the tracker's response is read. -/
def getPeerAddressFromMagnet (body : Bytes) : Except Fault (List Address) :=
  match decodeBencode body with
  | .error e => .error e
  | .ok (.dict responseDict, _) =>
    match mapGet responseDict keyPeers with
    | some (.str peersStr) =>
      if peersStr.length % 6 ≠ 0 then .error Fault.error
      else if peersStr.length = 0 then .error Fault.error
      else .ok (peerAddresses peersStr)
    | _ => .error Fault.error
  | .ok _ => .error Fault.error

/-- The endpoint the `k`-th group of six bytes of `peers` stands for: the
dotted decimal of bytes `6k .. 6k+3` and the port `256·byte[6k+4] +
byte[6k+5]`. -/
def endpointAt (peers : Bytes) (k : Nat) : Address :=
  ⟨dottedDecimal (peers.getD (6 * k) 0) (peers.getD (6 * k + 1) 0) (peers.getD (6 * k + 2) 0)
      (peers.getD (6 * k + 3) 0),
    256 * ((peers.getD (6 * k + 4) 0).val : Int) + ((peers.getD (6 * k + 5) 0).val : Int)⟩

/-! ## Fetching the metadata over the extension protocol (`utils.go`) -/

/-- The Go string literal `"msg_type"`. -/
def keyMsgType : Bytes := [109, 115, 103, 95, 116, 121, 112, 101]

/-- The Go string literal `"piece"`. -/
def keyPiece : Bytes := [112, 105, 101, 99, 101]

/-- The Go string literal `"total_size"`. -/
def keyTotalSize : Bytes := [116, 111, 116, 97, 108, 95, 115, 105, 122, 101]

/-- Go's conversion `byte(x)` of an `int`. -/
def toByteInt (x : Int) : Byte := toByte (x % 256).toNat

/-- The value of one hexadecimal digit, as `encoding/hex` reads it (both
cases); `none` for any other byte. -/
def hexValue (c : Byte) : Option Nat :=
  if 48 ≤ c.val ∧ c.val ≤ 57 then some (c.val - 48)
  else if 97 ≤ c.val ∧ c.val ≤ 102 then some (c.val - 87)
  else if 65 ≤ c.val ∧ c.val ≤ 70 then some (c.val - 55)
  else none

/-- Go's `hex.DecodeString` (standard library): pairs of hexadecimal digits to
bytes; an odd length or a byte that is no digit is an error (`none`). -/
def hexDecodeString : Bytes → Option Bytes
  | [] => some []
  | [_] => none
  | p :: q :: rest =>
    match hexValue p, hexValue q, hexDecodeString rest with
    | some a, some b, some r => some (toByte (a * 16 + b) :: r)
    | _, _, _ => none

/-- The function `buildMetadataRequestMessage` of `utils.go`. -/
def buildMetadataRequestMessage (peerExtensionID : Byte) : Except Fault Bytes :=
  match encodeBencode
      (.dict (mapSet bytesLt (mapSet bytesLt [] keyMsgType (.int 0)) keyPiece (.int 0))) with
  | .error e => .error e
  | .ok encodedDict => .ok (buildPeerMessage 20 (peerExtensionID :: encodedDict))

/-- Steps 5 to 10 of `getMetadataFromMagnet`, on the non-empty payload of the
reply: the extension id, the header dictionary with `msg_type`, `piece` and
`total_size`, the `total_size` bytes after the header, their SHA-1 against
the info-hash of the magnet link, and their decoding. The slice
`payload[metadataStart : metadataStart+totalSize]` panics when its upper bound
is below the lower one. -/
def metadataFromPayload (sha1 : Bytes → Bytes) (infoHashHex : Bytes) (ourExtensionID : Int)
    (payload : Bytes) : Except Fault (List (Bytes × Value)) :=
  match payload with
  | [] => .error Fault.error
  | extensionID :: dictStr =>
    if extensionID ≠ toByteInt ourExtensionID then .error Fault.error
    else
      match decodeBencode dictStr with
      | .error e => .error e
      | .ok (.dict decodedDictMap, consumed) =>
        match mapGet decodedDictMap keyMsgType with
        | some (.int msgType) =>
          if msgType ≠ 1 then .error Fault.error
          else
            match mapGet decodedDictMap keyPiece with
            | some (.int piece) =>
              if piece ≠ 0 then .error Fault.error
              else
                match mapGet decodedDictMap keyTotalSize with
                | some (.int totalSize) =>
                  let metadataStart : Int := 1 + (consumed : Int)
                  let metadataEnd := wrap64 (metadataStart + totalSize)
                  if metadataEnd > (payload.length : Int) then .error Fault.error
                  else if metadataEnd < metadataStart then .error Fault.panic
                  else
                    let metadataBytes := slice payload metadataStart.toNat metadataEnd.toNat
                    match hexDecodeString infoHashHex with
                    | none => .error Fault.error
                    | some infoHashBytes =>
                      if sha1 metadataBytes ≠ infoHashBytes then .error Fault.error
                      else
                        match decodeBencode metadataBytes with
                        | .error e => .error e
                        | .ok (.dict metadataMap, _) => .ok metadataMap
                        | .ok _ => .error Fault.error
                | _ => .error Fault.error
            | _ => .error Fault.error
        | _ => .error Fault.error
      | .ok _ => .error Fault.error

/-- The payload handling of `magnetInfo` (`magnet.go`), on the non-empty
payload of the reply to the metadata request: the steps of
`metadataFromPayload` without the check of `piece`. -/
def magnetInfoPayload (sha1 : Bytes → Bytes) (infoHashHex : Bytes) (ourExtensionID : Int)
    (payload : Bytes) : Except Fault (List (Bytes × Value)) :=
  match payload with
  | [] => .error Fault.error
  | extensionID :: dictStr =>
    if extensionID ≠ toByteInt ourExtensionID then .error Fault.error
    else
      match decodeBencode dictStr with
      | .error e => .error e
      | .ok (.dict decodedDictMap, consumed) =>
        match mapGet decodedDictMap keyMsgType with
        | some (.int msgType) =>
          if msgType ≠ 1 then .error Fault.error
          else
            match mapGet decodedDictMap keyTotalSize with
            | some (.int totalSize) =>
              let metadataStart : Int := 1 + (consumed : Int)
              let metadataEnd := wrap64 (metadataStart + totalSize)
              if metadataEnd > (payload.length : Int) then .error Fault.error
              else if metadataEnd < metadataStart then .error Fault.panic
              else
                let metadataBytes := slice payload metadataStart.toNat metadataEnd.toNat
                match hexDecodeString infoHashHex with
                | none => .error Fault.error
                | some infoHashBytes =>
                  if sha1 metadataBytes ≠ infoHashBytes then .error Fault.error
                  else
                    match decodeBencode metadataBytes with
                    | .error e => .error e
                    | .ok (.dict metadataMap, _) => .ok metadataMap
                    | .ok _ => .error Fault.error
            | _ => .error Fault.error
        | _ => .error Fault.error
      | .ok _ => .error Fault.error

/-- The function `getMetadataFromMagnet` of `utils.go` from the point where
`magnetHandshake` has returned the connection and the two extension ids;
`infoHashHex` is `decoded["Info Hash"]`. It sends the metadata request, reads
one message and hands its payload to `metadataFromPayload`. -/
def getMetadataFromMagnet (sha1 : Bytes → Bytes) (infoHashHex : Bytes) (conn : Conn)
    (peerExtensionId ourExtensionID : Int) : Except Fault (List (Bytes × Value)) × Conn :=
  match buildMetadataRequestMessage (toByteInt peerExtensionId) with
  | .error e => (.error e, conn)
  | .ok metadataRequestMessage =>
    match conn.write metadataRequestMessage with
    | (.error e, c) => (.error e, c)
    | (.ok _, c) =>
      match readPeerMessage c with
      | (.error e, c1) => (.error e, c1)
      | (.ok (messageID, payload), c1) =>
        if messageID ≠ 20 then (.error Fault.error, c1)
        else if payload.length = 0 then (.error Fault.error, c1)
        else (metadataFromPayload sha1 infoHashHex ourExtensionID payload, c1)

mutual
/-- Every integer inside the value is a Go `int` (64 bit). -/
def Value.IntsInRange : Value → Prop
  | .int n => -2 ^ 63 ≤ n ∧ n < 2 ^ 63
  | .list items => Value.AllInRange items
  | .dict entries => Value.EntriesInRange entries
  | _ => True
/-- Every integer inside the items is a Go `int`. -/
def Value.AllInRange : List Value → Prop
  | [] => True
  | v :: vs => Value.IntsInRange v ∧ Value.AllInRange vs
/-- Every integer inside the values of the entries is a Go `int`. -/
def Value.EntriesInRange : List (Bytes × Value) → Prop
  | [] => True
  | (_, v) :: rest => Value.IntsInRange v ∧ Value.EntriesInRange rest
end

/-! ## Magnet links: `decodeMagnetLink` (`decode.go`) -/

/-- Go's `strings.Split(s, sep)` for a one-byte separator: the pieces of `s`
between the separators, in order; the empty string gives one empty piece. -/
def split (sep : Byte) : Bytes → List Bytes
  | [] => [[]]
  | b :: r =>
    if b = sep then [] :: split sep r
    else
      match split sep r with
      | [] => [[b]]
      | p :: ps => (b :: p) :: ps

/-- The position of the last byte equal to `c`, as `strings.LastIndex` with a
one-byte pattern reports it (`none` for `-1`). -/
def lastIndexByte (c : Byte) : Bytes → Option Nat
  | [] => none
  | b :: r =>
    match lastIndexByte c r with
    | some i => some (i + 1)
    | none => if b = c then some 0 else none

/-- Go's `url.QueryUnescape` (standard library): `%XY` with two hexadecimal
digits becomes the byte `0xXY`, `+` becomes a space, every other byte is
kept; a `%` not followed by two hexadecimal digits is an error (`none`). -/
def queryUnescape : Bytes → Option Bytes
  | [] => some []
  | c :: rest =>
    if c = 37 then
      match rest with
      | p :: q :: r =>
        match hexValue p, hexValue q with
        | some a, some b => (queryUnescape r).map (fun t => toByte (a * 16 + b) :: t)
        | _, _ => none
      | _ => none
    else if c = 43 then (queryUnescape rest).map (fun t => (32 : Byte) :: t)
    else (queryUnescape rest).map (fun t => c :: t)

/-- The Go string literal `"magnet"`. -/
def magnetWord : Bytes := [109, 97, 103, 110, 101, 116]

/-- The Go string literal `"xt="`. -/
def xtKey : Bytes := [120, 116, 61]

/-- The Go string literal `"tr="`. -/
def trKey : Bytes := [116, 114, 61]

/-- The Go string literal `"Info Hash"`. -/
def keyInfoHash : Bytes := [73, 110, 102, 111, 32, 72, 97, 115, 104]

/-- The Go string literal `"Tracker URL"`. -/
def keyTrackerURL : Bytes := [84, 114, 97, 99, 107, 101, 114, 32, 85, 82, 76]

/-- The loop of `decodeMagnetLink` over `queryParts`, with the map `result`
built so far. -/
def magnetLoop : List Bytes → List (Bytes × Bytes) → Except Fault (List (Bytes × Bytes))
  | [], result => .ok result
  | part :: rest, result =>
    if xtKey.isPrefixOf part then
      match lastIndexByte 58 part with
      | none => .error Fault.error
      | some lastIndex =>
        magnetLoop rest (mapSet bytesLt result keyInfoHash (part.drop (lastIndex + 1)))
    else if trKey.isPrefixOf part then
      match queryUnescape (part.drop 3) with
      | none => .error Fault.error
      | some decodedURL => magnetLoop rest (mapSet bytesLt result keyTrackerURL decodedURL)
    else magnetLoop rest result

/-- The function `decodeMagnetLink` of `decode.go`. The slices `link[:6]` and
`link[8:]` panic on a link shorter than 6 or 8 bytes. -/
def decodeMagnetLink (link : Bytes) : Except Fault (List (Bytes × Bytes)) :=
  if link.length < 6 then .error Fault.panic
  else if link.take 6 ≠ magnetWord then .error Fault.error
  else if link.length < 8 then .error Fault.panic
  else magnetLoop (split 38 (link.drop 8)) []

/-- The text `magnet:?` with which a magnet link starts. -/
def magnetScheme : Bytes := [109, 97, 103, 110, 101, 116, 58, 63]

/-- The Go string literal-like text `xt=urn:btih:` of an exact-topic parameter. -/
def xtUrnBtih : Bytes := [120, 116, 61, 117, 114, 110, 58, 98, 116, 105, 104, 58]

/-- The query `p1&p2&...&pn` of the parameters `p1`, ..., `pn`. -/
def joinParameters : List Bytes → Bytes
  | [] => []
  | [p] => p
  | p :: q :: rest => p ++ (38 : Byte) :: joinParameters (q :: rest)

/-- A percent-encoding `e` of the bytes `u`: every byte of `u` is written
either as `%XY`, two hexadecimal digits of its value, or as itself; the bytes
`%`, `+` and `&`, which have a meaning of their own inside a query value, are
always written as `%XY`. -/
inductive PercentEncoded : Bytes → Bytes → Prop where
  | nil : PercentEncoded [] []
  | literal (b : Byte) (e u : Bytes) : b ≠ 37 → b ≠ 43 → b ≠ 38 →
      PercentEncoded e u → PercentEncoded (b :: e) (b :: u)
  | escaped (p q : Byte) (a b : Nat) (e u : Bytes) :
      hexValue p = some a → hexValue q = some b →
      PercentEncoded e u → PercentEncoded ((37 : Byte) :: p :: q :: e) (toByte (a * 16 + b) :: u)

/-- A parameter of a magnet link whose key is neither `xt` nor `tr`: it holds
no `&` and starts with neither `xt=` nor `tr=`. -/
def OtherParameter (p : Bytes) : Prop :=
  (38 : Byte) ∉ p ∧ xtKey.isPrefixOf p = false ∧ trKey.isPrefixOf p = false

/-- A string of hexadecimal digits. -/
def IsHex (h : Bytes) : Prop := ∀ c ∈ h, (hexValue c).isSome = true

/-- The text after the last `:` of a parameter, which `decodeMagnetLink`
stores as the info-hash of an `xt` parameter (`none` when it holds no `:`). -/
def xtValue (part : Bytes) : Option Bytes :=
  (lastIndexByte 58 part).map (fun lastIndex => part.drop (lastIndex + 1))

/-- The last of the parameters that start with `key`. -/
def lastWithKey (key : Bytes) : List Bytes → Option Bytes
  | [] => none
  | p :: rest =>
    match lastWithKey key rest with
    | some q => some q
    | none => if key.isPrefixOf p then some p else none

/-- The first of the parameters that start with `key`. -/
def firstWithKey (key : Bytes) : List Bytes → Option Bytes
  | [] => none
  | p :: rest => if key.isPrefixOf p then some p else firstWithKey key rest

/-! ## The session: handshake, bitfield, unchoke (`utils.go`) -/

/-- The function `waitForBitfield` of `utils.go`: read messages until one with
id 5 arrives; a keep-alive (id 0 with a nil payload) and every other message
are passed over. `fuel` bounds the number of messages read. -/
def waitForBitfieldFuel : Nat → Conn → Except Fault Unit × Conn
  | 0, conn => (.error Fault.fuel, conn)
  | fuel + 1, conn =>
    match readPeerMessage conn with
    | (.error e, c) => (.error e, c)
    | (.ok (messageID, payload), c) =>
      if messageID = 0 ∧ payload = [] then waitForBitfieldFuel fuel c
      else if messageID = 5 then (.ok (), c)
      else waitForBitfieldFuel fuel c

/-- The function `waitForBitfield`: every message read takes at least four
bytes of the input, so `input.length + 1` units of fuel are enough. -/
def waitForBitfield (conn : Conn) : Except Fault Unit × Conn :=
  waitForBitfieldFuel (conn.input.length + 1) conn

/-- The function `sendInterested` of `utils.go`. -/
def sendInterested (conn : Conn) : Except Fault Unit × Conn :=
  conn.write (buildPeerMessage 2 [])

/-- The function `waitForUnchoke` of `utils.go`: read messages until one with
id 1 arrives, which must have an empty payload; a keep-alive and every other
message are passed over. `fuel` bounds the number of messages read. -/
def waitForUnchokeFuel : Nat → Conn → Except Fault Unit × Conn
  | 0, conn => (.error Fault.fuel, conn)
  | fuel + 1, conn =>
    match readPeerMessage conn with
    | (.error e, c) => (.error e, c)
    | (.ok (messageID, payload), c) =>
      if messageID = 0 ∧ payload = [] then waitForUnchokeFuel fuel c
      else if messageID = 1 then
        if payload.length ≠ 0 then (.error Fault.error, c) else (.ok (), c)
      else waitForUnchokeFuel fuel c

/-- The function `waitForUnchoke`, with fuel for every message of the input. -/
def waitForUnchoke (conn : Conn) : Except Fault Unit × Conn :=
  waitForUnchokeFuel (conn.input.length + 1) conn

/-- The Go string literal `"BitTorrent protocol"`. -/
def protocolString : Bytes :=
  [66, 105, 116, 84, 111, 114, 114, 101, 110, 116, 32, 112, 114, 111, 116, 111, 99, 111, 108]

/-- The function `performHandshakeWithPeer` of `utils.go` once the TCP
connection `conn` is open; `peerID` stands for the 20 random bytes. The loop
of `conn.Read` calls fills the 68 bytes of `response` or fails when the
stream ends before. -/
def performHandshakeWithPeer (conn : Conn) (infoHashBytes peerID : Bytes) :
    Except Fault Unit × Conn :=
  let handshakeMsg :=
    (19 : Byte) :: protocolString ++ List.replicate 8 (0 : Byte) ++ infoHashBytes ++ peerID
  match conn.write handshakeMsg with
  | (.error e, c) => (.error e, c)
  | (.ok _, c) =>
    match readFull c 68 with
    | (none, c1) => (.error Fault.error, c1)
    | (some response, c1) =>
      if response.headD 0 ≠ 19 then (.error Fault.error, c1)
      else if slice response 1 20 ≠ protocolString then (.error Fault.error, c1)
      else (.ok (), c1)

/-- The function `supportsExtensions` of `utils.go`. -/
def supportsExtensions (reserved : Bytes) : Bool :=
  if reserved.length < 8 then false
  else decide ((reserved.getD 5 0).val / 16 % 2 ≠ 0)

/-- The Go string literal `"ut_metadata"`. -/
def keyUtMetadata : Bytes := [117, 116, 95, 109, 101, 116, 97, 100, 97, 116, 97]

/-- The Go string literal `"m"`. -/
def keyM : Bytes := [109]

/-- The function `buildExtensionHandshakeMessage` of `utils.go`. -/
def buildExtensionHandshakeMessage (extensionID : Byte) : Except Fault Bytes :=
  if extensionID = 0 then .error Fault.error
  else
    match encodeBencode
        (.dict (mapSet bytesLt []
          keyM (.dict (mapSet bytesLt [] keyUtMetadata (.int (extensionID.val : Int)))))) with
    | .error e => .error e
    | .ok encodedDict => .ok (buildPeerMessage 20 ((0 : Byte) :: encodedDict))

/-- The second half of `performMagnetHandshakeWithPeer`, after the checks of
the received handshake: wait for the bitfield and, when the peer's reserved
bytes announce the extension protocol, exchange extension handshakes. -/
def extensionPhase (reservedBytes : Bytes) (conn : Conn) : Except Fault Unit × Conn :=
  match waitForBitfield conn with
  | (.error e, c) => (.error e, c)
  | (.ok _, c) =>
    if supportsExtensions reservedBytes then
      match buildExtensionHandshakeMessage 1 with
      | .error e => (.error e, c)
      | .ok extensionHandshakeMsg =>
        match c.write extensionHandshakeMsg with
        | (.error e, c1) => (.error e, c1)
        | (.ok _, c1) =>
          match readPeerMessage c1 with
          | (.error e, c2) => (.error e, c2)
          | (.ok (messageID, payload), c2) =>
            if messageID ≠ 20 then (.error Fault.error, c2)
            else
              match payload with
              | [] => (.error Fault.error, c2)
              | extensionID :: dictStr =>
                if extensionID ≠ 0 then (.error Fault.error, c2)
                else
                  match decodeBencode dictStr with
                  | .error e => (.error e, c2)
                  | .ok _ => (.ok (), c2)
    else (.ok (), c)

/-- The function `performMagnetHandshakeWithPeer` of `utils.go` once the TCP
connection is open: the handshake carries the extension bit
(`reserved[5] |= 1 << 4`), the reply is checked as in
`performHandshakeWithPeer`, and `extensionPhase` follows. -/
def performMagnetHandshakeWithPeer (conn : Conn) (infoHashBytes peerID : Bytes) :
    Except Fault Unit × Conn :=
  let reserved : Bytes := [0, 0, 0, 0, 0, 16, 0, 0]
  let handshakeMsg := (19 : Byte) :: protocolString ++ reserved ++ infoHashBytes ++ peerID
  match conn.write handshakeMsg with
  | (.error e, c) => (.error e, c)
  | (.ok _, c) =>
    match readFull c 68 with
    | (none, c1) => (.error Fault.error, c1)
    | (some response, c1) =>
      if response.headD 0 ≠ 19 then (.error Fault.error, c1)
      else if slice response 1 20 ≠ protocolString then (.error Fault.error, c1)
      else extensionPhase (slice response 20 28) c1

/-- The function `getTotalPiecesFromDict` of `utils.go`: the number of pieces
and the length of the file. -/
def getTotalPiecesFromDict (torrentDict : List (Bytes × Value)) : Except Fault (Int × Int) :=
  match mapGet torrentDict keyInfo with
  | none => .error Fault.error
  | some (.dict infoDictMap) =>
    match mapGet infoDictMap keyPieces with
    | none => .error Fault.error
    | some (.str piecesStr) =>
      match mapGet infoDictMap keyLength with
      | none => .error Fault.error
      | some (.int lengthInt) => .ok (((piecesStr.length / 20 : Nat) : Int), lengthInt)
      | some _ => .error Fault.error
    | some _ => .error Fault.error
  | some _ => .error Fault.error

/-- The function `getPieceInfoFromMetadata` of `utils.go`: its body is that of
`getPieceInfoFromDict`, statement by statement. -/
def getPieceInfoFromMetadata (metadataMap : List (Bytes × Value)) (pieceIndex : Int) :
    Except Fault (Int × Bytes) :=
  getPieceInfoFromDict metadataMap pieceIndex

/-- The function `downloadPieceWithMagnetReuseConn` of `magnet.go`: its body is
that of `downloadPieceReuseConn`, statement by statement, with
`getPieceInfoFromMetadata` for `getPieceInfoFromDict`. -/
def downloadPieceWithMagnetReuseConn (sha1 : Bytes → Bytes) (conn : Conn)
    (metadataMap : List (Bytes × Value)) (pieceIndex : Int) : Except Fault Bytes × Conn :=
  downloadPieceReuseConn sha1 conn metadataMap pieceIndex

/-- The `for` loop of `downloadPieceWithPeerByMagnet` (`utils.go`), entered
once the connection is set up; a panic ends the session. -/
def downloadPieceWithPeerByMagnet (sha1 : Bytes → Bytes) (metadataMap : List (Bytes × Value)) :
    Nat → Conn → WorkQueue → PieceBuffer → Except Fault (Conn × WorkQueue × PieceBuffer)
  | 0, _, _, _ => .error Fault.fuel
  | fuel + 1, conn, queue, buffer =>
    if queue.IsEmpty then .ok (conn, queue, buffer)
    else
      match queue.Get with
      | ((_, false), queue1) => .ok (conn, queue1, buffer)
      | ((pieceIndex, true), queue1) =>
        match buffer.Get pieceIndex with
        | some _ => downloadPieceWithPeerByMagnet sha1 metadataMap fuel conn queue1 buffer
        | none =>
          match downloadPieceWithMagnetReuseConn sha1 conn metadataMap pieceIndex with
          | (.error Fault.panic, _) => .error Fault.panic
          | (.error _, conn1) =>
            downloadPieceWithPeerByMagnet sha1 metadataMap fuel conn1 (queue1.Add pieceIndex)
              buffer
          | (.ok data, conn1) =>
            downloadPieceWithPeerByMagnet sha1 metadataMap fuel conn1 queue1
              (buffer.Set pieceIndex data)

/-! ## Choosing a peer: the loops of `downloadPiece` and `magnetHandshake` -/

/-- What one pass of a peer-selection loop leaves behind: the variable `conn`
is nil (`net.Dial` or `performHandshakeWithPeer` failed and returned nil) and
the pass ended in `continue`; or `conn` holds a connection on which
`conn.Close()` was called before `continue`; or every step succeeded and the
pass ended in `break`, with what the pass has collected. -/
inductive Attempt (α : Type) where
  | noConn
  | closed (conn : Conn)
  | passed (conn : Conn) (info : α)

/-- The `for` loop over the peers. `dials` holds, for each address in turn,
what `net.Dial` gives: nil on a failure, or the connection. Every pass assigns
the variable `conn`; after `continue` the next peer is tried, `break` ends
the loop, and the loop also ends when the peers are used up. The result is
what the last pass left behind; a panic inside a pass ends the run. -/
def peerLoop {α : Type} (attempt : Option Conn → Except Fault (Attempt α)) :
    List (Option Conn) → Attempt α → Except Fault (Attempt α)
  | [], last => .ok last
  | dial :: rest, _ =>
    match attempt dial with
    | .error e => .error e
    | .ok (.passed conn info) => .ok (.passed conn info)
    | .ok left => peerLoop attempt rest left

/-- The variable `conn` after a peer-selection loop, when it is not nil: the
connection, and whether `conn.Close()` has been called on it. -/
structure PeerConn where
  conn : Conn
  closed : Bool

/-- One pass of the loop of `downloadPiece` (`torrent.go`):
`performHandshakeWithPeer` returns nil on every failure, the three steps after
it close the connection and leave it in `conn`. -/
def downloadPieceAttempt (infoHashBytes peerID : Bytes) (dial : Option Conn) :
    Except Fault (Attempt Unit) :=
  match dial with
  | none => .ok .noConn
  | some c0 =>
    match performHandshakeWithPeer c0 infoHashBytes peerID with
    | (.error Fault.panic, _) => .error Fault.panic
    | (.error _, _) => .ok .noConn
    | (.ok _, c1) =>
      match waitForBitfield c1 with
      | (.error Fault.panic, _) => .error Fault.panic
      | (.error _, c2) => .ok (.closed c2)
      | (.ok _, c2) =>
        match sendInterested c2 with
        | (.error Fault.panic, _) => .error Fault.panic
        | (.error _, c3) => .ok (.closed c3)
        | (.ok _, c3) =>
          match waitForUnchoke c3 with
          | (.error Fault.panic, _) => .error Fault.panic
          | (.error _, c4) => .ok (.closed c4)
          | (.ok _, c4) => .ok (.passed c4 ())

/-- The function `downloadPiece` of `torrent.go` from the list of peers to the
check `if conn == nil` after the loop: an error, or the connection the
function goes on with (`downloadPieceReuseConn` is called on it). -/
def downloadPieceConn (infoHashBytes peerID : Bytes) (dials : List (Option Conn)) :
    Except Fault PeerConn :=
  if dials.length = 0 then .error Fault.error
  else
    match peerLoop (downloadPieceAttempt infoHashBytes peerID) dials .noConn with
    | .error e => .error e
    | .ok .noConn => .error Fault.error
    | .ok (.closed conn) => .ok ⟨conn, true⟩
    | .ok (.passed conn _) => .ok ⟨conn, false⟩

/-- Step 6 of a pass of the loop of `magnetHandshake`, on a peer that
announces the extension protocol: the extension handshakes, and the peer's id
for `ut_metadata` out of the `m` dictionary of its reply. -/
def magnetExtensionStep (response : Bytes) (c2 : Conn) : Except Fault (Attempt (Bytes × Int)) :=
  match buildExtensionHandshakeMessage 1 with
  | .error Fault.panic => .error Fault.panic
  | .error _ => .ok (.closed c2)
  | .ok extensionHandshakeMsg =>
    match c2.write extensionHandshakeMsg with
    | (.error Fault.panic, _) => .error Fault.panic
    | (.error _, c3) => .ok (.closed c3)
    | (.ok _, c3) =>
      match readPeerMessage c3 with
      | (.error Fault.panic, _) => .error Fault.panic
      | (.error _, c4) => .ok (.closed c4)
      | (.ok (messageID, payload), c4) =>
        if messageID ≠ 20 then .ok (.closed c4)
        else
          match payload with
          | [] => .ok (.closed c4)
          | extenstionID :: dictStr =>
            if extenstionID ≠ 0 then .ok (.closed c4)
            else
              match decodeBencode dictStr with
              | .error Fault.panic => .error Fault.panic
              | .error _ => .ok (.closed c4)
              | .ok (.dict extensionDictMap, _) =>
                match mapGet extensionDictMap keyM with
                | some (.dict utMetadataMap) =>
                  match mapGet utMetadataMap keyUtMetadata with
                  | some (.int peerExtenstionId) =>
                    .ok (.passed c4 (slice response 48 68, peerExtenstionId))
                  | _ => .ok (.closed c4)
                | _ => .ok (.closed c4)
              | .ok _ => .ok (.closed c4)

/-- One pass of the loop of `magnetHandshake` (`magnet.go`): `net.Dial`, the
handshake with the extension bit, the 68 bytes of the reply and their checks,
the bitfield, and the extension handshakes when the peer's reserved bytes
announce them. What a pass that ends in `break` has collected is the peer id
(`response[48:68]`) and `peerExtenstionId`. -/
def magnetHandshakeAttempt (infoHashBytes peerID : Bytes) (dial : Option Conn) :
    Except Fault (Attempt (Bytes × Int)) :=
  match dial with
  | none => .ok .noConn
  | some c0 =>
    let reserved : Bytes := [0, 0, 0, 0, 0, 16, 0, 0]
    let handshakeMsg := (19 : Byte) :: protocolString ++ reserved ++ infoHashBytes ++ peerID
    match c0.write handshakeMsg with
    | (.error Fault.panic, _) => .error Fault.panic
    | (.error _, c) => .ok (.closed c)
    | (.ok _, c) =>
      match readFull c 68 with
      | (none, c1) => .ok (.closed c1)
      | (some response, c1) =>
        if response.headD 0 ≠ 19 then .ok (.closed c1)
        else if slice response 1 20 ≠ protocolString then .ok (.closed c1)
        else
          match waitForBitfield c1 with
          | (.error Fault.panic, _) => .error Fault.panic
          | (.error _, c2) => .ok (.closed c2)
          | (.ok _, c2) =>
            if supportsExtensions (slice response 20 28) then magnetExtensionStep response c2
            else .ok (.passed c2 (slice response 48 68, 0))

/-- The function `magnetHandshake` of `magnet.go` from the loop over the
peers (there is at least one) to its return: an error when `conn` is nil
after the loop, and otherwise `conn`, the received peer id (nil when no pass
ended in `break`) and `peerExtenstionId` (0 when no pass ended in `break`: it
starts at 0 and a pass that gives it another value ends in `break`), with a
nil error. -/
def magnetHandshake (infoHashBytes peerID : Bytes) (dials : List (Option Conn)) :
    Except Fault (PeerConn × Bytes × Int) :=
  if dials.length = 0 then .error Fault.error
  else
    match peerLoop (magnetHandshakeAttempt infoHashBytes peerID) dials .noConn with
    | .error e => .error e
    | .ok .noConn => .error Fault.error
    | .ok (.closed conn) => .ok (⟨conn, true⟩, [], 0)
    | .ok (.passed conn (receivedPeerID, peerExtenstionId)) =>
      .ok (⟨conn, false⟩, receivedPeerID, peerExtenstionId)

/-! ## Concurrent sessions: the coordinator as an interleaving (`torrent.go`, `utils.go`) -/

/-- Where a session stands in the loop of `downloadPieceWithPeer` between two
calls on the shared queue and buffer: before `queue.IsEmpty()`; before
`queue.Get()`; holding `pieceIndex` before `buffer.Get(pieceIndex)`; holding
`pieceIndex` while `downloadPieceReuseConn` runs on the session's own
connection, the next shared call being `queue.Add` or `buffer.Set`; or after
the loop. -/
inductive SessionPc where
  | atIsEmpty
  | atGet
  | atCheck (pieceIndex : Int)
  | atDownload (pieceIndex : Int)
  | finished
  deriving DecidableEq, Repr

/-- The state of a concurrent run of `downloadFileConcurrent`: the shared
queue and buffer, where every session stands, and the log of the indices for
which `buffer.Set` has been called, oldest first. -/
structure Coordinator where
  queue : WorkQueue
  buffer : PieceBuffer
  sessions : List SessionPc
  commits : List Int

/-- One step of a concurrent run: the session `session` makes its next call
on the shared queue or buffer. Each of these calls is a method of
`download.go` that holds the mutex for its whole body, so the calls of all
sessions happen one after another in some order; what a session does between
two calls touches only its own connection. `outcome` is what
`downloadPieceReuseConn` returned to the session when it stands after the
download: `none` for an error (the index goes back with `queue.Add`),
`some data` for verified data (committed with `buffer.Set`). -/
def Coordinator.step (st : Coordinator) (session : Nat) (outcome : Option Bytes) :
    Coordinator :=
  match st.sessions[session]? with
  | none => st
  | some .finished => st
  | some .atIsEmpty =>
    if st.queue.IsEmpty then { st with sessions := st.sessions.set session .finished }
    else { st with sessions := st.sessions.set session .atGet }
  | some .atGet =>
    match st.queue.Get with
    | ((_, false), queue1) =>
      { st with queue := queue1, sessions := st.sessions.set session .finished }
    | ((pieceIndex, true), queue1) =>
      { st with queue := queue1, sessions := st.sessions.set session (.atCheck pieceIndex) }
  | some (.atCheck pieceIndex) =>
    match st.buffer.Get pieceIndex with
    | some _ => { st with sessions := st.sessions.set session .atIsEmpty }
    | none => { st with sessions := st.sessions.set session (.atDownload pieceIndex) }
  | some (.atDownload pieceIndex) =>
    match outcome with
    | none =>
      { st with queue := st.queue.Add pieceIndex,
                sessions := st.sessions.set session .atIsEmpty }
    | some data =>
      { st with buffer := st.buffer.Set pieceIndex data,
                commits := st.commits ++ [pieceIndex],
                sessions := st.sessions.set session .atIsEmpty }

/-- A concurrent run: the steps of a schedule, which names for every step the
session that moves and the outcome of its download. -/
def Coordinator.run (st : Coordinator) (schedule : List (Nat × Option Bytes)) : Coordinator :=
  schedule.foldl (fun s ev => s.step ev.1 ev.2) st

/-- The loop `for i := 0; i < piecesLen; i++ { queue.Add(i) }` of the
coordinator on the zero value of the queue. -/
def initialQueue : Nat → WorkQueue
  | 0 => WorkQueue.empty
  | n + 1 => (initialQueue n).Add (n : Int)

/-- The state in which `downloadFileConcurrent` starts its workers: the queue
holds every index, the buffer is empty, and every worker is about to enter
its loop (a worker that fails before the loop never moves). -/
def Coordinator.start (piecesLen workers : Nat) : Coordinator :=
  { queue := initialQueue piecesLen, buffer := ⟨[]⟩,
    sessions := List.replicate workers .atIsEmpty, commits := [] }

/-- The index a session holds, if any. -/
def SessionPc.held : SessionPc → List Int
  | .atCheck pieceIndex => [pieceIndex]
  | .atDownload pieceIndex => [pieceIndex]
  | _ => []

/-- The indices held by the sessions, session by session. -/
def Coordinator.held (st : Coordinator) : List Int := (st.sessions.map SessionPc.held).flatten

/-- The info dictionary `d6:lengthi3e4:name1:x12:piece lengthi3e6:pieces20:...e`
as a peer sends it. -/
def sampleMetadata : Bytes :=
  [100, 54, 58, 108, 101, 110, 103, 116, 104, 105, 51, 101, 52, 58, 110, 97, 109, 101, 49,
   58, 120, 49, 50, 58, 112, 105, 101, 99, 101, 32, 108, 101, 110, 103, 116, 104, 105, 51,
   101, 54, 58, 112, 105, 101, 99, 101, 115, 50, 48, 58, 200, 201, 202, 203, 204, 205, 206,
   207, 208, 209, 210, 211, 212, 213, 214, 215, 216, 217, 218, 219, 101]

/-- The header `d8:msg_typei1e5:piecei0e10:total_sizei71ee` of a data reply. -/
def sampleHeader : Bytes :=
  [100, 56, 58, 109, 115, 103, 95, 116, 121, 112, 101, 105, 49, 101, 53, 58, 112, 105, 101,
   99, 101, 105, 48, 101, 49, 48, 58, 116, 111, 116, 97, 108, 95, 115, 105, 122, 101, 105,
   55, 49, 101, 101]

/-- The hexadecimal text of `toySha1 sampleMetadata`,
`d7d8d9dadbdcdddedfe0e1e2e3e4e5e6e7e8e9ea`. -/
def sampleInfoHashHex : Bytes :=
  [100, 55, 100, 56, 100, 57, 100, 97, 100, 98, 100, 99, 100, 100, 100, 101, 100, 102, 101,
   48, 101, 49, 101, 50, 101, 51, 101, 52, 101, 53, 101, 54, 101, 55, 101, 56, 101, 57, 101,
   97]

/-- A connection on which the peer answers the metadata request with
`sampleMetadata` under our extension id 1. -/
def metadataConn : Conn :=
  ⟨buildPeerMessage 20 ((1 : Byte) :: (sampleHeader ++ sampleMetadata)), [], 1⟩

/-- The `request` message (id 6) for `length` bytes at offset `begin` of
piece `pieceIndex`. -/
def requestMessage (pieceIndex begin length : Nat) : Bytes :=
  buildPeerMessage 6 (putUint32 pieceIndex ++ putUint32 begin ++ putUint32 length)

/-- The `piece` message (id 7) that carries `block` for offset `begin` of
piece `pieceIndex`. -/
def pieceMessage (pieceIndex begin : Nat) (block : Bytes) : Bytes :=
  buildPeerMessage 7 (putUint32 pieceIndex ++ putUint32 begin ++ block)

/-- The number of blocks of a piece of `L` bytes, `ceil(L / 16384)`. -/
def blockCount (L : Nat) : Nat := (L + 16383) / 16384

/-- The length of block `k` of a piece of `L` bytes: 16384 for every block
but the last, whose length is `L mod 16384` if that is non-zero and 16384
otherwise. -/
def blockLength (L k : Nat) : Nat :=
  if k + 1 < blockCount L then 16384 else if L % 16384 ≠ 0 then L % 16384 else 16384

/-- The requests for the blocks `i`, ..., `i + m - 1` of a piece, in order. -/
def requestsFor (pieceIndex L i m : Nat) : List Bytes :=
  (List.range' i m).map (fun k => requestMessage pieceIndex (16384 * k) (blockLength L k))

/-- The stream of a peer that answers the requests for the blocks `j`, ...,
`j + d - 1` in order, each with the requested block. -/
def peerReplies (pieceIndex : Nat) (block : Nat → Bytes) (j d : Nat) : Bytes :=
  ((List.range' j d).map (fun k => pieceMessage pieceIndex (16384 * k) (block k))).flatten

/-- The map `blocks` once the blocks `0`, ..., `j - 1` are recorded. -/
def receivedBlocks (block : Nat → Bytes) (j : Nat) : List (Int × Bytes) :=
  (List.range j).map (fun k => (((16384 * k : Nat) : Int), block k))

/-- An info dictionary of a single piece of 32768 bytes. -/
def info32k : List (Bytes × Value) :=
  [(keyLength, .int 32768), (keyPieceLength, .int 32768),
   (keyPieces, .str (List.replicate 20 0))]

/-- An info dictionary of a single piece of `2^63 - 1` bytes. -/
def hugePieceInfo : List (Bytes × Value) :=
  [(keyLength, .int 9223372036854775807), (keyPieceLength, .int 9223372036854775807),
   (keyPieces, .str (List.replicate 20 0))]

/-- An info dictionary of a file of one three-byte piece, the hash listed
being that of the data `[1, 2, 3]` under `toySha1`. -/
def smallInfo : List (Bytes × Value) :=
  [(keyLength, .int 3), (keyPieceLength, .int 3), (keyPieces, .str (toySha1 [1, 2, 3]))]

/-- A connection on which the peer sends piece 0 in one block, `[1, 2, 3]` at
offset 0. -/
def smallConn : Conn :=
  ⟨buildPeerMessage 7 (putUint32 0 ++ putUint32 0 ++ [1, 2, 3]), [], 1⟩

/-- An info dictionary of a file of two three-byte pieces, the hashes listed
being those of `[1, 2, 3]` and `[4, 5, 6]` under `toySha1`. -/
def twoPieceInfo : List (Bytes × Value) :=
  [(keyLength, .int 6), (keyPieceLength, .int 3),
   (keyPieces, .str (toySha1 [1, 2, 3] ++ toySha1 [4, 5, 6]))]

/-- A connection on which the peer first sends wrong data `[9, 9, 9]` for
piece 0 and then piece 1, `[4, 5, 6]`, and nothing after that. -/
def failThenServeConn : Conn :=
  ⟨pieceMessage 0 0 [9, 9, 9] ++ pieceMessage 1 0 [4, 5, 6], [], 8⟩

/-- The keep-alive frame: a length prefix of zero. -/
def keepAlive : Bytes := [0, 0, 0, 0]

/-- A handshake reply of 68 bytes: the length byte 19, the protocol string,
eight zero reserved bytes, an info-hash of twenty bytes 7 and a peer id of
twenty bytes 9. -/
def foreignHandshake : Bytes :=
  (19 : Byte) :: protocolString ++ List.replicate 8 (0 : Byte) ++ List.replicate 20 (7 : Byte)
    ++ List.replicate 20 (9 : Byte)

/-- A torrent dictionary whose `info` has `length` 100, `piece length` 40 and
a single hash in `pieces`. -/
def oneHashTorrent : List (Bytes × Value) :=
  [(keyInfo, .dict
     [(keyLength, .int 100), (keyPieceLength, .int 40),
      (keyPieces, .str (List.replicate 20 1))])]

/-- A `pieces` string of 45 bytes: two hashes and five bytes more. -/
def raggedPieces : Bytes := List.replicate 20 1 ++ List.replicate 20 2 ++ List.replicate 5 3

/-- An info dictionary whose `pieces` is `raggedPieces`. -/
def raggedInfo : List (Bytes × Value) :=
  [(keyLength, .int 100), (keyPieceLength, .int 50), (keyPieces, .str raggedPieces)]

/-- The text `ad42ce8109f54c99613ce38f9b4d87e70f24a165`, 40 hexadecimal
digits. -/
def sampleHash : Bytes :=
  [97, 100, 52, 50, 99, 101, 56, 49, 48, 57, 102, 53, 52, 99, 57, 57, 54, 49, 51, 99, 101,
   51, 56, 102, 57, 98, 52, 100, 56, 55, 101, 55, 48, 102, 50, 52, 97, 49, 54, 53]

/-- The text `http%3A%2F%2Ft%2Fa`. -/
def sampleTrackerEncoded : Bytes :=
  [104, 116, 116, 112, 37, 51, 65, 37, 50, 70, 37, 50, 70, 116, 37, 50, 70, 97]

/-- The text `http://t/a`. -/
def sampleTracker : Bytes := [104, 116, 116, 112, 58, 47, 47, 116, 47, 97]

/-- The parameter `dn=magnet1.gif`. -/
def sampleName : Bytes := [100, 110, 61, 109, 97, 103, 110, 101, 116, 49, 46, 103, 105, 102]

/-- The parameters `xt=urn:btih:<sampleHash>`, `tr=http%3A%2F%2Fa` and
`tr=http%3A%2F%2Fb` of a link with two trackers. -/
def twoTrackers : List Bytes :=
  [xtUrnBtih ++ sampleHash,
   trKey ++ [104, 116, 116, 112, 37, 51, 65, 37, 50, 70, 37, 50, 70, 97],
   trKey ++ [104, 116, 116, 112, 37, 51, 65, 37, 50, 70, 37, 50, 70, 98]]

/-- A peer stream given by its messages `(id, payload)`, each preceded by a
number of keep-alive frames. -/
def framesWithKeepAlives : List (Nat × Byte × Bytes) → Bytes
  | [] => []
  | (k, messageID, payload) :: rest =>
    (List.replicate k keepAlive).flatten ++ buildPeerMessage messageID payload
      ++ framesWithKeepAlives rest

/-- The same messages with no keep-alive frame between them. -/
def withoutKeepAlives (frames : List (Nat × Byte × Bytes)) : List (Nat × Byte × Bytes) :=
  frames.map (fun f => (0, f.2))

/-- The tracker response `d5:peers12:...e` with the peers `10.0.0.1:6881` and
`192.168.1.2:256`. -/
def sampleTrackerResponse : Bytes :=
  [100, 53, 58, 112, 101, 101, 114, 115, 49, 50, 58,
   10, 0, 0, 1, 26, 225, 192, 168, 1, 2, 1, 0, 101]

/-- The peers string of `sampleTrackerResponse`. -/
def samplePeers : Bytes := [10, 0, 0, 1, 26, 225, 192, 168, 1, 2, 1, 0]

/-- The tracker response `d5:peers0:e`, with no peer. -/
def emptyTrackerResponse : Bytes := [100, 53, 58, 112, 101, 101, 114, 115, 48, 58, 101]

/-- A map written down in an order that is not the order of its keys:
`{"b": 1, "a": 2}`. -/
def unsortedEntries : List (Bytes × Value) := [([98], .int 1), ([97], .int 2)]

/-- The header `d8:msg_typei1e5:piecei0e10:total_sizei` of a metadata reply,
up to the digits of `total_size`. -/
def dataHeaderStart : Bytes :=
  [100, 56, 58, 109, 115, 103, 95, 116, 121, 112, 101, 105, 49, 101,
   53, 58, 112, 105, 101, 99, 101, 105, 48, 101,
   49, 48, 58, 116, 111, 116, 97, 108, 95, 115, 105, 122, 101, 105]

/-- The payload of a metadata reply for the extension id 1 whose header says
`total_size` is `-1`, with nothing after the header. -/
def negativeSizePayload : Bytes := (1 : Byte) :: dataHeaderStart ++ [45, 49, 101, 101]

/-- The payload of a metadata reply for the extension id 1 whose header says
`total_size` is `5`, with two bytes after the header. -/
def oversizePayload : Bytes := (1 : Byte) :: dataHeaderStart ++ [53, 101, 101, 100, 101]

/-- The frame `00 00 00 01 00` of a `choke` message: the message id 0 with an
empty payload. -/
def chokeFrame : Bytes := [0, 0, 0, 1, 0]

/-- A peer that accepts the connection and four writes, sends the handshake
reply `foreignHandshake` and then ends the stream: no bitfield follows. -/
def handshakeOnlyPeer : Conn := ⟨foreignHandshake, [], 4⟩

/-- A peer that accepts the connection, sends the handshake reply, a bitfield
message and an unchoke message. -/
def readyPeer : Conn :=
  ⟨foreignHandshake ++ buildPeerMessage 5 [255] ++ buildPeerMessage 1 [], [], 4⟩

/-- A schedule for two sessions and two pieces: both pass `IsEmpty` and `Get`,
session 1 commits piece 1 first, session 0 fails on piece 0, takes it again
and commits it. -/
def sampleSchedule : List (Nat × Option Bytes) :=
  [(0, none), (1, none), (0, none), (1, none), (1, none), (0, none),
   (1, some [7]), (0, none), (0, none), (0, none), (0, none), (0, some [8]),
   (1, none), (0, none)]

/-- A sample metainfo-like mapping: `pieces` holds arbitrary bytes (0x00,
0xff among them), next to a list and a negative integer. -/
def sampleValue : Value :=
  .dict [([108], .list [.int (-7), .str []]),
         ([112, 105, 101, 99, 101, 115], .str [0, 255, 101, 58, 128]),
         ([122], .int 52)]

/-- The text `d3:foo3:bar5:helloi52ee`. -/
def sampleCanonical : Bytes :=
  [100, 51, 58, 102, 111, 111, 51, 58, 98, 97, 114, 53, 58, 104, 101, 108, 108, 111,
   105, 53, 50, 101, 101]

/-! ## Theorems -/

/-! ### Decimal numerals -/

theorem decimalValue_snoc (xs : Bytes) (d : Byte) :
    decimalValue (xs ++ [d]) = decimalValue xs * 10 + (d.val - 48) := by
  simp [decimalValue, List.foldl_append]

theorem isDigit_iff (b : Byte) : isDigit b = true ↔ 48 ≤ b.val ∧ b.val ≤ 57 := by
  simp [isDigit]

theorem isDigit_digitByte (d : Nat) : isDigit (digitByte d) = true := by
  rw [isDigit_iff]
  simp only [digitByte]
  omega

theorem digitByte_of_isDigit (b : Byte) (h : isDigit b = true) : digitByte (b.val - 48) = b := by
  rw [isDigit_iff] at h
  apply Fin.ext
  simp only [digitByte]
  omega

theorem digitByte_eq_zero (n : Nat) (h : digitByte n = 48) (hn : n < 10) : n = 0 := by
  have := congrArg Fin.val h
  simp only [digitByte] at this
  change 48 + n % 10 = 48 at this
  omega

/-- What `%d` prints: a non-empty run of digits, of value `n`, with a leading
zero only for `n = 0`. -/
theorem formatNatFuel_spec : ∀ (fuel n : Nat), n < fuel →
    formatNatFuel fuel n ≠ [] ∧ (∀ b ∈ formatNatFuel fuel n, isDigit b = true) ∧
    decimalValue (formatNatFuel fuel n) = n ∧
    (∀ r, formatNatFuel fuel n = 48 :: r → n = 0) := by
  intro fuel
  induction fuel with
  | zero => intro n h; omega
  | succ fuel ih =>
    intro n h
    by_cases hn : n < 10
    · have hF : formatNatFuel (fuel + 1) n = [digitByte n] := by simp [formatNatFuel, hn]
      rw [hF]
      refine ⟨by simp, ?_, ?_, ?_⟩
      · intro b hb
        simp only [List.mem_singleton] at hb
        rw [hb]; exact isDigit_digitByte n
      · simp only [decimalValue, List.foldl, digitByte]
        omega
      · intro r hr
        have h1 : digitByte n = 48 := by
          have := List.head_eq_of_cons_eq hr
          exact this
        exact digitByte_eq_zero n h1 hn
    · have hF : formatNatFuel (fuel + 1) n
          = formatNatFuel fuel (n / 10) ++ [digitByte (n % 10)] := by
        simp [formatNatFuel, hn]
      rw [hF]
      have hlt : n / 10 < fuel := by omega
      obtain ⟨h1, h2, h3, h4⟩ := ih (n / 10) hlt
      refine ⟨by simp, ?_, ?_, ?_⟩
      · intro b hb
        rcases List.mem_append.mp hb with hb | hb
        · exact h2 b hb
        · simp only [List.mem_singleton] at hb
          rw [hb]; exact isDigit_digitByte _
      · rw [decimalValue_snoc, h3]
        simp only [digitByte]
        omega
      · intro r hr
        cases hfm : formatNatFuel fuel (n / 10) with
        | nil => exact absurd hfm h1
        | cons a l =>
          rw [hfm] at hr
          simp only [List.cons_append, List.cons.injEq] at hr
          have := h4 l (by rw [hfm, hr.1])
          omega

theorem formatNat_ne_nil (n : Nat) : formatNat n ≠ [] :=
  (formatNatFuel_spec (n + 1) n (Nat.lt_succ_self n)).1

theorem formatNat_isDigit (n : Nat) : ∀ b ∈ formatNat n, isDigit b = true :=
  (formatNatFuel_spec (n + 1) n (Nat.lt_succ_self n)).2.1

theorem decimalValue_formatNat (n : Nat) : decimalValue (formatNat n) = n :=
  (formatNatFuel_spec (n + 1) n (Nat.lt_succ_self n)).2.2.1

theorem formatNat_leading_zero (n : Nat) (r : Bytes) (h : formatNat n = 48 :: r) : n = 0 :=
  (formatNatFuel_spec (n + 1) n (Nat.lt_succ_self n)).2.2.2 r h

/-- A run of digits without a superfluous leading zero is what `%d` prints for
its value. -/
theorem formatNatFuel_decimalValue : ∀ (ds : Bytes), ds ≠ [] →
    (∀ b ∈ ds, isDigit b = true) → (∀ r, ds = 48 :: r → r = []) →
    (∀ fuel, decimalValue ds < fuel → formatNatFuel fuel (decimalValue ds) = ds) ∧
    ((∀ r, ds ≠ 48 :: r) → 1 ≤ decimalValue ds) := by
  intro ds
  induction ds using List.reverseRecOn with
  | nil => intro h; exact absurd rfl h
  | append_singleton init d ih =>
    intro _ hdig hmin
    have hd : isDigit d = true := hdig d (by simp)
    have hd2 := (isDigit_iff d).mp hd
    rw [decimalValue_snoc]
    cases init with
    | nil =>
      have hv : decimalValue ([] : Bytes) = 0 := rfl
      rw [hv]
      constructor
      · intro fuel hfuel
        cases fuel with
        | zero => omega
        | succ fuel =>
          have : 0 * 10 + (d.val - 48) < 10 := by omega
          simp only [formatNatFuel, this, if_true, List.nil_append]
          have h0 : 0 * 10 + (d.val - 48) = d.val - 48 := by omega
          rw [h0, digitByte_of_isDigit d hd]
      · intro hne
        have : d ≠ 48 := by
          intro h48
          exact hne [] (by simp [h48])
        have : d.val ≠ 48 := fun h => this (Fin.ext h)
        omega
    | cons a l =>
      have hne : ∀ r, a :: l ≠ 48 :: r := by
        intro r hr
        have ha : a = 48 := List.head_eq_of_cons_eq hr
        have := hmin (l ++ [d]) (by simp [ha])
        simp at this
      obtain ⟨ih1, ih2⟩ := ih (by simp) (fun b hb => hdig b (by simp at hb ⊢; tauto))
        (fun r hr => absurd hr (hne r))
      have hpos := ih2 hne
      constructor
      · intro fuel hfuel
        cases fuel with
        | zero => omega
        | succ fuel =>
          have h10 : ¬ (decimalValue (a :: l) * 10 + (d.val - 48) < 10) := by omega
          have hdiv : (decimalValue (a :: l) * 10 + (d.val - 48)) / 10 = decimalValue (a :: l) := by
            omega
          have hmod : (decimalValue (a :: l) * 10 + (d.val - 48)) % 10 = d.val - 48 := by omega
          simp only [formatNatFuel, h10, if_false, hdiv, hmod]
          rw [ih1 fuel (by omega), digitByte_of_isDigit d hd]
      · intro _
        omega

theorem formatNat_decimalValue (ds : Bytes) (h1 : ds ≠ [])
    (h2 : ∀ b ∈ ds, isDigit b = true) (h3 : ∀ r, ds = 48 :: r → r = []) :
    formatNat (decimalValue ds) = ds :=
  (formatNatFuel_decimalValue ds h1 h2 h3).1 _ (Nat.lt_succ_self _)

/-! ### `strconv.Atoi` reads back what `%d` prints -/

theorem indexByte_append (c : Byte) (xs t : Bytes) (h : ∀ b ∈ xs, b ≠ c) :
    indexByte c (xs ++ c :: t) = some xs.length := by
  induction xs with
  | nil => simp [indexByte]
  | cons a l ih =>
    have ha : a ≠ c := h a (by simp)
    have := ih (fun b hb => h b (by simp [hb]))
    simp [indexByte, ha, this]

theorem all_isDigit_formatNat (n : Nat) : (formatNat n).all isDigit = true := by
  rw [List.all_eq_true]
  exact formatNat_isDigit n

theorem atoiDigits_formatNat (n : Nat) (h : n < 2 ^ 63) :
    atoiDigits false (formatNat n) = some (n : Int) := by
  unfold atoiDigits
  rw [if_neg (formatNat_ne_nil n), if_pos (all_isDigit_formatNat n), decimalValue_formatNat]
  simp only [Bool.false_eq_true, if_false, if_pos h]

theorem atoiDigits_neg_formatNat (n : Nat) (h : n ≤ 2 ^ 63) :
    atoiDigits true (formatNat n) = some (-(n : Int)) := by
  unfold atoiDigits
  rw [if_neg (formatNat_ne_nil n), if_pos (all_isDigit_formatNat n), decimalValue_formatNat]
  simp only [if_true, if_pos h]

theorem formatNat_head (n : Nat) : ∃ c r, formatNat n = c :: r ∧ isDigit c = true := by
  cases hf : formatNat n with
  | nil => exact absurd hf (formatNat_ne_nil n)
  | cons c r => exact ⟨c, r, rfl, formatNat_isDigit n c (by simp [hf])⟩

theorem isDigit_ne (c d : Byte) (hc : isDigit c = true) (hd : isDigit d = false) : c ≠ d := by
  intro h
  rw [h, hd] at hc
  exact absurd hc (by decide)

theorem atoi_formatNat (n : Nat) (h : n < 2 ^ 63) : atoi (formatNat n) = some (n : Int) := by
  have hspec := atoiDigits_formatNat n h
  obtain ⟨c, r, hf, hc⟩ := formatNat_head n
  have h45 : c ≠ 45 := isDigit_ne c 45 hc (by decide)
  have h43 : c ≠ 43 := isDigit_ne c 43 hc (by decide)
  rw [hf] at hspec ⊢
  simp only [atoi, h45, h43, if_false, hspec]

theorem atoi_formatInt (v : Int) (h1 : -2 ^ 63 ≤ v) (h2 : v < 2 ^ 63) :
    atoi (formatInt v) = some v := by
  by_cases hv : v < 0
  · have hn : v.natAbs ≤ 2 ^ 63 := by omega
    have hval : -((v.natAbs : Nat) : Int) = v := by omega
    have := atoiDigits_neg_formatNat v.natAbs hn
    simp only [formatInt, hv, if_true, atoi, this, hval]
  · have hn : v.toNat < 2 ^ 63 := by omega
    have := atoi_formatNat v.toNat hn
    simp only [formatInt, hv, if_false, this]
    congr 1
    omega

/-! ### Decoding one encoded string or integer -/

theorem encodeString_length (k : Bytes) :
    (encodeString k).length = (formatNat k.length).length + 1 + k.length := by
  simp [encodeString]
  omega

theorem decodeFuel_encodeString (fuel : Nat) (k t : Bytes) (hk : k.length < 2 ^ 63) :
    decodeFuel (fuel + 1) (encodeString k ++ t) = .ok (.str k, (encodeString k).length) := by
  obtain ⟨c, r, hf, hc⟩ := formatNat_head k.length
  have hs : encodeString k ++ t = c :: (r ++ 58 :: (k ++ t)) := by
    simp [encodeString, hf]
  have hs2 : encodeString k ++ t = formatNat k.length ++ 58 :: (k ++ t) := by
    simp [encodeString]
  have hidx : indexByte 58 (c :: (r ++ 58 :: (k ++ t))) = some (formatNat k.length).length := by
    rw [← hs, hs2]
    exact indexByte_append 58 _ _
      (fun b hb => isDigit_ne b 58 (formatNat_isDigit _ b hb) (by decide))
  have htake : List.take (formatNat k.length).length (c :: (r ++ 58 :: (k ++ t)))
      = formatNat k.length := by
    rw [← hs, hs2]
    exact List.take_left' rfl
  have hlen : (c :: (r ++ 58 :: (k ++ t))).length
      = (formatNat k.length).length + 1 + k.length + t.length := by
    rw [← hs, hs2]
    simp
    omega
  have hslice : slice (c :: (r ++ 58 :: (k ++ t))) ((formatNat k.length).length + 1)
      ((formatNat k.length).length + 1 + k.length) = k := by
    rw [← hs, hs2]
    unfold slice
    have h1 : List.drop ((formatNat k.length).length + 1)
        (formatNat k.length ++ 58 :: (k ++ t)) = k ++ t := by
      rw [List.drop_append_eq_append_drop]
      simp
    rw [h1]
    have h2 : (formatNat k.length).length + 1 + k.length - ((formatNat k.length).length + 1)
        = k.length := by omega
    rw [h2]
    exact List.take_left' rfl
  rw [hs]
  simp only [decodeFuel, hc, if_true, hidx, Option.getD_some, htake, atoi_formatNat _ hk]
  have hcond : ¬ ((k.length : Int) < 0 ∨
      ((formatNat k.length).length : Int) + 1 + (k.length : Int)
        > ((c :: (r ++ 58 :: (k ++ t))).length : Int)) := by
    rw [hlen]
    push_cast
    omega
  rw [if_neg hcond]
  simp only [Int.toNat_ofNat, hslice, encodeString_length]

theorem formatInt_no_e (v : Int) : ∀ b ∈ formatInt v, b ≠ 101 := by
  intro b hb
  unfold formatInt at hb
  split at hb
  · rcases List.mem_cons.mp hb with h | h
    · rw [h]; decide
    · exact isDigit_ne b 101 (formatNat_isDigit _ b h) (by decide)
  · exact isDigit_ne b 101 (formatNat_isDigit _ b hb) (by decide)

theorem decodeFuel_encodeInt (fuel : Nat) (v : Int) (t : Bytes)
    (h1 : -2 ^ 63 ≤ v) (h2 : v < 2 ^ 63) :
    decodeFuel (fuel + 1) ((105 : Byte) :: formatInt v ++ [(101 : Byte)] ++ t)
      = .ok (.int v, ((105 : Byte) :: formatInt v ++ [(101 : Byte)]).length) := by
  have hs : (105 : Byte) :: formatInt v ++ [(101 : Byte)] ++ t
      = (105 : Byte) :: (formatInt v ++ 101 :: t) := by simp
  rw [hs]
  have hidx : indexByte 101 (formatInt v ++ 101 :: t) = some (formatInt v).length :=
    indexByte_append 101 _ _ (formatInt_no_e v)
  have hslice : slice ((105 : Byte) :: (formatInt v ++ 101 :: t)) 1 ((formatInt v).length + 1)
      = formatInt v := by
    unfold slice
    simp only [List.drop_succ_cons, List.drop_zero, Nat.add_sub_cancel]
    exact List.take_left' rfl
  have hd : isDigit (105 : Byte) = false := by decide
  simp only [decodeFuel, hd, Bool.false_eq_true, if_false, if_true, List.drop_succ_cons,
    List.drop_zero, hidx, hslice, atoi_formatInt v h1 h2]
  simp

/-! ### The string order and ascending maps -/

theorem bytesLt_asymm : ∀ (a b : Bytes), bytesLt a b = true → bytesLt b a = false := by
  intro a
  induction a with
  | nil => intro b h; cases b <;> simp [bytesLt] at h ⊢
  | cons x xs ih =>
    intro b h
    cases b with
    | nil => simp [bytesLt] at h
    | cons y ys =>
      simp only [bytesLt] at h ⊢
      by_cases h1 : x < y
      · have h2 : ¬ y < x := by simp only [Fin.lt_def, not_lt] at *; omega
        simp [h1, h2]
      · by_cases h2 : y < x
        · simp [h1, h2] at h
        · simp only [h1, h2, if_false] at h ⊢
          exact ih ys h

theorem bytesLt_irrefl (a : Bytes) : bytesLt a a = false := by
  cases h : bytesLt a a with
  | false => rfl
  | true => have := bytesLt_asymm a a h; rw [h] at this; exact absurd this (by decide)

theorem bytesLt_trans : ∀ (a b c : Bytes), bytesLt a b = true → bytesLt b c = true →
    bytesLt a c = true := by
  intro a
  induction a with
  | nil =>
    intro b c h1 h2
    cases b with
    | nil => simp [bytesLt] at h1
    | cons y ys =>
      cases c with
      | nil => simp [bytesLt] at h2
      | cons z zs => simp [bytesLt]
  | cons x xs ih =>
    intro b c h1 h2
    cases b with
    | nil => simp [bytesLt] at h1
    | cons y ys =>
      cases c with
      | nil => simp [bytesLt] at h2
      | cons z zs =>
        simp only [bytesLt] at h1 h2 ⊢
        by_cases hxy : x < y
        · by_cases hyz : y < z
          · have : x < z := by simp only [Fin.lt_def, not_lt] at *; omega
            simp [this]
          · by_cases hzy : z < y
            · simp [hyz, hzy] at h2
            · have : x < z := by simp only [Fin.lt_def, not_lt] at *; omega
              simp [this]
        · by_cases hyx : y < x
          · simp [hxy, hyx] at h1
          · simp only [hxy, hyx, if_false] at h1
            by_cases hyz : y < z
            · have : x < z := by simp only [Fin.lt_def, not_lt] at *; omega
              simp [this]
            · by_cases hzy : z < y
              · simp [hyz, hzy] at h2
              · simp only [hyz, hzy, if_false] at h2
                have h3 : ¬ x < z := by simp only [Fin.lt_def, not_lt] at *; omega
                have h4 : ¬ z < x := by simp only [Fin.lt_def, not_lt] at *; omega
                simp only [h3, h4, if_false]
                exact ih ys zs h1 h2

theorem ascending_tail {κ : Type} (lt : κ → κ → Bool) (a : κ) (l : List κ)
    (h : ascending lt (a :: l) = true) : ascending lt l = true := by
  cases l with
  | nil => rfl
  | cons b rest =>
    simp only [ascending, Bool.and_eq_true] at h
    exact h.2

theorem ascending_head_lt (a : Bytes) (l : List Bytes)
    (h : ascending bytesLt (a :: l) = true) : ∀ x ∈ l, bytesLt a x = true := by
  induction l generalizing a with
  | nil => intro x hx; simp at hx
  | cons b rest ih =>
    intro x hx
    simp only [ascending, Bool.and_eq_true] at h
    rcases List.mem_cons.mp hx with hx | hx
    · rw [hx]; exact h.1
    · exact bytesLt_trans a b x h.1 (ih b h.2 x hx)

theorem mapSet_append_last {β : Type} (m : List (Bytes × β)) (k : Bytes) (v : β)
    (h : ∀ x ∈ m, bytesLt x.1 k = true) : mapSet bytesLt m k v = m ++ [(k, v)] := by
  induction m with
  | nil => rfl
  | cons p rest ih =>
    obtain ⟨k0, v0⟩ := p
    have h1 : bytesLt k0 k = true := h (k0, v0) (by simp)
    have h2 : bytesLt k k0 = false := bytesLt_asymm k0 k h1
    simp only [mapSet, h1, h2, if_true, Bool.false_eq_true, if_false, List.cons_append]
    rw [ih (fun x hx => h x (by simp [hx]))]

theorem sortStrings_ascending (ks : List Bytes) (h : ascending bytesLt ks = true) :
    sortStrings ks = ks := by
  induction ks with
  | nil => rfl
  | cons k rest ih =>
    simp only [sortStrings]
    rw [ih (ascending_tail bytesLt k rest h)]
    cases rest with
    | nil => rfl
    | cons x xs =>
      have h1 : bytesLt k x = true := ascending_head_lt k (x :: xs) h x (by simp)
      have h2 : bytesLt x k = false := bytesLt_asymm k x h1
      simp [insertKey, h2]

theorem mapGet_append_right {β : Type} (pre rest : List (Bytes × β)) (k : Bytes)
    (h : ∀ x ∈ pre, x.1 ≠ k) : mapGet (pre ++ rest) k = mapGet rest k := by
  induction pre with
  | nil => rfl
  | cons p l ih =>
    obtain ⟨k0, v0⟩ := p
    have h1 : k0 ≠ k := h (k0, v0) (by simp)
    simp only [List.cons_append, mapGet, h1, if_false]
    exact ih (fun x hx => h x (by simp [hx]))

/-- On a map with ascending keys the emission loop writes the entries in the
order of the representation. -/
theorem emitEntries_ascending : ∀ (rest pre : List (Bytes × Bytes)),
    ascending bytesLt (rest.map Prod.fst) = true →
    (∀ x ∈ pre, ∀ y ∈ rest, x.1 ≠ y.1) →
    emitEntries (pre ++ rest) (rest.map Prod.fst)
      = (rest.map (fun p => encodeString p.1 ++ p.2)).flatten := by
  intro rest
  induction rest with
  | nil => intro pre _ _; rfl
  | cons p l ih =>
    intro pre hasc hpre
    obtain ⟨k, e⟩ := p
    have hget : mapGet (pre ++ (k, e) :: l) k = some e := by
      rw [mapGet_append_right pre _ k (fun x hx => hpre x hx (k, e) (by simp))]
      simp [mapGet]
    have hlt := ascending_head_lt k (l.map Prod.fst) hasc
    have hstep := ih (pre ++ [(k, e)]) (ascending_tail bytesLt k _ hasc) (by
      intro x hx y hy
      rcases List.mem_append.mp hx with hx | hx
      · exact hpre x hx y (by simp [hy])
      · simp only [List.mem_singleton] at hx
        rw [hx]
        intro heq
        have := hlt y.1 (List.mem_map_of_mem Prod.fst hy)
        simp only at heq
        rw [heq, bytesLt_irrefl] at this
        exact absurd this (by decide))
    simp only [List.map_cons, emitEntries, hget, Option.getD_some, List.flatten_cons]
    rw [List.append_assoc pre [(k, e)] l] at hstep
    simp only [List.singleton_append] at hstep
    rw [hstep, List.append_assoc]

/-! ### Decoding what `encodeBencode` wrote -/

theorem drop_eq_cons_get {s : Bytes} {index : Nat} {c : Byte} {rest : Bytes}
    (h : s.drop index = c :: rest) : index < s.length ∧ s.get? index = some c := by
  have hlt : index < s.length := by
    by_contra hge
    rw [List.drop_eq_nil_of_le (by omega)] at h
    cases h
  refine ⟨hlt, ?_⟩
  have := List.head?_drop s index
  rw [h] at this
  simp only [List.head?_cons] at this
  rw [List.get?_eq_getElem?]
  exact this.symm

theorem encodeBencode_head (v : Value) (hv : v.IsBencode) (enc : Bytes)
    (h : encodeBencode v = .ok enc) : ∃ c r, enc = c :: r ∧ c ≠ 101 := by
  cases v with
  | int n =>
    simp only [encodeBencode, Except.ok.injEq] at h
    exact ⟨105, _, h.symm, by decide⟩
  | str k =>
    simp only [encodeBencode, Except.ok.injEq] at h
    obtain ⟨c, r, hf, hc⟩ := formatNat_head k.length
    refine ⟨c, r ++ 58 :: k, ?_, isDigit_ne c 101 hc (by decide)⟩
    rw [← h]
    simp [encodeString, hf]
  | bytes b => exact absurd hv (by simp [Value.IsBencode])
  | list items =>
    simp only [encodeBencode] at h
    cases hr : encodeItems items with
    | error e => rw [hr] at h; cases h
    | ok r =>
      rw [hr] at h
      simp only [Except.ok.injEq] at h
      exact ⟨108, _, h.symm, by decide⟩
  | dict es =>
    simp only [encodeBencode] at h
    cases hr : encodeValues es with
    | error e => rw [hr] at h; cases h
    | ok r =>
      rw [hr] at h
      simp only [Except.ok.injEq] at h
      exact ⟨100, _, h.symm, by decide⟩
  | other => exact absurd hv (by simp [Value.IsBencode])

theorem decodeListLoop_done (fuel : Nat) (s : Bytes) (index : Nat) (acc : List Value)
    (t : Bytes) (h : s.drop index = 101 :: t) :
    decodeListLoop (fuel + 1) s index acc = .ok (.list acc, index + 1) := by
  obtain ⟨h1, h2⟩ := drop_eq_cons_get h
  have c1 : ¬ (index < s.length ∧ s.get? index ≠ some 101) := by
    rw [h2]; simp
  have c2 : ¬ (index ≥ s.length ∨ s.get? index ≠ some 101) := by
    rw [h2]; simp; exact h1
  simp only [decodeListLoop, if_neg c1, if_neg c2]

theorem decodeDictLoop_done (fuel : Nat) (s : Bytes) (index : Nat)
    (acc : List (Bytes × Value)) (t : Bytes) (h : s.drop index = 101 :: t) :
    decodeDictLoop (fuel + 1) s index acc = .ok (.dict acc, index + 1) := by
  obtain ⟨h1, h2⟩ := drop_eq_cons_get h
  have c1 : ¬ (index < s.length ∧ s.get? index ≠ some 101) := by
    rw [h2]; simp
  have c2 : ¬ (index ≥ s.length ∨ s.get? index ≠ some 101) := by
    rw [h2]; simp; exact h1
  simp only [decodeDictLoop, if_neg c1, if_neg c2]

theorem drop_add_of_drop {s : Bytes} {index : Nat} {e rest : Bytes}
    (h : s.drop index = e ++ rest) : s.drop (index + e.length) = rest := by
  rw [← List.drop_drop, h]
  exact List.drop_left' rfl

mutual
/-- With fuel at least the length of the encoding, `decodeBencode` reads an
encoded value back, whatever follows it. -/
theorem decodeFuel_encode : ∀ (v : Value), v.IsBencode → ∀ (enc : Bytes),
    encodeBencode v = .ok enc → ∀ (t : Bytes) (fuel : Nat), enc.length ≤ fuel →
    decodeFuel fuel (enc ++ t) = .ok (v, enc.length)
  | .int n, hv, enc, henc, t, fuel, hfuel => by
    simp only [encodeBencode, Except.ok.injEq] at henc
    subst henc
    simp only [Value.IsBencode] at hv
    cases fuel with
    | zero => simp at hfuel
    | succ f => exact decodeFuel_encodeInt f n t hv.1 hv.2
  | .str k, hv, enc, henc, t, fuel, hfuel => by
    simp only [encodeBencode, Except.ok.injEq] at henc
    subst henc
    simp only [Value.IsBencode] at hv
    cases fuel with
    | zero =>
      rw [encodeString_length] at hfuel
      omega
    | succ f => exact decodeFuel_encodeString f k t hv
  | .bytes _, hv, _, _, _, _, _ => by
    simp [Value.IsBencode] at hv
  | .other, hv, _, _, _, _, _ => by
    simp [Value.IsBencode] at hv
  | .list items, hv, enc, henc, t, fuel, hfuel => by
    simp only [encodeBencode] at henc
    simp only [Value.IsBencode] at hv
    cases hr : encodeItems items with
    | error e => rw [hr] at henc; cases henc
    | ok r =>
      rw [hr] at henc
      simp only [Except.ok.injEq] at henc
      subst henc
      cases fuel with
      | zero => simp at hfuel
      | succ f =>
        have hs : (108 : Byte) :: r ++ [(101 : Byte)] ++ t = (108 : Byte) :: (r ++ 101 :: t) := by
          simp
        have hloop := decodeListLoop_encode items hv r hr ((108 : Byte) :: (r ++ 101 :: t)) 1 []
          t f (by simp) (by simp at hfuel; omega)
        have hd : isDigit (108 : Byte) = false := by decide
        rw [hs]
        simp only [decodeFuel, hd, Bool.false_eq_true, if_false]
        rw [if_pos trivial, hloop]
        simp
        omega
  | .dict es, hv, enc, henc, t, fuel, hfuel => by
    simp only [encodeBencode] at henc
    simp only [Value.IsBencode] at hv
    cases hr : encodeValues es with
    | error e => rw [hr] at henc; cases henc
    | ok encoded =>
      rw [hr] at henc
      simp only [Except.ok.injEq] at henc
      obtain ⟨hkeys, hloop⟩ := decodeDictLoop_encode es hv.2 encoded hr
      have hasc : ascending bytesLt (encoded.map Prod.fst) = true := by rw [hkeys]; exact hv.1
      rw [sortStrings_ascending _ hasc] at henc
      have hemit := emitEntries_ascending encoded [] hasc (by simp)
      rw [List.nil_append] at hemit
      rw [hemit] at henc
      subst henc
      cases fuel with
      | zero => simp at hfuel
      | succ f =>
        have hs : (100 : Byte) :: (encoded.map (fun p => encodeString p.1 ++ p.2)).flatten
            ++ [(101 : Byte)] ++ t
            = (100 : Byte) :: ((encoded.map (fun p => encodeString p.1 ++ p.2)).flatten
                ++ 101 :: t) := by
          simp
        have hl := hloop ((100 : Byte) :: ((encoded.map (fun p => encodeString p.1 ++ p.2)).flatten
                ++ 101 :: t)) 1 [] t f (by simp)
          (by simp only [List.length_cons, List.length_append, List.length_nil] at hfuel; omega)
          hv.1 (by simp)
        have hd : isDigit (100 : Byte) = false := by decide
        rw [hs]
        simp only [decodeFuel, hd, Bool.false_eq_true, if_false]
        rw [if_pos trivial, hl]
        simp
        omega
/-- The list loop reads back the items `encodeBencode` wrote and stops at the
terminator. -/
theorem decodeListLoop_encode : ∀ (items : List Value), Value.AllBencode items →
    ∀ (r : Bytes), encodeItems items = .ok r →
    ∀ (s : Bytes) (index : Nat) (acc : List Value) (t : Bytes) (fuel : Nat),
    s.drop index = r ++ 101 :: t → r.length + 1 ≤ fuel →
    decodeListLoop fuel s index acc = .ok (.list (acc ++ items), index + r.length + 1)
  | [], _, r, hr, s, index, acc, t, fuel, hdrop, hfuel => by
    simp only [encodeItems, Except.ok.injEq] at hr
    subst hr
    cases fuel with
    | zero => simp at hfuel
    | succ f =>
      rw [decodeListLoop_done f s index acc t (by simpa using hdrop)]
      simp
  | item :: rest, hv, r, hr, s, index, acc, t, fuel, hdrop, hfuel => by
    simp only [Value.AllBencode] at hv
    simp only [encodeItems] at hr
    cases he : encodeBencode item with
    | error e => rw [he] at hr; cases hr
    | ok enc =>
      rw [he] at hr
      simp only at hr
      cases hrest : encodeItems rest with
      | error e => rw [hrest] at hr; cases hr
      | ok r2 =>
        rw [hrest] at hr
        simp only [Except.ok.injEq] at hr
        subst hr
        obtain ⟨c, tl, hc, hne⟩ := encodeBencode_head item hv.1 enc he
        have hdrop2 : s.drop index = enc ++ (r2 ++ 101 :: t) := by
          rw [hdrop]; simp
        have hdrop3 : s.drop index = c :: (tl ++ (r2 ++ 101 :: t)) := by
          rw [hdrop2, hc]; simp
        obtain ⟨h1, h2⟩ := drop_eq_cons_get hdrop3
        have hlen : 1 ≤ enc.length := by rw [hc]; simp
        cases fuel with
        | zero => simp at hfuel
        | succ f =>
          have c1 : index < s.length ∧ s.get? index ≠ some 101 := by
            refine ⟨h1, ?_⟩
            rw [h2]
            simpa using hne
          have hitem := decodeFuel_encode item hv.1 enc he (r2 ++ 101 :: t) f
            (by simp only [List.length_append] at hfuel; omega)
          have hnext := decodeListLoop_encode rest hv.2 r2 hrest s (index + enc.length)
            (acc ++ [item]) t f (drop_add_of_drop hdrop2)
            (by simp only [List.length_append] at hfuel; omega)
          simp only [decodeListLoop, if_pos c1, hdrop2, hitem, hnext]
          simp only [List.append_assoc, List.singleton_append, List.length_append]
          congr 2
          omega
/-- The dictionary loop reads back the entries `encodeBencode` wrote, in
ascending key order, and stops at the terminator. -/
theorem decodeDictLoop_encode : ∀ (es : List (Bytes × Value)), Value.EntriesBencode es →
    ∀ (encoded : List (Bytes × Bytes)), encodeValues es = .ok encoded →
    encoded.map Prod.fst = es.map Prod.fst ∧
    ∀ (s : Bytes) (index : Nat) (acc : List (Bytes × Value)) (t : Bytes) (fuel : Nat),
    s.drop index = (encoded.map (fun p => encodeString p.1 ++ p.2)).flatten ++ 101 :: t →
    (encoded.map (fun p => encodeString p.1 ++ p.2)).flatten.length + 1 ≤ fuel →
    ascending bytesLt (es.map Prod.fst) = true →
    (∀ x ∈ acc, ∀ y ∈ es, bytesLt x.1 y.1 = true) →
    decodeDictLoop fuel s index acc
      = .ok (.dict (acc ++ es),
          index + (encoded.map (fun p => encodeString p.1 ++ p.2)).flatten.length + 1)
  | [], _, encoded, hr => by
    simp only [encodeValues, Except.ok.injEq] at hr
    subst hr
    refine ⟨rfl, ?_⟩
    intro s index acc t fuel hdrop hfuel _ _
    cases fuel with
    | zero => simp at hfuel
    | succ f =>
      rw [decodeDictLoop_done f s index acc t (by simpa using hdrop)]
      simp
  | (k, v) :: rest, hv, encoded, hr => by
    simp only [Value.EntriesBencode] at hv
    simp only [encodeValues] at hr
    cases he : encodeBencode v with
    | error e => rw [he] at hr; cases hr
    | ok enc =>
      rw [he] at hr
      simp only at hr
      cases hrest : encodeValues rest with
      | error e => rw [hrest] at hr; cases hr
      | ok r2 =>
        rw [hrest] at hr
        simp only [Except.ok.injEq] at hr
        subst hr
        obtain ⟨hkeys, hloop⟩ := decodeDictLoop_encode rest hv.2.2 r2 hrest
        refine ⟨by simp [hkeys], ?_⟩
        intro s index acc t fuel hdrop hfuel hasc hacc
        have hdropK : s.drop index = encodeString k ++ (enc ++
            ((r2.map (fun p => encodeString p.1 ++ p.2)).flatten ++ 101 :: t)) := by
          rw [hdrop]; simp
        obtain ⟨c, tl, hc, hcd⟩ := formatNat_head k.length
        have hdrop3 : s.drop index = c :: (tl ++ 58 :: k ++ (enc ++
            ((r2.map (fun p => encodeString p.1 ++ p.2)).flatten ++ 101 :: t))) := by
          rw [hdropK]; simp [encodeString, hc]
        obtain ⟨h1, h2⟩ := drop_eq_cons_get hdrop3
        have hne : c ≠ 101 := isDigit_ne c 101 hcd (by decide)
        obtain ⟨_, _, hench, _⟩ := encodeBencode_head v hv.2.1 enc he
        have hlen : 1 ≤ enc.length := by rw [hench]; simp
        have hklen := encodeString_length k
        cases fuel with
        | zero => simp at hfuel
        | succ f =>
          have c1 : index < s.length ∧ s.get? index ≠ some 101 := by
            refine ⟨h1, ?_⟩
            rw [h2]
            simpa using hne
          have hfuel2 : (encodeString k).length + enc.length
              + (r2.map (fun p => encodeString p.1 ++ p.2)).flatten.length ≤ f := by
            simp only [List.map_cons, List.flatten_cons, List.length_append] at hfuel
            omega
          have hkey : decodeFuel f (encodeString k ++ (enc ++
              ((r2.map (fun p => encodeString p.1 ++ p.2)).flatten ++ 101 :: t)))
              = .ok (.str k, (encodeString k).length) := by
            cases f with
            | zero => omega
            | succ g => exact decodeFuel_encodeString g k _ hv.1
          have hdropV := drop_add_of_drop hdropK
          have hval := decodeFuel_encode v hv.2.1 enc he
            ((r2.map (fun p => encodeString p.1 ++ p.2)).flatten ++ 101 :: t) f (by omega)
          have hdropN := drop_add_of_drop hdropV
          have hset : mapSet bytesLt acc k v = acc ++ [(k, v)] :=
            mapSet_append_last acc k v (fun x hx => hacc x hx (k, v) (by simp))
          have hlt := ascending_head_lt k (rest.map Prod.fst) hasc
          have hnext := hloop s (index + (encodeString k).length + enc.length)
            (acc ++ [(k, v)]) t f hdropN (by omega)
            (ascending_tail bytesLt k _ hasc) (by
              intro x hx y hy
              rcases List.mem_append.mp hx with hx | hx
              · exact hacc x hx y (by simp [hy])
              · simp only [List.mem_singleton] at hx
                rw [hx]
                exact hlt y.1 (List.mem_map_of_mem Prod.fst hy))
          simp only [decodeDictLoop, if_pos c1, hdropK, hkey, hdropV, hval, hset, hnext]
          simp only [List.append_assoc, List.singleton_append, List.map_cons,
            List.flatten_cons, List.length_append]
          congr 2
          omega
end

/-! ### Every canonical bencoding is the encoding of a bencode value -/

theorem mem_flatten_length {x : Bytes} {items : List Bytes} (h : x ∈ items) :
    x.length ≤ items.flatten.length := by
  induction items with
  | nil => simp at h
  | cons a l ih =>
    simp only [List.flatten_cons, List.length_append]
    rcases List.mem_cons.mp h with h | h
    · rw [h]; omega
    · have := ih h; omega

theorem encodeItems_exists (items : List Bytes)
    (h : ∀ x ∈ items, ∃ v : Value, v.IsBencode ∧ encodeBencode v = .ok x) :
    ∃ vs : List Value, Value.AllBencode vs ∧ encodeItems vs = .ok items.flatten := by
  induction items with
  | nil => exact ⟨[], trivial, rfl⟩
  | cons a l ih =>
    obtain ⟨v, hv, he⟩ := h a (by simp)
    obtain ⟨vs, hvs, hes⟩ := ih (fun x hx => h x (by simp [hx]))
    refine ⟨v :: vs, ⟨hv, hvs⟩, ?_⟩
    simp only [encodeItems, he, hes, List.flatten_cons]

theorem encodeValues_exists (entries : List (Bytes × Bytes × Bytes))
    (h : ∀ e ∈ entries, e.2.1.length < 2 ^ 63 ∧
      ∃ v : Value, v.IsBencode ∧ encodeBencode v = .ok e.2.2) :
    ∃ es : List (Bytes × Value), Value.EntriesBencode es ∧
      es.map Prod.fst = entries.map (fun e => e.2.1) ∧
      encodeValues es = .ok (entries.map (fun e => (e.2.1, e.2.2))) := by
  induction entries with
  | nil => exact ⟨[], trivial, rfl, rfl⟩
  | cons a l ih =>
    obtain ⟨hk, v, hv, he⟩ := h a (by simp)
    obtain ⟨es, hes, hkeys, henc⟩ := ih (fun x hx => h x (by simp [hx]))
    refine ⟨(a.2.1, v) :: es, ⟨hk, hv, hes⟩, by simp [hkeys], ?_⟩
    simp only [encodeValues, he, henc, List.map_cons]

theorem formatInt_ofNat (n : Nat) : formatInt (n : Int) = formatNat n := by
  have : ¬ ((n : Int) < 0) := by omega
  simp only [formatInt, this, if_false, Int.toNat_ofNat]

theorem formatInt_neg (n : Nat) (h : 1 ≤ n) :
    formatInt (-(n : Int)) = (45 : Byte) :: formatNat n := by
  have h1 : -(n : Int) < 0 := by omega
  have h2 : (-(n : Int)).natAbs = n := by omega
  simp only [formatInt, h1, if_true, h2]

/-- A canonical bencoding (short enough to be a Go string) is the encoding of
a bencode value. -/
theorem canonical_is_encoding (B : Bytes) (h : Canonical B) :
    B.length < 2 ^ 63 → ∃ v : Value, v.IsBencode ∧ encodeBencode v = .ok B := by
  induction h with
  | nat ds hmin hrange =>
    intro _
    refine ⟨.int (decimalValue ds), by simp only [Value.IsBencode]; omega, ?_⟩
    simp only [encodeBencode, formatInt_ofNat,
      formatNat_decimalValue ds hmin.1 hmin.2.1 hmin.2.2, List.cons_append]
  | neg ds hmin hne hrange =>
    intro _
    have hpos : 1 ≤ decimalValue ds :=
      (formatNatFuel_decimalValue ds hmin.1 hmin.2.1 hmin.2.2).2 (by
        intro r hr
        exact hne (by rw [hr, hmin.2.2 r hr]))
    refine ⟨.int (-(decimalValue ds : Int)), by simp only [Value.IsBencode]; omega, ?_⟩
    simp only [encodeBencode, formatInt_neg _ hpos,
      formatNat_decimalValue ds hmin.1 hmin.2.1 hmin.2.2, List.cons_append]
  | str ds s hmin hval =>
    intro hlen
    simp only [List.length_append, List.length_cons] at hlen
    refine ⟨.str s, by simp only [Value.IsBencode]; omega, ?_⟩
    simp only [encodeBencode, encodeString, ← hval,
      formatNat_decimalValue ds hmin.1 hmin.2.1 hmin.2.2]
  | list items _ ih =>
    intro hlen
    simp only [List.length_append, List.length_cons, List.length_nil] at hlen
    obtain ⟨vs, hvs, hes⟩ := encodeItems_exists items (fun x hx =>
      ih x hx (by have := mem_flatten_length hx; omega))
    refine ⟨.list vs, hvs, ?_⟩
    simp only [encodeBencode, hes, List.cons_append]
  | dict entries hent _ hasc ih =>
    intro hlen
    simp only [List.length_append, List.length_cons, List.length_nil] at hlen
    have hbound : ∀ e ∈ entries, e.2.1.length < 2 ^ 63 ∧ e.2.2.length < 2 ^ 63 := by
      intro e he
      have hmem : e.1 ++ (58 : Byte) :: e.2.1 ++ e.2.2
          ∈ entries.map (fun e => e.1 ++ (58 : Byte) :: e.2.1 ++ e.2.2) :=
        List.mem_map_of_mem _ he
      have := mem_flatten_length hmem
      simp only [List.length_append, List.length_cons] at this
      omega
    obtain ⟨es, hes, hkeys, henc⟩ := encodeValues_exists entries (fun e he =>
      ⟨(hbound e he).1, ih e he (hbound e he).2⟩)
    refine ⟨.dict es, ⟨by rw [hkeys]; exact hasc, hes⟩, ?_⟩
    have hmapfst : (entries.map (fun e => (e.2.1, e.2.2))).map Prod.fst
        = entries.map (fun e => e.2.1) := by
      simp [List.map_map, Function.comp]
    have hasc2 : ascending bytesLt ((entries.map (fun e => (e.2.1, e.2.2))).map Prod.fst)
        = true := by rw [hmapfst]; exact hasc
    have hemit := emitEntries_ascending (entries.map (fun e => (e.2.1, e.2.2))) [] hasc2
      (by simp)
    rw [List.nil_append] at hemit
    have hflat : ((entries.map (fun e => (e.2.1, e.2.2))).map
        (fun p => encodeString p.1 ++ p.2))
        = entries.map (fun e => e.1 ++ (58 : Byte) :: e.2.1 ++ e.2.2) := by
      rw [List.map_map]
      apply List.map_congr_left
      intro e he
      obtain ⟨hmin, hval⟩ := hent e he
      simp only [Function.comp, encodeString, ← hval,
        formatNat_decimalValue e.1 hmin.1 hmin.2.1 hmin.2.2, List.append_assoc,
        List.cons_append]
    simp only [encodeBencode, henc, sortStrings_ascending _ hasc2, hemit, hflat,
      List.cons_append]

/-! ### The codec round trips -/

mutual
/-- On bencode values `encodeBencode` never fails. -/
theorem encodeBencode_total : ∀ (v : Value), v.IsBencode → ∃ enc, encodeBencode v = .ok enc
  | .int _, _ => ⟨_, rfl⟩
  | .str _, _ => ⟨_, rfl⟩
  | .bytes _, hv => by simp [Value.IsBencode] at hv
  | .other, hv => by simp [Value.IsBencode] at hv
  | .list items, hv => by
    simp only [Value.IsBencode] at hv
    obtain ⟨r, hr⟩ := encodeItems_total items hv
    exact ⟨_, by simp only [encodeBencode, hr]; rfl⟩
  | .dict es, hv => by
    simp only [Value.IsBencode] at hv
    obtain ⟨r, hr⟩ := encodeValues_total es hv.2
    exact ⟨_, by simp only [encodeBencode, hr]; rfl⟩
/-- The list loop of `encodeBencode` never fails on bencode values. -/
theorem encodeItems_total : ∀ (items : List Value), Value.AllBencode items →
    ∃ r, encodeItems items = .ok r
  | [], _ => ⟨_, rfl⟩
  | v :: rest, hv => by
    simp only [Value.AllBencode] at hv
    obtain ⟨e, he⟩ := encodeBencode_total v hv.1
    obtain ⟨r, hr⟩ := encodeItems_total rest hv.2
    exact ⟨_, by simp only [encodeItems, he, hr]; rfl⟩
/-- The values of a map of bencode values all encode. -/
theorem encodeValues_total : ∀ (es : List (Bytes × Value)), Value.EntriesBencode es →
    ∃ r, encodeValues es = .ok r
  | [], _ => ⟨_, rfl⟩
  | (k, v) :: rest, hv => by
    simp only [Value.EntriesBencode] at hv
    obtain ⟨e, he⟩ := encodeBencode_total v hv.2.1
    obtain ⟨r, hr⟩ := encodeValues_total rest hv.2.2
    exact ⟨_, by simp only [encodeValues, he, hr]; rfl⟩
end

/-- C1: a well-formed canonical bencoding `B` (integers in minimal decimal form
within the 64-bit range, string lengths without leading zeros, dictionary keys
strictly ascending by raw bytes; `B` itself a Go string, hence shorter than
`2^63` bytes) is decoded by `decodeBencode` with all of `B` consumed, and
`encodeBencode` of the decoded value is `B` again, byte for byte. -/
theorem decodeBencode_canonical_roundtrip (B : Bytes) (hB : Canonical B)
    (hlen : B.length < 2 ^ 63) :
    ∃ v : Value, decodeBencode B = .ok (v, B.length) ∧ encodeBencode v = .ok B := by
  obtain ⟨v, hv, he⟩ := canonical_is_encoding B hB hlen
  refine ⟨v, ?_, he⟩
  have := decodeFuel_encode v hv B he [] (2 * B.length + 1) (by omega)
  rw [List.append_nil] at this
  exact this

theorem minimalDecimal_cons (c : Byte) (r : Bytes) (h : (c :: r).all isDigit = true)
    (hc : c ≠ 48 ∨ r = []) : MinimalDecimal (c :: r) := by
  refine ⟨by simp, List.all_eq_true.mp h, ?_⟩
  intro r2 h2
  simp only [List.cons.injEq] at h2
  rcases hc with hc | hc
  · exact absurd h2.1 hc
  · rw [← h2.2, hc]

theorem sampleCanonical_canonical : Canonical sampleCanonical :=
  Canonical.dict
    [([51], [102, 111, 111], [51, 58, 98, 97, 114]),
     ([53], [104, 101, 108, 108, 111], [105, 53, 50, 101])]
    (by
      intro e he
      simp only [List.mem_cons, List.mem_singleton, List.mem_nil_iff, or_false] at he
      rcases he with he | he <;> subst he
      · exact ⟨minimalDecimal_cons 51 [] (by decide) (by decide), by decide⟩
      · exact ⟨minimalDecimal_cons 53 [] (by decide) (by decide), by decide⟩)
    (by
      intro e he
      simp only [List.mem_cons, List.mem_singleton, List.mem_nil_iff, or_false] at he
      rcases he with he | he <;> subst he
      · exact Canonical.str [51] [98, 97, 114]
          (minimalDecimal_cons 51 [] (by decide) (by decide)) (by decide)
      · exact Canonical.nat [53, 50]
          (minimalDecimal_cons 53 [50] (by decide) (by decide)) (by decide))
    (by decide)

/-- C1 at `d3:foo3:bar5:helloi52ee`. -/
theorem decodeBencode_canonical_roundtrip_witness :
    Canonical sampleCanonical ∧ sampleCanonical.length < 2 ^ 63 ∧
    ∃ v : Value, decodeBencode sampleCanonical = .ok (v, sampleCanonical.length) ∧
      encodeBencode v = .ok sampleCanonical :=
  ⟨sampleCanonical_canonical, by decide,
    decodeBencode_canonical_roundtrip sampleCanonical sampleCanonical_canonical (by decide)⟩

/-- C2: for every bencode value `v` (an integer, a byte string of arbitrary
bytes, a list, or a mapping built from these) and every byte string `t`,
`encodeBencode v` succeeds and `decodeBencode` applied to the encoding followed
by `t` returns `v` and a consumed count equal to the length of the encoding:
the trailing bytes are neither read into the value nor counted. -/
theorem decodeBencode_encodeBencode_append (v : Value) (hv : v.IsBencode) (t : Bytes) :
    ∃ enc : Bytes, encodeBencode v = .ok enc ∧
      decodeBencode (enc ++ t) = .ok (v, enc.length) := by
  obtain ⟨enc, he⟩ := encodeBencode_total v hv
  refine ⟨enc, he, ?_⟩
  exact decodeFuel_encode v hv enc he t (2 * (enc ++ t).length + 1)
    (by simp only [List.length_append]; omega)

theorem sampleValue_isBencode : sampleValue.IsBencode := by
  simp only [sampleValue, Value.IsBencode, Value.EntriesBencode, Value.AllBencode]
  decide

/-- C2 at a mapping whose `pieces` string holds non-UTF-8 bytes, followed by
three trailing bytes. -/
theorem decodeBencode_encodeBencode_append_witness :
    sampleValue.IsBencode ∧
    ∃ enc : Bytes, encodeBencode sampleValue = .ok enc ∧
      decodeBencode (enc ++ [101, 0, 255]) = .ok (sampleValue, enc.length) :=
  ⟨sampleValue_isBencode,
    decodeBencode_encodeBencode_append sampleValue sampleValue_isBencode [101, 0, 255]⟩

/-! ### The info-hash -/

theorem ascending_append_snoc (ks : List Bytes) (k : Bytes)
    (h : ascending bytesLt (ks ++ [k]) = true) : ∀ x ∈ ks, bytesLt x k = true := by
  induction ks with
  | nil => intro x hx; simp at hx
  | cons a l ih =>
    intro x hx
    rcases List.mem_cons.mp hx with hx | hx
    · rw [hx]
      exact ascending_head_lt a (l ++ [k]) h k (by simp)
    · exact ih (ascending_tail bytesLt a _ h) x hx

theorem ascending_append_left (xs ys : List Bytes)
    (h : ascending bytesLt (xs ++ ys) = true) : ascending bytesLt xs = true := by
  induction xs with
  | nil => rfl
  | cons a l ih =>
    cases l with
    | nil => rfl
    | cons b rest =>
      simp only [List.cons_append, ascending, Bool.and_eq_true] at h ⊢
      exact ⟨h.1, ih h.2⟩

theorem piecesToBytes_fst (e : Bytes × Value) : (piecesToBytes e).1 = e.1 := by
  unfold piecesToBytes
  split
  · split <;> rfl
  · rfl

/-- The conversion loop succeeds when every `"pieces"` entry holds a string,
and then yields the entries in order, converted one by one. -/
theorem infoDictForEncoding_eq : ∀ (rest acc : List (Bytes × Value)),
    ascending bytesLt (acc.map Prod.fst ++ rest.map Prod.fst) = true →
    (∀ e ∈ rest, e.1 = keyPieces → ∃ p, e.2 = .str p) →
    infoDictForEncoding rest acc = .ok (acc ++ rest.map piecesToBytes) := by
  intro rest
  induction rest with
  | nil => intro acc _ _; simp [infoDictForEncoding]
  | cons e l ih =>
    intro acc hasc hp
    obtain ⟨k, v⟩ := e
    have hacc : ∀ x ∈ acc, bytesLt x.1 k = true := by
      intro x hx
      have h1 : ascending bytesLt (acc.map Prod.fst ++ [k]) = true := by
        apply ascending_append_left _ (l.map Prod.fst)
        simpa using hasc
      exact ascending_append_snoc _ k h1 x.1 (List.mem_map_of_mem Prod.fst hx)
    have hnext : ∀ w : Value, ascending bytesLt
        ((acc ++ [(k, w)]).map Prod.fst ++ l.map Prod.fst) = true := by
      intro w
      simpa using hasc
    by_cases hk : k = keyPieces
    · obtain ⟨p, hv⟩ := hp (k, v) (by simp) hk
      simp only at hv
      subst hv
      simp only [infoDictForEncoding, hk, if_true]
      rw [← hk, mapSet_append_last acc k _ hacc,
        ih _ (hnext _) (fun e he => hp e (by simp [he]))]
      simp [piecesToBytes, hk]
    · simp only [infoDictForEncoding, hk, if_false]
      rw [mapSet_append_last acc k _ hacc, ih _ (hnext _) (fun e he => hp e (by simp [he]))]
      simp [piecesToBytes, hk]

theorem mapGet_of_mem_ascending : ∀ (m : List (Bytes × Value)) (k : Bytes) (v : Value),
    ascending bytesLt (m.map Prod.fst) = true → (k, v) ∈ m → mapGet m k = some v := by
  intro m
  induction m with
  | nil => intro k v _ h; simp at h
  | cons e l ih =>
    intro k v hasc hmem
    obtain ⟨k0, v0⟩ := e
    rcases List.mem_cons.mp hmem with h | h
    · simp only [Prod.mk.injEq] at h
      simp [mapGet, h.1, h.2]
    · have hlt := ascending_head_lt k0 (l.map Prod.fst) hasc k
        (List.mem_map_of_mem Prod.fst h)
      have hne : k0 ≠ k := by
        intro heq
        rw [heq, bytesLt_irrefl] at hlt
        exact absurd hlt (by decide)
      simp only [mapGet, hne, if_false]
      exact ih k v (ascending_tail bytesLt k0 _ hasc) h

theorem encodeBencode_piecesToBytes (e : Bytes × Value) :
    encodeBencode (piecesToBytes e).2 = encodeBencode e.2 := by
  unfold piecesToBytes
  split
  · split
    · rename_i h; simp only [h, encodeBencode]
    · rfl
  · rfl

theorem encodeValues_piecesToBytes : ∀ (m : List (Bytes × Value)),
    encodeValues (m.map piecesToBytes) = encodeValues m := by
  intro m
  induction m with
  | nil => rfl
  | cons e l ih =>
    obtain ⟨k, v⟩ := e
    have h1 := piecesToBytes_fst (k, v)
    have h2 := encodeBencode_piecesToBytes (k, v)
    simp only at h1 h2
    have h3 : piecesToBytes (k, v) = (k, (piecesToBytes (k, v)).2) :=
      Prod.ext h1 rfl
    rw [List.map_cons, h3]
    simp only [encodeValues, h2, ih]

/-- C3: for every torrent dictionary whose `info` entry is a dictionary (a Go
map) with a byte-string `pieces`, the conversion of `pieces` to a byte slice
succeeds and leaves the encoding unchanged byte for byte, and
`getInfoHashBytesFromDict` returns the SHA-1 of `encodeBencode` applied to the
info dictionary as decoded: twenty bytes for `sha1` a function with 20-byte
digests. -/
theorem getInfoHashBytesFromDict_spec (sha1 : Bytes → Bytes)
    (torrentDict info : List (Bytes × Value)) (pieces : Bytes)
    (hsha : ∀ b, (sha1 b).length = 20)
    (hinfo : mapGet torrentDict keyInfo = some (.dict info))
    (hmap : ascending bytesLt (info.map Prod.fst) = true)
    (hpieces : mapGet info keyPieces = some (.str pieces)) :
    (∃ forEncoding, infoDictForEncoding info [] = .ok forEncoding ∧
      encodeBencode (.dict forEncoding) = encodeBencode (.dict info)) ∧
    (∀ enc, encodeBencode (.dict info) = .ok enc →
      getInfoHashBytesFromDict sha1 torrentDict = .ok (sha1 enc) ∧ (sha1 enc).length = 20) ∧
    (∀ e, encodeBencode (.dict info) = .error e →
      getInfoHashBytesFromDict sha1 torrentDict = .error e) := by
  have hconv : infoDictForEncoding info [] = .ok (info.map piecesToBytes) := by
    have := infoDictForEncoding_eq info [] (by simpa using hmap) (by
      intro e he hk
      have hget := mapGet_of_mem_ascending info e.1 e.2 hmap he
      rw [hk, hpieces] at hget
      simp only [Option.some.injEq] at hget
      exact ⟨pieces, hget.symm⟩)
    simpa using this
  have hkeys : (info.map piecesToBytes).map Prod.fst = info.map Prod.fst := by
    rw [List.map_map]
    apply List.map_congr_left
    intro e _
    exact piecesToBytes_fst e
  have henc : encodeBencode (.dict (info.map piecesToBytes)) = encodeBencode (.dict info) := by
    simp only [encodeBencode, encodeValues_piecesToBytes]
  refine ⟨⟨_, hconv, henc⟩, ?_, ?_⟩
  · intro enc he
    refine ⟨?_, hsha enc⟩
    simp only [getInfoHashBytesFromDict, hinfo, hconv, henc, he]
  · intro e he
    simp only [getInfoHashBytesFromDict, hinfo, hconv, henc, he]

/-- C3 at a torrent dictionary whose `pieces` holds the bytes 0x00 and 0xff. -/
theorem getInfoHashBytesFromDict_spec_witness :
    (∃ forEncoding, infoDictForEncoding
        [(keyLength, .int 100), ([110, 97, 109, 101], .str [120]),
         (keyPieceLength, .int 50),
         (keyPieces, .str ([0, 255, 101, 58, 128] ++ List.replicate 35 7))] [] = .ok forEncoding ∧
      encodeBencode (.dict forEncoding) = encodeBencode (.dict
        [(keyLength, .int 100), ([110, 97, 109, 101], .str [120]),
         (keyPieceLength, .int 50),
         (keyPieces, .str ([0, 255, 101, 58, 128] ++ List.replicate 35 7))])) ∧
    (∀ enc, encodeBencode (.dict
        [(keyLength, .int 100), ([110, 97, 109, 101], .str [120]),
         (keyPieceLength, .int 50),
         (keyPieces, .str ([0, 255, 101, 58, 128] ++ List.replicate 35 7))]) = .ok enc →
      getInfoHashBytesFromDict toySha1 sampleTorrent = .ok (toySha1 enc) ∧
        (toySha1 enc).length = 20) ∧
    (∀ e, encodeBencode (.dict
        [(keyLength, .int 100), ([110, 97, 109, 101], .str [120]),
         (keyPieceLength, .int 50),
         (keyPieces, .str ([0, 255, 101, 58, 128] ++ List.replicate 35 7))]) = .error e →
      getInfoHashBytesFromDict toySha1 sampleTorrent = .error e) :=
  getInfoHashBytesFromDict_spec toySha1 sampleTorrent _ ([0, 255, 101, 58, 128] ++ List.replicate 35 7)
    (by intro b; simp [toySha1]) (by rfl) (by decide) (by rfl)

/-! ### Piece lengths -/

theorem wrap64_eq (x : Int) (h1 : -2 ^ 63 ≤ x) (h2 : x < 2 ^ 63) : wrap64 x = x := by
  unfold wrap64
  omega

theorem pieceCount_bounds (L P : Nat) (hL : 0 < L) (hP : 0 < P) :
    1 ≤ pieceCount L P ∧ (pieceCount L P - 1) * P < L ∧ L ≤ pieceCount L P * P := by
  unfold pieceCount
  have h1 := Nat.div_add_mod (L + P - 1) P
  have h2 := Nat.mod_lt (L + P - 1) hP
  have h3 : 1 ≤ (L + P - 1) / P := by
    rw [Nat.le_div_iff_mul_le hP]
    omega
  have h4 : ((L + P - 1) / P - 1) * P + P = (L + P - 1) / P * P := by
    have : (L + P - 1) / P = ((L + P - 1) / P - 1) + 1 := by omega
    conv_rhs => rw [this, Nat.add_mul, Nat.one_mul]
  rw [Nat.mul_comm] at h1
  refine ⟨h3, by omega, by omega⟩

theorem sum_expectedPieceLength_aux (L P : Nat) : ∀ n : Nat, n < pieceCount L P →
    ((List.range n).map (expectedPieceLength L P)).sum = (n : Int) * (P : Int) := by
  intro n
  induction n with
  | zero => intro _; simp
  | succ n ih =>
    intro h
    rw [List.range_succ, List.map_append, List.sum_append, ih (by omega)]
    have : n + 1 < pieceCount L P := h
    simp only [List.map_cons, List.map_nil, List.sum_cons, List.sum_nil, expectedPieceLength,
      this, if_true]
    push_cast
    ring

theorem sum_expectedPieceLength (L P : Nat) (hL : 0 < L) (hP : 0 < P) :
    ((List.range (pieceCount L P)).map (expectedPieceLength L P)).sum = (L : Int) := by
  obtain ⟨h1, _, _⟩ := pieceCount_bounds L P hL hP
  obtain ⟨n, hn⟩ : ∃ n, pieceCount L P = n + 1 := ⟨pieceCount L P - 1, by omega⟩
  rw [hn, List.range_succ, List.map_append, List.sum_append,
    sum_expectedPieceLength_aux L P n (by omega)]
  have : ¬ (n + 1 < pieceCount L P) := by omega
  simp only [List.map_cons, List.map_nil, List.sum_cons, List.sum_nil, expectedPieceLength,
    hn, lt_irrefl, if_false]
  push_cast
  ring

theorem wrap64_natCast (n : Nat) (h : n < 2 ^ 63) : wrap64 (n : Int) = (n : Int) :=
  wrap64_eq _ (by omega) (by omega)

/-- The length computation of `getPieceInfoFromDict` on naturals that stay
below `2^63`: `a` is `i·P`, `d` is `(count − 1)·P`. -/
theorem actualPieceLength_linear (L P a d : Nat) (hdL : d < L) (hLb : L ≤ d + P)
    (hb : d + P < 2 ^ 63) (ha : a + P ≤ d ∨ a = d) :
    (if wrap64 (wrap64 (a : Int) + (P : Int)) > (L : Int)
      then wrap64 ((L : Int) - wrap64 (a : Int)) else (P : Int))
      = (if a + P ≤ d then (P : Int) else (L : Int) - (d : Int)) := by
  have h1 : wrap64 (a : Int) = (a : Int) := wrap64_natCast a (by omega)
  have h2 : wrap64 ((a : Int) + (P : Int)) = (a : Int) + (P : Int) :=
    wrap64_eq _ (by omega) (by omega)
  rw [h1, h2]
  rcases ha with ha | ha
  · have c3 : ¬ ((a : Int) + (P : Int) > (L : Int)) := by omega
    rw [if_neg c3, if_pos ha]
  · have c4 : ¬ (a + P ≤ d) := by omega
    rw [if_neg c4]
    by_cases c3 : (a : Int) + (P : Int) > (L : Int)
    · rw [if_pos c3, wrap64_eq _ (by omega) (by omega), ha]
    · rw [if_neg c3]
      omega

theorem hashRange_linear (i n : Nat) (h : 20 * i + 20 ≤ n) (hn : n < 2 ^ 63) :
    wrap64 ((i : Int) * 20) = ((20 * i : Nat) : Int) ∧
    wrap64 (((20 * i : Nat) : Int) + 20) = ((20 * i + 20 : Nat) : Int) := by
  constructor
  · rw [wrap64_eq _ (by omega) (by omega)]
    push_cast
    ring
  · rw [wrap64_eq _ (by omega) (by omega)]
    push_cast
    ring

/-- C5 (amended): for an info dictionary with `length` L > 0, `piece length`
P > 0 and `pieces` holding exactly `ceil(L / P)` hashes of 20 bytes, and with
`ceil(L / P) · P < 2^63` (so that no 64-bit sum wraps), `getPieceInfoFromDict`
returns the length P for every index before the final one and
`L − (count − 1)·P` for the final index, together with the 20 bytes of the
hash of that index; the lengths over all indices sum to L. -/
theorem getPieceInfoFromDict_lengths (info : List (Bytes × Value)) (L P : Nat)
    (hashes : Bytes)
    (hP : mapGet info keyPieceLength = some (.int (P : Int)))
    (hL : mapGet info keyLength = some (.int (L : Int)))
    (hH : mapGet info keyPieces = some (.str hashes))
    (hLpos : 0 < L) (hPpos : 0 < P)
    (hcount : hashes.length = 20 * pieceCount L P) (hstr : hashes.length < 2 ^ 63)
    (hno : pieceCount L P * P < 2 ^ 63) :
    (∀ i : Nat, i < pieceCount L P →
      getPieceInfoFromDict info (i : Int)
        = .ok (expectedPieceLength L P i, slice hashes (20 * i) (20 * i + 20))) ∧
    ((List.range (pieceCount L P)).map (expectedPieceLength L P)).sum = (L : Int) := by
  refine ⟨?_, sum_expectedPieceLength L P hLpos hPpos⟩
  intro i hi
  obtain ⟨hc1, hc2, hc3⟩ := pieceCount_bounds L P hLpos hPpos
  have hsucc : (pieceCount L P - 1) * P + P = pieceCount L P * P := by
    have : pieceCount L P = (pieceCount L P - 1) + 1 := by omega
    conv_rhs => rw [this, Nat.add_mul, Nat.one_mul]
  have hcase : i * P + P ≤ (pieceCount L P - 1) * P ∨ i * P = (pieceCount L P - 1) * P := by
    by_cases hlast : i + 1 < pieceCount L P
    · left
      have h5 : (i + 1) * P ≤ (pieceCount L P - 1) * P := Nat.mul_le_mul_right P (by omega)
      rw [Nat.add_mul, Nat.one_mul] at h5
      exact h5
    · right
      have : i = pieceCount L P - 1 := by omega
      rw [← this]
  have hiff : (i * P + P ≤ (pieceCount L P - 1) * P) ↔ i + 1 < pieceCount L P := by
    constructor
    · intro h
      by_contra hlast
      have h6 : i = pieceCount L P - 1 := by omega
      rw [← h6] at h
      omega
    · intro hlast
      have h5 : (i + 1) * P ≤ (pieceCount L P - 1) * P := Nat.mul_le_mul_right P (by omega)
      rw [Nat.add_mul, Nat.one_mul] at h5
      exact h5
  have hlin := actualPieceLength_linear L P (i * P) ((pieceCount L P - 1) * P) hc2
    (by rw [hsucc]; exact hc3) (by rw [hsucc]; exact hno) hcase
  obtain ⟨w1, w2⟩ := hashRange_linear i hashes.length (by rw [hcount]; omega) hstr
  have e1 : (i : Int) * (P : Int) = ((i * P : Nat) : Int) := by push_cast; rfl
  have e2 : ((pieceCount L P : Int) - 1) * (P : Int)
      = (((pieceCount L P - 1) * P : Nat) : Int) := by
    push_cast [Nat.cast_sub hc1]; rfl
  have hlen : (if wrap64 (wrap64 ((i : Int) * (P : Int)) + (P : Int)) > (L : Int)
      then wrap64 ((L : Int) - wrap64 ((i : Int) * (P : Int))) else (P : Int))
      = expectedPieceLength L P i := by
    rw [e1, hlin]
    unfold expectedPieceLength
    by_cases hlast : i + 1 < pieceCount L P
    · rw [if_pos (hiff.mpr hlast), if_pos hlast]
    · rw [if_neg (fun h => hlast (hiff.mp h)), if_neg hlast, e2]
  have c1 : ¬ (((20 * i + 20 : Nat) : Int) > (hashes.length : Int)) := by
    have : 20 * i + 20 ≤ hashes.length := by rw [hcount]; omega
    exact_mod_cast Nat.not_lt.mpr this
  have c2 : ¬ (((20 * i : Nat) : Int) < 0 ∨
      ((20 * i + 20 : Nat) : Int) < ((20 * i : Nat) : Int)) := by
    push_cast
    omega
  unfold getPieceInfoFromDict
  rw [hP]
  simp only
  rw [hL]
  simp only
  rw [hH]
  simp only
  rw [w1, w2, if_neg c1, if_neg c2, hlen]
  simp only [Int.toNat_ofNat]

/-- C5 (amended) at `length` 100, `piece length` 40 and three hashes. -/
theorem getPieceInfoFromDict_lengths_witness :
    (∀ i : Nat, i < pieceCount 100 40 →
      getPieceInfoFromDict sampleInfo (i : Int)
        = .ok (expectedPieceLength 100 40 i,
            slice (List.replicate 20 1 ++ List.replicate 20 2 ++ List.replicate 20 3)
              (20 * i) (20 * i + 20))) ∧
    ((List.range (pieceCount 100 40)).map (expectedPieceLength 100 40)).sum = ((100 : Nat) : Int) :=
  getPieceInfoFromDict_lengths sampleInfo 100 40
    (List.replicate 20 1 ++ List.replicate 20 2 ++ List.replicate 20 3)
    (by rfl) (by rfl) (by rfl) (by decide) (by decide) (by rfl) (by simp) (by decide)

/-- C5 as stated fails where the 64-bit sum wraps: with `length = 2^63 − 1`,
`piece length = 2^62 + 1` and two hashes, all premises of the claim hold, the
final index is 1, and `getPieceInfoFromDict` returns the length `2^62 + 1`
for it, not `length − piece length = 2^62 − 2`. -/
theorem getPieceInfoFromDict_lengths_counterexample :
    mapGet overflowInfo keyLength = some (.int 9223372036854775807) ∧
    mapGet overflowInfo keyPieceLength = some (.int 4611686018427387905) ∧
    mapGet overflowInfo keyPieces = some (.str (List.replicate 40 0)) ∧
    pieceCount 9223372036854775807 4611686018427387905 = 2 ∧
    (List.replicate 40 (0 : Byte)).length = 20 * 2 ∧
    getPieceInfoFromDict overflowInfo 1
      = .ok (4611686018427387905, List.replicate 20 0) ∧
    (9223372036854775807 : Int) - (2 - 1) * 4611686018427387905 ≠ 4611686018427387905 := by
  refine ⟨by rfl, by rfl, by rfl, by decide, by decide, by rfl, by decide⟩

/-! ### Framing -/

theorem beUint32_putUint32 (v : Nat) (h : v < 2 ^ 32) (rest : Bytes) :
    beUint32 (putUint32 v ++ rest) = v := by
  simp only [putUint32, beUint32, toByte, List.cons_append, List.nil_append]
  omega

theorem putUint32_length (v : Nat) : (putUint32 v).length = 4 := rfl

theorem readFull_append (xs rest : Bytes) (out : List Bytes) (budget : Nat) :
    readFull ⟨xs ++ rest, out, budget⟩ xs.length = (some xs, ⟨rest, out, budget⟩) := by
  unfold readFull
  simp

/-- Reading back one framed message. -/
theorem readPeerMessage_buildPeerMessage (messageID : Byte) (payload rest : Bytes)
    (out : List Bytes) (budget : Nat) (h : 1 + payload.length < 2 ^ 32) :
    readPeerMessage ⟨buildPeerMessage messageID payload ++ rest, out, budget⟩
      = (.ok (messageID, payload), ⟨rest, out, budget⟩) := by
  have hmod : (1 + payload.length) % 2 ^ 32 = 1 + payload.length := Nat.mod_eq_of_lt h
  have h1 : buildPeerMessage messageID payload ++ rest
      = putUint32 (1 + payload.length) ++ ([messageID] ++ (payload ++ rest)) := by
    simp only [buildPeerMessage, hmod, List.append_assoc]
  have r1 := readFull_append (putUint32 (1 + payload.length))
    ([messageID] ++ (payload ++ rest)) out budget
  rw [putUint32_length] at r1
  have r2 := readFull_append [messageID] (payload ++ rest) out budget
  have r3 := readFull_append payload rest out budget
  have hv : beUint32 (putUint32 (1 + payload.length)) = 1 + payload.length := by
    have := beUint32_putUint32 (1 + payload.length) h []
    rwa [List.append_nil] at this
  have hne : ¬ (1 + payload.length = 0) := by omega
  unfold readPeerMessage
  rw [h1, r1]
  simp only [hv, if_neg hne]
  rw [show (1 : Nat) = [messageID].length from rfl] at *
  rw [r2]
  simp only [List.headD_cons, List.length_singleton]
  by_cases hp : payload.length = 0
  · have : payload = [] := List.length_eq_zero.mp hp
    subst this
    simp
  · have hgt : 1 + payload.length > 1 := by omega
    rw [if_pos hgt, Nat.add_sub_cancel_left, r3]

/-- C8: for every message id and every payload `p` with `1 + |p| < 2^32`,
`buildPeerMessage id p` is four bytes that read big-endian as `1 + |p|`,
followed by the id byte, followed by `p`; and `readPeerMessage` on a stream
that starts with those bytes returns `(id, p)` and consumes exactly the
`5 + |p|` bytes of the message, leaving the rest of the stream unread. -/
theorem buildPeerMessage_readPeerMessage (messageID : Byte) (payload rest : Bytes)
    (out : List Bytes) (budget : Nat) (h : 1 + payload.length < 2 ^ 32) :
    (∃ b0 b1 b2 b3 : Byte,
      buildPeerMessage messageID payload = b0 :: b1 :: b2 :: b3 :: messageID :: payload ∧
      b0.val * 2 ^ 24 + b1.val * 2 ^ 16 + b2.val * 2 ^ 8 + b3.val = 1 + payload.length) ∧
    (buildPeerMessage messageID payload).length = 5 + payload.length ∧
    readPeerMessage ⟨buildPeerMessage messageID payload ++ rest, out, budget⟩
      = (.ok (messageID, payload), ⟨rest, out, budget⟩) := by
  refine ⟨?_, ?_, readPeerMessage_buildPeerMessage messageID payload rest out budget h⟩
  · have hmod : (1 + payload.length) % 2 ^ 32 = 1 + payload.length := Nat.mod_eq_of_lt h
    refine ⟨_, _, _, _, by simp [buildPeerMessage, putUint32]; exact ⟨rfl, rfl, rfl, rfl⟩, ?_⟩
    simp only [toByte]
    omega
  · simp [buildPeerMessage, putUint32]
    omega

/-- C8 at a `piece`-like message with id 7 and a three-byte payload, followed
by two more bytes on the stream. -/
theorem buildPeerMessage_readPeerMessage_witness :
    (∃ b0 b1 b2 b3 : Byte,
      buildPeerMessage 7 [1, 2, 3] = b0 :: b1 :: b2 :: b3 :: 7 :: [1, 2, 3] ∧
      b0.val * 2 ^ 24 + b1.val * 2 ^ 16 + b2.val * 2 ^ 8 + b3.val = 1 + [1, 2, 3].length) ∧
    (buildPeerMessage 7 [1, 2, 3]).length = 5 + [1, 2, 3].length ∧
    readPeerMessage ⟨buildPeerMessage 7 [1, 2, 3] ++ [0, 0], [], 0⟩
      = (.ok (7, [1, 2, 3]), ⟨[0, 0], [], 0⟩) :=
  buildPeerMessage_readPeerMessage 7 [1, 2, 3] [0, 0] [] 0 (by decide)

/-! ### Reassembly -/

theorem ascending_int_head_lt (a : Int) (l : List Int)
    (h : ascending intLt (a :: l) = true) : ∀ x ∈ l, a < x := by
  induction l generalizing a with
  | nil => intro x hx; simp at hx
  | cons b rest ih =>
    intro x hx
    simp only [ascending, Bool.and_eq_true, intLt, decide_eq_true_eq] at h
    rcases List.mem_cons.mp hx with hx | hx
    · rw [hx]; exact h.1
    · exact lt_trans h.1 (ih b h.2 x hx)

theorem sortByBegin_ascending (blocks : List (Int × Bytes))
    (h : ascending intLt (blocks.map Prod.fst) = true) : sortByBegin blocks = blocks := by
  induction blocks with
  | nil => rfl
  | cons e rest ih =>
    simp only [sortByBegin]
    rw [ih (ascending_tail intLt e.1 _ h)]
    cases rest with
    | nil => rfl
    | cons x xs =>
      have h1 : e.1 < x.1 := ascending_int_head_lt e.1 _ h x.1 (by simp)
      have h2 : ¬ (x.1 < e.1) := by omega
      simp only [insertEntry, h2, if_false]

/-- The loop succeeds exactly on entries each of which begins where the ones
before it end, and then returns their concatenation and total length. -/
theorem combineLoop_ok_iff : ∀ (es : List (Int × Bytes)) (result : Bytes) (total : Int)
    (r : Bytes) (t : Int),
    combineLoop es result total = .ok (r, t) ↔
      (∀ j e, es[j]? = some e →
        e.1 = total + ((es.take j).map (fun x => (x.2.length : Int))).sum) ∧
      r = result ++ (es.map Prod.snd).flatten ∧
      t = total + (es.map (fun x => (x.2.length : Int))).sum := by
  intro es
  induction es with
  | nil =>
    intro result total r t
    simp only [combineLoop, Except.ok.injEq, Prod.mk.injEq, List.map_nil, List.flatten_nil,
      List.append_nil, List.sum_nil, add_zero]
    constructor
    · rintro ⟨h1, h2⟩
      exact ⟨by intro j e h; simp at h, h1.symm, h2.symm⟩
    · rintro ⟨_, h1, h2⟩
      exact ⟨h1.symm, h2.symm⟩
  | cons x xs ih =>
    intro result total r t
    obtain ⟨b, d⟩ := x
    simp only [combineLoop]
    by_cases hb : total = b
    · have hnb : ¬ (total ≠ b) := fun h => h hb
      rw [if_neg hnb, ih]
      simp only [List.map_cons, List.flatten_cons, List.sum_cons, List.append_assoc]
      constructor
      · rintro ⟨h1, h2, h3⟩
        refine ⟨?_, h2, by rw [h3]; ring⟩
        intro j e hj
        cases j with
        | zero =>
          simp only [List.getElem?_cons_zero, Option.some.injEq] at hj
          rw [← hj]
          simp [hb]
        | succ j =>
          simp only [List.getElem?_cons_succ] at hj
          rw [h1 j e hj]
          simp only [List.take_succ_cons, List.map_cons, List.sum_cons]
          ring
      · rintro ⟨h1, h2, h3⟩
        refine ⟨?_, h2, by rw [h3]; ring⟩
        intro j e hj
        have := h1 (j + 1) e (by simpa using hj)
        rw [this]
        simp only [List.take_succ_cons, List.map_cons, List.sum_cons]
        ring
    · have hnb : total ≠ b := hb
      rw [if_pos hnb]
      constructor
      · intro h; cases h
      · rintro ⟨h1, _, _⟩
        have := h1 0 (b, d) (by simp)
        simp at this
        exact absurd this.symm hb

theorem mapSet_int_append_last (m : List (Int × Bytes)) (k : Int) (v : Bytes)
    (h : ∀ x ∈ m, x.1 < k) : mapSet intLt m k v = m ++ [(k, v)] := by
  induction m with
  | nil => rfl
  | cons x rest ih =>
    obtain ⟨k0, v0⟩ := x
    have h1 : k0 < k := h (k0, v0) (by simp)
    have h2 : ¬ (k < k0) := by omega
    simp only [mapSet, intLt, h1, h2, decide_True, decide_False, if_true, Bool.false_eq_true,
      if_false, List.cons_append]
    rw [ih (fun x hx => h x (by simp [hx]))]

theorem lengths_sum_nonneg (blocks : List (Int × Bytes)) :
    0 ≤ (blocks.map (fun x => (x.2.length : Int))).sum := by
  induction blocks with
  | nil => simp
  | cons b rest ih =>
    simp only [List.map_cons, List.sum_cons]
    omega

/-- When `combineBlocks` succeeds, and with what, in terms of the entries as
the sort leaves them. -/
theorem combineBlocks_ok_iff_sorted (blocks : List (Int × Bytes)) (L : Int) (r : Bytes) :
    combineBlocks blocks L = .ok r ↔
      (blocks ≠ [] ∧ L ≤ maxAlloc ∧
       (∀ j e, (sortByBegin blocks)[j]? = some e →
          e.1 = (((sortByBegin blocks).take j).map (fun x => (x.2.length : Int))).sum) ∧
       ((sortByBegin blocks).map (fun x => (x.2.length : Int))).sum = L ∧
       r = ((sortByBegin blocks).map Prod.snd).flatten) := by
  unfold combineBlocks
  by_cases hnil : blocks = []
  · subst hnil
    simp
  · have hlen : ¬ (blocks.length = 0) := fun h => hnil (List.length_eq_zero.mp h)
    rw [if_neg hlen]
    generalize sortByBegin blocks = S
    by_cases hpan : L < 0 ∨ L > maxAlloc
    · rw [if_pos hpan]
      constructor
      · intro h; cases h
      rintro ⟨_, hmax, _, h2, _⟩
      have hsum := lengths_sum_nonneg S
      rcases hpan with hp | hp <;> omega
    rw [if_neg hpan]
    have hmax : L ≤ maxAlloc := by
      by_contra hc
      exact hpan (Or.inr (by omega))
    cases hloop : combineLoop S [] 0 with
    | error e =>
      simp only
      constructor
      · intro h; cases h
      rintro ⟨_, _, h1, h2, h3⟩
      have := (combineLoop_ok_iff S [] 0 r L).mpr
        ⟨by intro j e hj; rw [h1 j e hj]; ring, by simpa using h3, by rw [h2]; ring⟩
      rw [hloop] at this
      cases this
    | ok res =>
      obtain ⟨r2, t⟩ := res
      obtain ⟨h1, h2, h3⟩ := (combineLoop_ok_iff S [] 0 r2 t).mp hloop
      simp only [List.nil_append, zero_add] at h1 h2 h3
      simp only
      by_cases ht : t = L
      · have hnt : ¬ (t ≠ L) := fun h => h ht
        rw [if_neg hnt]
        simp only [Except.ok.injEq]
        constructor
        · intro hr
          exact ⟨hnil, hmax, h1, by rw [← h3, ht], by rw [← hr, h2]⟩
        · rintro ⟨_, _, _, _, hr⟩
          rw [hr, h2]
      · have hnt : t ≠ L := ht
        rw [if_pos hnt]
        constructor
        · intro h; cases h
        rintro ⟨_, _, _, h4, _⟩
        exact absurd (h3.trans h4) ht

/-- When `combineBlocks` succeeds on entries that come in increasing order of
their keys, for a piece length within the allocation limit. -/
theorem combineBlocks_ok_iff (blocks : List (Int × Bytes)) (L : Int)
    (hmap : ascending intLt (blocks.map Prod.fst) = true) (hmax : L ≤ maxAlloc) (r : Bytes) :
    combineBlocks blocks L = .ok r ↔
      (blocks ≠ [] ∧
       (∀ j e, blocks[j]? = some e →
          e.1 = ((blocks.take j).map (fun x => (x.2.length : Int))).sum) ∧
       (blocks.map (fun x => (x.2.length : Int))).sum = L ∧
       r = (blocks.map Prod.snd).flatten) := by
  rw [combineBlocks_ok_iff_sorted, sortByBegin_ascending blocks hmap]
  constructor
  · rintro ⟨h1, _, h2, h3, h4⟩
    exact ⟨h1, h2, h3, h4⟩
  · rintro ⟨h1, h2, h3, h4⟩
    exact ⟨h1, hmax, h2, h3, h4⟩

theorem mapGet_mapSet_int_same {β : Type} (m : List (Int × β)) (k : Int) (v : β) :
    mapGet (mapSet intLt m k v) k = some v := by
  induction m with
  | nil => simp [mapSet, mapGet]
  | cons x rest ih =>
    obtain ⟨k0, v0⟩ := x
    simp only [mapSet, intLt, decide_eq_true_eq]
    by_cases h1 : k < k0
    · simp [h1, mapGet]
    · by_cases h2 : k0 < k
      · have hne : k0 ≠ k := by omega
        simp [h1, h2, mapGet, hne, ih]
      · simp [h1, h2, mapGet]

theorem mapGet_mapSet_int_other {β : Type} (m : List (Int × β)) (k k2 : Int) (v : β)
    (hne : k ≠ k2) : mapGet (mapSet intLt m k v) k2 = mapGet m k2 := by
  induction m with
  | nil => simp [mapSet, mapGet, hne]
  | cons x rest ih =>
    obtain ⟨k0, v0⟩ := x
    simp only [mapSet, intLt, decide_eq_true_eq]
    by_cases h1 : k < k0
    · simp [h1, mapGet, hne]
    · by_cases h2 : k0 < k
      · simp [h1, h2, mapGet, ih]
      · have hk : k0 = k := by omega
        have hne2 : k0 ≠ k2 := by omega
        simp [h1, h2, mapGet, hne, hne2]

theorem WorkQueue.Add_spec (wq : WorkQueue) (p : Int) (h : wq.Started) :
    (wq.Add p).Started ∧ (wq.Add p).maxRetries = 3 ∧
    (wq.counter p ≥ 3 → (wq.Add p).queue = wq.queue ∧
      (∀ q, (wq.Add p).counter q = wq.counter q) ∧ (wq.Add p) = wq) ∧
    (wq.counter p < 3 → (wq.Add p).queue = wq.queue ++ [p] ∧
      (wq.Add p).counter p = wq.counter p + 1 ∧
      (∀ q, q ≠ p → (wq.Add p).counter q = wq.counter q)) := by
  obtain ⟨queue, retry, maxR⟩ := wq
  cases retry with
  | none =>
    have hc : (mapGet ([] : List (Int × Int)) p).getD 0 = 0 := rfl
    refine ⟨Or.inr ?_, ?_, ?_, ?_⟩
    · simp [WorkQueue.Add, hc]
    · simp [WorkQueue.Add, hc]
    · intro h3
      simp [WorkQueue.counter] at h3
    · intro _
      refine ⟨by simp [WorkQueue.Add, hc], ?_, ?_⟩
      · simp [WorkQueue.Add, hc, WorkQueue.counter, mapSet, mapGet]
      · intro q hq
        have : p ≠ q := fun h => hq h.symm
        simp [WorkQueue.Add, hc, WorkQueue.counter, mapSet, mapGet, this]
  | some m =>
    have hm : maxR = 3 := by
      rcases h with h | h
      · simp at h
      · exact h
    subst hm
    simp only [WorkQueue.counter]
    by_cases hc : (mapGet m p).getD 0 ≥ 3
    · have hA : WorkQueue.Add ⟨queue, some m, 3⟩ p = ⟨queue, some m, 3⟩ := by
        simp only [WorkQueue.Add, hc, if_true]
      rw [hA]
      refine ⟨Or.inr rfl, rfl, fun _ => ⟨rfl, fun _ => rfl, rfl⟩, fun h3 => ?_⟩
      omega
    · have hA : WorkQueue.Add ⟨queue, some m, 3⟩ p
          = ⟨queue ++ [p], some (mapSet intLt m p ((mapGet m p).getD 0 + 1)), 3⟩ := by
        simp only [WorkQueue.Add, hc, if_false]
      rw [hA]
      refine ⟨Or.inr rfl, rfl, fun h3 => absurd h3 hc, fun _ => ⟨rfl, ?_, ?_⟩⟩
      · simp only [mapGet_mapSet_int_same, Option.getD_some]
      · intro q hq
        simp only [mapGet_mapSet_int_other m p q _ (fun h => hq h.symm)]

theorem WorkQueue.Get_spec (wq : WorkQueue) :
    (wq.Get).2.retryCount = wq.retryCount ∧ (wq.Get).2.maxRetries = wq.maxRetries ∧
    (wq.Started → (wq.Get).2.Started) ∧ (∀ q, (wq.Get).2.counter q = wq.counter q) := by
  obtain ⟨queue, retry, maxR⟩ := wq
  cases queue with
  | nil => exact ⟨rfl, rfl, fun h => h, fun _ => rfl⟩
  | cons a l => exact ⟨rfl, rfl, fun h => h, fun _ => rfl⟩

theorem WorkQueue.run_started (ops : List QueueOp) : ∀ (wq : WorkQueue), wq.Started →
    (wq.run ops).Started ∧ ((∀ q, wq.counter q ≤ 3) → ∀ q, (wq.run ops).counter q ≤ 3) := by
  induction ops with
  | nil => intro wq h; exact ⟨h, fun h => h⟩
  | cons op rest ih =>
    intro wq h
    cases op with
    | add p =>
      obtain ⟨h1, _, h3, h4⟩ := WorkQueue.Add_spec wq p h
      obtain ⟨i1, i2⟩ := ih (wq.Add p) h1
      refine ⟨i1, fun hc => i2 ?_⟩
      intro q
      by_cases hp : wq.counter p ≥ 3
      · rw [(h3 hp).2.1 q]; exact hc q
      · obtain ⟨_, h5, h6⟩ := h4 (by omega)
        by_cases hq : q = p
        · rw [hq, h5]; omega
        · rw [h6 q hq]; exact hc q
    | get =>
      obtain ⟨_, _, g3, g4⟩ := WorkQueue.Get_spec wq
      obtain ⟨i1, i2⟩ := ih (wq.Get).2 (g3 h)
      refine ⟨i1, fun hc => i2 ?_⟩
      intro q
      rw [g4 q]; exact hc q

/-- The appends of `piece` still to come and its counter together never
exceed the cap. -/
theorem appendCount_bound (piece : Int) (ops : List QueueOp) : ∀ (wq : WorkQueue),
    wq.Started → wq.counter piece ≤ 3 →
    (appendCount piece wq ops : Int) + wq.counter piece ≤ 3 := by
  induction ops with
  | nil => intro wq _ hc; simpa [appendCount] using hc
  | cons op rest ih =>
    intro wq h hc
    cases op with
    | add p =>
      obtain ⟨h1, _, h3, h4⟩ := WorkQueue.Add_spec wq p h
      simp only [appendCount]
      by_cases hp : wq.counter p ≥ 3
      · obtain ⟨hq, hcnt, _⟩ := h3 hp
        have hno : ¬ (p = piece ∧ (wq.Add p).queue = wq.queue ++ [p]) := by
          rintro ⟨_, h5⟩
          rw [hq] at h5
          have := congrArg List.length h5
          simp at this
        rw [if_neg hno]
        have := ih (wq.Add p) h1 (by rw [hcnt piece]; exact hc)
        rw [hcnt piece] at this
        simpa using this
      · obtain ⟨hq, h5, h6⟩ := h4 (by omega)
        by_cases hpp : p = piece
        · subst hpp
          rw [if_pos ⟨rfl, hq⟩]
          have := ih (wq.Add p) h1 (by rw [h5]; omega)
          rw [h5] at this
          push_cast
          omega
        · have hno : ¬ (p = piece ∧ (wq.Add p).queue = wq.queue ++ [p]) := fun h => hpp h.1
          rw [if_neg hno]
          have := ih (wq.Add p) h1 (by rw [h6 piece (fun h => hpp h.symm)]; exact hc)
          rw [h6 piece (fun h => hpp h.symm)] at this
          simpa using this
    | get =>
      obtain ⟨_, _, g3, g4⟩ := WorkQueue.Get_spec wq
      simp only [appendCount]
      have := ih (wq.Get).2 (g3 h) (by rw [g4]; exact hc)
      rw [g4] at this
      exact this

/-- A piece is handed out no more often than it sits in the queue or is
appended later. -/
theorem dispatchCount_le (piece : Int) (ops : List QueueOp) : ∀ (wq : WorkQueue),
    wq.Started →
    dispatchCount piece wq ops ≤ wq.queue.count piece + appendCount piece wq ops := by
  induction ops with
  | nil => intro wq _; simp [dispatchCount]
  | cons op rest ih =>
    intro wq h
    cases op with
    | add p =>
      obtain ⟨h1, _, h3, h4⟩ := WorkQueue.Add_spec wq p h
      have := ih (wq.Add p) h1
      simp only [dispatchCount, appendCount]
      by_cases hp : wq.counter p ≥ 3
      · obtain ⟨hq, _, _⟩ := h3 hp
        rw [hq] at this
        omega
      · obtain ⟨hq, _, _⟩ := h4 (by omega)
        rw [hq] at this ⊢
        by_cases hpp : p = piece
        · subst hpp
          simp only [List.count_append, List.count_singleton_self] at this
          simp only [true_and, if_true]
          omega
        · have hcnt : List.count piece [p] = 0 := by
            simp [List.count_singleton, hpp]
          simp only [List.count_append, hcnt] at this
          omega
    | get =>
      obtain ⟨_, _, g3, _⟩ := WorkQueue.Get_spec wq
      have := ih (wq.Get).2 (g3 h)
      simp only [dispatchCount, appendCount]
      obtain ⟨queue, retry, maxR⟩ := wq
      cases queue with
      | nil =>
        simp only [WorkQueue.Get] at this ⊢
        simp only [Prod.mk.injEq, Bool.false_eq_true, and_false, if_false]
        omega
      | cons a l =>
        simp only [WorkQueue.Get] at this ⊢
        by_cases ha : a = piece
        · subst ha
          simp only [List.count_cons_self, if_true]
          omega
        · have : ¬ ((a, true) = (piece, true)) := by
            intro h; exact ha (Prod.mk.inj h).1
          rw [if_neg this, List.count_cons_of_ne (fun h => ha h.symm)]
          omega

/-- C10: starting from the empty `WorkQueue`, over any sequence of `Add` and
`Get` calls each piece index is appended to the queue at most 3 times in all
(the initial enqueue counts) and so handed out by `Get` at most 3 times (one
dispatch and at most two retries); and in any state reached, an `Add` of an
index whose counter has reached 3 leaves the queue and all counters
unchanged. -/
theorem WorkQueue.retry_cap (ops : List QueueOp) (piece : Int) :
    appendCount piece WorkQueue.empty ops ≤ 3 ∧
    dispatchCount piece WorkQueue.empty ops ≤ 3 ∧
    ((WorkQueue.empty.run ops).counter piece ≥ 3 →
      (WorkQueue.empty.run ops).Add piece = WorkQueue.empty.run ops) := by
  have hs : WorkQueue.empty.Started := Or.inl rfl
  have hc : WorkQueue.empty.counter piece = 0 := rfl
  have h1 := appendCount_bound piece ops WorkQueue.empty hs (by rw [hc]; decide)
  have h2 := dispatchCount_le piece ops WorkQueue.empty hs
  have hq : WorkQueue.empty.queue.count piece = 0 := rfl
  rw [hc] at h1
  rw [hq] at h2
  refine ⟨by omega, by omega, ?_⟩
  intro h3
  exact ((WorkQueue.Add_spec _ piece (WorkQueue.run_started ops _ hs).1).2.2.1 h3).2.2

/-- C10 at piece 7, enqueued five times with dispatches in between: three
appends, three dispatches, the counter stands at 3 and a further `Add` changes
nothing. -/
theorem WorkQueue.retry_cap_witness :
    appendCount 7 WorkQueue.empty
      [.add 7, .get, .add 7, .get, .add 7, .get, .add 7, .get, .add 7] ≤ 3 ∧
    dispatchCount 7 WorkQueue.empty
      [.add 7, .get, .add 7, .get, .add 7, .get, .add 7, .get, .add 7] ≤ 3 ∧
    (WorkQueue.empty.run
        [.add 7, .get, .add 7, .get, .add 7, .get, .add 7, .get, .add 7]).counter 7 ≥ 3 ∧
    (WorkQueue.empty.run
        [.add 7, .get, .add 7, .get, .add 7, .get, .add 7, .get, .add 7]).Add 7
      = WorkQueue.empty.run
          [.add 7, .get, .add 7, .get, .add 7, .get, .add 7, .get, .add 7] :=
  ⟨(WorkQueue.retry_cap
      [.add 7, .get, .add 7, .get, .add 7, .get, .add 7, .get, .add 7] 7).1,
   (WorkQueue.retry_cap
      [.add 7, .get, .add 7, .get, .add 7, .get, .add 7, .get, .add 7] 7).2.1,
   by decide,
   (WorkQueue.retry_cap
      [.add 7, .get, .add 7, .get, .add 7, .get, .add 7, .get, .add 7] 7).2.2 (by decide)⟩

/-! ### Only verified pieces reach the buffer -/

theorem flatten_length_sum (es : List (Int × Bytes)) :
    (((es.map Prod.snd).flatten.length : Nat) : Int)
      = (es.map (fun x => (x.2.length : Int))).sum := by
  induction es with
  | nil => rfl
  | cons e l ih =>
    simp only [List.map_cons, List.flatten_cons, List.length_append, List.sum_cons]
    push_cast
    rw [ih]

theorem combineBlocks_ok_length (blocks : List (Int × Bytes)) (L : Int) (r : Bytes)
    (h : combineBlocks blocks L = .ok r) : (r.length : Int) = L := by
  unfold combineBlocks at h
  split at h
  · cases h
  · split at h
    · cases h
    · cases hloop : combineLoop (sortByBegin blocks) [] 0 with
      | error e => rw [hloop] at h; cases h
      | ok res =>
        obtain ⟨r2, t⟩ := res
        rw [hloop] at h
        simp only at h
        split at h
        · cases h
        · rename_i ht
          simp only [Except.ok.injEq] at h
          obtain ⟨_, h2, h3⟩ := (combineLoop_ok_iff _ [] 0 r2 t).mp hloop
          simp only [List.nil_append, zero_add] at h2 h3
          have ht2 : t = L := by
            by_contra hne
            exact ht hne
          rw [← h, h2, flatten_length_sum, ← h3, ht2]

theorem downloadPieceReuseConn_verified (sha1 : Bytes → Bytes) (conn : Conn)
    (infoDict : List (Bytes × Value)) (pieceIndex : Int) (data : Bytes) (conn2 : Conn)
    (h : downloadPieceReuseConn sha1 conn infoDict pieceIndex = (.ok data, conn2)) :
    PieceVerified sha1 infoDict pieceIndex data := by
  unfold downloadPieceReuseConn at h
  cases hinfo : getPieceInfoFromDict infoDict pieceIndex with
  | error e => rw [hinfo] at h; cases h
  | ok res =>
    obtain ⟨pieceLength, pieceHash⟩ := res
    rw [hinfo] at h
    simp only at h
    split at h
    · cases h
    · split at h
      · cases h
      · split at h
        · cases h
        · rename_i piece hcomb
          split at h
          · rename_i hver
            simp only [Prod.mk.injEq, Except.ok.injEq] at h
            refine ⟨pieceLength, pieceHash, hinfo, ?_, ?_⟩
            · rw [← h.1]
              simpa [verifyPieceHash] using hver
            · rw [← h.1]
              exact combineBlocks_ok_length _ _ _ hcomb
          · cases h

theorem PieceBuffer.Get_Set (pb : PieceBuffer) (i j : Int) (d : Bytes) :
    (pb.Set i d).Get j = if j = i then some d else pb.Get j := by
  unfold PieceBuffer.Set PieceBuffer.Get
  by_cases h : j = i
  · rw [if_pos h, h]
    exact mapGet_mapSet_int_same _ _ _
  · rw [if_neg h]
    exact mapGet_mapSet_int_other _ _ _ _ (fun e => h e.symm)

theorem downloadPieceWithPeer_verified (sha1 : Bytes → Bytes)
    (infoDict : List (Bytes × Value)) : ∀ (fuel : Nat) (conn : Conn) (queue : WorkQueue)
    (buffer : PieceBuffer) (conn2 : Conn) (queue2 : WorkQueue) (buffer2 : PieceBuffer),
    downloadPieceWithPeer sha1 infoDict fuel conn queue buffer = .ok (conn2, queue2, buffer2) →
    ∀ (i : Int) (data : Bytes), buffer2.Get i = some data →
      buffer.Get i = some data ∨ PieceVerified sha1 infoDict i data := by
  intro fuel
  induction fuel with
  | zero => intro conn queue buffer conn2 queue2 buffer2 h; cases h
  | succ fuel ih =>
    intro conn queue buffer conn2 queue2 buffer2 h i data hget
    simp only [downloadPieceWithPeer] at h
    split at h
    · simp only [Except.ok.injEq, Prod.mk.injEq] at h
      rw [h.2.2]; exact Or.inl hget
    · split at h
      · simp only [Except.ok.injEq, Prod.mk.injEq] at h
        rw [h.2.2]; exact Or.inl hget
      · rename_i pieceIndex queue1 _
        split at h
        · exact ih _ _ _ _ _ _ h i data hget
        · rename_i hnone
          split at h
          · cases h
          · exact ih _ _ _ _ _ _ h i data hget
          · rename_i d conn1 hdl
            rcases ih _ _ _ _ _ _ h i data hget with h1 | h1
            · rw [PieceBuffer.Get_Set] at h1
              by_cases hi : i = pieceIndex
              · rw [if_pos hi] at h1
                simp only [Option.some.injEq] at h1
                right
                rw [hi, ← h1]
                exact downloadPieceReuseConn_verified sha1 conn infoDict pieceIndex d conn1 hdl
              · rw [if_neg hi] at h1
                exact Or.inl h1
            · exact Or.inr h1

/-- C4: `downloadPieceReuseConn` returns data only when `verifyPieceHash`
holds for it, and then the data has the SHA-1 listed for its index and the
actual piece length of that index; and whatever the session loop of
`downloadPieceWithPeer` leaves in the piece buffer for an index was either
there before or is data verified in that way. -/
theorem downloadPieceWithPeer_commits_verified (sha1 : Bytes → Bytes)
    (infoDict : List (Bytes × Value)) :
    (∀ (conn : Conn) (pieceIndex : Int) (data : Bytes) (conn2 : Conn),
      downloadPieceReuseConn sha1 conn infoDict pieceIndex = (.ok data, conn2) →
      PieceVerified sha1 infoDict pieceIndex data ∧
      ∃ pieceLength pieceHash,
        getPieceInfoFromDict infoDict pieceIndex = .ok (pieceLength, pieceHash) ∧
        verifyPieceHash sha1 data pieceHash = true) ∧
    (∀ (fuel : Nat) (conn : Conn) (queue : WorkQueue) (buffer : PieceBuffer)
      (conn2 : Conn) (queue2 : WorkQueue) (buffer2 : PieceBuffer),
      downloadPieceWithPeer sha1 infoDict fuel conn queue buffer
        = .ok (conn2, queue2, buffer2) →
      ∀ (i : Int) (data : Bytes), buffer2.Get i = some data →
        buffer.Get i = some data ∨ PieceVerified sha1 infoDict i data) := by
  refine ⟨?_, downloadPieceWithPeer_verified sha1 infoDict⟩
  intro conn pieceIndex data conn2 h
  have hv := downloadPieceReuseConn_verified sha1 conn infoDict pieceIndex data conn2 h
  refine ⟨hv, ?_⟩
  obtain ⟨pl, ph, h1, h2, _⟩ := hv
  exact ⟨pl, ph, h1, by simp [verifyPieceHash, h2]⟩

/-- C4 at a one-piece torrent: the download of piece 0 returns `[1, 2, 3]`,
the session commits it, and it is verified. -/
theorem downloadPieceWithPeer_commits_verified_witness :
    downloadPieceReuseConn toySha1 smallConn smallInfo 0
      = (.ok [1, 2, 3], ⟨[], [buildPeerMessage 6 (putUint32 0 ++ putUint32 0 ++ putUint32 3)], 0⟩) ∧
    PieceVerified toySha1 smallInfo 0 [1, 2, 3] ∧
    (PieceBuffer.Get ⟨[(0, [1, 2, 3])]⟩ 0 = some [1, 2, 3] ∧
      (PieceBuffer.Get ⟨[]⟩ 0 = some [1, 2, 3] ∨ PieceVerified toySha1 smallInfo 0 [1, 2, 3])) :=
  ⟨by rfl,
   ((downloadPieceWithPeer_commits_verified toySha1 smallInfo).1 smallConn 0 [1, 2, 3] _
      (by rfl)).1,
   by rfl,
   (downloadPieceWithPeer_commits_verified toySha1 smallInfo).2 3 smallConn
      (WorkQueue.empty.Add 0) ⟨[]⟩ _ _ ⟨[(0, [1, 2, 3])]⟩ (by rfl) 0 [1, 2, 3] (by rfl)⟩

/-! ### The requests of one piece download -/

theorem blockCount_pos (L : Nat) (hL : 0 < L) : 1 ≤ blockCount L := by
  unfold blockCount
  omega

theorem blockLength_bounds (L k : Nat) (hk : k < blockCount L) :
    1 ≤ blockLength L k ∧ blockLength L k ≤ 16384 ∧ 16384 * k + blockLength L k ≤ L ∧
    (k + 1 < blockCount L → blockLength L k = 16384) ∧
    (k + 1 = blockCount L → 16384 * k + blockLength L k = L) := by
  unfold blockLength blockCount at *
  split
  · omega
  · split <;> omega

theorem uint32_natCast (x : Nat) (h : x < 2 ^ 32) : uint32 (x : Int) = x := by
  unfold uint32
  omega

theorem blockRequest_eq (idx L k : Nat) (hL : 0 < L) (hL32 : L ≤ 2 ^ 32)
    (hk : k < blockCount L) :
    blockRequest (idx : Int) (L : Int) (k : Int)
      = ⟨(idx : Int), ((16384 * k : Nat) : Int), ((blockLength L k : Nat) : Int)⟩ := by
  obtain ⟨h1, h2, h3, h4, h5⟩ := blockLength_bounds L k hk
  have w1 : wrap64 ((k : Int) * 16384) = ((16384 * k : Nat) : Int) := by
    rw [wrap64_eq _ (by omega) (by omega)]
    push_cast
    ring
  have w2 : wrap64 (((16384 * k : Nat) : Int) + 16384) = ((16384 * k + 16384 : Nat) : Int) := by
    rw [wrap64_eq _ (by omega) (by omega)]
    push_cast
    ring
  have hlen : (if ((16384 * k + 16384 : Nat) : Int) > (L : Int)
      then wrap64 ((L : Int) - ((16384 * k : Nat) : Int)) else (16384 : Int))
      = ((blockLength L k : Nat) : Int) := by
    by_cases hlast : k + 1 < blockCount L
    · have c : ¬ (((16384 * k + 16384 : Nat) : Int) > (L : Int)) := by
        have := h4 hlast
        omega
      rw [if_neg c, h4 hlast]
      rfl
    · have hk1 : k + 1 = blockCount L := by omega
      have h6 := h5 hk1
      by_cases c : ((16384 * k + 16384 : Nat) : Int) > (L : Int)
      · rw [if_pos c, wrap64_eq _ (by omega) (by omega)]
        omega
      · rw [if_neg c]
        omega
  unfold blockRequest
  simp only [w1, w2, hlen]

theorem sendRequest_ok (conn : Conn) (idx begin length : Nat) (budget : Nat)
    (hidx : idx < 2 ^ 32) (hbegin : begin < 2 ^ 32) (hlen : length < 2 ^ 32)
    (hb : conn.writeBudget = budget + 1) :
    sendRequest conn ⟨(idx : Int), (begin : Int), (length : Int)⟩
      = (.ok (), ⟨conn.input, conn.output ++ [requestMessage idx begin length], budget⟩) := by
  unfold sendRequest Conn.write
  simp only [uint32_natCast _ hidx, uint32_natCast _ hbegin, uint32_natCast _ hlen, hb]
  rfl

theorem sendRequest_block (conn : Conn) (idx L k budget : Nat) (hL : 0 < L)
    (hL32 : L ≤ 2 ^ 32) (hidx : idx < 2 ^ 32) (hk : k < blockCount L)
    (hb : conn.writeBudget = budget + 1) :
    sendRequest conn (blockRequest (idx : Int) (L : Int) (k : Int))
      = (.ok (), ⟨conn.input,
          conn.output ++ [requestMessage idx (16384 * k) (blockLength L k)], budget⟩) := by
  obtain ⟨h1, h2, h3, _, _⟩ := blockLength_bounds L k hk
  rw [blockRequest_eq idx L k hL hL32 hk]
  exact sendRequest_ok conn idx (16384 * k) (blockLength L k) budget hidx (by omega) (by omega) hb

theorem sendInitialRequests_ok (idx L : Nat) (hL : 0 < L) (hL32 : L ≤ 2 ^ 32)
    (hidx : idx < 2 ^ 32) : ∀ (m i : Nat) (conn : Conn), i + m ≤ blockCount L →
    m ≤ conn.writeBudget →
    sendInitialRequests (idx : Int) (L : Int) m (i : Int) conn
      = (.ok (), ⟨conn.input, conn.output ++ requestsFor idx L i m, conn.writeBudget - m⟩) := by
  intro m
  induction m with
  | zero =>
    intro i conn _ _
    simp [sendInitialRequests, requestsFor]
  | succ m ih =>
    intro i conn hi hb
    obtain ⟨b, hbe⟩ : ∃ b, conn.writeBudget = b + 1 := ⟨conn.writeBudget - 1, by omega⟩
    have hs := sendRequest_block conn idx L i b hL hL32 hidx (by omega) hbe
    have hnext := ih (i + 1) ⟨conn.input,
      conn.output ++ [requestMessage idx (16384 * i) (blockLength L i)], b⟩ (by omega)
      (by simp only; omega)
    have hcast : ((i : Int) + 1) = ((i + 1 : Nat) : Int) := by push_cast; rfl
    simp only [sendInitialRequests, hs, hcast, hnext]
    simp only [requestsFor, List.range'_succ, List.map_cons, List.append_assoc,
      List.singleton_append, hbe]
    congr 2
    omega

theorem peerReplies_succ (idx : Nat) (block : Nat → Bytes) (j d : Nat) :
    peerReplies idx block j (d + 1)
      = pieceMessage idx (16384 * j) (block j) ++ peerReplies idx block (j + 1) d := by
  simp [peerReplies, List.range'_succ]

theorem pieceMessage_length (idx begin : Nat) (block : Bytes) :
    (pieceMessage idx begin block).length = 13 + block.length := by
  simp [pieceMessage, buildPeerMessage, putUint32]
  omega

theorem peerReplies_length (idx : Nat) (block : Nat → Bytes) : ∀ (d j : Nat),
    d ≤ (peerReplies idx block j d).length := by
  intro d
  induction d with
  | zero => intro j; omega
  | succ d ih =>
    intro j
    rw [peerReplies_succ, List.length_append, pieceMessage_length]
    have := ih (j + 1)
    omega

theorem receivePiece_pieceMessage (idx begin : Nat) (block rest : Bytes) (out : List Bytes)
    (budget : Nat) (hidx : idx < 2 ^ 32) (hbegin : begin < 2 ^ 32)
    (hblock : block.length ≤ 16384) :
    receivePiece ⟨pieceMessage idx begin block ++ rest, out, budget⟩
      = (.ok ((idx : Int), (begin : Int), block), ⟨rest, out, budget⟩) := by
  have hlen : (putUint32 idx ++ putUint32 begin ++ block).length = 8 + block.length := by
    simp [putUint32]
    omega
  have hread := readPeerMessage_buildPeerMessage 7
    (putUint32 idx ++ putUint32 begin ++ block) rest out budget (by rw [hlen]; omega)
  have h8 : ¬ ((putUint32 idx ++ putUint32 begin ++ block).length < 8) := by
    rw [hlen]; omega
  have htake : (putUint32 idx ++ putUint32 begin ++ block).take 4
      = putUint32 idx ++ [] := by
    simp [putUint32]
  have hslice : slice (putUint32 idx ++ putUint32 begin ++ block) 4 8
      = putUint32 begin ++ [] := by
    simp [putUint32, slice]
  have hdrop : (putUint32 idx ++ putUint32 begin ++ block).drop 8 = block := by
    simp [putUint32]
  unfold receivePiece
  unfold pieceMessage
  rw [hread]
  simp only [ne_eq, not_true_eq_false, if_false, if_neg h8, htake, hslice, hdrop,
    beUint32_putUint32 idx hidx, beUint32_putUint32 begin hbegin]

theorem receivedBlocks_succ (block : Nat → Bytes) (j : Nat) :
    receivedBlocks block (j + 1)
      = receivedBlocks block j ++ [(((16384 * j : Nat) : Int), block j)] := by
  simp [receivedBlocks, List.range_succ]

theorem receivedBlocks_length (block : Nat → Bytes) (j : Nat) :
    (receivedBlocks block j).length = j := by
  simp [receivedBlocks]

theorem mapSet_receivedBlocks (block : Nat → Bytes) (j : Nat) :
    mapSet intLt (receivedBlocks block j) (((16384 * j : Nat) : Int)) (block j)
      = receivedBlocks block (j + 1) := by
  rw [receivedBlocks_succ]
  apply mapSet_int_append_last
  intro x hx
  simp only [receivedBlocks, List.mem_map, List.mem_range] at hx
  obtain ⟨k, hk, rfl⟩ := hx
  simp only
  omega

theorem requestsFor_succ (idx L m : Nat) :
    requestsFor idx L 0 (m + 1)
      = requestsFor idx L 0 m ++ [requestMessage idx (16384 * m) (blockLength L m)] := by
  simp [requestsFor, List.range'_concat]

/-- The receive loop against a peer that answers every request with the
requested block, from the point where the blocks `0..j-1` are recorded and
the requests `0..nx-1` are out. -/
theorem receiveBlocks_ok (idx L : Nat) (block : Nat → Bytes) (rest : Bytes)
    (out : List Bytes) (budget0 : Nat) (hL : 0 < L) (hL32 : L ≤ 2 ^ 32) (hidx : idx < 2 ^ 32)
    (hblock : ∀ k, k < blockCount L → (block k).length = blockLength L k)
    (hbudget : blockCount L ≤ budget0) :
    ∀ (d j nx fuel : Nat) (pending : Int), j + d = blockCount L →
    nx = min (blockCount L) (j + 5) → d + 1 ≤ fuel →
    receiveBlocks (idx : Int) (L : Int) (blockCount L : Int) fuel
        ⟨peerReplies idx block j d ++ rest, out ++ requestsFor idx L 0 nx, budget0 - nx⟩
        (receivedBlocks block j) (nx : Int) pending
      = (.ok (receivedBlocks block (blockCount L)),
          ⟨rest, out ++ requestsFor idx L 0 (blockCount L), budget0 - blockCount L⟩) := by
  intro d
  induction d with
  | zero =>
    intro j nx fuel pending hj hnx hfuel
    obtain ⟨f, rfl⟩ : ∃ f, fuel = f + 1 := ⟨fuel - 1, by omega⟩
    have hjn : j = blockCount L := by omega
    have hnx2 : nx = blockCount L := by omega
    subst hnx2
    have hc : ¬ (((receivedBlocks block j).length : Int) < (blockCount L : Int)) := by
      rw [receivedBlocks_length]; omega
    simp only [receiveBlocks, if_neg hc]
    rw [hjn]
    simp [peerReplies]
  | succ d ih =>
    intro j nx fuel pending hj hnx hfuel
    obtain ⟨f, rfl⟩ : ∃ f, fuel = f + 1 := ⟨fuel - 1, by omega⟩
    have hjn : j < blockCount L := by omega
    obtain ⟨b1, b2, b3, _, _⟩ := blockLength_bounds L j hjn
    have hc : ((receivedBlocks block j).length : Int) < (blockCount L : Int) := by
      rw [receivedBlocks_length]; omega
    have hrecv := receivePiece_pieceMessage idx (16384 * j) (block j)
      (peerReplies idx block (j + 1) d ++ rest) (out ++ requestsFor idx L 0 nx) (budget0 - nx)
      hidx (by omega) (by rw [hblock j hjn]; exact b2)
    have hinput : peerReplies idx block j (d + 1) ++ rest
        = pieceMessage idx (16384 * j) (block j) ++ (peerReplies idx block (j + 1) d ++ rest) := by
      rw [peerReplies_succ, List.append_assoc]
    have hidxeq : ¬ ((idx : Int) ≠ (idx : Int)) := fun h => h rfl
    simp only [receiveBlocks, if_pos hc, hinput, hrecv, if_neg hidxeq, mapSet_receivedBlocks]
    by_cases hnext : nx < blockCount L
    · have hnx5 : nx = j + 5 := by omega
      have hc2 : (nx : Int) < (blockCount L : Int) := by omega
      obtain ⟨b, hb⟩ : ∃ b, budget0 - nx = b + 1 := ⟨budget0 - nx - 1, by omega⟩
      have hsend := sendRequest_block
        ⟨peerReplies idx block (j + 1) d ++ rest, out ++ requestsFor idx L 0 nx, budget0 - nx⟩
        idx L nx b hL hL32 hidx hnext hb
      have hcast : ((nx : Int) + 1) = ((nx + 1 : Nat) : Int) := by push_cast; rfl
      have hb2 : b = budget0 - (nx + 1) := by omega
      rw [if_pos hc2, hsend]
      simp only [hcast, List.append_assoc, ← requestsFor_succ, hb2]
      exact ih (j + 1) (nx + 1) f (pending - 1 + 1) (by omega) (by omega) (by omega)
    · have hc2 : ¬ ((nx : Int) < (blockCount L : Int)) := by omega
      rw [if_neg hc2]
      exact ih (j + 1) nx f (pending - 1) (by omega) (by omega) (by omega)

theorem ascending_offsets : ∀ (n s : Nat),
    ascending intLt ((List.range' s n).map (fun k => ((16384 * k : Nat) : Int))) = true := by
  intro n
  induction n with
  | zero => intro s; rfl
  | succ n ih =>
    intro s
    cases n with
    | zero => rfl
    | succ m =>
      have h := ih (s + 1)
      simp only [List.range'_succ, List.map_cons] at h ⊢
      simp only [ascending, Bool.and_eq_true, intLt, decide_eq_true_eq]
      exact ⟨by omega, h⟩

theorem receivedBlocks_ascending (block : Nat → Bytes) (n : Nat) :
    ascending intLt ((receivedBlocks block n).map Prod.fst) = true := by
  have := ascending_offsets n 0
  simpa [receivedBlocks, List.range_eq_range', List.map_map, Function.comp] using this

theorem sum_block_lengths (L : Nat) (block : Nat → Bytes)
    (hblock : ∀ k, k < blockCount L → (block k).length = blockLength L k) :
    ∀ j, j < blockCount L →
      ((receivedBlocks block j).map (fun x => (x.2.length : Int))).sum
        = ((16384 * j : Nat) : Int) := by
  intro j
  induction j with
  | zero => intro _; simp [receivedBlocks]
  | succ j ih =>
    intro hj
    obtain ⟨_, _, _, b4, _⟩ := blockLength_bounds L j (by omega)
    rw [receivedBlocks_succ, List.map_append, List.sum_append, ih (by omega)]
    simp only [List.map_cons, List.map_nil, List.sum_cons, List.sum_nil, add_zero]
    rw [hblock j (by omega), b4 hj]
    push_cast
    ring

theorem sum_block_lengths_total (L : Nat) (hL : 0 < L) (block : Nat → Bytes)
    (hblock : ∀ k, k < blockCount L → (block k).length = blockLength L k) :
    ((receivedBlocks block (blockCount L)).map (fun x => (x.2.length : Int))).sum
      = (L : Int) := by
  have hpos := blockCount_pos L hL
  obtain ⟨m, hm⟩ : ∃ m, blockCount L = m + 1 := ⟨blockCount L - 1, by omega⟩
  obtain ⟨_, _, _, _, b5⟩ := blockLength_bounds L m (by omega)
  rw [hm, receivedBlocks_succ, List.map_append, List.sum_append,
    sum_block_lengths L block hblock m (by omega)]
  simp only [List.map_cons, List.map_nil, List.sum_cons, List.sum_nil, add_zero]
  rw [hblock m (by omega)]
  have := b5 hm.symm
  omega

theorem combineBlocks_receivedBlocks (L : Nat) (hL : 0 < L) (hmax : (L : Int) ≤ maxAlloc)
    (block : Nat → Bytes)
    (hblock : ∀ k, k < blockCount L → (block k).length = blockLength L k) :
    combineBlocks (receivedBlocks block (blockCount L)) (L : Int)
      = .ok ((List.range (blockCount L)).map block).flatten := by
  rw [combineBlocks_ok_iff _ _ (receivedBlocks_ascending block _) hmax]
  have hpos := blockCount_pos L hL
  refine ⟨?_, ?_, sum_block_lengths_total L hL block hblock, ?_⟩
  · intro h
    have := congrArg List.length h
    rw [receivedBlocks_length] at this
    simp at this
    omega
  · intro j e hj
    have hjn : j < blockCount L := by
      have := (List.getElem?_eq_some_iff.mp hj).1
      rwa [receivedBlocks_length] at this
    have he : e = (((16384 * j : Nat) : Int), block j) := by
      simp only [receivedBlocks, List.getElem?_map, List.getElem?_range hjn, Option.map_some',
        Option.some.injEq] at hj
      exact hj.symm
    have htake : (receivedBlocks block (blockCount L)).take j = receivedBlocks block j := by
      simp only [receivedBlocks, ← List.map_take, List.take_range]
      rw [Nat.min_eq_left (by omega)]
    rw [htake, he, sum_block_lengths L block hblock j hjn]
  · simp only [receivedBlocks, List.map_map]
    rfl

theorem numBlocks_eq (L : Nat) (hL32 : L ≤ 2 ^ 32) :
    (wrap64 (wrap64 ((L : Int) + 16384) - 1)).tdiv 16384 = ((blockCount L : Nat) : Int) := by
  have h1 : wrap64 ((L : Int) + 16384) = (L : Int) + 16384 :=
    wrap64_eq _ (by omega) (by omega)
  have h2 : wrap64 ((L : Int) + 16384 - 1) = (L : Int) + 16384 - 1 :=
    wrap64_eq _ (by omega) (by omega)
  rw [h1, h2, Int.tdiv_eq_ediv (by omega) (by omega)]
  unfold blockCount
  omega

theorem initialRequests_toNat (n : Nat) :
    (if (n : Int) < 5 then (n : Int) else 5).toNat = min n 5 := by
  split <;> omega

/-- The straight-line part of `downloadPieceReuseConn`, given what each of
its steps returns. -/
theorem downloadPieceReuseConn_of_steps (sha1 : Bytes → Bytes) (conn : Conn)
    (infoDict : List (Bytes × Value)) (pieceIndex pieceLength : Int) (pieceHash : Bytes)
    (numBlocks : Int) (m : Nat) (c c2 : Conn) (blocks : List (Int × Bytes)) (piece : Bytes)
    (h1 : getPieceInfoFromDict infoDict pieceIndex = .ok (pieceLength, pieceHash))
    (h2 : (wrap64 (wrap64 (pieceLength + 16384) - 1)).tdiv 16384 = numBlocks)
    (h3 : (if numBlocks < 5 then numBlocks else 5).toNat = m)
    (h4 : sendInitialRequests pieceIndex pieceLength m 0 conn = (.ok (), c))
    (h5 : receiveBlocks pieceIndex pieceLength numBlocks (c.input.length + 1) c []
      (m : Int) (m : Int) = (.ok blocks, c2))
    (h6 : combineBlocks blocks pieceLength = .ok piece) :
    downloadPieceReuseConn sha1 conn infoDict pieceIndex
      = (if sha1 piece = pieceHash then .ok piece else .error Fault.error, c2) := by
  unfold downloadPieceReuseConn
  rw [h1]
  simp only
  rw [h2, h3, h4]
  simp only
  rw [h5]
  simp only
  rw [h6]
  simp only [verifyPieceHash, decide_eq_true_eq]
  split <;> rfl

theorem requestsFor_32768 (idx : Nat) :
    (List.range' 0 (blockCount 32768)).map
        (fun k => requestMessage idx (16384 * k) (blockLength 32768 k))
      = [requestMessage idx 0 16384, requestMessage idx 16384 16384] := by
  have h2 : blockCount 32768 = 2 := by rfl
  have l0 : blockLength 32768 0 = 16384 := by rfl
  have l1 : blockLength 32768 1 = 16384 := by rfl
  rw [h2]
  simp only [List.range'_succ, List.range'_zero, List.map_cons, List.map_nil, l0, l1]

/-- C6 (amended): for a piece of length `0 < L ≤ 2^32` with index below
`2^32` (what the 32-bit fields of a request can name) and a peer that answers
each request with the requested block, `downloadPieceReuseConn` reads exactly
those answers and writes exactly `ceil(L / 16384)` request messages, one per
block `k = 0, 1, ...` in increasing order, with `begin = 16384·k` and length
16384 for every block but the last, whose length is `L mod 16384` if that is
non-zero and 16384 otherwise; it returns the concatenation of the blocks when
its SHA-1 is the listed hash and an error otherwise. For `L = 32768` the
requests are two, of 16384 bytes each. -/
theorem downloadPieceReuseConn_requests (sha1 : Bytes → Bytes)
    (infoDict : List (Bytes × Value)) (idx L : Nat) (pieceHash : Bytes)
    (block : Nat → Bytes) (rest : Bytes) (out : List Bytes) (budget : Nat)
    (hinfo : getPieceInfoFromDict infoDict (idx : Int) = .ok ((L : Int), pieceHash))
    (hL : 0 < L) (hL32 : L ≤ 2 ^ 32) (hidx : idx < 2 ^ 32)
    (hblock : ∀ k, k < blockCount L → (block k).length = blockLength L k)
    (hbudget : blockCount L ≤ budget) :
    downloadPieceReuseConn sha1
        ⟨peerReplies idx block 0 (blockCount L) ++ rest, out, budget⟩ infoDict (idx : Int)
      = (if sha1 ((List.range (blockCount L)).map block).flatten = pieceHash
          then .ok ((List.range (blockCount L)).map block).flatten else .error Fault.error,
         ⟨rest,
          out ++ (List.range' 0 (blockCount L)).map
            (fun k => requestMessage idx (16384 * k) (blockLength L k)),
          budget - blockCount L⟩) ∧
    ((List.range' 0 (blockCount L)).map
      (fun k => requestMessage idx (16384 * k) (blockLength L k))).length = blockCount L ∧
    (List.range' 0 (blockCount 32768)).map
        (fun k => requestMessage idx (16384 * k) (blockLength 32768 k))
      = [requestMessage idx 0 16384, requestMessage idx 16384 16384] := by
  refine ⟨?_, by simp, requestsFor_32768 idx⟩
  have hinit := sendInitialRequests_ok idx L hL hL32 hidx (min (blockCount L) 5) 0
    ⟨peerReplies idx block 0 (blockCount L) ++ rest, out, budget⟩ (by omega)
    (by simp only; omega)
  have hfuel : blockCount L + 1
      ≤ (peerReplies idx block 0 (blockCount L) ++ rest).length + 1 := by
    have := peerReplies_length idx block (blockCount L) 0
    rw [List.length_append]
    omega
  have hloop := receiveBlocks_ok idx L block rest out budget hL hL32 hidx hblock hbudget
    (blockCount L) 0 (min (blockCount L) 5)
    ((peerReplies idx block 0 (blockCount L) ++ rest).length + 1)
    ((min (blockCount L) 5 : Nat) : Int) (by omega) (by omega) hfuel
  have hmax : (L : Int) ≤ maxAlloc := by
    have h48 : (2 : Nat) ^ 32 ≤ 2 ^ 48 := by norm_num
    have : L ≤ 2 ^ 48 := le_trans hL32 h48
    unfold maxAlloc
    exact_mod_cast this
  have hcomb := combineBlocks_receivedBlocks L hL hmax block hblock
  have h0 : ((0 : Nat) : Int) = 0 := rfl
  have hrb : receivedBlocks block 0 = [] := rfl
  rw [h0] at hinit
  rw [hrb] at hloop
  exact downloadPieceReuseConn_of_steps sha1 _ infoDict (idx : Int) (L : Int) pieceHash
    (blockCount L : Int) (min (blockCount L) 5) _ _ _ _ hinfo (numBlocks_eq L hL32)
    (initialRequests_toNat (blockCount L)) hinit hloop hcomb

/-- C6 at the single-piece torrent of 32768 bytes: two requests of 16384
bytes, answered by two blocks. -/
theorem downloadPieceReuseConn_requests_witness :
    downloadPieceReuseConn toySha1
        ⟨peerReplies 0 (fun _ => List.replicate 16384 1) 0 (blockCount 32768) ++ [], [], 2⟩
        info32k ((0 : Nat) : Int)
      = (if toySha1 ((List.range (blockCount 32768)).map
            (fun _ => List.replicate 16384 (1 : Byte))).flatten = List.replicate 20 0
          then .ok ((List.range (blockCount 32768)).map
            (fun _ => List.replicate 16384 (1 : Byte))).flatten else .error Fault.error,
         ⟨[],
          [] ++ (List.range' 0 (blockCount 32768)).map
            (fun k => requestMessage 0 (16384 * k) (blockLength 32768 k)),
          2 - blockCount 32768⟩) ∧
    ((List.range' 0 (blockCount 32768)).map
      (fun k => requestMessage 0 (16384 * k) (blockLength 32768 k))).length
        = blockCount 32768 ∧
    (List.range' 0 (blockCount 32768)).map
        (fun k => requestMessage 0 (16384 * k) (blockLength 32768 k))
      = [requestMessage 0 0 16384, requestMessage 0 16384 16384] :=
  downloadPieceReuseConn_requests toySha1 info32k 0 32768 (List.replicate 20 0)
    (fun _ => List.replicate 16384 1) [] [] 2 (by rfl) (by decide) (by decide) (by decide)
    (by
      intro k hk
      have h2 : blockCount 32768 = 2 := by rfl
      rw [h2] at hk
      rw [List.length_replicate]
      unfold blockLength
      rw [h2]
      split
      · rfl
      · rfl)
    (by decide)


/-- C6 as stated fails for a piece length at which `pieceLength + blockSize`
wraps: for the piece of `2^63 - 1` bytes of `hugePieceInfo` the block count
`ceil(L / 16384)` is 562949953421312, but `numBlocks` comes out negative, no
request is written, and the call fails in `combineBlocks`. -/
theorem downloadPieceReuseConn_requests_counterexample :
    getPieceInfoFromDict hugePieceInfo 0
      = .ok (9223372036854775807, List.replicate 20 0) ∧
    blockCount 9223372036854775807 = 562949953421312 ∧
    downloadPieceReuseConn toySha1 ⟨[], [], 5⟩ hugePieceInfo 0
      = (.error Fault.error, ⟨[], [], 5⟩) :=
  ⟨by rfl, by rfl, by rfl⟩

/-! ### `decodeBencode` is total -/

mutual
/-- With fuel above twice the length of the input `decodeBencode` never runs
out of fuel, and a successful call consumes at least one byte. -/
theorem decodeFuel_total : ∀ (fuel : Nat) (s : Bytes), 2 * s.length + 1 ≤ fuel →
    ∀ r, decodeFuel fuel s = r →
      r ≠ .error Fault.fuel ∧ ∀ v n, r = .ok (v, n) → 1 ≤ n
  | 0, _, hf, _, _ => by omega
  | fuel + 1, s, hf, r, hr => by
    cases s with
    | nil =>
      simp only [decodeFuel] at hr
      subst hr
      exact ⟨by simp, by intro v n h; cases h⟩
    | cons c rest =>
      simp only [decodeFuel] at hr
      split at hr
      · split at hr
        · subst hr
          exact ⟨by simp, by intro v n h; cases h⟩
        · split at hr
          · subst hr
            exact ⟨by simp, by intro v n h; cases h⟩
          · subst hr
            refine ⟨by simp, ?_⟩
            intro v n h
            simp only [Except.ok.injEq, Prod.mk.injEq] at h
            omega
      · split at hr
        · split at hr
          · subst hr
            exact ⟨by simp, by intro v n h; cases h⟩
          · split at hr
            · subst hr
              exact ⟨by simp, by intro v n h; cases h⟩
            · subst hr
              refine ⟨by simp, ?_⟩
              intro v n h
              simp only [Except.ok.injEq, Prod.mk.injEq] at h
              omega
        · split at hr
          · exact decodeListLoop_total fuel (c :: rest) 1 []
              (by simp only [List.length_cons] at hf ⊢; omega) r hr
          · split at hr
            · exact decodeDictLoop_total fuel (c :: rest) 1 []
                (by simp only [List.length_cons] at hf ⊢; omega) r hr
            · subst hr
              exact ⟨by simp, by intro v n h; cases h⟩
/-- The list loop never runs out of fuel. -/
theorem decodeListLoop_total : ∀ (fuel : Nat) (s : Bytes) (index : Nat) (acc : List Value),
    2 * (s.length - index) + 2 ≤ fuel →
    ∀ r, decodeListLoop fuel s index acc = r →
      r ≠ .error Fault.fuel ∧ ∀ v n, r = .ok (v, n) → 1 ≤ n
  | 0, _, _, _, hf, _, _ => by omega
  | fuel + 1, s, index, acc, hf, r, hr => by
    simp only [decodeListLoop] at hr
    split at hr
    · rename_i hcond
      have hdrop : (s.drop index).length = s.length - index := List.length_drop _ _
      split at hr
      · rename_i e hd
        have := (decodeFuel_total fuel (s.drop index) (by rw [hdrop]; omega) _ hd).1
        subst hr
        exact ⟨this, by intro v n h; cases h⟩
      · rename_i value consumed hd
        have hc := (decodeFuel_total fuel (s.drop index) (by rw [hdrop]; omega) _ hd).2
          value consumed rfl
        exact decodeListLoop_total fuel s (index + consumed) _ (by omega) r hr
    · split at hr
      · subst hr
        exact ⟨by simp, by intro v n h; cases h⟩
      · subst hr
        refine ⟨by simp, ?_⟩
        intro v n h
        simp only [Except.ok.injEq, Prod.mk.injEq] at h
        omega
/-- The dictionary loop never runs out of fuel. -/
theorem decodeDictLoop_total : ∀ (fuel : Nat) (s : Bytes) (index : Nat)
    (acc : List (Bytes × Value)), 2 * (s.length - index) + 2 ≤ fuel →
    ∀ r, decodeDictLoop fuel s index acc = r →
      r ≠ .error Fault.fuel ∧ ∀ v n, r = .ok (v, n) → 1 ≤ n
  | 0, _, _, _, hf, _, _ => by omega
  | fuel + 1, s, index, acc, hf, r, hr => by
    simp only [decodeDictLoop] at hr
    split at hr
    · rename_i hcond
      have hdrop : (s.drop index).length = s.length - index := List.length_drop _ _
      split at hr
      · rename_i e hd
        have := (decodeFuel_total fuel (s.drop index) (by rw [hdrop]; omega) _ hd).1
        subst hr
        exact ⟨this, by intro v n h; cases h⟩
      · rename_i key consumed hd
        have hc := (decodeFuel_total fuel (s.drop index) (by rw [hdrop]; omega) _ hd).2
          key consumed rfl
        have hdrop2 : (s.drop (index + consumed)).length = s.length - (index + consumed) :=
          List.length_drop _ _
        split at hr
        · rename_i e hd2
          have := (decodeFuel_total fuel (s.drop (index + consumed))
            (by rw [hdrop2]; omega) _ hd2).1
          subst hr
          exact ⟨this, by intro v n h; cases h⟩
        · rename_i value consumed2 hd2
          split at hr
          · exact decodeDictLoop_total fuel s (index + consumed + consumed2) _ (by omega) r hr
          · subst hr
            exact ⟨by simp, by intro v n h; cases h⟩
    · split at hr
      · subst hr
        exact ⟨by simp, by intro v n h; cases h⟩
      · subst hr
        refine ⟨by simp, ?_⟩
        intro v n h
        simp only [Except.ok.injEq, Prod.mk.injEq] at h
        omega
end

/-- The function `decodeBencode` returns a value, an error or a panic on every
input: the fuel of the model never runs out. -/
theorem decodeBencode_total (s : Bytes) : decodeBencode s ≠ .error Fault.fuel :=
  (decodeFuel_total (2 * s.length + 1) s (Nat.le_refl _) _ rfl).1

/-! ### Decoded integers are Go `int`s -/

theorem atoiDigits_range (neg : Bool) (ds : Bytes) (v : Int) (h : atoiDigits neg ds = some v) :
    -2 ^ 63 ≤ v ∧ v < 2 ^ 63 := by
  unfold atoiDigits at h
  split at h
  · cases h
  · split at h
    · split at h
      · split at h
        · simp only [Option.some.injEq] at h
          omega
        · cases h
      · split at h
        · simp only [Option.some.injEq] at h
          omega
        · cases h
    · cases h

theorem atoi_range (s : Bytes) (v : Int) (h : atoi s = some v) : -2 ^ 63 ≤ v ∧ v < 2 ^ 63 := by
  cases s with
  | nil => cases h
  | cons c r =>
    simp only [atoi] at h
    split at h
    · exact atoiDigits_range _ _ _ h
    · split at h
      · exact atoiDigits_range _ _ _ h
      · exact atoiDigits_range _ _ _ h

theorem allInRange_snoc (acc : List Value) (v : Value) (h1 : Value.AllInRange acc)
    (h2 : v.IntsInRange) : Value.AllInRange (acc ++ [v]) := by
  induction acc with
  | nil => exact ⟨h2, trivial⟩
  | cons a l ih => exact ⟨h1.1, ih h1.2⟩

theorem entriesInRange_mapSet (acc : List (Bytes × Value)) (k : Bytes) (v : Value)
    (h1 : Value.EntriesInRange acc) (h2 : v.IntsInRange) :
    Value.EntriesInRange (mapSet bytesLt acc k v) := by
  induction acc with
  | nil => exact ⟨h2, trivial⟩
  | cons a l ih =>
    obtain ⟨k0, v0⟩ := a
    simp only [mapSet]
    split
    · exact ⟨h2, h1⟩
    · split
      · exact ⟨h1.1, ih h1.2⟩
      · exact ⟨h2, h1.2⟩

theorem mapGet_inRange (m : List (Bytes × Value)) (k : Bytes) (v : Value)
    (h1 : Value.EntriesInRange m) (h2 : mapGet m k = some v) : v.IntsInRange := by
  induction m with
  | nil => cases h2
  | cons a l ih =>
    obtain ⟨k0, v0⟩ := a
    simp only [mapGet] at h2
    split at h2
    · simp only [Option.some.injEq] at h2
      rw [← h2]; exact h1.1
    · exact ih h1.2 h2

mutual
/-- Every integer `decodeBencode` returns lies in the 64-bit range. -/
theorem decodeFuel_inRange : ∀ (fuel : Nat) (s : Bytes) (v : Value) (n : Nat),
    decodeFuel fuel s = .ok (v, n) → v.IntsInRange
  | 0, _, _, _, h => by cases h
  | fuel + 1, s, v, n, h => by
    cases s with
    | nil => cases h
    | cons c r =>
      simp only [decodeFuel] at h
      split at h
      · split at h
        · cases h
        · split at h
          · cases h
          · simp only [Except.ok.injEq, Prod.mk.injEq] at h
            rw [← h.1]
            trivial
      · split at h
        · split at h
          · cases h
          · split at h
            · cases h
            · rename_i value hv
              simp only [Except.ok.injEq, Prod.mk.injEq] at h
              rw [← h.1]
              exact atoi_range _ _ hv
        · split at h
          · exact decodeListLoop_inRange fuel _ 1 [] v n trivial h
          · split at h
            · exact decodeDictLoop_inRange fuel _ 1 [] v n trivial h
            · cases h
/-- The list loop keeps every integer in range. -/
theorem decodeListLoop_inRange : ∀ (fuel : Nat) (s : Bytes) (index : Nat) (acc : List Value)
    (v : Value) (n : Nat), Value.AllInRange acc →
    decodeListLoop fuel s index acc = .ok (v, n) → v.IntsInRange
  | 0, _, _, _, _, _, _, h => by cases h
  | fuel + 1, s, index, acc, v, n, hacc, h => by
    simp only [decodeListLoop] at h
    split at h
    · split at h
      · cases h
      · rename_i value consumed hd
        exact decodeListLoop_inRange fuel s _ _ v n
          (allInRange_snoc acc value hacc (decodeFuel_inRange fuel _ value consumed hd)) h
    · split at h
      · cases h
      · simp only [Except.ok.injEq, Prod.mk.injEq] at h
        rw [← h.1]
        exact hacc
/-- The dictionary loop keeps every integer in range. -/
theorem decodeDictLoop_inRange : ∀ (fuel : Nat) (s : Bytes) (index : Nat)
    (acc : List (Bytes × Value)) (v : Value) (n : Nat), Value.EntriesInRange acc →
    decodeDictLoop fuel s index acc = .ok (v, n) → v.IntsInRange
  | 0, _, _, _, _, _, _, h => by cases h
  | fuel + 1, s, index, acc, v, n, hacc, h => by
    simp only [decodeDictLoop] at h
    split at h
    · split at h
      · cases h
      · rename_i key consumed hk
        split at h
        · cases h
        · rename_i value consumed2 hval
          split at h
          · rename_i keyStr
            exact decodeDictLoop_inRange fuel s _ _ v n
              (entriesInRange_mapSet acc keyStr value hacc
                (decodeFuel_inRange fuel _ value consumed2 hval)) h
          · cases h
    · split at h
      · cases h
      · simp only [Except.ok.injEq, Prod.mk.injEq] at h
        rw [← h.1]
        exact hacc
end

/-! ### The receive loop is total -/

theorem readFull_input (conn : Conn) (n : Nat) (bs : Bytes) (c : Conn)
    (h : readFull conn n = (some bs, c)) : c.input.length + n = conn.input.length := by
  unfold readFull at h
  split at h
  · simp only [Prod.mk.injEq, Option.some.injEq] at h
    rw [← h.2]
    simp only [List.length_drop]
    omega
  · simp at h

theorem readPeerMessage_result (conn : Conn) (r : Except Fault (Byte × Bytes)) (c : Conn)
    (h : readPeerMessage conn = (r, c)) :
    r ≠ .error Fault.fuel ∧ (∀ x, r = .ok x → c.input.length + 4 ≤ conn.input.length) := by
  unfold readPeerMessage at h
  split at h
  · simp only [Prod.mk.injEq] at h
    rw [← h.1]
    exact ⟨by simp, by intro x hx; cases hx⟩
  · rename_i bs c1 h4
    have hin := readFull_input _ _ _ _ h4
    simp only at h
    split at h
    · simp only [Prod.mk.injEq] at h
      rw [← h.1, ← h.2]
      exact ⟨by simp, by intro x _; omega⟩
    · split at h
      · simp only [Prod.mk.injEq] at h
        rw [← h.1]
        exact ⟨by simp, by intro x hx; cases hx⟩
      · rename_i ids c2 h1
        have hin2 := readFull_input _ _ _ _ h1
        split at h
        · split at h
          · simp only [Prod.mk.injEq] at h
            rw [← h.1]
            exact ⟨by simp, by intro x hx; cases hx⟩
          · rename_i p c3 hp
            have hin3 := readFull_input _ _ _ _ hp
            simp only [Prod.mk.injEq] at h
            rw [← h.1, ← h.2]
            exact ⟨by simp, by intro x _; omega⟩
        · simp only [Prod.mk.injEq] at h
          rw [← h.1, ← h.2]
          exact ⟨by simp, by intro x _; omega⟩

theorem receivePiece_result (conn : Conn) (r : Except Fault (Int × Int × Bytes)) (c : Conn)
    (h : receivePiece conn = (r, c)) :
    r ≠ .error Fault.fuel ∧ (∀ x, r = .ok x → c.input.length + 4 ≤ conn.input.length) := by
  unfold receivePiece at h
  split at h
  · rename_i e c1 hread
    have := (readPeerMessage_result conn _ _ hread).1
    simp only [Prod.mk.injEq] at h
    rw [← h.1]
    exact ⟨fun hh => this (by cases hh; rfl), by intro x hx; cases hx⟩
  · rename_i messageID payload c1 hread
    have := (readPeerMessage_result conn _ _ hread).2 _ rfl
    split at h
    · simp only [Prod.mk.injEq] at h
      rw [← h.1]
      exact ⟨by simp, by intro x hx; cases hx⟩
    · split at h
      · simp only [Prod.mk.injEq] at h
        rw [← h.1]
        exact ⟨by simp, by intro x hx; cases hx⟩
      · simp only [Prod.mk.injEq] at h
        rw [← h.1, ← h.2]
        exact ⟨by simp, by intro x _; exact this⟩

theorem sendRequest_result (conn : Conn) (b : BlockInfo) (r : Except Fault Unit) (c : Conn)
    (h : sendRequest conn b = (r, c)) : r ≠ .error Fault.fuel ∧ c.input = conn.input := by
  unfold sendRequest Conn.write at h
  split at h
  · simp only [Prod.mk.injEq] at h
    rw [← h.1, ← h.2]
    exact ⟨by simp, rfl⟩
  · simp only [Prod.mk.injEq] at h
    rw [← h.1, ← h.2]
    exact ⟨by simp, rfl⟩

/-- With fuel above the length of the input the receive loop never runs out of
fuel: every pass consumes a message. -/
theorem receiveBlocks_total (pieceIndex pieceLength numBlocks : Int) : ∀ (fuel : Nat)
    (conn : Conn) (blocks : List (Int × Bytes)) (next pending : Int),
    conn.input.length + 1 ≤ fuel →
    (receiveBlocks pieceIndex pieceLength numBlocks fuel conn blocks next pending).1
      ≠ .error Fault.fuel := by
  intro fuel
  induction fuel with
  | zero => intro conn blocks next pending h; omega
  | succ fuel ih =>
    intro conn blocks next pending hf
    simp only [receiveBlocks]
    split
    · split
      · rename_i e c hrecv
        intro hh
        simp only at hh
        cases hh
        exact (receivePiece_result conn _ _ hrecv).1 rfl
      · rename_i index begin block c hrecv
        have hin := (receivePiece_result conn _ _ hrecv).2 _ rfl
        split
        · simp
        · split
          · split
            · rename_i e c2 hsend
              intro hh
              simp only at hh
              cases hh
              exact (sendRequest_result c _ _ _ hsend).1 rfl
            · rename_i u c2 hsend
              have := (sendRequest_result c _ _ _ hsend).2
              exact ih c2 _ _ _ (by rw [this]; omega)
          · exact ih c _ _ _ (by omega)
    · simp

theorem getPieceInfoFromDict_ne_fuel (infoDict : List (Bytes × Value)) (pieceIndex : Int)
    (r : Except Fault (Int × Bytes)) (h : getPieceInfoFromDict infoDict pieceIndex = r) :
    r ≠ .error Fault.fuel := by
  unfold getPieceInfoFromDict at h
  split at h
  · split at h
    · split at h
      · simp only at h
        split at h
        · subst h; simp
        · split at h
          · subst h; simp
          · subst h; simp
      · subst h; simp
    · subst h; simp
  · subst h; simp

theorem combineLoop_ne_fuel : ∀ (es : List (Int × Bytes)) (result : Bytes) (total : Int),
    combineLoop es result total ≠ .error Fault.fuel := by
  intro es
  induction es with
  | nil => intro result total; simp [combineLoop]
  | cons e l ih =>
    intro result total
    obtain ⟨b, d⟩ := e
    simp only [combineLoop]
    split
    · simp
    · exact ih _ _

theorem combineBlocks_ne_fuel (blocks : List (Int × Bytes)) (pieceLength : Int)
    (r : Except Fault Bytes) (h : combineBlocks blocks pieceLength = r) :
    r ≠ .error Fault.fuel := by
  unfold combineBlocks at h
  split at h
  · subst h; simp
  · split at h
    · subst h; simp
    · split at h
      · rename_i e hloop
        subst h
        intro hh
        cases hh
        exact combineLoop_ne_fuel _ _ _ hloop
      · split at h
        · subst h; simp
        · subst h; simp

theorem sendInitialRequests_ne_fuel (pieceIndex pieceLength : Int) : ∀ (n : Nat) (i : Int)
    (conn : Conn), (sendInitialRequests pieceIndex pieceLength n i conn).1
      ≠ .error Fault.fuel := by
  intro n
  induction n with
  | zero => intro i conn; simp [sendInitialRequests]
  | succ n ih =>
    intro i conn
    simp only [sendInitialRequests]
    split
    · rename_i e c hsend
      intro hh
      simp only at hh
      cases hh
      exact (sendRequest_result conn _ _ _ hsend).1 rfl
    · exact ih _ _

/-- The function `downloadPieceReuseConn` returns data, an error or a panic on
every connection: the fuel of the model never runs out. -/
theorem downloadPieceReuseConn_total (sha1 : Bytes → Bytes) (conn : Conn)
    (infoDict : List (Bytes × Value)) (pieceIndex : Int) (r : Except Fault Bytes) (c : Conn)
    (h : downloadPieceReuseConn sha1 conn infoDict pieceIndex = (r, c)) :
    r ≠ .error Fault.fuel := by
  unfold downloadPieceReuseConn at h
  split at h
  · rename_i e hinfo
    simp only [Prod.mk.injEq] at h
    rw [← h.1]
    intro hh
    cases hh
    exact getPieceInfoFromDict_ne_fuel _ _ _ hinfo rfl
  · simp only at h
    split at h
    · rename_i e c1 hinit
      simp only [Prod.mk.injEq] at h
      rw [← h.1]
      intro hh
      cases hh
      exact absurd (congrArg Prod.fst hinit) (sendInitialRequests_ne_fuel _ _ _ _ _)
    · rename_i u c1 hinit
      split at h
      · rename_i e c2 hloop
        simp only [Prod.mk.injEq] at h
        rw [← h.1]
        intro hh
        cases hh
        exact absurd (congrArg Prod.fst hloop)
          (receiveBlocks_total _ _ _ _ _ _ _ _ (Nat.le_refl _))
      · split at h
        · rename_i e hcomb
          simp only [Prod.mk.injEq] at h
          rw [← h.1]
          intro hh
          cases hh
          exact combineBlocks_ne_fuel _ _ _ hcomb rfl
        · split at h
          · simp only [Prod.mk.injEq] at h
            rw [← h.1]
            simp
          · simp only [Prod.mk.injEq] at h
            rw [← h.1]
            simp

/-! ### The metadata reply -/

theorem beUint32_lt (b : Bytes) : beUint32 b < 2 ^ 32 := by
  unfold beUint32
  split
  · rename_i b0 b1 b2 b3 _
    have h0 := b0.isLt
    have h1 := b1.isLt
    have h2 := b2.isLt
    have h3 := b3.isLt
    omega
  · omega

theorem readFull_length (conn : Conn) (n : Nat) (bs : Bytes) (c : Conn)
    (h : readFull conn n = (some bs, c)) : bs.length ≤ n := by
  unfold readFull at h
  split at h
  · simp only [Prod.mk.injEq, Option.some.injEq] at h
    rw [← h.1]
    exact List.length_take_le _ _
  · simp at h

theorem readPeerMessage_payload_length (conn : Conn) (messageID : Byte) (payload : Bytes)
    (c : Conn) (h : readPeerMessage conn = (.ok (messageID, payload), c)) :
    payload.length < 2 ^ 32 := by
  unfold readPeerMessage at h
  split at h
  · cases h
  · rename_i messageLenBytes c1 _
    have hlt := beUint32_lt messageLenBytes
    simp only at h
    split at h
    · simp only [Prod.mk.injEq, Except.ok.injEq] at h
      rw [← h.1.2]
      simp
    · split at h
      · cases h
      · split at h
        · split at h
          · cases h
          · rename_i p c3 hread
            simp only [Prod.mk.injEq, Except.ok.injEq] at h
            rw [← h.1.2]
            have := readFull_length _ _ _ _ hread
            omega
        · simp only [Prod.mk.injEq, Except.ok.injEq] at h
          rw [← h.1.2]
          simp

theorem wrap64_slice_bounds (c : Nat) (t : Int) (len : Nat)
    (ht1 : -2 ^ 63 ≤ t) (ht2 : t < 2 ^ 63)
    (h1 : ¬ (wrap64 (1 + (c : Int) + t) > (len : Int)))
    (h2 : ¬ (wrap64 (1 + (c : Int) + t) < 1 + (c : Int))) :
    wrap64 (1 + (c : Int) + t) = 1 + (c : Int) + t ∧ 0 ≤ t ∧ 1 + (c : Int) + t ≤ (len : Int) := by
  unfold wrap64 at *
  omega

/-- What a header and a payload must satisfy for `metadataFromPayload` to
return the dictionary `m`. -/
theorem metadataFromPayload_ok (sha1 : Bytes → Bytes) (infoHashHex : Bytes)
    (ourExtensionID : Int) (payload : Bytes) (m : List (Bytes × Value))
    (h : metadataFromPayload sha1 infoHashHex ourExtensionID payload = .ok m) :
    ∃ (hdr : List (Bytes × Value)) (consumed : Nat) (totalSize : Int) (infoHash : Bytes)
      (n : Nat),
      payload.head? = some (toByteInt ourExtensionID) ∧
      decodeBencode (payload.drop 1) = .ok (.dict hdr, consumed) ∧
      mapGet hdr keyMsgType = some (.int 1) ∧
      mapGet hdr keyPiece = some (.int 0) ∧
      mapGet hdr keyTotalSize = some (.int totalSize) ∧
      0 ≤ totalSize ∧ 1 + consumed + totalSize.toNat ≤ payload.length ∧
      hexDecodeString infoHashHex = some infoHash ∧
      sha1 (slice payload (1 + consumed) (1 + consumed + totalSize.toNat)) = infoHash ∧
      decodeBencode (slice payload (1 + consumed) (1 + consumed + totalSize.toNat))
        = .ok (.dict m, n) := by
  unfold metadataFromPayload at h
  split at h
  · cases h
  · rename_i extensionID dictStr
    split at h
    · cases h
    · rename_i hext
      split at h
      · cases h
      · rename_i hdr consumed hdec
        have hrange : Value.EntriesInRange hdr :=
          decodeFuel_inRange _ _ _ _ hdec
        split at h
        · rename_i msgType hmsg
          split at h
          · cases h
          · rename_i hmsg1
            split at h
            · rename_i piece hpiece
              split at h
              · cases h
              · rename_i hpiece0
                split at h
                · rename_i totalSize htotal
                  have htr := mapGet_inRange hdr keyTotalSize _ hrange htotal
                  simp only at h
                  split at h
                  · cases h
                  · rename_i hend
                    split at h
                    · cases h
                    · rename_i hstart
                      obtain ⟨hw, ht0, hle⟩ := wrap64_slice_bounds consumed totalSize
                        (extensionID :: dictStr).length htr.1 htr.2 hend hstart
                      split at h
                      · cases h
                      · rename_i infoHash hhex
                        split at h
                        · cases h
                        · rename_i hsha
                          split at h
                          · cases h
                          · rename_i metadataMap n hmeta
                            simp only [Except.ok.injEq] at h
                            have e1 : (1 + (consumed : Int)).toNat = 1 + consumed := by omega
                            have e2 : (wrap64 (1 + (consumed : Int) + totalSize)).toNat
                                = 1 + consumed + totalSize.toNat := by
                              rw [hw]; omega
                            rw [e1, e2] at hsha hmeta
                            refine ⟨hdr, consumed, totalSize, infoHash, n, ?_, hdec, ?_, ?_,
                              htotal, ht0, by omega, hhex, ?_, ?_⟩
                            · simp only [List.head?_cons, Option.some.injEq]
                              by_contra hne
                              exact hext hne
                            · have : msgType = 1 := by
                                by_contra hne
                                exact hmsg1 hne
                              rw [← this]; exact hmsg
                            · have : piece = 0 := by
                                by_contra hne
                                exact hpiece0 hne
                              rw [← this]; exact hpiece
                            · by_contra hne
                              exact hsha hne
                            · rw [← h]; exact hmeta
                          · cases h
                · cases h
            · cases h
        · cases h
      · cases h

/-- A reply that passes every check but the hash is rejected with an error. -/
theorem metadataFromPayload_mismatch (sha1 : Bytes → Bytes) (infoHashHex : Bytes)
    (ourExtensionID : Int) (dictStr : Bytes) (hdr : List (Bytes × Value)) (consumed : Nat)
    (totalSize : Int) (infoHash : Bytes)
    (hdec : decodeBencode dictStr = .ok (.dict hdr, consumed))
    (hmsg : mapGet hdr keyMsgType = some (.int 1))
    (hpiece : mapGet hdr keyPiece = some (.int 0))
    (htotal : mapGet hdr keyTotalSize = some (.int totalSize))
    (ht0 : 0 ≤ totalSize)
    (hle : 1 + consumed + totalSize.toNat ≤ (toByteInt ourExtensionID :: dictStr).length)
    (hlen : (toByteInt ourExtensionID :: dictStr).length < 2 ^ 63)
    (hhex : hexDecodeString infoHashHex = some infoHash)
    (hsha : sha1 (slice (toByteInt ourExtensionID :: dictStr) (1 + consumed)
      (1 + consumed + totalSize.toNat)) ≠ infoHash) :
    metadataFromPayload sha1 infoHashHex ourExtensionID (toByteInt ourExtensionID :: dictStr)
      = .error Fault.error := by
  have hw : wrap64 (1 + (consumed : Int) + totalSize) = 1 + (consumed : Int) + totalSize :=
    wrap64_eq _ (by omega) (by omega)
  have c1 : ¬ (1 + (consumed : Int) + totalSize
      > ((toByteInt ourExtensionID :: dictStr).length : Int)) := by omega
  have c2 : ¬ (1 + (consumed : Int) + totalSize < 1 + (consumed : Int)) := by omega
  have e1 : (1 + (consumed : Int)).toNat = 1 + consumed := by omega
  have e2 : (1 + (consumed : Int) + totalSize).toNat = 1 + consumed + totalSize.toNat := by
    omega
  have n1 : ¬ (toByteInt ourExtensionID ≠ toByteInt ourExtensionID) := fun h => h rfl
  have n2 : ¬ ((1 : Int) ≠ 1) := fun h => h rfl
  have n3 : ¬ ((0 : Int) ≠ 0) := fun h => h rfl
  unfold metadataFromPayload
  simp only [if_neg n1, hdec, hmsg, if_neg n2, hpiece, if_neg n3, htotal, hw, if_neg c1,
    if_neg c2, e1, e2, hhex, if_pos hsha]

/-- C9: `getMetadataFromMagnet` returns an info dictionary `m` only when the
reply read after the metadata request is an extended message (id 20) whose
first payload byte is our `ut_metadata` id, whose header dictionary has
`msg_type` 1, `piece` 0 and an integer `total_size ≥ 0`, and for which the
SHA-1 of the `total_size` bytes that follow the header equals the info-hash
of the magnet link (its hexadecimal text decoded); `m` is the decoding of
exactly those bytes. A reply that passes all other checks but whose hash
differs yields an error. -/
theorem getMetadataFromMagnet_spec (sha1 : Bytes → Bytes) (infoHashHex : Bytes)
    (peerExtensionId ourExtensionID : Int) :
    (∀ (conn conn2 : Conn) (m : List (Bytes × Value)),
      getMetadataFromMagnet sha1 infoHashHex conn peerExtensionId ourExtensionID
        = (.ok m, conn2) →
      ∃ (request : Bytes) (c : Conn) (payload : Bytes) (hdr : List (Bytes × Value))
        (consumed : Nat) (totalSize : Int) (infoHash : Bytes) (n : Nat),
        buildMetadataRequestMessage (toByteInt peerExtensionId) = .ok request ∧
        conn.write request = (.ok (), c) ∧
        readPeerMessage c = (.ok (20, payload), conn2) ∧
        payload.head? = some (toByteInt ourExtensionID) ∧
        decodeBencode (payload.drop 1) = .ok (.dict hdr, consumed) ∧
        mapGet hdr keyMsgType = some (.int 1) ∧
        mapGet hdr keyPiece = some (.int 0) ∧
        mapGet hdr keyTotalSize = some (.int totalSize) ∧
        0 ≤ totalSize ∧ 1 + consumed + totalSize.toNat ≤ payload.length ∧
        hexDecodeString infoHashHex = some infoHash ∧
        sha1 (slice payload (1 + consumed) (1 + consumed + totalSize.toNat)) = infoHash ∧
        decodeBencode (slice payload (1 + consumed) (1 + consumed + totalSize.toNat))
          = .ok (.dict m, n)) ∧
    (∀ (conn c c1 : Conn) (request dictStr : Bytes) (hdr : List (Bytes × Value))
      (consumed : Nat) (totalSize : Int) (infoHash : Bytes),
      buildMetadataRequestMessage (toByteInt peerExtensionId) = .ok request →
      conn.write request = (.ok (), c) →
      readPeerMessage c = (.ok (20, toByteInt ourExtensionID :: dictStr), c1) →
      decodeBencode dictStr = .ok (.dict hdr, consumed) →
      mapGet hdr keyMsgType = some (.int 1) →
      mapGet hdr keyPiece = some (.int 0) →
      mapGet hdr keyTotalSize = some (.int totalSize) →
      0 ≤ totalSize →
      1 + consumed + totalSize.toNat ≤ (toByteInt ourExtensionID :: dictStr).length →
      hexDecodeString infoHashHex = some infoHash →
      sha1 (slice (toByteInt ourExtensionID :: dictStr) (1 + consumed)
        (1 + consumed + totalSize.toNat)) ≠ infoHash →
      getMetadataFromMagnet sha1 infoHashHex conn peerExtensionId ourExtensionID
        = (.error Fault.error, c1)) := by
  constructor
  · intro conn conn2 m h
    unfold getMetadataFromMagnet at h
    split at h
    · cases h
    · rename_i request hreq
      split at h
      · cases h
      · rename_i u c hwrite
        split at h
        · cases h
        · rename_i messageID payload c1 hread
          split at h
          · cases h
          · rename_i hid
            split at h
            · cases h
            · simp only [Prod.mk.injEq] at h
              obtain ⟨hdr, consumed, totalSize, infoHash, n, h1, h2, h3, h4, h5, h6, h7, h8,
                h9, h10⟩ := metadataFromPayload_ok sha1 infoHashHex ourExtensionID payload m h.1
              have hid2 : messageID = 20 := by
                by_contra hne
                exact hid hne
              refine ⟨request, c, payload, hdr, consumed, totalSize, infoHash, n, hreq, ?_, ?_,
                h1, h2, h3, h4, h5, h6, h7, h8, h9, h10⟩
              · cases u
                exact hwrite
              · rw [hread, hid2, h.2]
  · intro conn c c1 request dictStr hdr consumed totalSize infoHash hreq hwrite hread hdec hmsg
      hpiece htotal ht0 hle hhex hsha
    have hlen := readPeerMessage_payload_length c 20 _ c1 hread
    have hmis := metadataFromPayload_mismatch sha1 infoHashHex ourExtensionID dictStr hdr
      consumed totalSize infoHash hdec hmsg hpiece htotal ht0 hle (by omega) hhex hsha
    have n1 : ¬ ((20 : Byte) ≠ 20) := fun h => h rfl
    have n2 : ¬ ((toByteInt ourExtensionID :: dictStr).length = 0) := by simp
    unfold getMetadataFromMagnet
    rw [hreq]
    simp only
    rw [hwrite]
    simp only
    rw [hread]
    simp only [if_neg n1, if_neg n2, hmis]

/-- C9 on a reply that carries `sampleMetadata`: with the matching info-hash
the decoded dictionary is returned, and it is the one the theorem describes;
with an info-hash of forty zeros the same reply yields an error. -/
theorem getMetadataFromMagnet_spec_witness :
    (∃ m conn2, getMetadataFromMagnet toySha1 sampleInfoHashHex metadataConn 2 1
        = (.ok m, conn2) ∧
      ∃ (request : Bytes) (c : Conn) (payload : Bytes) (hdr : List (Bytes × Value))
        (consumed : Nat) (totalSize : Int) (infoHash : Bytes) (n : Nat),
        buildMetadataRequestMessage (toByteInt 2) = .ok request ∧
        metadataConn.write request = (.ok (), c) ∧
        readPeerMessage c = (.ok (20, payload), conn2) ∧
        payload.head? = some (toByteInt 1) ∧
        decodeBencode (payload.drop 1) = .ok (.dict hdr, consumed) ∧
        mapGet hdr keyMsgType = some (.int 1) ∧
        mapGet hdr keyPiece = some (.int 0) ∧
        mapGet hdr keyTotalSize = some (.int totalSize) ∧
        0 ≤ totalSize ∧ 1 + consumed + totalSize.toNat ≤ payload.length ∧
        hexDecodeString sampleInfoHashHex = some infoHash ∧
        toySha1 (slice payload (1 + consumed) (1 + consumed + totalSize.toNat)) = infoHash ∧
        decodeBencode (slice payload (1 + consumed) (1 + consumed + totalSize.toNat))
          = .ok (.dict m, n)) ∧
    (getMetadataFromMagnet toySha1 (List.replicate 40 48) metadataConn 2 1).1
      = .error Fault.error :=
  ⟨⟨_, _, by rfl,
      (getMetadataFromMagnet_spec toySha1 sampleInfoHashHex 2 1).1 metadataConn _ _ (by rfl)⟩,
   congrArg Prod.fst
     ((getMetadataFromMagnet_spec toySha1 (List.replicate 40 48) 2 1).2 metadataConn _ _ _
       (sampleHeader ++ sampleMetadata) _ 42 71 (List.replicate 20 0)
       (by rfl) (by rfl) (by rfl) (by rfl) (by rfl) (by rfl) (by rfl) (by decide) (by decide)
       (by rfl) (by decide))⟩

/-! ### Truncated input -/

/-- C11: at proper prefixes of well-formed bencodings `decodeBencode` panics
where an error is due: on the empty input (`bencodedString[0]` is out of
range), on `5:ab`, a prefix of the string `5:abcde` whose declared length
exceeds the bytes that remain (slice bounds out of range), and on `d1:a`, a
prefix of the dictionary `d1:ai1ee` (the value is decoded from an empty
string). The prefixes `l` of `le` and `i1` of `i1e` give an error, as the
list, dictionary and integer paths check for the end of the input. -/
theorem decodeBencode_truncated_panics :
    decodeBencode [] = .error Fault.panic ∧
    (Canonical [53, 58, 97, 98, 99, 100, 101] ∧
      [53, 58, 97, 98] ++ [99, 100, 101] = ([53, 58, 97, 98, 99, 100, 101] : Bytes) ∧
      decodeBencode [53, 58, 97, 98] = .error Fault.panic) ∧
    (Canonical [100, 49, 58, 97, 105, 49, 101, 101] ∧
      [100, 49, 58, 97] ++ [105, 49, 101, 101] = ([100, 49, 58, 97, 105, 49, 101, 101] : Bytes) ∧
      decodeBencode [100, 49, 58, 97] = .error Fault.panic) ∧
    decodeBencode [108] = .error Fault.error ∧
    decodeBencode [105, 49] = .error Fault.error := by
  refine ⟨by rfl, ⟨?_, by rfl, by rfl⟩, ⟨?_, by rfl, by rfl⟩, by rfl, by rfl⟩
  · exact Canonical.str [53] [97, 98, 99, 100, 101]
      (minimalDecimal_cons 53 [] (by decide) (by decide)) (by decide)
  · exact Canonical.dict [([49], [97], [105, 49, 101])]
      (by
        intro e he
        simp only [List.mem_singleton] at he
        subst he
        exact ⟨minimalDecimal_cons 49 [] (by decide) (by decide), by decide⟩)
      (by
        intro e he
        simp only [List.mem_singleton] at he
        subst he
        exact Canonical.nat [49] (minimalDecimal_cons 49 [] (by decide) (by decide)) (by decide))
      (by decide)

/-! ### Integer tokens -/

theorem decodeFuel_integer_token (fuel : Nat) (body rest : Bytes)
    (hb : ∀ b ∈ body, b ≠ 101) :
    decodeFuel (fuel + 1) ((105 : Byte) :: body ++ (101 : Byte) :: rest) =
      match atoi body with
      | none => .error Fault.error
      | some value => .ok (.int value, body.length + 2) := by
  have hs : (105 : Byte) :: body ++ (101 : Byte) :: rest
      = (105 : Byte) :: (body ++ 101 :: rest) := by simp
  rw [hs]
  have hidx : indexByte 101 (body ++ 101 :: rest) = some body.length :=
    indexByte_append 101 _ _ hb
  have hslice : slice ((105 : Byte) :: (body ++ 101 :: rest)) 1 (body.length + 1) = body := by
    unfold slice
    simp only [List.drop_succ_cons, List.drop_zero, Nat.add_sub_cancel]
    exact List.take_left' rfl
  have hd : isDigit (105 : Byte) = false := by decide
  simp only [decodeFuel, hd, Bool.false_eq_true, if_false, if_true, List.drop_succ_cons,
    List.drop_zero, hidx, hslice]

theorem isDigit_ne_e (b : Byte) (h : isDigit b = true) : b ≠ 101 := by
  intro hb
  subst hb
  exact absurd h (by decide)

theorem atoi_digits (ds : Bytes) (hne : ds ≠ []) (hd : ∀ b ∈ ds, isDigit b = true)
    (hr : decimalValue ds < 2 ^ 63) : atoi ds = some (decimalValue ds : Int) := by
  have hall : ds.all isDigit = true := List.all_eq_true.mpr hd
  cases ds with
  | nil => exact absurd rfl hne
  | cons c r =>
    have hc : isDigit c = true := hd c (List.mem_cons_self _ _)
    have h45 : c ≠ 45 := isDigit_ne c 45 hc (by decide)
    have h43 : c ≠ 43 := isDigit_ne c 43 hc (by decide)
    simp only [atoi, if_neg h45, if_neg h43]
    unfold atoiDigits
    rw [if_neg hne, if_pos hall]
    simp only [Bool.false_eq_true, if_false]
    rw [if_pos hr]

theorem atoi_minus_digits (ds : Bytes) (hne : ds ≠ []) (hd : ∀ b ∈ ds, isDigit b = true)
    (hr : decimalValue ds ≤ 2 ^ 63) :
    atoi ((45 : Byte) :: ds) = some (-(decimalValue ds : Int)) := by
  have hall : ds.all isDigit = true := List.all_eq_true.mpr hd
  simp only [atoi, if_true]
  unfold atoiDigits
  rw [if_neg hne, if_pos hall]
  simp only [if_true]
  rw [if_pos hr]

/-- C12 (amended): `decodeBencode` accepts an integer token whenever
`strconv.Atoi` accepts its body, in minimal decimal form or not: a body of
one or more decimal digits (leading zeros included) with a value below `2^63`
decodes to that value, and `-` followed by such digits (also `-0`) with a
value up to `2^63` decodes to its negation; a body that `strconv.Atoi` does
not accept is rejected with an error. -/
theorem decodeBencode_integer_tokens (ds rest : Bytes) (hne : ds ≠ [])
    (hd : ∀ b ∈ ds, isDigit b = true) :
    (decimalValue ds < 2 ^ 63 →
      decodeBencode ((105 : Byte) :: ds ++ (101 : Byte) :: rest)
        = .ok (.int (decimalValue ds : Int), ds.length + 2)) ∧
    (decimalValue ds ≤ 2 ^ 63 →
      decodeBencode ((105 : Byte) :: (45 : Byte) :: ds ++ (101 : Byte) :: rest)
        = .ok (.int (-(decimalValue ds : Int)), ds.length + 3)) ∧
    (∀ body : Bytes, (∀ b ∈ body, b ≠ 101) → atoi body = none →
      decodeBencode ((105 : Byte) :: body ++ (101 : Byte) :: rest) = .error Fault.error) := by
  have hde : ∀ b ∈ ds, b ≠ 101 := fun b hb => isDigit_ne_e b (hd b hb)
  refine ⟨?_, ?_, ?_⟩
  · intro hr
    unfold decodeBencode
    rw [decodeFuel_integer_token _ ds rest hde, atoi_digits ds hne hd hr]
  · intro hr
    have hde2 : ∀ b ∈ (45 : Byte) :: ds, b ≠ 101 := by
      intro b hb
      rcases List.mem_cons.mp hb with h | h
      · rw [h]; decide
      · exact hde b h
    have h := decodeFuel_integer_token
      (2 * ((105 : Byte) :: (45 : Byte) :: ds ++ (101 : Byte) :: rest).length) (45 :: ds) rest hde2
    rw [atoi_minus_digits ds hne hd hr] at h
    unfold decodeBencode
    exact h
  · intro body hb hnone
    unfold decodeBencode
    rw [decodeFuel_integer_token _ body rest hb, hnone]

/-- C12 at the token `i03e`: it decodes to 3. -/
theorem decodeBencode_integer_tokens_witness :
    decimalValue [48, 51] < 2 ^ 63 ∧
    decodeBencode [105, 48, 51, 101] = .ok (.int 3, 4) :=
  ⟨Nat.lt_of_lt_of_le (by decide : decimalValue [48, 51] < 4) (by norm_num),
   (decodeBencode_integer_tokens [48, 51] [] (by decide) (List.all_eq_true.mp (by decide))).1
     (Nat.lt_of_lt_of_le (by decide : decimalValue [48, 51] < 4) (by norm_num))⟩

/-- C12 fails as stated: the tokens `i03e`, `i00e` and `i-0e` are accepted,
with the values 3, 0 and 0. -/
theorem decodeBencode_integer_tokens_counterexample :
    decodeBencode [105, 48, 51, 101] = .ok (.int 3, 4) ∧
    decodeBencode [105, 48, 48, 101] = .ok (.int 0, 4) ∧
    decodeBencode [105, 45, 48, 101] = .ok (.int 0, 4) :=
  ⟨by rfl, by rfl, by rfl⟩

/-! ### A failed piece inside a session -/

theorem WorkQueue.IsEmpty_of_Get (queue queue1 : WorkQueue) (p : Int)
    (h : queue.Get = ((p, true), queue1)) : queue.IsEmpty = false := by
  unfold WorkQueue.Get at h
  unfold WorkQueue.IsEmpty
  cases hq : queue.queue with
  | nil => rw [hq] at h; simp at h
  | cons a r => simp

theorem downloadPieceWithPeer_step_fail (sha1 : Bytes → Bytes)
    (infoDict : List (Bytes × Value)) (fuel : Nat) (conn conn1 : Conn)
    (queue queue1 : WorkQueue) (buffer : PieceBuffer) (pieceIndex : Int) (e : Fault)
    (hget : queue.Get = ((pieceIndex, true), queue1))
    (hbuf : buffer.Get pieceIndex = none)
    (hfail : downloadPieceReuseConn sha1 conn infoDict pieceIndex = (.error e, conn1))
    (he : e ≠ Fault.panic) :
    downloadPieceWithPeer sha1 infoDict (fuel + 1) conn queue buffer
      = downloadPieceWithPeer sha1 infoDict fuel conn1 (queue1.Add pieceIndex) buffer := by
  have hne := WorkQueue.IsEmpty_of_Get queue queue1 pieceIndex hget
  rw [downloadPieceWithPeer]
  simp only [hne, Bool.false_eq_true, if_false, hget, hbuf, hfail]

theorem downloadPieceWithPeer_step_ok (sha1 : Bytes → Bytes)
    (infoDict : List (Bytes × Value)) (fuel : Nat) (conn conn1 : Conn)
    (queue queue1 : WorkQueue) (buffer : PieceBuffer) (pieceIndex : Int) (data : Bytes)
    (hget : queue.Get = ((pieceIndex, true), queue1))
    (hbuf : buffer.Get pieceIndex = none)
    (hok : downloadPieceReuseConn sha1 conn infoDict pieceIndex = (.ok data, conn1)) :
    downloadPieceWithPeer sha1 infoDict (fuel + 1) conn queue buffer
      = downloadPieceWithPeer sha1 infoDict fuel conn1 queue1 (buffer.Set pieceIndex data) := by
  have hne := WorkQueue.IsEmpty_of_Get queue queue1 pieceIndex hget
  rw [downloadPieceWithPeer]
  simp only [hne, Bool.false_eq_true, if_false, hget, hbuf, hok]

theorem downloadPieceWithPeerByMagnet_step_fail (sha1 : Bytes → Bytes)
    (metadataMap : List (Bytes × Value)) (fuel : Nat) (conn conn1 : Conn)
    (queue queue1 : WorkQueue) (buffer : PieceBuffer) (pieceIndex : Int) (e : Fault)
    (hget : queue.Get = ((pieceIndex, true), queue1))
    (hbuf : buffer.Get pieceIndex = none)
    (hfail : downloadPieceWithMagnetReuseConn sha1 conn metadataMap pieceIndex
      = (.error e, conn1))
    (he : e ≠ Fault.panic) :
    downloadPieceWithPeerByMagnet sha1 metadataMap (fuel + 1) conn queue buffer
      = downloadPieceWithPeerByMagnet sha1 metadataMap fuel conn1 (queue1.Add pieceIndex)
          buffer := by
  have hne := WorkQueue.IsEmpty_of_Get queue queue1 pieceIndex hget
  rw [downloadPieceWithPeerByMagnet]
  simp only [hne, Bool.false_eq_true, if_false, hget, hbuf, hfail]

theorem downloadPieceWithPeerByMagnet_step_ok (sha1 : Bytes → Bytes)
    (metadataMap : List (Bytes × Value)) (fuel : Nat) (conn conn1 : Conn)
    (queue queue1 : WorkQueue) (buffer : PieceBuffer) (pieceIndex : Int) (data : Bytes)
    (hget : queue.Get = ((pieceIndex, true), queue1))
    (hbuf : buffer.Get pieceIndex = none)
    (hok : downloadPieceWithMagnetReuseConn sha1 conn metadataMap pieceIndex
      = (.ok data, conn1)) :
    downloadPieceWithPeerByMagnet sha1 metadataMap (fuel + 1) conn queue buffer
      = downloadPieceWithPeerByMagnet sha1 metadataMap fuel conn1 queue1
          (buffer.Set pieceIndex data) := by
  have hne := WorkQueue.IsEmpty_of_Get queue queue1 pieceIndex hget
  rw [downloadPieceWithPeerByMagnet]
  simp only [hne, Bool.false_eq_true, if_false, hget, hbuf, hok]

/-- C13 (amended): when downloading a piece fails inside a session (read
error, wrong piece index, non-contiguous blocks or hash mismatch), the
session puts that index back on the work queue, subject to the retry cap of
`WorkQueue.Add`, and goes on with its loop on the same connection: the run is
the run of the loop from the connection as the failed download left it, with
the index added back; and when the next index `q` of that queue is not in the
buffer and its download succeeds, the session commits `q` and goes on. This
holds for `downloadPieceWithPeer` and for `downloadPieceWithPeerByMagnet`. -/
theorem downloadPieceWithPeer_failure_continues (sha1 : Bytes → Bytes)
    (infoDict : List (Bytes × Value)) (fuel : Nat) (conn conn1 : Conn)
    (queue queue1 : WorkQueue) (buffer : PieceBuffer) (pieceIndex : Int) (e : Fault)
    (hget : queue.Get = ((pieceIndex, true), queue1))
    (hbuf : buffer.Get pieceIndex = none)
    (hfail : downloadPieceReuseConn sha1 conn infoDict pieceIndex = (.error e, conn1))
    (he : e ≠ Fault.panic) :
    (downloadPieceWithPeer sha1 infoDict (fuel + 1) conn queue buffer
        = downloadPieceWithPeer sha1 infoDict fuel conn1 (queue1.Add pieceIndex) buffer ∧
      downloadPieceWithPeerByMagnet sha1 infoDict (fuel + 1) conn queue buffer
        = downloadPieceWithPeerByMagnet sha1 infoDict fuel conn1 (queue1.Add pieceIndex)
            buffer) ∧
    (∀ (q : Int) (queue2 : WorkQueue) (data : Bytes) (conn2 : Conn),
      (queue1.Add pieceIndex).Get = ((q, true), queue2) →
      buffer.Get q = none →
      downloadPieceReuseConn sha1 conn1 infoDict q = (.ok data, conn2) →
      downloadPieceWithPeer sha1 infoDict (fuel + 2) conn queue buffer
          = downloadPieceWithPeer sha1 infoDict fuel conn2 queue2 (buffer.Set q data) ∧
        downloadPieceWithPeerByMagnet sha1 infoDict (fuel + 2) conn queue buffer
          = downloadPieceWithPeerByMagnet sha1 infoDict fuel conn2 queue2
              (buffer.Set q data)) := by
  refine ⟨⟨downloadPieceWithPeer_step_fail sha1 infoDict fuel conn conn1 queue queue1 buffer
      pieceIndex e hget hbuf hfail he,
    downloadPieceWithPeerByMagnet_step_fail sha1 infoDict fuel conn conn1 queue queue1 buffer
      pieceIndex e hget hbuf hfail he⟩, ?_⟩
  intro q queue2 data conn2 hget2 hbuf2 hok
  constructor
  · rw [downloadPieceWithPeer_step_fail sha1 infoDict (fuel + 1) conn conn1 queue queue1 buffer
      pieceIndex e hget hbuf hfail he]
    exact downloadPieceWithPeer_step_ok sha1 infoDict fuel conn1 conn2 _ queue2 buffer q data
      hget2 hbuf2 hok
  · rw [downloadPieceWithPeerByMagnet_step_fail sha1 infoDict (fuel + 1) conn conn1 queue queue1
      buffer pieceIndex e hget hbuf hfail he]
    exact downloadPieceWithPeerByMagnet_step_ok sha1 infoDict fuel conn1 conn2 _ queue2 buffer q
      data hget2 hbuf2 hok

/-- C13 on a torrent of two pieces: the download of piece 0 fails on a hash
mismatch, piece 0 goes back on the queue, and the session takes piece 1 next
on the same connection. -/
theorem downloadPieceWithPeer_failure_continues_witness :
    downloadPieceReuseConn toySha1 failThenServeConn twoPieceInfo 0
      = (.error Fault.error,
          ⟨pieceMessage 1 0 [4, 5, 6], [requestMessage 0 0 3], 7⟩) ∧
    downloadPieceWithPeer toySha1 twoPieceInfo 3 failThenServeConn
        ((WorkQueue.empty.Add 0).Add 1) ⟨[]⟩
      = downloadPieceWithPeer toySha1 twoPieceInfo 2
          ⟨pieceMessage 1 0 [4, 5, 6], [requestMessage 0 0 3], 7⟩
          ⟨[1, 0], some [(0, 2), (1, 1)], 3⟩ ⟨[]⟩ :=
  ⟨by rfl,
   (downloadPieceWithPeer_failure_continues toySha1 twoPieceInfo 2 failThenServeConn
      ⟨pieceMessage 1 0 [4, 5, 6], [requestMessage 0 0 3], 7⟩
      ((WorkQueue.empty.Add 0).Add 1) ⟨[1], some [(0, 1), (1, 1)], 3⟩ ⟨[]⟩ 0 Fault.error
      (by rfl) (by rfl) (by rfl) (by decide)).1.1⟩

/-- C13 fails as stated: in a session whose download of piece 0 fails (the
hash does not match), the session goes on, claims piece 1 from the queue and
commits it over the same connection; piece 0 is tried again until the retry
cap is reached. -/
theorem downloadPieceWithPeer_failure_continues_counterexample :
    downloadPieceReuseConn toySha1 failThenServeConn twoPieceInfo 0
      = (.error Fault.error,
          ⟨pieceMessage 1 0 [4, 5, 6], [requestMessage 0 0 3], 7⟩) ∧
    downloadPieceWithPeer toySha1 twoPieceInfo 5 failThenServeConn
        ((WorkQueue.empty.Add 0).Add 1) ⟨[]⟩
      = .ok (⟨[], [requestMessage 0 0 3, requestMessage 1 0 3, requestMessage 0 0 3,
                requestMessage 0 0 3], 4⟩,
             ⟨[], some [(0, 3), (1, 1)], 3⟩, ⟨[(1, [4, 5, 6])]⟩) ∧
    downloadPieceWithPeerByMagnet toySha1 twoPieceInfo 5 failThenServeConn
        ((WorkQueue.empty.Add 0).Add 1) ⟨[]⟩
      = .ok (⟨[], [requestMessage 0 0 3, requestMessage 1 0 3, requestMessage 0 0 3,
                requestMessage 0 0 3], 4⟩,
             ⟨[], some [(0, 3), (1, 1)], 3⟩, ⟨[(1, [4, 5, 6])]⟩) :=
  ⟨by rfl, by rfl, by rfl⟩

/-! ### Keep-alive frames -/

theorem readPeerMessage_keepAlive (input : Bytes) (out : List Bytes) (budget : Nat) :
    readPeerMessage ⟨keepAlive ++ input, out, budget⟩
      = (.ok (0, []), ⟨input, out, budget⟩) := by
  have r := readFull_append keepAlive input out budget
  rw [show keepAlive.length = 4 from rfl] at r
  unfold readPeerMessage
  rw [r]
  have hz : beUint32 keepAlive = 0 := by rfl
  simp only [hz, if_true]

/-- A keep-alive in front of the stream is passed over by `waitForBitfield`. -/
theorem waitForBitfieldFuel_keepAlive (fuel : Nat) (input : Bytes) (out : List Bytes)
    (budget : Nat) :
    waitForBitfieldFuel (fuel + 1) ⟨keepAlive ++ input, out, budget⟩
      = waitForBitfieldFuel fuel ⟨input, out, budget⟩ := by
  rw [waitForBitfieldFuel, readPeerMessage_keepAlive]
  simp

/-- A keep-alive in front of the stream is passed over by `waitForUnchoke`. -/
theorem waitForUnchokeFuel_keepAlive (fuel : Nat) (input : Bytes) (out : List Bytes)
    (budget : Nat) :
    waitForUnchokeFuel (fuel + 1) ⟨keepAlive ++ input, out, budget⟩
      = waitForUnchokeFuel fuel ⟨input, out, budget⟩ := by
  rw [waitForUnchokeFuel, readPeerMessage_keepAlive]
  simp

/-- With fuel above the length of the input `waitForBitfield` never runs out
of fuel, and more fuel does not change its result. -/
theorem waitForBitfieldFuel_total : ∀ (fuel : Nat) (conn : Conn),
    conn.input.length + 1 ≤ fuel →
    (waitForBitfieldFuel fuel conn).1 ≠ .error Fault.fuel ∧
    ∀ fuel2, conn.input.length + 1 ≤ fuel2 →
      waitForBitfieldFuel fuel2 conn = waitForBitfieldFuel fuel conn := by
  intro fuel
  induction fuel using Nat.strong_induction_on with
  | _ fuel ih =>
    intro conn hf
    cases fuel with
    | zero => omega
    | succ f =>
      have key : ∀ g, conn.input.length + 1 ≤ g + 1 →
          waitForBitfieldFuel (g + 1) conn = waitForBitfieldFuel (f + 1) conn ∧
          (waitForBitfieldFuel (f + 1) conn).1 ≠ .error Fault.fuel := by
        intro g hg
        rw [waitForBitfieldFuel, waitForBitfieldFuel]
        cases hr : readPeerMessage conn with
        | mk r c =>
          have hres := readPeerMessage_result conn r c hr
          cases r with
          | error e =>
            refine ⟨rfl, ?_⟩
            simp only
            exact fun hh => hres.1 (by cases hh; rfl)
          | ok x =>
            obtain ⟨messageID, payload⟩ := x
            have hlen := hres.2 _ rfl
            have hc1 : c.input.length + 1 ≤ f := by omega
            have hc2 : c.input.length + 1 ≤ g := by omega
            have i1 := ih f (Nat.lt_succ_self f) c hc1
            simp only
            split
            · exact ⟨i1.2 g hc2, i1.1⟩
            · split
              · exact ⟨rfl, by simp⟩
              · exact ⟨i1.2 g hc2, i1.1⟩
      refine ⟨(key f hf).2, ?_⟩
      intro fuel2 h2
      cases fuel2 with
      | zero => omega
      | succ g => exact (key g h2).1

/-- With fuel above the length of the input `waitForUnchoke` never runs out of
fuel, and more fuel does not change its result. -/
theorem waitForUnchokeFuel_total : ∀ (fuel : Nat) (conn : Conn),
    conn.input.length + 1 ≤ fuel →
    (waitForUnchokeFuel fuel conn).1 ≠ .error Fault.fuel ∧
    ∀ fuel2, conn.input.length + 1 ≤ fuel2 →
      waitForUnchokeFuel fuel2 conn = waitForUnchokeFuel fuel conn := by
  intro fuel
  induction fuel using Nat.strong_induction_on with
  | _ fuel ih =>
    intro conn hf
    cases fuel with
    | zero => omega
    | succ f =>
      have key : ∀ g, conn.input.length + 1 ≤ g + 1 →
          waitForUnchokeFuel (g + 1) conn = waitForUnchokeFuel (f + 1) conn ∧
          (waitForUnchokeFuel (f + 1) conn).1 ≠ .error Fault.fuel := by
        intro g hg
        rw [waitForUnchokeFuel, waitForUnchokeFuel]
        cases hr : readPeerMessage conn with
        | mk r c =>
          have hres := readPeerMessage_result conn r c hr
          cases r with
          | error e =>
            refine ⟨rfl, ?_⟩
            simp only
            exact fun hh => hres.1 (by cases hh; rfl)
          | ok x =>
            obtain ⟨messageID, payload⟩ := x
            have hlen := hres.2 _ rfl
            have hc1 : c.input.length + 1 ≤ f := by omega
            have hc2 : c.input.length + 1 ≤ g := by omega
            have i1 := ih f (Nat.lt_succ_self f) c hc1
            simp only
            split
            · exact ⟨i1.2 g hc2, i1.1⟩
            · split
              · split
                · exact ⟨rfl, by simp⟩
                · exact ⟨rfl, by simp⟩
              · exact ⟨i1.2 g hc2, i1.1⟩
      refine ⟨(key f hf).2, ?_⟩
      intro fuel2 h2
      cases fuel2 with
      | zero => omega
      | succ g => exact (key g h2).1

theorem waitForBitfield_keepAlive (input : Bytes) (out : List Bytes) (budget : Nat) :
    waitForBitfield ⟨keepAlive ++ input, out, budget⟩ = waitForBitfield ⟨input, out, budget⟩ := by
  unfold waitForBitfield
  have hl : (keepAlive ++ input).length + 1 = (input.length + 4) + 1 := by
    simp only [List.length_append, show keepAlive.length = 4 from rfl]
    omega
  simp only [hl]
  rw [waitForBitfieldFuel_keepAlive]
  exact (waitForBitfieldFuel_total (input.length + 1) ⟨input, out, budget⟩ (Nat.le_refl _)).2
    (input.length + 4) (by simp only; omega)

theorem waitForUnchoke_keepAlive (input : Bytes) (out : List Bytes) (budget : Nat) :
    waitForUnchoke ⟨keepAlive ++ input, out, budget⟩ = waitForUnchoke ⟨input, out, budget⟩ := by
  unfold waitForUnchoke
  have hl : (keepAlive ++ input).length + 1 = (input.length + 4) + 1 := by
    simp only [List.length_append, show keepAlive.length = 4 from rfl]
    omega
  simp only [hl]
  rw [waitForUnchokeFuel_keepAlive]
  exact (waitForUnchokeFuel_total (input.length + 1) ⟨input, out, budget⟩ (Nat.le_refl _)).2
    (input.length + 4) (by simp only; omega)

/-- Any number of keep-alive frames in front of the stream leave the outcome
of `waitForBitfield` and of `waitForUnchoke` as it is without them. -/
theorem waitFor_keepAlives (k : Nat) (input : Bytes) (out : List Bytes) (budget : Nat) :
    waitForBitfield ⟨(List.replicate k keepAlive).flatten ++ input, out, budget⟩
      = waitForBitfield ⟨input, out, budget⟩ ∧
    waitForUnchoke ⟨(List.replicate k keepAlive).flatten ++ input, out, budget⟩
      = waitForUnchoke ⟨input, out, budget⟩ := by
  induction k with
  | zero => simp
  | succ k ih =>
    have hs : (List.replicate (k + 1) keepAlive).flatten ++ input
        = keepAlive ++ ((List.replicate k keepAlive).flatten ++ input) := by
      simp [List.replicate_succ]
    rw [hs, waitForBitfield_keepAlive, waitForUnchoke_keepAlive]
    exact ih

theorem waitForBitfield_frame (messageID : Byte) (payload rest : Bytes) (out : List Bytes)
    (budget : Nat) (h : 1 + payload.length < 2 ^ 32) :
    waitForBitfield ⟨buildPeerMessage messageID payload ++ rest, out, budget⟩
      = if messageID = 5 then (.ok (), ⟨rest, out, budget⟩)
        else waitForBitfield ⟨rest, out, budget⟩ := by
  have hl : (buildPeerMessage messageID payload ++ rest).length + 1
      = (rest.length + (5 + payload.length)) + 1 := by
    simp only [buildPeerMessage, List.length_append, putUint32_length, List.length_singleton]
    omega
  unfold waitForBitfield
  simp only [hl]
  rw [waitForBitfieldFuel, readPeerMessage_buildPeerMessage messageID payload rest out budget h]
  have hmore := (waitForBitfieldFuel_total (rest.length + 1) ⟨rest, out, budget⟩
    (Nat.le_refl _)).2 (rest.length + (5 + payload.length)) (by simp only; omega)
  by_cases h5 : messageID = 5
  · subst h5
    simp
  · simp only [h5, if_false, ite_self]
    exact hmore

theorem waitForUnchoke_frame (messageID : Byte) (payload rest : Bytes) (out : List Bytes)
    (budget : Nat) (h : 1 + payload.length < 2 ^ 32) :
    waitForUnchoke ⟨buildPeerMessage messageID payload ++ rest, out, budget⟩
      = if messageID = 1 then
          (if payload.length ≠ 0 then (.error Fault.error, ⟨rest, out, budget⟩)
           else (.ok (), ⟨rest, out, budget⟩))
        else waitForUnchoke ⟨rest, out, budget⟩ := by
  have hl : (buildPeerMessage messageID payload ++ rest).length + 1
      = (rest.length + (5 + payload.length)) + 1 := by
    simp only [buildPeerMessage, List.length_append, putUint32_length, List.length_singleton]
    omega
  unfold waitForUnchoke
  simp only [hl]
  rw [waitForUnchokeFuel, readPeerMessage_buildPeerMessage messageID payload rest out budget h]
  have hmore := (waitForUnchokeFuel_total (rest.length + 1) ⟨rest, out, budget⟩
    (Nat.le_refl _)).2 (rest.length + (5 + payload.length)) (by simp only; omega)
  by_cases h1 : messageID = 1
  · subst h1
    simp
  · simp only [h1, if_false, ite_self]
    exact hmore

/-- Keep-alive frames between the messages of a peer stream do not change the
outcome of `waitForBitfield` and of `waitForUnchoke`: on the messages `frames`
with any number of keep-alives before each of them and before the rest of
the stream, each returns what it returns on the stream without them. -/
theorem waitFor_keepAlives_between (out : List Bytes) (budget : Nat) (tail : Bytes)
    (kEnd : Nat) : ∀ (frames : List (Nat × Byte × Bytes)),
    (∀ f ∈ frames, 1 + f.2.2.length < 2 ^ 32) →
    (waitForBitfield ⟨framesWithKeepAlives frames
        ++ ((List.replicate kEnd keepAlive).flatten ++ tail), out, budget⟩).1
      = (waitForBitfield ⟨framesWithKeepAlives (withoutKeepAlives frames) ++ tail,
          out, budget⟩).1 ∧
    (waitForUnchoke ⟨framesWithKeepAlives frames
        ++ ((List.replicate kEnd keepAlive).flatten ++ tail), out, budget⟩).1
      = (waitForUnchoke ⟨framesWithKeepAlives (withoutKeepAlives frames) ++ tail,
          out, budget⟩).1
  | [], _ => by
    simp only [framesWithKeepAlives, withoutKeepAlives, List.map_nil, List.nil_append]
    rw [(waitFor_keepAlives kEnd tail out budget).1, (waitFor_keepAlives kEnd tail out budget).2]
    exact ⟨rfl, rfl⟩
  | (k, messageID, payload) :: rest, h => by
    have hp : 1 + payload.length < 2 ^ 32 := h (k, messageID, payload) (List.mem_cons_self _ _)
    have ih := waitFor_keepAlives_between out budget tail kEnd rest
      (fun f hf => h f (List.mem_cons_of_mem _ hf))
    have e1 : framesWithKeepAlives ((k, messageID, payload) :: rest)
        ++ ((List.replicate kEnd keepAlive).flatten ++ tail)
        = (List.replicate k keepAlive).flatten ++ (buildPeerMessage messageID payload
          ++ (framesWithKeepAlives rest ++ ((List.replicate kEnd keepAlive).flatten ++ tail))) := by
      simp only [framesWithKeepAlives, List.append_assoc]
    have e2 : framesWithKeepAlives (withoutKeepAlives ((k, messageID, payload) :: rest)) ++ tail
        = buildPeerMessage messageID payload
          ++ (framesWithKeepAlives (withoutKeepAlives rest) ++ tail) := by
      simp only [withoutKeepAlives, List.map_cons, framesWithKeepAlives, List.replicate_zero,
        List.flatten_nil, List.nil_append, List.append_assoc]
    rw [e1, e2, (waitFor_keepAlives k _ out budget).1, (waitFor_keepAlives k _ out budget).2,
      waitForBitfield_frame _ _ _ _ _ hp, waitForBitfield_frame _ _ _ _ _ hp,
      waitForUnchoke_frame _ _ _ _ _ hp, waitForUnchoke_frame _ _ _ _ _ hp]
    constructor
    · by_cases h5 : messageID = 5
      · simp only [h5, if_true]
      · simp only [h5, if_false]
        exact ih.1
    · by_cases h1 : messageID = 1
      · simp only [h1, if_true]
        split <;> rfl
      · simp only [h1, if_false]
        exact ih.2

/-- C14: `receivePiece` does not pass over keep-alive frames. On every stream
that starts with a keep-alive (four zero bytes) it returns an error, the
keep-alive being read as a message with id 0, whatever follows; on the stream
of a `piece` message alone it returns the block, and with one keep-alive put
in front of that message it fails. `waitForBitfield` and `waitForUnchoke` do
pass over the keep-alive on the same streams. -/
theorem receivePiece_keepAlive_fails :
    (∀ (input : Bytes) (out : List Bytes) (budget : Nat),
      receivePiece ⟨keepAlive ++ input, out, budget⟩
        = (.error Fault.error, ⟨input, out, budget⟩)) ∧
    receivePiece ⟨pieceMessage 0 0 [1, 2, 3], [], 0⟩ = (.ok (0, 0, [1, 2, 3]), ⟨[], [], 0⟩) ∧
    receivePiece ⟨keepAlive ++ pieceMessage 0 0 [1, 2, 3], [], 0⟩
      = (.error Fault.error, ⟨pieceMessage 0 0 [1, 2, 3], [], 0⟩) ∧
    waitForBitfield ⟨keepAlive ++ buildPeerMessage 5 [255], [], 0⟩ = (.ok (), ⟨[], [], 0⟩) ∧
    waitForUnchoke ⟨keepAlive ++ buildPeerMessage 1 [], [], 0⟩ = (.ok (), ⟨[], [], 0⟩) := by
  have h : ∀ (input : Bytes) (out : List Bytes) (budget : Nat),
      receivePiece ⟨keepAlive ++ input, out, budget⟩
        = (.error Fault.error, ⟨input, out, budget⟩) := by
    intro input out budget
    unfold receivePiece
    rw [readPeerMessage_keepAlive]
    simp
  exact ⟨h, by rfl, h _ _ _, by rfl, by rfl⟩

/-! ### The received handshake -/

theorem handshake_check_iff (response : Bytes) :
    (response.headD 0 = 19 ∧ slice response 1 20 = protocolString) ↔
      ∃ tail, response = (19 : Byte) :: protocolString ++ tail := by
  constructor
  · rintro ⟨h1, h2⟩
    cases response with
    | nil => simp at h1
    | cons c t =>
      simp only [List.headD_cons] at h1
      unfold slice at h2
      simp only [List.drop_succ_cons, List.drop_zero] at h2
      refine ⟨t.drop 19, ?_⟩
      rw [h1, ← h2]
      simp
  · rintro ⟨tail, rfl⟩
    refine ⟨rfl, ?_⟩
    unfold slice
    simp only [List.cons_append, List.drop_succ_cons, List.drop_zero]
    exact List.take_left' rfl

theorem Conn.write_ok (input : Bytes) (output : List Bytes) (n : Nat) (msg : Bytes) :
    Conn.write ⟨input, output, n + 1⟩ msg = (.ok (), ⟨input, output ++ [msg], n⟩) := rfl

/-- C15 (amended): once the handshake is sent and the peer's 68 bytes
`response` are read, `performHandshakeWithPeer` accepts exactly when the
first byte is 19 and bytes 1..19 are the literal `BitTorrent protocol`: the
remaining 48 bytes (reserved bytes, info-hash, peer id) are not looked at, so
the info-hash of the reply is not compared with the one sent.
`performMagnetHandshakeWithPeer` makes the same two checks and then requires
the bitfield and extension exchange of `extensionPhase` to succeed. -/
theorem performHandshakeWithPeer_accepts_iff (conn : Conn)
    (infoHashBytes peerID response rest : Bytes) (n : Nat)
    (hw : conn.writeBudget = n + 1) (hin : conn.input = response ++ rest)
    (hlen : response.length = 68) :
    ((performHandshakeWithPeer conn infoHashBytes peerID).1 = .ok () ↔
      ∃ tail, response = (19 : Byte) :: protocolString ++ tail) ∧
    ((performMagnetHandshakeWithPeer conn infoHashBytes peerID).1 = .ok () ↔
      (∃ tail, response = (19 : Byte) :: protocolString ++ tail) ∧
      (extensionPhase (slice response 20 28)
        ⟨rest, conn.output ++ [(19 : Byte) :: protocolString ++ [0, 0, 0, 0, 0, 16, 0, 0]
          ++ infoHashBytes ++ peerID], n⟩).1 = .ok ()) := by
  obtain ⟨input, output, budget⟩ := conn
  simp only at hw hin
  subst hw hin
  have hread : ∀ out : List Bytes,
      readFull ⟨response ++ rest, out, n⟩ 68 = (some response, ⟨rest, out, n⟩) := by
    intro out
    rw [← hlen]
    exact readFull_append response rest out n
  rw [← handshake_check_iff]
  constructor
  · unfold performHandshakeWithPeer
    simp only [Conn.write_ok, hread]
    by_cases h1 : response.headD 0 = 19
    · by_cases h2 : slice response 1 20 = protocolString
      · rw [if_neg (not_not.mpr h1), if_neg (not_not.mpr h2)]
        exact ⟨fun _ => ⟨h1, h2⟩, fun _ => rfl⟩
      · rw [if_neg (not_not.mpr h1), if_pos h2]
        exact ⟨fun h => (by cases h), fun h => absurd h.2 h2⟩
    · rw [if_pos h1]
      exact ⟨fun h => (by cases h), fun h => absurd h.1 h1⟩
  · unfold performMagnetHandshakeWithPeer
    simp only [Conn.write_ok, hread]
    by_cases h1 : response.headD 0 = 19
    · by_cases h2 : slice response 1 20 = protocolString
      · rw [if_neg (not_not.mpr h1), if_neg (not_not.mpr h2)]
        exact ⟨fun h => ⟨⟨h1, h2⟩, h⟩, fun h => h.2⟩
      · rw [if_neg (not_not.mpr h1), if_pos h2]
        exact ⟨fun h => (by cases h), fun h => absurd h.1.2 h2⟩
    · rw [if_pos h1]
      exact ⟨fun h => (by cases h), fun h => absurd h.1.1 h1⟩

/-- C15 (amended) at a reply that carries the info-hash sent. -/
theorem performHandshakeWithPeer_accepts_iff_witness :
    (performHandshakeWithPeer ⟨foreignHandshake, [], 1⟩ (List.replicate 20 7)
        (List.replicate 20 2)).1 = .ok () ↔
      ∃ tail, foreignHandshake = (19 : Byte) :: protocolString ++ tail :=
  (performHandshakeWithPeer_accepts_iff ⟨foreignHandshake, [], 1⟩ (List.replicate 20 7)
    (List.replicate 20 2) foreignHandshake [] 0 (by rfl) (by rfl) (by rfl)).1

/-- C15 fails as stated: a reply whose bytes 28..47 are twenty bytes 7 is
accepted by both functions although the info-hash sent was twenty bytes 1. -/
theorem performHandshakeWithPeer_accepts_iff_counterexample :
    slice foreignHandshake 28 48 = List.replicate 20 (7 : Byte) ∧
    List.replicate 20 (7 : Byte) ≠ List.replicate 20 (1 : Byte) ∧
    (performHandshakeWithPeer ⟨foreignHandshake, [], 1⟩ (List.replicate 20 1)
        (List.replicate 20 2)).1 = .ok () ∧
    (performMagnetHandshakeWithPeer ⟨foreignHandshake ++ buildPeerMessage 5 [255], [], 1⟩
        (List.replicate 20 1) (List.replicate 20 2)).1 = .ok () :=
  ⟨by rfl, by decide, by rfl, by rfl⟩

/-! ### The number of pieces -/

theorem getTotalPiecesFromDict_ok (torrentDict : List (Bytes × Value)) (n len : Int)
    (h : getTotalPiecesFromDict torrentDict = .ok (n, len)) :
    ∃ (info : List (Bytes × Value)) (pieces : Bytes),
      mapGet torrentDict keyInfo = some (.dict info) ∧
      mapGet info keyPieces = some (.str pieces) ∧
      mapGet info keyLength = some (.int len) ∧
      n = ((pieces.length / 20 : Nat) : Int) := by
  unfold getTotalPiecesFromDict at h
  split at h
  · cases h
  · rename_i info hinfo
    split at h
    · cases h
    · rename_i pieces hpieces
      split at h
      · cases h
      · rename_i lengthInt hlength
        simp only [Except.ok.injEq, Prod.mk.injEq] at h
        exact ⟨info, pieces, hinfo, hpieces, by rw [hlength, h.2], h.1.symm⟩
      · cases h
    · cases h
  · cases h

/-- C16 (amended): for every torrent dictionary that `getTotalPiecesFromDict`
accepts, the piece count it returns is the number of whole 20-byte hashes in
`pieces`, `floor(len(pieces) / 20)`, and the length returned is the `length`
of the info dictionary; `piece length` is not read. The count equals
`ceil(length / piece length)` whenever `pieces` holds exactly that many
hashes. -/
theorem getTotalPiecesFromDict_count (torrentDict : List (Bytes × Value)) (n len : Int)
    (h : getTotalPiecesFromDict torrentDict = .ok (n, len)) :
    ∃ (info : List (Bytes × Value)) (pieces : Bytes),
      mapGet torrentDict keyInfo = some (.dict info) ∧
      mapGet info keyPieces = some (.str pieces) ∧
      mapGet info keyLength = some (.int len) ∧
      n = ((pieces.length / 20 : Nat) : Int) ∧
      ∀ L P : Nat, len = (L : Int) → mapGet info keyPieceLength = some (.int (P : Int)) →
        pieces.length = 20 * pieceCount L P → n = (pieceCount L P : Int) := by
  obtain ⟨info, pieces, h1, h2, h3, h4⟩ := getTotalPiecesFromDict_ok torrentDict n len h
  refine ⟨info, pieces, h1, h2, h3, h4, ?_⟩
  intro L P _ _ hc
  rw [h4, hc, Nat.mul_div_cancel_left _ (by decide : 0 < 20)]

/-- C16 (amended) at a torrent with `length` 100, `piece length` 50 and two
hashes: the count is 2. -/
theorem getTotalPiecesFromDict_count_witness :
    getTotalPiecesFromDict sampleTorrent = .ok (2, 100) ∧
    ∃ (info : List (Bytes × Value)) (pieces : Bytes),
      mapGet sampleTorrent keyInfo = some (.dict info) ∧
      mapGet info keyPieces = some (.str pieces) ∧
      mapGet info keyLength = some (.int 100) ∧
      (2 : Int) = ((pieces.length / 20 : Nat) : Int) ∧
      ∀ L P : Nat, (100 : Int) = (L : Int) →
        mapGet info keyPieceLength = some (.int (P : Int)) →
        pieces.length = 20 * pieceCount L P → (2 : Int) = (pieceCount L P : Int) :=
  ⟨by rfl, getTotalPiecesFromDict_count sampleTorrent 2 100 (by rfl)⟩

/-- C16 fails as stated: with `length` 100, `piece length` 40 and one hash in
`pieces` the dictionary is accepted with the count 1, and
`ceil(100 / 40) = 3`. -/
theorem getTotalPiecesFromDict_count_counterexample :
    getTotalPiecesFromDict oneHashTorrent = .ok (1, 100) ∧ pieceCount 100 40 = 3 :=
  ⟨by rfl, by decide⟩

/-! ### A `pieces` string that is not a whole number of hashes -/

/-- C17 (amended): an info dictionary with an integer `length`, an integer
`piece length` and a `pieces` string of any length, a multiple of 20 or not,
is accepted: `getTotalPiecesFromDict` returns `floor(len(pieces) / 20)`, and
`getPieceInfoFromDict` succeeds for every index `i ≥ 0` with
`20·(i + 1) ≤ len(pieces)`, the hash being bytes `20·i .. 20·i + 19`; for an
index beyond that it returns an error. -/
theorem getPieceInfoFromDict_ragged (torrentDict info : List (Bytes × Value)) (P L : Int)
    (pieces : Bytes)
    (hinfo : mapGet torrentDict keyInfo = some (.dict info))
    (hP : mapGet info keyPieceLength = some (.int P))
    (hL : mapGet info keyLength = some (.int L))
    (hH : mapGet info keyPieces = some (.str pieces))
    (hstr : pieces.length < 2 ^ 63) :
    getTotalPiecesFromDict torrentDict = .ok (((pieces.length / 20 : Nat) : Int), L) ∧
    (∀ i : Nat, 20 * (i + 1) ≤ pieces.length →
      ∃ len : Int, getPieceInfoFromDict info (i : Int)
        = .ok (len, slice pieces (20 * i) (20 * i + 20))) ∧
    (∀ i : Nat, pieces.length < 20 * (i + 1) → 20 * (i + 1) < 2 ^ 63 →
      getPieceInfoFromDict info (i : Int) = .error Fault.error) := by
  refine ⟨?_, ?_, ?_⟩
  · unfold getTotalPiecesFromDict
    rw [hinfo]
    simp only
    rw [hH]
    simp only
    rw [hL]
  · intro i hi
    obtain ⟨w1, w2⟩ := hashRange_linear i pieces.length (by omega) hstr
    have c1 : ¬ (((20 * i + 20 : Nat) : Int) > (pieces.length : Int)) := by
      have : 20 * i + 20 ≤ pieces.length := by omega
      exact_mod_cast Nat.not_lt.mpr this
    have c2 : ¬ (((20 * i : Nat) : Int) < 0 ∨
        ((20 * i + 20 : Nat) : Int) < ((20 * i : Nat) : Int)) := by
      push_cast
      omega
    unfold getPieceInfoFromDict
    rw [hP]
    simp only
    rw [hL]
    simp only
    rw [hH]
    simp only
    rw [w1, w2, if_neg c1, if_neg c2]
    simp only [Int.toNat_ofNat]
    exact ⟨_, rfl⟩
  · intro i hi hb
    obtain ⟨w1, w2⟩ := hashRange_linear i (20 * i + 20) (Nat.le_refl _) (by omega)
    have c1 : ((20 * i + 20 : Nat) : Int) > (pieces.length : Int) := by
      have : pieces.length < 20 * i + 20 := by omega
      exact_mod_cast this
    unfold getPieceInfoFromDict
    rw [hP]
    simp only
    rw [hL]
    simp only
    rw [hH]
    simp only
    rw [w1, w2, if_pos c1]

/-- C17 (amended) at a `pieces` string of 45 bytes: two pieces, the indices
0 and 1 succeed and every index from 2 on is an error. -/
theorem getPieceInfoFromDict_ragged_witness :
    raggedPieces.length = 45 ∧
    getTotalPiecesFromDict [(keyInfo, .dict raggedInfo)]
      = .ok (((raggedPieces.length / 20 : Nat) : Int), 100) ∧
    (∀ i : Nat, 20 * (i + 1) ≤ raggedPieces.length →
      ∃ len : Int, getPieceInfoFromDict raggedInfo (i : Int)
        = .ok (len, slice raggedPieces (20 * i) (20 * i + 20))) ∧
    (∀ i : Nat, raggedPieces.length < 20 * (i + 1) → 20 * (i + 1) < 2 ^ 63 →
      getPieceInfoFromDict raggedInfo (i : Int) = .error Fault.error) :=
  ⟨by rfl,
   getPieceInfoFromDict_ragged [(keyInfo, .dict raggedInfo)] raggedInfo 50 100 raggedPieces
     (by rfl) (by rfl) (by rfl) (by rfl)
     (Nat.lt_of_lt_of_le (by decide : raggedPieces.length < 46) (by norm_num))⟩

/-- C17 fails as stated: with 45 bytes of `pieces` (`45 mod 20 = 5`)
`getTotalPiecesFromDict` returns two pieces and `getPieceInfoFromDict` returns
the length and hash of piece 0 and of piece 1. -/
theorem getPieceInfoFromDict_ragged_counterexample :
    (45 : Nat) % 20 ≠ 0 ∧
    mapGet raggedInfo keyPieces = some (.str raggedPieces) ∧
    raggedPieces.length = 45 ∧
    getTotalPiecesFromDict [(keyInfo, .dict raggedInfo)] = .ok (2, 100) ∧
    getPieceInfoFromDict raggedInfo 0 = .ok (50, List.replicate 20 1) ∧
    getPieceInfoFromDict raggedInfo 1 = .ok (50, List.replicate 20 2) :=
  ⟨by decide, by rfl, by rfl, by rfl, by rfl, by rfl⟩

/-! ### Maps with string keys -/

theorem bytesLt_connected : ∀ (a b : Bytes), bytesLt a b = false → bytesLt b a = false → a = b
  | [], [], _, _ => rfl
  | [], _ :: _, h, _ => by simp [bytesLt] at h
  | _ :: _, [], _, h => by simp [bytesLt] at h
  | a :: as, b :: bs, h1, h2 => by
    simp only [bytesLt] at h1 h2
    by_cases hab : a < b
    · simp [hab] at h1
    · by_cases hba : b < a
      · simp [hba] at h2
      · have hEq : a = b := le_antisymm (not_lt.mp hba) (not_lt.mp hab)
        subst hEq
        simp only [hab, if_false] at h1 h2
        rw [bytesLt_connected as bs h1 h2]

theorem mapGet_mapSet_bytes_same {β : Type} (m : List (Bytes × β)) (k : Bytes) (v : β) :
    mapGet (mapSet bytesLt m k v) k = some v := by
  induction m with
  | nil => simp [mapSet, mapGet]
  | cons x rest ih =>
    obtain ⟨k0, v0⟩ := x
    simp only [mapSet]
    by_cases h1 : bytesLt k k0 = true
    · simp [h1, mapGet]
    · by_cases h2 : bytesLt k0 k = true
      · have hne : k0 ≠ k := by
          intro e
          rw [e, bytesLt_irrefl] at h2
          cases h2
        simp [h1, h2, mapGet, hne, ih]
      · simp [h1, h2, mapGet]

theorem mapGet_mapSet_bytes_other {β : Type} (m : List (Bytes × β)) (k k2 : Bytes) (v : β)
    (hne : k ≠ k2) : mapGet (mapSet bytesLt m k v) k2 = mapGet m k2 := by
  induction m with
  | nil => simp [mapSet, mapGet, hne]
  | cons x rest ih =>
    obtain ⟨k0, v0⟩ := x
    simp only [mapSet]
    by_cases h1 : bytesLt k k0 = true
    · simp [h1, mapGet, hne]
    · by_cases h2 : bytesLt k0 k = true
      · simp [h1, h2, mapGet, ih]
      · have hk : k = k0 := bytesLt_connected k k0 (by simpa using h1) (by simpa using h2)
        have hne2 : k0 ≠ k2 := by rw [← hk]; exact hne
        simp [h1, h2, mapGet, hne, hne2]

/-! ### Magnet links -/

theorem split_no_sep (sep : Byte) : ∀ (p : Bytes), sep ∉ p → split sep p = [p]
  | [], _ => rfl
  | b :: r, h => by
    have hb : b ≠ sep := fun e => h (by rw [e]; exact List.mem_cons_self _ _)
    have hr : sep ∉ r := fun e => h (List.mem_cons_of_mem _ e)
    simp only [split, if_neg hb, split_no_sep sep r hr]

theorem split_append_sep (sep : Byte) : ∀ (p rest : Bytes), sep ∉ p →
    split sep (p ++ sep :: rest) = p :: split sep rest
  | [], rest, _ => by simp [split]
  | b :: r, rest, h => by
    have hb : b ≠ sep := fun e => h (by rw [e]; exact List.mem_cons_self _ _)
    have hr : sep ∉ r := fun e => h (List.mem_cons_of_mem _ e)
    show split sep (b :: (r ++ sep :: rest)) = (b :: r) :: split sep rest
    rw [split, if_neg hb, split_append_sep sep r rest hr]

/-- Splitting the query of the parameters `ps` at `&` gives `ps` back. -/
theorem split_joinParameters : ∀ (ps : List Bytes), ps ≠ [] → (∀ p ∈ ps, (38 : Byte) ∉ p) →
    split 38 (joinParameters ps) = ps
  | [], h, _ => absurd rfl h
  | [p], _, h => split_no_sep 38 p (h p (List.mem_singleton.mpr rfl))
  | p :: q :: rest, _, h => by
    simp only [joinParameters]
    rw [split_append_sep 38 p _ (h p (List.mem_cons_self _ _)),
      split_joinParameters (q :: rest) (by simp) (fun x hx => h x (List.mem_cons_of_mem _ hx))]

theorem decodeMagnetLink_scheme (q : Bytes) :
    decodeMagnetLink (magnetScheme ++ q) = magnetLoop (split 38 q) [] := by
  have h1 : ¬ (magnetScheme ++ q).length < 6 := by
    simp only [List.length_append, show magnetScheme.length = 8 from rfl]
    omega
  have h2 : ¬ (magnetScheme ++ q).take 6 ≠ magnetWord := by
    simp [magnetScheme, magnetWord]
  have h3 : ¬ (magnetScheme ++ q).length < 8 := by
    simp only [List.length_append, show magnetScheme.length = 8 from rfl]
    omega
  have h4 : (magnetScheme ++ q).drop 8 = q := by
    simp [magnetScheme]
  unfold decodeMagnetLink
  rw [if_neg h1, if_neg h2, if_neg h3, h4]

/-- The link `magnet:?p1&...&pn` is decoded by the loop over `p1`, ..., `pn`. -/
theorem decodeMagnetLink_join (ps : List Bytes) (hne : ps ≠ [])
    (hamp : ∀ p ∈ ps, (38 : Byte) ∉ p) :
    decodeMagnetLink (magnetScheme ++ joinParameters ps) = magnetLoop ps [] := by
  rw [decodeMagnetLink_scheme, split_joinParameters ps hne hamp]

theorem magnetLoop_others : ∀ (a rest : List Bytes) (result : List (Bytes × Bytes)),
    (∀ p ∈ a, OtherParameter p) → magnetLoop (a ++ rest) result = magnetLoop rest result
  | [], _, _, _ => rfl
  | p :: a, rest, result, h => by
    obtain ⟨_, hx, ht⟩ := h p (List.mem_cons_self _ _)
    simp only [List.cons_append, magnetLoop, hx, ht, Bool.false_eq_true, if_false]
    exact magnetLoop_others a rest result (fun x hx => h x (List.mem_cons_of_mem _ hx))

theorem lastIndexByte_none (c : Byte) : ∀ (s : Bytes), c ∉ s → lastIndexByte c s = none
  | [], _ => rfl
  | b :: r, h => by
    have hb : b ≠ c := fun e => h (by rw [e]; exact List.mem_cons_self _ _)
    have hr : c ∉ r := fun e => h (List.mem_cons_of_mem _ e)
    simp only [lastIndexByte, lastIndexByte_none c r hr, if_neg hb]

theorem isHex_not_mem (h : Bytes) (hh : IsHex h) (c : Byte) (hc : hexValue c = none) :
    c ∉ h := by
  intro hm
  have := hh c hm
  rw [hc] at this
  cases this

theorem magnetLoop_xt (h : Bytes) (hh : IsHex h) (rest : List Bytes)
    (result : List (Bytes × Bytes)) :
    magnetLoop ((xtUrnBtih ++ h) :: rest) result
      = magnetLoop rest (mapSet bytesLt result keyInfoHash h) := by
  have hcolon : lastIndexByte 58 h = none :=
    lastIndexByte_none 58 h (isHex_not_mem h hh 58 (by decide))
  have hp : xtKey.isPrefixOf (xtUrnBtih ++ h) = true := by
    simp [xtKey, xtUrnBtih, List.isPrefixOf]
  have hl : lastIndexByte 58 (xtUrnBtih ++ h) = some 11 := by
    simp [xtUrnBtih, lastIndexByte, hcolon]
  have hd : (xtUrnBtih ++ h).drop (11 + 1) = h := by
    simp [xtUrnBtih]
  rw [magnetLoop, if_pos hp]
  simp only [hl, hd]

theorem percentEncoded_unescape (e u : Bytes) (h : PercentEncoded e u) :
    queryUnescape e = some u ∧ (38 : Byte) ∉ e := by
  induction h with
  | nil => exact ⟨rfl, by simp⟩
  | literal b e u h1 h2 h3 _ ih =>
    refine ⟨?_, ?_⟩
    · rw [queryUnescape.eq_def]
      simp only [if_neg h1, if_neg h2, ih.1, Option.map_some']
    · intro hm
      rcases List.mem_cons.mp hm with hm | hm
      · exact h3 hm.symm
      · exact ih.2 hm
  | escaped p q a b e u hp hq _ ih =>
    refine ⟨?_, ?_⟩
    · rw [queryUnescape.eq_def]
      simp only [if_true, hp, hq, ih.1, Option.map_some']
    · intro hm
      rcases List.mem_cons.mp hm with hm | hm
      · exact absurd hm (by decide)
      · rcases List.mem_cons.mp hm with hm | hm
        · rw [← hm, show hexValue 38 = none from by decide] at hp
          cases hp
        · rcases List.mem_cons.mp hm with hm | hm
          · rw [← hm, show hexValue 38 = none from by decide] at hq
            cases hq
          · exact ih.2 hm

theorem magnetLoop_tr (e u : Bytes) (he : queryUnescape e = some u) (rest : List Bytes)
    (result : List (Bytes × Bytes)) :
    magnetLoop ((trKey ++ e) :: rest) result
      = magnetLoop rest (mapSet bytesLt result keyTrackerURL u) := by
  have hx : xtKey.isPrefixOf (trKey ++ e) = false := by
    simp [xtKey, trKey, List.isPrefixOf]
  have hp : trKey.isPrefixOf (trKey ++ e) = true := by
    simp [trKey, List.isPrefixOf]
  have hd : (trKey ++ e).drop 3 = e := by
    simp [trKey]
  rw [magnetLoop, hx, if_neg (by simp), if_pos hp]
  simp only [hd, he]

/-- C18: for every string `h` of 40 hexadecimal digits and every tracker URL
`u` with a percent-encoding `e`, `decodeMagnetLink` applied to
`magnet:?xt=urn:btih:<h>&tr=<e>` succeeds with `Info Hash` = `h` and
`Tracker URL` = `u`; and with any parameters whose keys are neither `xt` nor
`tr` put before, between or after the two (the lists `a`, `b`, `c`), the
result is the same. -/
theorem decodeMagnetLink_spec (h u e : Bytes) (a b c : List Bytes)
    (hlen : h.length = 40) (hhex : IsHex h) (he : PercentEncoded e u)
    (ha : ∀ p ∈ a, OtherParameter p) (hb : ∀ p ∈ b, OtherParameter p)
    (hc : ∀ p ∈ c, OtherParameter p) :
    h.length = 40 ∧
    decodeMagnetLink (magnetScheme ++ joinParameters [xtUrnBtih ++ h, trKey ++ e])
      = .ok [(keyInfoHash, h), (keyTrackerURL, u)] ∧
    decodeMagnetLink
        (magnetScheme ++ joinParameters (a ++ [xtUrnBtih ++ h] ++ b ++ [trKey ++ e] ++ c))
      = .ok [(keyInfoHash, h), (keyTrackerURL, u)] := by
  obtain ⟨hun, heamp⟩ := percentEncoded_unescape e u he
  have hxamp : (38 : Byte) ∉ xtUrnBtih ++ h := by
    intro hm
    rcases List.mem_append.mp hm with hm | hm
    · exact absurd hm (by decide)
    · exact isHex_not_mem h hhex 38 (by decide) hm
  have htamp : (38 : Byte) ∉ trKey ++ e := by
    intro hm
    rcases List.mem_append.mp hm with hm | hm
    · exact absurd hm (by decide)
    · exact heamp hm
  have hmap : mapSet bytesLt (mapSet bytesLt [] keyInfoHash h) keyTrackerURL u
      = [(keyInfoHash, h), (keyTrackerURL, u)] := by
    have h1 : bytesLt keyTrackerURL keyInfoHash = false := by decide
    have h2 : bytesLt keyInfoHash keyTrackerURL = true := by decide
    simp [mapSet, h1, h2]
  have key : ∀ (a b c : List Bytes), (∀ p ∈ a, OtherParameter p) →
      (∀ p ∈ b, OtherParameter p) → (∀ p ∈ c, OtherParameter p) →
      decodeMagnetLink
          (magnetScheme ++ joinParameters (a ++ [xtUrnBtih ++ h] ++ b ++ [trKey ++ e] ++ c))
        = .ok [(keyInfoHash, h), (keyTrackerURL, u)] := by
    intro a b c ha hb hc
    have hamp : ∀ p ∈ a ++ [xtUrnBtih ++ h] ++ b ++ [trKey ++ e] ++ c, (38 : Byte) ∉ p := by
      intro p hp
      simp only [List.mem_append, List.mem_singleton] at hp
      rcases hp with (((hp | hp) | hp) | hp) | hp
      · exact (ha p hp).1
      · rw [hp]; exact hxamp
      · exact (hb p hp).1
      · rw [hp]; exact htamp
      · exact (hc p hp).1
    rw [decodeMagnetLink_join _ (by simp) hamp]
    have hshape : a ++ [xtUrnBtih ++ h] ++ b ++ [trKey ++ e] ++ c
        = a ++ ((xtUrnBtih ++ h) :: (b ++ ((trKey ++ e) :: (c ++ [])))) := by simp
    rw [hshape, magnetLoop_others a _ _ ha, magnetLoop_xt h hhex, magnetLoop_others b _ _ hb,
      magnetLoop_tr e u hun, magnetLoop_others c _ _ hc, hmap]
    rfl
  refine ⟨hlen, ?_, key a b c ha hb hc⟩
  have h0 := key [] [] [] (by simp) (by simp) (by simp)
  simpa using h0

theorem sampleTracker_encoded : PercentEncoded sampleTrackerEncoded sampleTracker :=
  .literal 104 _ _ (by decide) (by decide) (by decide)
  (.literal 116 _ _ (by decide) (by decide) (by decide)
  (.literal 116 _ _ (by decide) (by decide) (by decide)
  (.literal 112 _ _ (by decide) (by decide) (by decide)
  (.escaped 51 65 3 10 _ _ (by rfl) (by rfl)
  (.escaped 50 70 2 15 _ _ (by rfl) (by rfl)
  (.escaped 50 70 2 15 _ _ (by rfl) (by rfl)
  (.literal 116 _ _ (by decide) (by decide) (by decide)
  (.escaped 50 70 2 15 _ _ (by rfl) (by rfl)
  (.literal 97 _ _ (by decide) (by decide) (by decide) .nil)))))))))

theorem sampleHash_isHex : IsHex sampleHash := by
  intro c hc
  have hall : sampleHash.all (fun c => (hexValue c).isSome) = true := by decide
  exact List.all_eq_true.mp hall c hc

theorem sampleName_other : ∀ p ∈ [sampleName], OtherParameter p := by
  intro p hp
  rw [List.mem_singleton.mp hp]
  exact ⟨by decide, by rfl, by rfl⟩

/-- C18 at `magnet:?xt=urn:btih:ad42…a165&tr=http%3A%2F%2Ft%2Fa`, alone and
with `dn=magnet1.gif` between the two parameters. -/
theorem decodeMagnetLink_spec_witness :
    sampleHash.length = 40 ∧
    decodeMagnetLink
        (magnetScheme ++ joinParameters [xtUrnBtih ++ sampleHash, trKey ++ sampleTrackerEncoded])
      = .ok [(keyInfoHash, sampleHash), (keyTrackerURL, sampleTracker)] ∧
    decodeMagnetLink
        (magnetScheme ++ joinParameters
          ([] ++ [xtUrnBtih ++ sampleHash] ++ [sampleName] ++ [trKey ++ sampleTrackerEncoded]
            ++ []))
      = .ok [(keyInfoHash, sampleHash), (keyTrackerURL, sampleTracker)] :=
  decodeMagnetLink_spec sampleHash sampleTracker sampleTrackerEncoded [] [sampleName] []
    (by rfl) sampleHash_isHex sampleTracker_encoded (by simp) sampleName_other (by simp)

/-! ### What `decodeMagnetLink` stores -/

theorem xt_not_tr (p : Bytes) (h : xtKey.isPrefixOf p = true) : trKey.isPrefixOf p = false := by
  cases p with
  | nil => rfl
  | cons c r =>
    simp only [xtKey, trKey, List.isPrefixOf, Bool.and_eq_true, beq_iff_eq] at h ⊢
    rw [← h.1]
    rfl

theorem keyInfoHash_ne : keyInfoHash ≠ keyTrackerURL := by decide

/-- What the loop of `decodeMagnetLink` leaves in the map: under `Info Hash`
the value of the last `xt` parameter, under `Tracker URL` the decoded value
of the last `tr` parameter, and what the map held before when there is no
such parameter. -/
theorem magnetLoop_spec : ∀ (ps : List Bytes) (result r : List (Bytes × Bytes)),
    magnetLoop ps result = .ok r →
    mapGet r keyInfoHash =
      (match lastWithKey xtKey ps with
       | some p => xtValue p
       | none => mapGet result keyInfoHash) ∧
    mapGet r keyTrackerURL =
      (match lastWithKey trKey ps with
       | some p => queryUnescape (p.drop 3)
       | none => mapGet result keyTrackerURL)
  | [], result, r, h => by
    simp only [magnetLoop, Except.ok.injEq] at h
    subst h
    exact ⟨rfl, rfl⟩
  | part :: rest, result, r, h => by
    rw [magnetLoop] at h
    by_cases hx : xtKey.isPrefixOf part = true
    · have ht : trKey.isPrefixOf part = false := xt_not_tr part hx
      rw [if_pos hx] at h
      cases hl : lastIndexByte 58 part with
      | none => rw [hl] at h; cases h
      | some lastIndex =>
        rw [hl] at h
        simp only at h
        obtain ⟨i1, i2⟩ := magnetLoop_spec rest _ r h
        rw [mapGet_mapSet_bytes_same] at i1
        rw [mapGet_mapSet_bytes_other _ _ _ _ keyInfoHash_ne] at i2
        have hv : xtValue part = some (part.drop (lastIndex + 1)) := by
          simp only [xtValue, hl, Option.map_some']
        constructor
        · rw [i1]
          simp only [lastWithKey, hx, if_true]
          cases lastWithKey xtKey rest with
          | none => exact hv.symm
          | some q => rfl
        · rw [i2]
          simp only [lastWithKey, ht, Bool.false_eq_true, if_false]
          cases lastWithKey trKey rest with
          | none => rfl
          | some q => rfl
    · have hx2 : xtKey.isPrefixOf part = false := Bool.eq_false_iff.mpr hx
      rw [if_neg hx] at h
      by_cases ht : trKey.isPrefixOf part = true
      · rw [if_pos ht] at h
        cases hq : queryUnescape (part.drop 3) with
        | none => rw [hq] at h; cases h
        | some decodedURL =>
          rw [hq] at h
          simp only at h
          obtain ⟨i1, i2⟩ := magnetLoop_spec rest _ r h
          rw [mapGet_mapSet_bytes_other _ _ _ _ (Ne.symm keyInfoHash_ne)] at i1
          rw [mapGet_mapSet_bytes_same] at i2
          constructor
          · rw [i1]
            simp only [lastWithKey, hx2, Bool.false_eq_true, if_false]
            cases lastWithKey xtKey rest with
            | none => rfl
            | some q => rfl
          · rw [i2]
            simp only [lastWithKey, ht, if_true]
            cases lastWithKey trKey rest with
            | none => exact hq.symm
            | some q => rfl
      · have ht2 : trKey.isPrefixOf part = false := Bool.eq_false_iff.mpr ht
        rw [if_neg ht] at h
        obtain ⟨i1, i2⟩ := magnetLoop_spec rest _ r h
        constructor
        · rw [i1]
          simp only [lastWithKey, hx2, Bool.false_eq_true, if_false]
          cases lastWithKey xtKey rest with
          | none => rfl
          | some q => rfl
        · rw [i2]
          simp only [lastWithKey, ht2, Bool.false_eq_true, if_false]
          cases lastWithKey trKey rest with
          | none => rfl
          | some q => rfl

theorem lastIndexByte_of_mem (c : Byte) : ∀ (s : Bytes), c ∈ s → ∃ i, lastIndexByte c s = some i
  | [], h => by simp at h
  | b :: r, h => by
    rw [lastIndexByte]
    cases hr : lastIndexByte c r with
    | some i => exact ⟨i + 1, rfl⟩
    | none =>
      by_cases hb : b = c
      · exact ⟨0, by simp [hb]⟩
      · rcases List.mem_cons.mp h with h | h
        · exact absurd h.symm hb
        · obtain ⟨i, hi⟩ := lastIndexByte_of_mem c r h
          rw [hi] at hr
          cases hr

/-- The loop of `decodeMagnetLink` succeeds when every `xt` parameter holds a
`:` and every `tr` value can be percent-decoded. -/
theorem magnetLoop_ok : ∀ (ps : List Bytes) (result : List (Bytes × Bytes)),
    (∀ p ∈ ps, xtKey.isPrefixOf p = true → (58 : Byte) ∈ p) →
    (∀ p ∈ ps, trKey.isPrefixOf p = true → ∃ v, queryUnescape (p.drop 3) = some v) →
    ∃ r, magnetLoop ps result = .ok r
  | [], result, _, _ => ⟨result, rfl⟩
  | part :: rest, result, h1, h2 => by
    have r1 : ∀ p ∈ rest, xtKey.isPrefixOf p = true → (58 : Byte) ∈ p :=
      fun p hp => h1 p (List.mem_cons_of_mem _ hp)
    have r2 : ∀ p ∈ rest, trKey.isPrefixOf p = true → ∃ v, queryUnescape (p.drop 3) = some v :=
      fun p hp => h2 p (List.mem_cons_of_mem _ hp)
    rw [magnetLoop]
    by_cases hx : xtKey.isPrefixOf part = true
    · obtain ⟨i, hi⟩ := lastIndexByte_of_mem 58 part (h1 part (List.mem_cons_self _ _) hx)
      rw [if_pos hx, hi]
      exact magnetLoop_ok rest _ r1 r2
    · rw [if_neg hx]
      by_cases ht : trKey.isPrefixOf part = true
      · obtain ⟨v, hv⟩ := h2 part (List.mem_cons_self _ _) ht
        rw [if_pos ht, hv]
        exact magnetLoop_ok rest _ r1 r2
      · rw [if_neg ht]
        exact magnetLoop_ok rest _ r1 r2

/-- C19 (amended): `decodeMagnetLink` does not look at the length or the
characters of the info-hash. For the link `magnet:?p1&...&pn`: whenever it
succeeds, the `Info Hash` of the result is the text after the last `:` of the
last `xt` parameter, and the result has no `Info Hash` when no parameter
starts with `xt=`; and it succeeds whenever every `xt` parameter holds a `:`
and every `tr` value can be percent-decoded, so a link without `xt` is
accepted. -/
theorem decodeMagnetLink_infoHash (ps : List Bytes) (hne : ps ≠ [])
    (hamp : ∀ p ∈ ps, (38 : Byte) ∉ p) :
    (∀ result, decodeMagnetLink (magnetScheme ++ joinParameters ps) = .ok result →
      mapGet result keyInfoHash = (lastWithKey xtKey ps).bind xtValue) ∧
    ((∀ p ∈ ps, xtKey.isPrefixOf p = true → (58 : Byte) ∈ p) →
      (∀ p ∈ ps, trKey.isPrefixOf p = true → ∃ v, queryUnescape (p.drop 3) = some v) →
      ∃ result, decodeMagnetLink (magnetScheme ++ joinParameters ps) = .ok result) := by
  rw [decodeMagnetLink_join ps hne hamp]
  constructor
  · intro result h
    rw [(magnetLoop_spec ps [] result h).1]
    cases lastWithKey xtKey ps with
    | none => rfl
    | some p => rfl
  · intro h1 h2
    exact magnetLoop_ok ps [] h1 h2

/-- C19 (amended) at `magnet:?xt=urn:btih:zz`: the link is accepted and its
`Info Hash` is `zz`. -/
theorem decodeMagnetLink_infoHash_witness :
    mapGet [(keyInfoHash, ([122, 122] : Bytes))] keyInfoHash
      = (lastWithKey xtKey [xtUrnBtih ++ [122, 122]]).bind xtValue ∧
    (lastWithKey xtKey [xtUrnBtih ++ [122, 122]]).bind xtValue = some [122, 122] :=
  ⟨(decodeMagnetLink_infoHash [xtUrnBtih ++ [122, 122]] (by simp)
      (by
        intro p hp
        rw [List.mem_singleton.mp hp]
        decide)).1 _ (by rfl),
   by rfl⟩

/-- C19 fails as stated: `magnet:?dn=x`, a link with no `xt` parameter, is
accepted with an empty result, and `magnet:?xt=urn:btih:zz` is accepted with
the `Info Hash` `zz`, two characters that are no hexadecimal digits. -/
theorem decodeMagnetLink_infoHash_counterexample :
    decodeMagnetLink (magnetScheme ++ [100, 110, 61, 120]) = .ok [] ∧
    decodeMagnetLink (magnetScheme ++ (xtUrnBtih ++ [122, 122]))
      = .ok [(keyInfoHash, [122, 122])] ∧
    hexValue 122 = none :=
  ⟨by rfl, by rfl, by rfl⟩

/-- C20 (amended): for the link `magnet:?p1&...&pn`, whenever
`decodeMagnetLink` succeeds, the `Tracker URL` of the result is the
percent-decoded value of the last `tr` parameter (each `tr` parameter
overwrites the entry of the one before), and there is none when no parameter
starts with `tr=`; it succeeds whenever every `xt` parameter holds a `:` and
every `tr` value can be percent-decoded. -/
theorem decodeMagnetLink_trackerURL (ps : List Bytes) (hne : ps ≠ [])
    (hamp : ∀ p ∈ ps, (38 : Byte) ∉ p) :
    (∀ result, decodeMagnetLink (magnetScheme ++ joinParameters ps) = .ok result →
      mapGet result keyTrackerURL
        = (lastWithKey trKey ps).bind (fun p => queryUnescape (p.drop 3))) ∧
    ((∀ p ∈ ps, xtKey.isPrefixOf p = true → (58 : Byte) ∈ p) →
      (∀ p ∈ ps, trKey.isPrefixOf p = true → ∃ v, queryUnescape (p.drop 3) = some v) →
      ∃ result, decodeMagnetLink (magnetScheme ++ joinParameters ps) = .ok result) := by
  rw [decodeMagnetLink_join ps hne hamp]
  constructor
  · intro result h
    rw [(magnetLoop_spec ps [] result h).2]
    cases lastWithKey trKey ps with
    | none => rfl
    | some p => rfl
  · intro h1 h2
    exact magnetLoop_ok ps [] h1 h2

theorem twoTrackers_no_amp : ∀ p ∈ twoTrackers, (38 : Byte) ∉ p := by
  intro p hp
  simp only [twoTrackers, List.mem_cons, List.mem_singleton, List.mem_nil_iff, or_false] at hp
  rcases hp with hp | hp | hp <;> rw [hp] <;> decide

/-- C20 (amended) at a link with the trackers `http://a` and `http://b`, in
this order: the `Tracker URL` is `http://b`. -/
theorem decodeMagnetLink_trackerURL_witness :
    mapGet [(keyInfoHash, sampleHash),
        (keyTrackerURL, ([104, 116, 116, 112, 58, 47, 47, 98] : Bytes))] keyTrackerURL
      = (lastWithKey trKey twoTrackers).bind (fun p => queryUnescape (p.drop 3)) ∧
    (lastWithKey trKey twoTrackers).bind (fun p => queryUnescape (p.drop 3))
      = some [104, 116, 116, 112, 58, 47, 47, 98] :=
  ⟨(decodeMagnetLink_trackerURL twoTrackers (by simp [twoTrackers]) twoTrackers_no_amp).1 _
      (by rfl),
   by rfl⟩

/-- C20 fails as stated: on
`magnet:?xt=urn:btih:ad42…a165&tr=http%3A%2F%2Fa&tr=http%3A%2F%2Fb` the
`Tracker URL` returned is `http://b`, while the first `tr` parameter decodes
to `http://a`. -/
theorem decodeMagnetLink_trackerURL_counterexample :
    decodeMagnetLink (magnetScheme ++ joinParameters twoTrackers)
      = .ok [(keyInfoHash, sampleHash), (keyTrackerURL, [104, 116, 116, 112, 58, 47, 47, 98])] ∧
    (firstWithKey trKey twoTrackers).bind (fun p => queryUnescape (p.drop 3))
      = some [104, 116, 116, 112, 58, 47, 47, 97] ∧
    ([104, 116, 116, 112, 58, 47, 47, 97] : Bytes) ≠ [104, 116, 116, 112, 58, 47, 47, 98] :=
  ⟨by rfl, by rfl, by decide⟩

/-! ### No value from a truncated bencoding -/

mutual
/-- A value returned with some fuel is returned with any larger fuel. -/
theorem decodeFuel_mono : ∀ (fuel : Nat) (s : Bytes) (r : Value × Nat),
    decodeFuel fuel s = .ok r → ∀ fuel2, fuel ≤ fuel2 → decodeFuel fuel2 s = .ok r
  | 0, _, _, h, _, _ => by simp [decodeFuel] at h
  | fuel + 1, s, r, h, fuel2, hle => by
    cases fuel2 with
    | zero => omega
    | succ g =>
      have hg : fuel ≤ g := by omega
      cases s with
      | nil => simp [decodeFuel] at h
      | cons c rest =>
        rw [decodeFuel] at h ⊢
        simp only at h ⊢
        by_cases hd : isDigit c = true
        · rw [if_pos hd] at h ⊢
          exact h
        · rw [if_neg hd] at h ⊢
          by_cases hi : c = 105
          · rw [if_pos hi] at h ⊢
            exact h
          · rw [if_neg hi] at h ⊢
            by_cases hl : c = 108
            · rw [if_pos hl] at h ⊢
              exact decodeListLoop_mono fuel _ 1 [] r h g hg
            · rw [if_neg hl] at h ⊢
              by_cases hdict : c = 100
              · rw [if_pos hdict] at h ⊢
                exact decodeDictLoop_mono fuel _ 1 [] r h g hg
              · rw [if_neg hdict] at h ⊢
                exact h
/-- The list loop returns the same value with more fuel. -/
theorem decodeListLoop_mono : ∀ (fuel : Nat) (s : Bytes) (index : Nat) (acc : List Value)
    (r : Value × Nat), decodeListLoop fuel s index acc = .ok r →
    ∀ fuel2, fuel ≤ fuel2 → decodeListLoop fuel2 s index acc = .ok r
  | 0, _, _, _, _, h, _, _ => by simp [decodeListLoop] at h
  | fuel + 1, s, index, acc, r, h, fuel2, hle => by
    cases fuel2 with
    | zero => omega
    | succ g =>
      have hg : fuel ≤ g := by omega
      rw [decodeListLoop] at h ⊢
      by_cases hc : index < s.length ∧ s.get? index ≠ some 101
      · rw [if_pos hc] at h ⊢
        cases hd : decodeFuel fuel (s.drop index) with
        | error e => rw [hd] at h; cases h
        | ok x =>
          obtain ⟨value, consumed⟩ := x
          rw [hd] at h
          rw [decodeFuel_mono fuel _ _ hd g hg]
          exact decodeListLoop_mono fuel s _ _ r h g hg
      · rw [if_neg hc] at h ⊢
        exact h
/-- The dictionary loop returns the same value with more fuel. -/
theorem decodeDictLoop_mono : ∀ (fuel : Nat) (s : Bytes) (index : Nat)
    (acc : List (Bytes × Value)) (r : Value × Nat), decodeDictLoop fuel s index acc = .ok r →
    ∀ fuel2, fuel ≤ fuel2 → decodeDictLoop fuel2 s index acc = .ok r
  | 0, _, _, _, _, h, _, _ => by simp [decodeDictLoop] at h
  | fuel + 1, s, index, acc, r, h, fuel2, hle => by
    cases fuel2 with
    | zero => omega
    | succ g =>
      have hg : fuel ≤ g := by omega
      rw [decodeDictLoop] at h ⊢
      by_cases hc : index < s.length ∧ s.get? index ≠ some 101
      · rw [if_pos hc] at h ⊢
        cases hd : decodeFuel fuel (s.drop index) with
        | error e => rw [hd] at h; cases h
        | ok x =>
          obtain ⟨key, consumed⟩ := x
          rw [hd] at h
          rw [decodeFuel_mono fuel _ _ hd g hg]
          simp only at h ⊢
          cases hd2 : decodeFuel fuel (s.drop (index + consumed)) with
          | error e => rw [hd2] at h; cases h
          | ok y =>
            obtain ⟨value, consumed2⟩ := y
            rw [hd2] at h
            rw [decodeFuel_mono fuel _ _ hd2 g hg]
            simp only at h ⊢
            cases key with
            | str keyStr =>
              simp only at h ⊢
              exact decodeDictLoop_mono fuel s _ _ r h g hg
            | int n => cases h
            | bytes b => cases h
            | list l => cases h
            | dict d => cases h
            | other => cases h
      · rw [if_neg hc] at h ⊢
        exact h
end

theorem canonical_head (x : Bytes) (hx : Canonical x) (hlen : x.length < 2 ^ 63) :
    ∃ c r, x = c :: r ∧ c ≠ 101 := by
  obtain ⟨v, hv, he⟩ := canonical_is_encoding x hx hlen
  exact encodeBencode_head v hv x he

/-- Whatever the fuel, a value decoded from a canonical bencoding followed by
other bytes consumes exactly the bencoding. -/
theorem decodeFuel_canonical_consumed (x : Bytes) (hx : Canonical x)
    (hlen : x.length < 2 ^ 63) (t : Bytes) (fuel : Nat) (v : Value) (n : Nat)
    (h : decodeFuel fuel (x ++ t) = .ok (v, n)) : n = x.length := by
  obtain ⟨w, hw, he⟩ := canonical_is_encoding x hx hlen
  have big := decodeFuel_encode w hw x he t (max fuel x.length) (le_max_right _ _)
  have hm := decodeFuel_mono fuel _ _ h (max fuel x.length) (le_max_left _ _)
  rw [big] at hm
  simp only [Except.ok.injEq, Prod.mk.injEq] at hm
  exact hm.2.symm

theorem indexByte_none (c : Byte) : ∀ (s : Bytes), (∀ b ∈ s, b ≠ c) → indexByte c s = none
  | [], _ => rfl
  | b :: r, h => by
    simp only [indexByte, if_neg (h b (List.mem_cons_self _ _)),
      indexByte_none c r (fun x hx => h x (List.mem_cons_of_mem _ hx)), Option.map_none']

theorem append_snoc_split {α : Type} (Q t ds : List α) (x : α) (h : Q ++ t = ds ++ [x])
    (ht : t ≠ []) : ∃ t2, Q ++ t2 = ds := by
  rcases List.append_eq_append_iff.mp h with ⟨a2, h1, _⟩ | ⟨c2, h1, h2⟩
  · exact ⟨a2, h1.symm⟩
  · have hl := congrArg List.length h2
    simp only [List.length_singleton, List.length_append] at hl
    have ht2 : 0 < t.length := List.length_pos.mpr ht
    have hc : c2 = [] := List.length_eq_zero.mp (by omega)
    rw [hc, List.append_nil] at h1
    exact ⟨[], by rw [h1, List.append_nil]⟩

/-- A truncated integer token is an error or a panic. -/
theorem decodeFuel_int_truncated (body : Bytes) (hb : ∀ b ∈ body, b ≠ 101) (P t : Bytes)
    (h : P ++ t = (105 : Byte) :: body ++ [(101 : Byte)]) (ht : t ≠ []) (fuel : Nat)
    (r : Value × Nat) : decodeFuel fuel P ≠ .ok r := by
  cases fuel with
  | zero => simp [decodeFuel]
  | succ f =>
    cases P with
    | nil => simp [decodeFuel]
    | cons c Q =>
      simp only [List.cons_append, List.cons.injEq] at h
      obtain ⟨hc, hq⟩ := h
      obtain ⟨t2, hq2⟩ := append_snoc_split Q t body 101 hq ht
      have hno : ∀ b ∈ Q, b ≠ 101 := fun b hbq => hb b (by rw [← hq2]; simp [hbq])
      subst hc
      have hd : isDigit (105 : Byte) = false := by decide
      simp only [decodeFuel, hd, Bool.false_eq_true, if_false, if_true, List.drop_succ_cons,
        List.drop_zero, indexByte_none 101 Q hno]
      simp

/-- A truncated string is an error or a panic. -/
theorem decodeFuel_str_truncated (ds s : Bytes) (hmin : MinimalDecimal ds)
    (hval : decimalValue ds = s.length) (hlen : s.length < 2 ^ 63) (P t : Bytes)
    (h : P ++ t = ds ++ (58 : Byte) :: s) (ht : t ≠ []) (fuel : Nat) (r : Value × Nat) :
    decodeFuel fuel P ≠ .ok r := by
  have hdig : ∀ b ∈ ds, b ≠ 58 := fun b hb => isDigit_ne b 58 (hmin.2.1 b hb) (by decide)
  cases fuel with
  | zero => simp [decodeFuel]
  | succ f =>
    cases P with
    | nil => simp [decodeFuel]
    | cons c Q =>
      rcases List.append_eq_append_iff.mp h with ⟨a2, h1, _⟩ | ⟨c2, h1, h2⟩
      · -- the cut falls inside the length numeral
        have hmem : ∀ b ∈ c :: Q, b ∈ ds := fun b hb => by
          rw [h1]
          exact List.mem_append_left _ hb
        have hc : isDigit c = true := hmin.2.1 c (hmem c (List.mem_cons_self _ _))
        have hidx : indexByte 58 (c :: Q) = none :=
          indexByte_none 58 _ (fun b hb => hdig b (hmem b hb))
        simp only [decodeFuel, hc, if_true, hidx, Option.getD_none, List.take_zero, atoi]
        simp
      · cases c2 with
        | nil =>
          rw [List.append_nil] at h1
          have hc : isDigit c = true := hmin.2.1 c (by rw [← h1]; exact List.mem_cons_self _ _)
          have hidx : indexByte 58 (c :: Q) = none :=
            indexByte_none 58 _ (fun b hb => hdig b (by rw [← h1]; exact hb))
          simp only [decodeFuel, hc, if_true, hidx, Option.getD_none, List.take_zero, atoi]
          simp
        | cons d Q2 =>
          simp only [List.cons_append, List.cons.injEq] at h2
          obtain ⟨hd, hs⟩ := h2
          subst hd
          have hne : ds ≠ [] := hmin.1
          have hc : isDigit c = true := by
            cases ds with
            | nil => exact absurd rfl hne
            | cons a ds2 =>
              simp only [List.cons_append, List.cons.injEq] at h1
              rw [h1.1]
              exact hmin.2.1 a (List.mem_cons_self _ _)
          have hidx : indexByte 58 (c :: Q) = some ds.length := by
            rw [h1]
            exact indexByte_append 58 ds Q2 hdig
          have htake : (c :: Q).take ds.length = ds := by
            rw [h1]
            exact List.take_left' rfl
          have hPlen : (c :: Q).length = ds.length + 1 + Q2.length := by
            rw [h1]
            simp only [List.length_append, List.length_cons]
            omega
          have hslen : s.length = Q2.length + t.length := by
            rw [hs, List.length_append]
          have htpos : 0 < t.length := List.length_pos.mpr ht
          simp only [decodeFuel, hc, if_true, hidx, Option.getD_some, htake]
          have hr : decimalValue ds < 2 ^ 63 := by rw [hval]; exact hlen
          rw [atoi_digits ds hne hmin.2.1 hr]
          have hbad : ((decimalValue ds : Nat) : Int) < 0 ∨
              (ds.length : Int) + 1 + ((decimalValue ds : Nat) : Int)
                > ((c :: Q).length : Int) := by
            right
            rw [hval, hPlen, hslen]
            push_cast
            omega
          simp only [hbad, if_true]
          simp

theorem decodeListLoop_drop_nil (fuel : Nat) (s : Bytes) (index : Nat) (acc : List Value)
    (r : Value × Nat) (h : s.drop index = []) : decodeListLoop fuel s index acc ≠ .ok r := by
  have hge : s.length ≤ index := List.drop_eq_nil_iff.mp h
  cases fuel with
  | zero => simp [decodeListLoop]
  | succ f =>
    rw [decodeListLoop, if_neg (fun hc => absurd hc.1 (by omega)), if_pos (Or.inl hge)]
    simp

theorem decodeDictLoop_drop_nil (fuel : Nat) (s : Bytes) (index : Nat)
    (acc : List (Bytes × Value)) (r : Value × Nat) (h : s.drop index = []) :
    decodeDictLoop fuel s index acc ≠ .ok r := by
  have hge : s.length ≤ index := List.drop_eq_nil_iff.mp h
  cases fuel with
  | zero => simp [decodeDictLoop]
  | succ f =>
    rw [decodeDictLoop, if_neg (fun hc => absurd hc.1 (by omega)), if_pos (Or.inl hge)]
    simp

/-- The list loop returns no value on a truncated sequence of canonical
items, given that no item returns a value when truncated. -/
theorem decodeListLoop_truncated : ∀ (items : List Bytes),
    (∀ x ∈ items, Canonical x ∧ x.length < 2 ^ 63 ∧
      ∀ (P t : Bytes), P ++ t = x → t ≠ [] →
        ∀ (fuel : Nat) (r : Value × Nat), decodeFuel fuel P ≠ .ok r) →
    ∀ (Q t2 : Bytes), Q ++ t2 = items.flatten →
    ∀ (s : Bytes) (index : Nat) (acc : List Value) (fuel : Nat) (r : Value × Nat),
      s.drop index = Q → decodeListLoop fuel s index acc ≠ .ok r
  | [], _, Q, t2, hq, s, index, acc, fuel, r, hdrop => by
    simp only [List.flatten_nil, List.append_eq_nil] at hq
    rw [hq.1] at hdrop
    exact decodeListLoop_drop_nil fuel s index acc r hdrop
  | x :: rest, hitems, Q, t2, hq, s, index, acc, fuel, r, hdrop => by
    obtain ⟨hcan, hxlen, hxih⟩ := hitems x (List.mem_cons_self _ _)
    have hrest := fun y hy => hitems y (List.mem_cons_of_mem _ hy)
    obtain ⟨c, tl, hx, hne⟩ := canonical_head x hcan hxlen
    cases Q with
    | nil => exact decodeListLoop_drop_nil fuel s index acc r hdrop
    | cons q Q2 =>
      cases fuel with
      | zero => simp [decodeListLoop]
      | succ f =>
        simp only [List.flatten_cons] at hq
        -- the whole of `x` is there, followed by `c2`, or the cut falls inside `x`
        have hsplit : (∃ c2, q :: Q2 = x ++ c2 ∧ rest.flatten = c2 ++ t2) ∨
            (∃ a2, x = q :: Q2 ++ a2 ∧ a2 ≠ []) := by
          rcases List.append_eq_append_iff.mp hq with ⟨a2, h1, h2⟩ | ⟨c2, h1, h2⟩
          · by_cases ha : a2 = []
            · subst ha
              left
              exact ⟨[], by rw [h1, List.append_nil, List.append_nil],
                by rw [List.nil_append, h2, List.nil_append]⟩
            · right
              exact ⟨a2, h1, ha⟩
          · left
            exact ⟨c2, h1, h2⟩
        have hqc : q = c := by
          rcases hsplit with ⟨c2, h1, _⟩ | ⟨a2, h1, _⟩
          · rw [hx] at h1
            simp only [List.cons_append, List.cons.injEq] at h1
            exact h1.1
          · rw [hx] at h1
            simp only [List.cons_append, List.cons.injEq] at h1
            exact h1.1.symm
        obtain ⟨g1, g2⟩ := drop_eq_cons_get hdrop
        have c1 : index < s.length ∧ s.get? index ≠ some 101 := by
          refine ⟨g1, ?_⟩
          rw [g2, hqc]
          simpa using hne
        rw [decodeListLoop, if_pos c1, hdrop]
        rcases hsplit with ⟨c2, h1, h2⟩ | ⟨a2, h1, ha⟩
        · cases hd : decodeFuel f (q :: Q2) with
          | error e => simp
          | ok y =>
            obtain ⟨value, consumed⟩ := y
            simp only
            have hcons : consumed = x.length := by
              rw [h1] at hd
              exact decodeFuel_canonical_consumed x hcan hxlen c2 f value consumed hd
            rw [hcons]
            exact decodeListLoop_truncated rest hrest c2 t2 h2.symm s (index + x.length) _ f r
              (drop_add_of_drop (by rw [hdrop, h1]))
        · cases hd : decodeFuel f (q :: Q2) with
          | error e => simp
          | ok y => exact absurd hd (hxih (q :: Q2) a2 h1.symm ha f y)

/-- The dictionary loop returns no value on a truncated sequence of canonical
entries, given that no value of an entry returns a value when truncated. -/
theorem decodeDictLoop_truncated : ∀ (entries : List (Bytes × Bytes × Bytes)),
    (∀ e ∈ entries, MinimalDecimal e.1 ∧ decimalValue e.1 = e.2.1.length ∧
      (e.1 ++ (58 : Byte) :: e.2.1).length < 2 ^ 63 ∧
      Canonical e.2.2 ∧ e.2.2.length < 2 ^ 63 ∧
      ∀ (P t : Bytes), P ++ t = e.2.2 → t ≠ [] →
        ∀ (fuel : Nat) (r : Value × Nat), decodeFuel fuel P ≠ .ok r) →
    ∀ (Q t2 : Bytes),
      Q ++ t2 = (entries.map (fun e => e.1 ++ (58 : Byte) :: e.2.1 ++ e.2.2)).flatten →
    ∀ (s : Bytes) (index : Nat) (acc : List (Bytes × Value)) (fuel : Nat) (r : Value × Nat),
      s.drop index = Q → decodeDictLoop fuel s index acc ≠ .ok r
  | [], _, Q, t2, hq, s, index, acc, fuel, r, hdrop => by
    simp only [List.map_nil, List.flatten_nil, List.append_eq_nil] at hq
    rw [hq.1] at hdrop
    exact decodeDictLoop_drop_nil fuel s index acc r hdrop
  | e :: rest, hent, Q, t2, hq, s, index, acc, fuel, r, hdrop => by
    obtain ⟨hmin, hval, hklen, hcan, hvlen, hvih⟩ := hent e (List.mem_cons_self _ _)
    have hrest := fun y hy => hent y (List.mem_cons_of_mem _ hy)
    have hkcan : Canonical (e.1 ++ (58 : Byte) :: e.2.1) := Canonical.str e.1 e.2.1 hmin hval
    have hslen : e.2.1.length < 2 ^ 63 := by
      simp only [List.length_append, List.length_cons] at hklen
      omega
    obtain ⟨c, tl, hk, hne⟩ := canonical_head _ hkcan hklen
    cases Q with
    | nil => exact decodeDictLoop_drop_nil fuel s index acc r hdrop
    | cons q Q2 =>
      cases fuel with
      | zero => simp [decodeDictLoop]
      | succ f =>
        simp only [List.map_cons, List.flatten_cons, List.append_assoc] at hq
        have hsplit : (∃ c2, q :: Q2 = (e.1 ++ (58 : Byte) :: e.2.1) ++ c2 ∧
              e.2.2 ++ (rest.map (fun e => e.1 ++ (58 : Byte) :: e.2.1 ++ e.2.2)).flatten
                = c2 ++ t2) ∨
            (∃ a2, e.1 ++ (58 : Byte) :: e.2.1 = q :: Q2 ++ a2 ∧ a2 ≠ []) := by
          have hq2 : q :: Q2 ++ t2 = (e.1 ++ (58 : Byte) :: e.2.1) ++
              (e.2.2 ++ (rest.map (fun e => e.1 ++ (58 : Byte) :: e.2.1 ++ e.2.2)).flatten) := by
            rw [hq]
            simp only [List.append_assoc, List.cons_append]
          rcases List.append_eq_append_iff.mp hq2 with ⟨a2, h1, h2⟩ | ⟨c2, h1, h2⟩
          · by_cases ha : a2 = []
            · subst ha
              left
              exact ⟨[], by rw [h1, List.append_nil, List.append_nil],
                by rw [List.nil_append, h2, List.nil_append]⟩
            · right
              exact ⟨a2, h1, ha⟩
          · left
            exact ⟨c2, h1, h2⟩
        have hqc : q = c := by
          rcases hsplit with ⟨c2, h1, _⟩ | ⟨a2, h1, _⟩
          · rw [hk] at h1
            simp only [List.cons_append, List.cons.injEq] at h1
            exact h1.1
          · rw [hk] at h1
            simp only [List.cons_append, List.cons.injEq] at h1
            exact h1.1.symm
        obtain ⟨g1, g2⟩ := drop_eq_cons_get hdrop
        have c1 : index < s.length ∧ s.get? index ≠ some 101 := by
          refine ⟨g1, ?_⟩
          rw [g2, hqc]
          simpa using hne
        rw [decodeDictLoop, if_pos c1, hdrop]
        rcases hsplit with ⟨c2, h1, h2⟩ | ⟨a2, h1, ha⟩
        · cases hd : decodeFuel f (q :: Q2) with
          | error err => simp
          | ok y =>
            obtain ⟨key, consumed⟩ := y
            simp only
            have hcons : consumed = (e.1 ++ (58 : Byte) :: e.2.1).length := by
              rw [h1] at hd
              exact decodeFuel_canonical_consumed _ hkcan hklen c2 f key consumed hd
            have hdrop2 : s.drop (index + consumed) = c2 := by
              rw [hcons]
              exact drop_add_of_drop (by rw [hdrop, h1])
            rw [hdrop2]
            -- the value: whole, followed by `c3`, or cut
            have hsplit2 : (∃ c3, c2 = e.2.2 ++ c3 ∧
                  (rest.map (fun e => e.1 ++ (58 : Byte) :: e.2.1 ++ e.2.2)).flatten
                    = c3 ++ t2) ∨
                (∃ a3, e.2.2 = c2 ++ a3 ∧ a3 ≠ []) := by
              rcases List.append_eq_append_iff.mp h2.symm with ⟨a3, k1, k2⟩ | ⟨c3, k1, k2⟩
              · by_cases ha : a3 = []
                · subst ha
                  left
                  exact ⟨[], by rw [k1, List.append_nil, List.append_nil],
                    by rw [List.nil_append, k2, List.nil_append]⟩
                · right
                  exact ⟨a3, k1, ha⟩
              · left
                exact ⟨c3, k1, k2⟩
            rcases hsplit2 with ⟨c3, k1, k2⟩ | ⟨a3, k1, ha3⟩
            · cases hd2 : decodeFuel f c2 with
              | error err => simp
              | ok z =>
                obtain ⟨value, consumed2⟩ := z
                simp only
                have hcons2 : consumed2 = e.2.2.length := by
                  rw [k1] at hd2
                  exact decodeFuel_canonical_consumed _ hcan hvlen c3 f value consumed2 hd2
                have hdrop3 : s.drop (index + consumed + consumed2) = c3 := by
                  rw [hcons2]
                  exact drop_add_of_drop (by rw [hdrop2, k1])
                cases key with
                | str keyStr =>
                  simp only
                  exact decodeDictLoop_truncated rest hrest c3 t2 k2.symm s _ _ f r hdrop3
                | int n => simp
                | bytes b => simp
                | list l => simp
                | dict d => simp
                | other => simp
            · cases hd2 : decodeFuel f c2 with
              | error err => simp
              | ok z => exact absurd hd2 (hvih c2 a3 k1.symm ha3 f z)
        · cases hd : decodeFuel f (q :: Q2) with
          | error err => simp
          | ok y =>
            exact absurd hd (decodeFuel_str_truncated e.1 e.2.1 hmin hval hslen (q :: Q2) a2
              h1.symm ha f y)

/-- On a proper prefix of a well-formed bencoding `decodeBencode` returns no
value, whatever the fuel: the call ends in an error or a panic. -/
theorem decodeFuel_truncated (B : Bytes) (hB : Canonical B) :
    B.length < 2 ^ 63 → ∀ (P t : Bytes), P ++ t = B → t ≠ [] →
      ∀ (fuel : Nat) (r : Value × Nat), decodeFuel fuel P ≠ .ok r := by
  induction hB with
  | nat ds hmin hrange =>
    intro _ P t h ht fuel r
    exact decodeFuel_int_truncated ds (fun b hb => isDigit_ne_e b (hmin.2.1 b hb)) P t h ht
      fuel r
  | neg ds hmin hne hrange =>
    intro _ P t h ht fuel r
    have hb : ∀ b ∈ (45 : Byte) :: ds, b ≠ 101 := by
      intro b hb
      rcases List.mem_cons.mp hb with h1 | h1
      · rw [h1]; decide
      · exact isDigit_ne_e b (hmin.2.1 b h1)
    exact decodeFuel_int_truncated (45 :: ds) hb P t h ht fuel r
  | str ds s hmin hval =>
    intro hlen P t h ht fuel r
    simp only [List.length_append, List.length_cons] at hlen
    exact decodeFuel_str_truncated ds s hmin hval (by omega) P t h ht fuel r
  | list items hcan ih =>
    intro hlen P t h ht fuel r
    simp only [List.length_append, List.length_cons, List.length_nil] at hlen
    cases fuel with
    | zero => simp [decodeFuel]
    | succ f =>
      cases P with
      | nil => simp [decodeFuel]
      | cons c Q =>
        simp only [List.cons_append, List.cons.injEq] at h
        obtain ⟨hc, hq⟩ := h
        obtain ⟨t2, hq2⟩ := append_snoc_split Q t items.flatten 101 hq ht
        subst hc
        have hd : isDigit (108 : Byte) = false := by decide
        simp only [decodeFuel, hd, Bool.false_eq_true, if_false,
          show ((108 : Byte) = 105) = False from by decide, if_true]
        exact decodeListLoop_truncated items
          (fun x hx => ⟨hcan x hx, by have := mem_flatten_length hx; omega,
            ih x hx (by have := mem_flatten_length hx; omega)⟩)
          Q t2 hq2 (108 :: Q) 1 [] f r (by simp)
  | dict entries hent hcan hasc ih =>
    intro hlen P t h ht fuel r
    simp only [List.length_append, List.length_cons, List.length_nil] at hlen
    have hbound : ∀ e ∈ entries, (e.1 ++ (58 : Byte) :: e.2.1).length < 2 ^ 63 ∧
        e.2.2.length < 2 ^ 63 := by
      intro e he
      have hmem : e.1 ++ (58 : Byte) :: e.2.1 ++ e.2.2
          ∈ entries.map (fun e => e.1 ++ (58 : Byte) :: e.2.1 ++ e.2.2) :=
        List.mem_map_of_mem _ he
      have := mem_flatten_length hmem
      simp only [List.length_append, List.length_cons] at this ⊢
      omega
    cases fuel with
    | zero => simp [decodeFuel]
    | succ f =>
      cases P with
      | nil => simp [decodeFuel]
      | cons c Q =>
        simp only [List.cons_append, List.cons.injEq] at h
        obtain ⟨hc, hq⟩ := h
        obtain ⟨t2, hq2⟩ := append_snoc_split Q t _ 101 hq ht
        subst hc
        have hd : isDigit (100 : Byte) = false := by decide
        simp only [decodeFuel, hd, Bool.false_eq_true, if_false,
          show ((100 : Byte) = 105) = False from by decide,
          show ((100 : Byte) = 108) = False from by decide, if_true]
        exact decodeDictLoop_truncated entries
          (fun e he => ⟨(hent e he).1, (hent e he).2, (hbound e he).1, hcan e he,
            (hbound e he).2, ih e he (hbound e he).2⟩)
          Q t2 hq2 (100 :: Q) 1 [] f r (by simp)

/-- On every proper prefix `P` of a well-formed bencoding `B`, `decodeBencode`
returns an error or panics; it never returns a value. -/
theorem decodeBencode_truncated (B : Bytes) (hB : Canonical B) (hlen : B.length < 2 ^ 63)
    (P t : Bytes) (h : P ++ t = B) (ht : t ≠ []) :
    decodeBencode P = .error Fault.error ∨ decodeBencode P = .error Fault.panic := by
  have hno := decodeFuel_truncated B hB hlen P t h ht (2 * P.length + 1)
  have htot := decodeBencode_total P
  unfold decodeBencode at htot ⊢
  cases hd : decodeFuel (2 * P.length + 1) P with
  | ok r => exact absurd hd (hno r)
  | error e =>
    rw [hd] at htot
    cases e with
    | error => exact Or.inl rfl
    | panic => exact Or.inr rfl
    | fuel => exact absurd rfl htot

/-! ### At most five requests in flight -/

theorem inFlight_append_sent (log : List WireEvent) :
    inFlight (log ++ [.requestSent]) = inFlight log + 1 := by
  induction log with
  | nil => rfl
  | cons e rest ih =>
    cases e
    · show inFlight (rest ++ [.requestSent]) + 1 = inFlight rest + 1 + 1
      rw [ih]
    · show inFlight (rest ++ [.requestSent]) - 1 = inFlight rest - 1 + 1
      rw [ih]
      ring

theorem inFlight_append_received (log : List WireEvent) :
    inFlight (log ++ [.pieceReceived]) = inFlight log - 1 := by
  induction log with
  | nil => rfl
  | cons e rest ih =>
    cases e
    · show inFlight (rest ++ [.pieceReceived]) + 1 = inFlight rest + 1 - 1
      rw [ih]
      ring
    · show inFlight (rest ++ [.pieceReceived]) - 1 = inFlight rest - 1 - 1
      rw [ih]

/-- Every prefix of `log ++ [e]` is a prefix of `log` or the whole. -/
theorem prefix_snoc {α : Type} (log p q : List α) (e : α) (h : p ++ q = log ++ [e]) :
    (∃ q2, p ++ q2 = log) ∨ p = log ++ [e] := by
  rcases List.append_eq_append_iff.mp h with ⟨a2, h1, _⟩ | ⟨c2, h1, h2⟩
  · exact Or.inl ⟨a2, h1.symm⟩
  · cases c2 with
    | nil => exact Or.inl ⟨[], by rw [h1, List.append_nil, List.append_nil]⟩
    | cons c rest =>
      right
      have hl : rest = [] ∧ q = [] := by
        have := congrArg List.length h2
        simpa using this
      obtain ⟨hr, hq⟩ := hl
      subst hr hq
      simp only [List.append_nil, List.cons.injEq, and_true] at h2
      rw [h1, h2]

theorem bounded_snoc (log : List WireEvent) (e : WireEvent)
    (hb : ∀ p q, p ++ q = log → inFlight p ≤ 5) (he : inFlight (log ++ [e]) ≤ 5) :
    ∀ p q, p ++ q = log ++ [e] → inFlight p ≤ 5 := by
  intro p q h
  rcases prefix_snoc log p q e h with ⟨q2, h2⟩ | h2
  · exact hb p q2 h2
  · rw [h2]; exact he

theorem sendInitialRequestsLog_fst (pieceIndex pieceLength : Int) : ∀ (n : Nat) (i : Int)
    (conn : Conn) (log : List WireEvent),
    (sendInitialRequestsLog pieceIndex pieceLength n i conn log).1
      = sendInitialRequests pieceIndex pieceLength n i conn
  | 0, _, _, _ => rfl
  | n + 1, i, conn, log => by
    rw [sendInitialRequestsLog, sendInitialRequests]
    cases hs : sendRequest conn (blockRequest pieceIndex pieceLength i) with
    | mk r c =>
      cases r with
      | error e => rfl
      | ok u => exact sendInitialRequestsLog_fst pieceIndex pieceLength n (i + 1) c _

theorem receiveBlocksLog_fst (pieceIndex pieceLength numBlocks : Int) : ∀ (fuel : Nat)
    (conn : Conn) (blocks : List (Int × Bytes)) (next pending : Int) (log : List WireEvent),
    (receiveBlocksLog pieceIndex pieceLength numBlocks fuel conn blocks next pending log).1
      = receiveBlocks pieceIndex pieceLength numBlocks fuel conn blocks next pending
  | 0, _, _, _, _, _ => rfl
  | fuel + 1, conn, blocks, next, pending, log => by
    rw [receiveBlocksLog, receiveBlocks]
    by_cases hlt : (blocks.length : Int) < numBlocks
    · rw [if_pos hlt, if_pos hlt]
      cases hr : receivePiece conn with
      | mk r c =>
        cases r with
        | error e => rfl
        | ok x =>
          obtain ⟨index, begin, block⟩ := x
          simp only
          by_cases hi : index ≠ pieceIndex
          · rw [if_pos hi, if_pos hi]
          · rw [if_neg hi, if_neg hi]
            by_cases hn : next < numBlocks
            · rw [if_pos hn, if_pos hn]
              cases hs : sendRequest c (blockRequest pieceIndex pieceLength next) with
              | mk r2 c2 =>
                cases r2 with
                | error e => rfl
                | ok u => exact receiveBlocksLog_fst pieceIndex pieceLength numBlocks fuel _ _ _ _ _
            · rw [if_neg hn, if_neg hn]
              exact receiveBlocksLog_fst pieceIndex pieceLength numBlocks fuel _ _ _ _ _
    · rw [if_neg hlt, if_neg hlt]

/-- The log does not change what `downloadPieceReuseConn` does. -/
theorem downloadPieceReuseConnLog_fst (sha1 : Bytes → Bytes) (conn : Conn)
    (infoDict : List (Bytes × Value)) (pieceIndex : Int) :
    (downloadPieceReuseConnLog sha1 conn infoDict pieceIndex).1
      = downloadPieceReuseConn sha1 conn infoDict pieceIndex := by
  unfold downloadPieceReuseConnLog downloadPieceReuseConn
  cases hinfo : getPieceInfoFromDict infoDict pieceIndex with
  | error e => rfl
  | ok res =>
    obtain ⟨pieceLength, pieceHash⟩ := res
    simp only
    generalize hnb : (wrap64 (wrap64 (pieceLength + 16384) - 1)).tdiv 16384 = numBlocks
    generalize hin : (if numBlocks < 5 then numBlocks else 5) = initialRequests
    have h1 := sendInitialRequestsLog_fst pieceIndex pieceLength initialRequests.toNat 0 conn []
    cases hs : sendInitialRequestsLog pieceIndex pieceLength initialRequests.toNat 0 conn [] with
    | mk rc log =>
      rw [hs] at h1
      simp only at h1
      rw [← h1]
      obtain ⟨r, c⟩ := rc
      cases r with
      | error e => rfl
      | ok u =>
        simp only
        have h2 := receiveBlocksLog_fst pieceIndex pieceLength numBlocks (c.input.length + 1) c []
          (initialRequests.toNat : Int) (initialRequests.toNat : Int) log
        cases hr : receiveBlocksLog pieceIndex pieceLength numBlocks (c.input.length + 1) c []
            (initialRequests.toNat : Int) (initialRequests.toNat : Int) log with
        | mk rc2 log2 =>
          rw [hr] at h2
          simp only at h2
          rw [← h2]
          obtain ⟨r2, c2⟩ := rc2
          cases r2 with
          | error e => rfl
          | ok blocks =>
            simp only
            cases combineBlocks blocks pieceLength with
            | error e => rfl
            | ok piece =>
              simp only
              split <;> rfl

theorem sendInitialRequestsLog_bounded (pieceIndex pieceLength : Int) : ∀ (n : Nat) (i : Int)
    (conn : Conn) (log : List WireEvent),
    (∀ p q, p ++ q = log → inFlight p ≤ 5) → inFlight log + n ≤ 5 →
    (∀ p q, p ++ q = (sendInitialRequestsLog pieceIndex pieceLength n i conn log).2 →
      inFlight p ≤ 5) ∧
    inFlight (sendInitialRequestsLog pieceIndex pieceLength n i conn log).2 ≤ 5
  | 0, _, _, log, hb, hn => by
    simp only [sendInitialRequestsLog]
    exact ⟨hb, by simpa using hn⟩
  | n + 1, i, conn, log, hb, hn => by
    rw [sendInitialRequestsLog]
    cases hs : sendRequest conn (blockRequest pieceIndex pieceLength i) with
    | mk r c =>
      cases r with
      | error e =>
        simp only
        exact ⟨hb, by push_cast at hn; omega⟩
      | ok u =>
        simp only
        have hin := inFlight_append_sent log
        exact sendInitialRequestsLog_bounded pieceIndex pieceLength n (i + 1) c _
          (bounded_snoc log _ hb (by push_cast at hn; omega)) (by push_cast at hn; omega)

theorem receiveBlocksLog_bounded (pieceIndex pieceLength numBlocks : Int) : ∀ (fuel : Nat)
    (conn : Conn) (blocks : List (Int × Bytes)) (next pending : Int) (log : List WireEvent),
    (∀ p q, p ++ q = log → inFlight p ≤ 5) → inFlight log ≤ 5 →
    ∀ p q, p ++ q
        = (receiveBlocksLog pieceIndex pieceLength numBlocks fuel conn blocks next pending log).2 →
      inFlight p ≤ 5
  | 0, _, _, _, _, log, hb, _ => by
    simp only [receiveBlocksLog]
    exact hb
  | fuel + 1, conn, blocks, next, pending, log, hb, hn => by
    rw [receiveBlocksLog]
    have hrec := inFlight_append_received log
    have hb1 : ∀ p q, p ++ q = log ++ [WireEvent.pieceReceived] → inFlight p ≤ 5 :=
      bounded_snoc log _ hb (by omega)
    by_cases hlt : (blocks.length : Int) < numBlocks
    · rw [if_pos hlt]
      cases hr : receivePiece conn with
      | mk r c =>
        cases r with
        | error e => exact hb
        | ok x =>
          obtain ⟨index, begin, block⟩ := x
          simp only
          by_cases hi : index ≠ pieceIndex
          · rw [if_pos hi]
            exact hb1
          · rw [if_neg hi]
            by_cases hnx : next < numBlocks
            · rw [if_pos hnx]
              cases hs : sendRequest c (blockRequest pieceIndex pieceLength next) with
              | mk r2 c2 =>
                cases r2 with
                | error e => exact hb1
                | ok u =>
                  simp only
                  have hsent := inFlight_append_sent (log ++ [WireEvent.pieceReceived])
                  exact receiveBlocksLog_bounded pieceIndex pieceLength numBlocks fuel _ _ _ _ _
                    (bounded_snoc _ _ hb1 (by omega)) (by omega)
            · rw [if_neg hnx]
              exact receiveBlocksLog_bounded pieceIndex pieceLength numBlocks fuel _ _ _ _ _
                hb1 (by omega)
    · rw [if_neg hlt]
      exact hb

theorem downloadPieceReuseConnLog_bounded (sha1 : Bytes → Bytes) (conn : Conn)
    (infoDict : List (Bytes × Value)) (pieceIndex : Int) :
    ∀ p q, p ++ q = (downloadPieceReuseConnLog sha1 conn infoDict pieceIndex).2 →
      inFlight p ≤ 5 := by
  have hnil : ∀ p q : List WireEvent, p ++ q = [] → inFlight p ≤ 5 := by
    intro p q h
    rw [(List.append_eq_nil.mp h).1]
    decide
  unfold downloadPieceReuseConnLog
  cases hinfo : getPieceInfoFromDict infoDict pieceIndex with
  | error e => exact hnil
  | ok res =>
    obtain ⟨pieceLength, pieceHash⟩ := res
    simp only
    generalize hnb : (wrap64 (wrap64 (pieceLength + 16384) - 1)).tdiv 16384 = numBlocks
    have hle : ((if numBlocks < 5 then numBlocks else 5).toNat : Int) ≤ 5 := by
      split <;> omega
    generalize hin : (if numBlocks < 5 then numBlocks else 5) = initialRequests at hle
    have h1 := sendInitialRequestsLog_bounded pieceIndex pieceLength initialRequests.toNat 0
      conn [] hnil (by simp only [inFlight]; omega)
    cases hs : sendInitialRequestsLog pieceIndex pieceLength initialRequests.toNat 0 conn [] with
    | mk rc log =>
      rw [hs] at h1
      obtain ⟨r, c⟩ := rc
      cases r with
      | error e => exact h1.1
      | ok u =>
        simp only
        have h2 := receiveBlocksLog_bounded pieceIndex pieceLength numBlocks
          (c.input.length + 1) c [] (initialRequests.toNat : Int) (initialRequests.toNat : Int)
          log h1.1 h1.2
        cases hr : receiveBlocksLog pieceIndex pieceLength numBlocks (c.input.length + 1) c []
            (initialRequests.toNat : Int) (initialRequests.toNat : Int) log with
        | mk rc2 log2 =>
          rw [hr] at h2
          obtain ⟨r2, c2⟩ := rc2
          cases r2 with
          | error e => exact h2
          | ok blocks =>
            simp only
            cases combineBlocks blocks pieceLength with
            | error e => exact h2
            | ok piece =>
              simp only
              split <;> exact h2

/-- C21: at every point of `downloadPieceReuseConn`, for every info
dictionary and piece index (so every piece length) and every connection (so
every sequence of peer replies), the number of request messages sent minus
the number of piece messages received is at most 5: this holds of every
prefix `p` of the log of the events in the order in which they go over the
wire. The log does not change what the function does, and
`downloadPieceWithMagnetReuseConn` is the same function. -/
theorem downloadPieceReuseConn_pipeline (sha1 : Bytes → Bytes) (conn : Conn)
    (infoDict : List (Bytes × Value)) (pieceIndex : Int) :
    (downloadPieceReuseConnLog sha1 conn infoDict pieceIndex).1
      = downloadPieceReuseConn sha1 conn infoDict pieceIndex ∧
    (downloadPieceReuseConnLog sha1 conn infoDict pieceIndex).1
      = downloadPieceWithMagnetReuseConn sha1 conn infoDict pieceIndex ∧
    ∀ p q : List WireEvent,
      p ++ q = (downloadPieceReuseConnLog sha1 conn infoDict pieceIndex).2 → inFlight p ≤ 5 :=
  ⟨downloadPieceReuseConnLog_fst sha1 conn infoDict pieceIndex,
   downloadPieceReuseConnLog_fst sha1 conn infoDict pieceIndex,
   downloadPieceReuseConnLog_bounded sha1 conn infoDict pieceIndex⟩

/-! ### Assembling the file -/

theorem ascending_int_nodup : ∀ (ks : List Int), ascending intLt ks = true → ks.Nodup
  | [], _ => List.nodup_nil
  | a :: l, h => by
    have hlt := ascending_int_head_lt a l h
    refine List.nodup_cons.mpr ⟨?_, ascending_int_nodup l (ascending_tail intLt a l h)⟩
    intro hmem
    exact absurd (hlt a hmem) (lt_irrefl a)

theorem mapGet_isSome_iff (m : List (Int × Bytes)) (i : Int) :
    (∃ d, mapGet m i = some d) ↔ i ∈ m.map Prod.fst := by
  induction m with
  | nil => simp [mapGet]
  | cons x rest ih =>
    obtain ⟨k0, v0⟩ := x
    simp only [mapGet, List.map_cons, List.mem_cons]
    by_cases hk : k0 = i
    · simp [hk]
    · rw [if_neg hk, ih]
      constructor
      · intro h; exact Or.inr h
      · rintro (h | h)
        · exact absurd h.symm hk
        · exact h

/-- When all keys of the buffer lie in `0..n-1`, the buffer has `n` entries
exactly when it holds every index `0..n-1`. -/
theorem PieceBuffer.HasAll_iff (pb : PieceBuffer) (n : Nat)
    (hmap : ascending intLt (pb.pieces.map Prod.fst) = true)
    (hkeys : ∀ k ∈ pb.pieces.map Prod.fst, 0 ≤ k ∧ k < (n : Int)) :
    pb.HasAll (n : Int) = true ↔
      ∀ i : Int, 0 ≤ i → i < (n : Int) → ∃ d, pb.Get i = some d := by
  have hnd : (pb.pieces.map Prod.fst).Nodup := ascending_int_nodup _ hmap
  have hsub : (pb.pieces.map Prod.fst).toFinset ⊆ Finset.Ico (0 : Int) n := by
    intro k hk
    rw [List.mem_toFinset] at hk
    rw [Finset.mem_Ico]
    exact hkeys k hk
  have hcard : (pb.pieces.map Prod.fst).toFinset.card = pb.pieces.length := by
    rw [List.toFinset_card_of_nodup hnd, List.length_map]
  have hIco : (Finset.Ico (0 : Int) n).card = n := by
    rw [Int.card_Ico]
    simp
  unfold PieceBuffer.HasAll PieceBuffer.Get
  rw [decide_eq_true_eq]
  constructor
  · intro hlen i h0 hi
    have hlen2 : pb.pieces.length = n := by exact_mod_cast hlen
    have heq : (pb.pieces.map Prod.fst).toFinset = Finset.Ico (0 : Int) n :=
      Finset.eq_of_subset_of_card_le hsub (by rw [hIco, hcard, hlen2])
    rw [mapGet_isSome_iff, ← List.mem_toFinset, heq, Finset.mem_Ico]
    exact ⟨h0, hi⟩
  · intro hall
    have hsup : Finset.Ico (0 : Int) n ⊆ (pb.pieces.map Prod.fst).toFinset := by
      intro i hi
      rw [Finset.mem_Ico] at hi
      rw [List.mem_toFinset, ← mapGet_isSome_iff]
      exact hall i hi.1 hi.2
    have heq := Finset.Subset.antisymm hsub hsup
    have : pb.pieces.length = n := by rw [← hcard, heq, hIco]
    exact_mod_cast this

/-- C28: for a piece buffer (a map, its indices in increasing order) whose
keys all lie in `0..n-1`, `HasAll n` is true exactly when the buffer holds
every index `0..n-1`; and the last steps of the coordinator return a file
only when the buffer holds every index. -/
theorem PieceBuffer.HasAll_spec (pb : PieceBuffer) (n : Nat)
    (hmap : ascending intLt (pb.pieces.map Prod.fst) = true)
    (hkeys : ∀ k ∈ pb.pieces.map Prod.fst, 0 ≤ k ∧ k < (n : Int)) :
    (pb.HasAll (n : Int) = true ↔
      ∀ i : Int, 0 ≤ i → i < (n : Int) → ∃ d, pb.Get i = some d) ∧
    (∀ (dataLen : Int) (r : Bytes), assembleFile pb (n : Int) dataLen = .ok r →
      ∀ i : Int, 0 ≤ i → i < (n : Int) → ∃ d, pb.Get i = some d) := by
  refine ⟨PieceBuffer.HasAll_iff pb n hmap hkeys, ?_⟩
  intro dataLen r h
  unfold assembleFile at h
  cases hh : pb.HasAll (n : Int) with
  | false => rw [hh] at h; simp at h
  | true => exact (PieceBuffer.HasAll_iff pb n hmap hkeys).mp hh

/-- C28 at a buffer with the indices 0 and 2 and `n = 3`: index 1 is missing
and `HasAll 3` is false. -/
theorem PieceBuffer.HasAll_spec_witness :
    PieceBuffer.HasAll ⟨[(0, [1]), (2, [3])]⟩ 3 = false ∧
    PieceBuffer.Get ⟨[(0, [1]), (2, [3])]⟩ 1 = none ∧
    (PieceBuffer.HasAll ⟨[(0, [1]), (2, [3])]⟩ ((3 : Nat) : Int) = true ↔
      ∀ i : Int, 0 ≤ i → i < ((3 : Nat) : Int) →
        ∃ d, PieceBuffer.Get ⟨[(0, [1]), (2, [3])]⟩ i = some d) :=
  ⟨by rfl, by rfl,
   (PieceBuffer.HasAll_spec ⟨[(0, [1]), (2, [3])]⟩ 3 (by decide)
      (by
        intro k hk
        simp only [List.map_cons, List.map_nil, List.mem_cons, List.mem_singleton,
          List.mem_nil_iff, or_false] at hk
        rcases hk with hk | hk <;> subst hk <;> decide)).1⟩

/-! ### The peers of a tracker response -/

theorem port_eq (b4 b5 : Byte) :
    (((b4.val <<< 8) ||| b5.val : Nat) : Int) = 256 * (b4.val : Int) + (b5.val : Int) := by
  have h := Nat.mul_add_lt_is_or (show b5.val < 2 ^ 8 from b5.isLt) b4.val
  rw [Nat.shiftLeft_eq, Nat.mul_comm, ← h]
  push_cast
  norm_num

theorem peerAddresses_spec : ∀ (n : Nat) (peers : Bytes), peers.length = 6 * n →
    (peerAddresses peers).length = n ∧
    ∀ k, k < n → (peerAddresses peers)[k]? = some (endpointAt peers k)
  | 0, peers, h => by
    have hp : peers = [] := List.length_eq_zero.mp (by omega)
    subst hp
    exact ⟨rfl, by intro k hk; omega⟩
  | n + 1, peers, h => by
    match peers, h with
    | b0 :: b1 :: b2 :: b3 :: b4 :: b5 :: rest, h =>
      have hrest : rest.length = 6 * n := by
        simp only [List.length_cons] at h
        omega
      obtain ⟨i1, i2⟩ := peerAddresses_spec n rest hrest
      rw [peerAddresses]
      refine ⟨by simp only [List.length_cons, i1], ?_⟩
      intro k hk
      cases k with
      | zero =>
        simp only [List.getElem?_cons_zero, endpointAt, Nat.mul_zero, Nat.zero_add,
          List.getD_cons_zero, List.getD_cons_succ, port_eq]
      | succ j =>
        rw [List.getElem?_cons_succ, i2 j (by omega)]
        have e : ∀ m, (b0 :: b1 :: b2 :: b3 :: b4 :: b5 :: rest).getD (6 * (j + 1) + m) 0
            = rest.getD (6 * j + m) 0 := by
          intro m
          rw [show 6 * (j + 1) + m = (6 * j + m) + 1 + 1 + 1 + 1 + 1 + 1 by omega]
          simp only [List.getD_cons_succ]
        have e0 := e 0
        simp only [Nat.add_zero] at e0
        simp only [endpointAt, e0, e 1, e 2, e 3, e 4, e 5]
    | [], h => (simp only [List.length_cons, List.length_nil] at h; omega)
    | [_], h => (simp only [List.length_cons, List.length_nil] at h; omega)
    | [_, _], h => (simp only [List.length_cons, List.length_nil] at h; omega)
    | [_, _, _], h => (simp only [List.length_cons, List.length_nil] at h; omega)
    | [_, _, _, _], h => (simp only [List.length_cons, List.length_nil] at h; omega)
    | [_, _, _, _, _], h => (simp only [List.length_cons, List.length_nil] at h; omega)

theorem endpointAt_port_range (peers : Bytes) (k : Nat) :
    0 ≤ (endpointAt peers k).Port ∧ (endpointAt peers k).Port ≤ 65535 := by
  have h4 := (peers.getD (6 * k + 4) 0).isLt
  have h5 := (peers.getD (6 * k + 5) 0).isLt
  simp only [endpointAt]
  omega

/-- C23 (amended): when the tracker's response is a dictionary whose `peers`
is a string of length `6n`, `getPeerAddressFromDict` yields exactly `n`
endpoints in input order, the `k`-th having the dotted decimal of bytes
`6k..6k+3` as IP and the port `256·byte[6k+4] + byte[6k+5]`, between 0 and
65535; `getPeerAddressFromMagnet` yields the same endpoints when `n ≥ 1` and
rejects the empty `peers` string with an error; a `peers` string whose length
is not a multiple of 6 is rejected with an error by both. -/
theorem getPeerAddress_spec (body : Bytes) (responseDict : List (Bytes × Value))
    (consumed : Nat) (peers : Bytes)
    (hbody : decodeBencode body = .ok (.dict responseDict, consumed))
    (hpeers : mapGet responseDict keyPeers = some (.str peers)) :
    (∀ n : Nat, peers.length = 6 * n →
      ∃ addresses : List Address,
        getPeerAddressFromDict body = .ok addresses ∧
        (1 ≤ n → getPeerAddressFromMagnet body = .ok addresses) ∧
        (n = 0 → getPeerAddressFromMagnet body = .error Fault.error) ∧
        addresses.length = n ∧
        ∀ k, k < n → addresses[k]? = some (endpointAt peers k) ∧
          0 ≤ (endpointAt peers k).Port ∧ (endpointAt peers k).Port ≤ 65535) ∧
    (peers.length % 6 ≠ 0 →
      getPeerAddressFromDict body = .error Fault.error ∧
      getPeerAddressFromMagnet body = .error Fault.error) := by
  constructor
  · intro n hn
    have hmod : ¬ (peers.length % 6 ≠ 0) := by omega
    obtain ⟨h1, h2⟩ := peerAddresses_spec n peers hn
    refine ⟨peerAddresses peers, ?_, ?_, ?_, h1, ?_⟩
    · unfold getPeerAddressFromDict
      rw [hbody]
      simp only
      rw [hpeers]
      simp only
      rw [if_neg hmod]
    · intro hpos
      have hz : ¬ (peers.length = 0) := by omega
      unfold getPeerAddressFromMagnet
      rw [hbody]
      simp only
      rw [hpeers]
      simp only
      rw [if_neg hmod, if_neg hz]
    · intro hzero
      have hz : peers.length = 0 := by omega
      unfold getPeerAddressFromMagnet
      rw [hbody]
      simp only
      rw [hpeers]
      simp only
      rw [if_neg hmod, if_pos hz]
    · intro k hk
      exact ⟨h2 k hk, endpointAt_port_range peers k⟩
  · intro hmod
    constructor
    · unfold getPeerAddressFromDict
      rw [hbody]
      simp only
      rw [hpeers]
      simp only
      rw [if_pos hmod]
    · unfold getPeerAddressFromMagnet
      rw [hbody]
      simp only
      rw [hpeers]
      simp only
      rw [if_pos hmod]

/-- C23 (amended) at a response with the peers `10.0.0.1:6881` and
`192.168.1.2:256`. -/
theorem getPeerAddress_spec_witness :
    getPeerAddressFromDict sampleTrackerResponse
      = .ok [⟨[49, 48, 46, 48, 46, 48, 46, 49], 6881⟩,
             ⟨[49, 57, 50, 46, 49, 54, 56, 46, 49, 46, 50], 256⟩] ∧
    ∃ addresses : List Address,
      getPeerAddressFromDict sampleTrackerResponse = .ok addresses ∧
      (1 ≤ 2 → getPeerAddressFromMagnet sampleTrackerResponse = .ok addresses) ∧
      (2 = 0 → getPeerAddressFromMagnet sampleTrackerResponse = .error Fault.error) ∧
      addresses.length = 2 ∧
      ∀ k, k < 2 → addresses[k]? = some (endpointAt samplePeers k) ∧
        0 ≤ (endpointAt samplePeers k).Port ∧ (endpointAt samplePeers k).Port ≤ 65535 :=
  ⟨by rfl,
   (getPeerAddress_spec sampleTrackerResponse [(keyPeers, .str samplePeers)] 24 samplePeers
      (by rfl) (by rfl)).1 2 (by rfl)⟩

/-- C23 fails as stated: on the response `d5:peers0:e`, whose `peers` string
has the length `6·0`, `getPeerAddressFromMagnet` returns an error, where
`getPeerAddressFromDict` yields no endpoint. -/
theorem getPeerAddress_spec_counterexample :
    decodeBencode emptyTrackerResponse = .ok (.dict [(keyPeers, .str [])], 11) ∧
    getPeerAddressFromMagnet emptyTrackerResponse = .error Fault.error ∧
    getPeerAddressFromDict emptyTrackerResponse = .ok [] :=
  ⟨by rfl, by rfl, by rfl⟩

/-! ### The dictionary case of `encodeBencode` -/

theorem ascending_cons_iff (a : Bytes) (l : List Bytes) :
    ascending bytesLt (a :: l) = true ↔
      (∀ x ∈ l, bytesLt a x = true) ∧ ascending bytesLt l = true := by
  constructor
  · intro h
    exact ⟨ascending_head_lt a l h, ascending_tail bytesLt a l h⟩
  · intro h
    cases l with
    | nil => rfl
    | cons b rest =>
      simp only [ascending, Bool.and_eq_true]
      exact ⟨h.1 b (by simp), h.2⟩

theorem insertKey_perm (k : Bytes) : ∀ (l : List Bytes), (insertKey k l).Perm (k :: l)
  | [] => List.Perm.refl _
  | x :: xs => by
    by_cases h : bytesLt x k = true
    · simp only [insertKey, h, if_true]
      exact ((insertKey_perm k xs).cons x).trans (List.Perm.swap k x xs)
    · simp only [insertKey, h, if_false]
      exact List.Perm.refl _

theorem sortStrings_perm : ∀ (ks : List Bytes), (sortStrings ks).Perm ks
  | [] => List.Perm.refl _
  | k :: ks => by
    simp only [sortStrings]
    exact (insertKey_perm k _).trans ((sortStrings_perm ks).cons k)

theorem insertKey_ascending (k : Bytes) : ∀ (l : List Bytes), ascending bytesLt l = true →
    k ∉ l → ascending bytesLt (insertKey k l) = true
  | [], _, _ => rfl
  | x :: xs, hasc, hk => by
    obtain ⟨hx, hxs⟩ := (ascending_cons_iff x xs).mp hasc
    have hkx : k ≠ x := fun e => hk (by rw [e]; simp)
    have hkxs : k ∉ xs := fun e => hk (by simp [e])
    by_cases h : bytesLt x k = true
    · simp only [insertKey, h, if_true]
      refine (ascending_cons_iff x _).mpr ⟨?_, insertKey_ascending k xs hxs hkxs⟩
      intro y hy
      have hy2 := (insertKey_perm k xs).mem_iff.mp hy
      rcases List.mem_cons.mp hy2 with hy3 | hy3
      · rw [hy3]; exact h
      · exact hx y hy3
    · simp only [insertKey, h, if_false]
      have hlt : bytesLt k x = true := by
        cases hc : bytesLt k x with
        | true => rfl
        | false =>
          exact absurd (bytesLt_connected k x hc (Bool.eq_false_iff.mpr h)) hkx
      simp only [ascending, hlt, Bool.true_and]
      exact hasc

theorem sortStrings_sorted : ∀ (ks : List Bytes), ks.Nodup →
    ascending bytesLt (sortStrings ks) = true
  | [], _ => rfl
  | k :: ks, h => by
    obtain ⟨hk, hks⟩ := List.nodup_cons.mp h
    simp only [sortStrings]
    exact insertKey_ascending k _ (sortStrings_sorted ks hks)
      (fun e => hk ((sortStrings_perm ks).mem_iff.mp e))

theorem mapGet_of_mem_nodup {β : Type} : ∀ (m : List (Bytes × β)) (p : Bytes × β),
    (m.map Prod.fst).Nodup → p ∈ m → mapGet m p.1 = some p.2
  | [], _, _, hp => by cases hp
  | (k0, v0) :: rest, p, hn, hp => by
    simp only [List.map_cons] at hn
    obtain ⟨hk, hrest⟩ := List.nodup_cons.mp hn
    rcases List.mem_cons.mp hp with e | e
    · rw [e]
      simp [mapGet]
    · have hne : k0 ≠ p.1 := by
        intro heq
        exact hk (heq ▸ List.mem_map_of_mem Prod.fst e)
      simp only [mapGet, hne, if_false]
      exact mapGet_of_mem_nodup rest p hrest e

theorem encodeValues_ok_of_values : ∀ (m : List (Bytes × Value)),
    (∀ p ∈ m, ∃ e, encodeBencode p.2 = .ok e) → ∃ encoded, encodeValues m = .ok encoded
  | [], _ => ⟨[], by simp only [encodeValues]⟩
  | (k, v) :: rest, h => by
    obtain ⟨e, he⟩ := h (k, v) (by simp)
    obtain ⟨r, hr⟩ := encodeValues_ok_of_values rest (fun p hp => h p (by simp [hp]))
    exact ⟨(k, e) :: r, by simp only [encodeValues, he, hr]⟩

theorem encodeValues_lookup : ∀ (m : List (Bytes × Value)) (encoded : List (Bytes × Bytes)),
    encodeValues m = .ok encoded →
    encoded.map Prod.fst = m.map Prod.fst ∧
    ∀ k v, mapGet m k = some v → ∃ e, mapGet encoded k = some e ∧ encodeBencode v = .ok e
  | [], encoded, h => by
    simp only [encodeValues, Except.ok.injEq] at h
    subst h
    exact ⟨rfl, by intro k v hk; simp [mapGet] at hk⟩
  | (k0, v0) :: rest, encoded, h => by
    simp only [encodeValues] at h
    cases he : encodeBencode v0 with
    | error x => rw [he] at h; cases h
    | ok e0 =>
      rw [he] at h
      cases hr : encodeValues rest with
      | error x => rw [hr] at h; cases h
      | ok r =>
        rw [hr] at h
        simp only [Except.ok.injEq] at h
        subst h
        obtain ⟨i1, i2⟩ := encodeValues_lookup rest r hr
        refine ⟨by simp only [List.map_cons, i1], ?_⟩
        intro k v hk
        by_cases hkk : k0 = k
        · simp only [mapGet, hkk, if_true, Option.some.injEq] at hk ⊢
          subst hk
          exact ⟨e0, rfl, he⟩
        · simp only [mapGet, hkk, if_false] at hk ⊢
          exact i2 k v hk

theorem emitEntries_map (encoded : List (Bytes × Bytes)) : ∀ (ks : List Bytes),
    emitEntries encoded ks
      = (ks.map (fun k => encodeString k ++ (mapGet encoded k).getD [])).flatten
  | [] => rfl
  | k :: ks => by
    simp only [emitEntries, List.map_cons, List.flatten_cons, emitEntries_map encoded ks,
      List.append_assoc]

/-- C24: for a map `m` (every key once, in whatever order the map is walked)
whose values can be encoded, `encodeBencode(m)` is the byte `d`, then for the
entries of `m` taken in strictly increasing byte order of their keys the
encoding of the key as a byte string followed by the encoding of its value,
then the byte `e`. -/
theorem encodeBencode_dict_sorted (m : List (Bytes × Value))
    (hkeys : (m.map Prod.fst).Nodup)
    (hvals : ∀ p ∈ m, ∃ e, encodeBencode p.2 = .ok e) :
    ∃ rows : List (Bytes × Value × Bytes),
      (rows.map (fun r => (r.1, r.2.1))).Perm m ∧
      ascending bytesLt (rows.map (fun r => r.1)) = true ∧
      (∀ r ∈ rows, encodeBencode r.2.1 = .ok r.2.2) ∧
      encodeBencode (.dict m)
        = .ok ((100 : Byte) :: (rows.map (fun r => encodeString r.1 ++ r.2.2)).flatten
                ++ [(101 : Byte)]) := by
  obtain ⟨encoded, henc⟩ := encodeValues_ok_of_values m hvals
  obtain ⟨hk, hlook⟩ := encodeValues_lookup m encoded henc
  have hperm := sortStrings_perm (m.map Prod.fst)
  have hsorted := sortStrings_sorted (m.map Prod.fst) hkeys
  refine ⟨(sortStrings (m.map Prod.fst)).map
    (fun k => (k, (mapGet m k).getD .other, (mapGet encoded k).getD [])), ?_, ?_, ?_, ?_⟩
  · rw [List.map_map]
    have h1 : ((sortStrings (m.map Prod.fst)).map
        ((fun r : Bytes × Value × Bytes => (r.1, r.2.1)) ∘
          (fun k => (k, (mapGet m k).getD .other, (mapGet encoded k).getD [])))).Perm
        ((m.map Prod.fst).map
        ((fun r : Bytes × Value × Bytes => (r.1, r.2.1)) ∘
          (fun k => (k, (mapGet m k).getD .other, (mapGet encoded k).getD [])))) :=
      hperm.map _
    have h2 : (m.map Prod.fst).map
        ((fun r : Bytes × Value × Bytes => (r.1, r.2.1)) ∘
          (fun k => (k, (mapGet m k).getD .other, (mapGet encoded k).getD []))) = m := by
      rw [List.map_map]
      conv_rhs => rw [← List.map_id m]
      apply List.map_congr_left
      intro p hp
      simp only [Function.comp, mapGet_of_mem_nodup m p hkeys hp, Option.getD_some, id]
    rw [h2] at h1
    exact h1
  · rw [List.map_map]
    have : ((fun r : Bytes × Value × Bytes => r.1) ∘
        (fun k => (k, (mapGet m k).getD .other, (mapGet encoded k).getD []))) = id := rfl
    rw [this, List.map_id]
    exact hsorted
  · intro r hr
    obtain ⟨k, hkmem, hkr⟩ := List.mem_map.mp hr
    have hkm : k ∈ m.map Prod.fst := hperm.mem_iff.mp hkmem
    obtain ⟨p, hp, hpk⟩ := List.mem_map.mp hkm
    have hget := mapGet_of_mem_nodup m p hkeys hp
    rw [hpk] at hget
    obtain ⟨e, he1, he2⟩ := hlook k p.2 hget
    rw [← hkr]
    simp only [hget, he1, Option.getD_some]
    exact he2
  · simp only [encodeBencode, henc, hk, emitEntries_map, List.map_map]
    rfl

/-- C24 at the map `{"b": 1, "a": 2}`, which is encoded as `d1:ai2e1:bi1ee`. -/
theorem encodeBencode_dict_sorted_witness :
    encodeBencode (.dict unsortedEntries)
      = .ok [100, 49, 58, 97, 105, 50, 101, 49, 58, 98, 105, 49, 101, 101] ∧
    ∃ rows : List (Bytes × Value × Bytes),
      (rows.map (fun r => (r.1, r.2.1))).Perm unsortedEntries ∧
      ascending bytesLt (rows.map (fun r => r.1)) = true ∧
      (∀ r ∈ rows, encodeBencode r.2.1 = .ok r.2.2) ∧
      encodeBencode (.dict unsortedEntries)
        = .ok ((100 : Byte) :: (rows.map (fun r => encodeString r.1 ++ r.2.2)).flatten
                ++ [(101 : Byte)]) :=
  ⟨by rfl,
   encodeBencode_dict_sorted unsortedEntries (by decide)
    (by
      intro p hp
      simp only [unsortedEntries, List.mem_cons, List.mem_singleton, List.not_mem_nil,
        or_false] at hp
      rcases hp with hp | hp <;> exact ⟨_, by rw [hp]; rfl⟩)⟩

/-! ### A dictionary key that is not a string -/

/-- The dictionary loop, standing before well-formed pairs that are followed
by the encoding of a value that is no string and the encoding of a value,
returns an error. -/
theorem decodeDictLoop_nonStringKey (key value : Value) (K V rest : Bytes)
    (hkey : key.IsBencode) (hns : ∀ k, key ≠ .str k) (hK : encodeBencode key = .ok K)
    (hvalue : value.IsBencode) (hV : encodeBencode value = .ok V) :
    ∀ (es : List (Bytes × Value)), Value.EntriesBencode es →
    ∀ (encoded : List (Bytes × Bytes)), encodeValues es = .ok encoded →
    ∀ (s : Bytes) (index : Nat) (acc : List (Bytes × Value)) (fuel : Nat),
    s.drop index
      = (encoded.map (fun p => encodeString p.1 ++ p.2)).flatten ++ (K ++ (V ++ rest)) →
    (encoded.map (fun p => encodeString p.1 ++ p.2)).flatten.length + K.length + V.length + 1
      ≤ fuel →
    decodeDictLoop fuel s index acc = .error Fault.error
  | [], _, encoded, hr => by
    simp only [encodeValues, Except.ok.injEq] at hr
    subst hr
    intro s index acc fuel hdrop hfuel
    simp only [List.map_nil, List.flatten_nil, List.nil_append, List.length_nil,
      Nat.zero_add] at hdrop hfuel
    obtain ⟨c, tl, hc, hne⟩ := encodeBencode_head key hkey K hK
    have hdrop3 : s.drop index = c :: (tl ++ (V ++ rest)) := by
      rw [hdrop, hc]; rfl
    obtain ⟨h1, h2⟩ := drop_eq_cons_get hdrop3
    cases fuel with
    | zero => omega
    | succ f =>
      have c1 : index < s.length ∧ s.get? index ≠ some 101 := by
        refine ⟨h1, ?_⟩
        rw [h2]
        simpa using hne
      have hk := decodeFuel_encode key hkey K hK (V ++ rest) f (by omega)
      have hdropV := drop_add_of_drop hdrop
      have hv := decodeFuel_encode value hvalue V hV rest f (by omega)
      simp only [decodeDictLoop, if_pos c1, hdrop, hk, hdropV, hv]
  | (k, v) :: es, hv, encoded, hr => by
    simp only [Value.EntriesBencode] at hv
    simp only [encodeValues] at hr
    cases he : encodeBencode v with
    | error e => rw [he] at hr; cases hr
    | ok enc =>
      rw [he] at hr
      simp only at hr
      cases hrest : encodeValues es with
      | error e => rw [hrest] at hr; cases hr
      | ok r2 =>
        rw [hrest] at hr
        simp only [Except.ok.injEq] at hr
        subst hr
        have hloop := decodeDictLoop_nonStringKey key value K V rest hkey hns hK hvalue hV
          es hv.2.2 r2 hrest
        intro s index acc fuel hdrop hfuel
        have hdropK : s.drop index = encodeString k ++ (enc ++
            ((r2.map (fun p => encodeString p.1 ++ p.2)).flatten ++ (K ++ (V ++ rest)))) := by
          rw [hdrop]; simp
        obtain ⟨c, tl, hc, hcd⟩ := formatNat_head k.length
        have hdrop3 : s.drop index = c :: (tl ++ 58 :: k ++ (enc ++
            ((r2.map (fun p => encodeString p.1 ++ p.2)).flatten ++ (K ++ (V ++ rest))))) := by
          rw [hdropK]; simp [encodeString, hc]
        obtain ⟨h1, h2⟩ := drop_eq_cons_get hdrop3
        have hne : c ≠ 101 := isDigit_ne c 101 hcd (by decide)
        have hklen := encodeString_length k
        cases fuel with
        | zero => omega
        | succ f =>
          have c1 : index < s.length ∧ s.get? index ≠ some 101 := by
            refine ⟨h1, ?_⟩
            rw [h2]
            simpa using hne
          have hfuel2 : (encodeString k).length + enc.length
              + (r2.map (fun p => encodeString p.1 ++ p.2)).flatten.length
              + K.length + V.length ≤ f := by
            simp only [List.map_cons, List.flatten_cons, List.length_append] at hfuel
            omega
          have hkeyd : decodeFuel f (encodeString k ++ (enc ++
              ((r2.map (fun p => encodeString p.1 ++ p.2)).flatten ++ (K ++ (V ++ rest)))))
              = .ok (.str k, (encodeString k).length) := by
            cases f with
            | zero => omega
            | succ g => exact decodeFuel_encodeString g k _ hv.1
          have hdropV := drop_add_of_drop hdropK
          have hval := decodeFuel_encode v hv.2.1 enc he
            ((r2.map (fun p => encodeString p.1 ++ p.2)).flatten ++ (K ++ (V ++ rest))) f
            (by omega)
          have hdropN := drop_add_of_drop hdropV
          have hnext := hloop s (index + (encodeString k).length + enc.length)
            (mapSet bytesLt acc k v) f hdropN (by omega)
          simp only [decodeDictLoop, if_pos c1, hdropK, hkeyd, hdropV, hval, hnext]

/-- C25: for every input that is the byte `d`, then well-formed pairs of a
string key and a value, then at the next key position the encoding of a
value that is not a byte string (an integer, a list or a dictionary)
followed by the encoding of a value, then anything, `decodeBencode` returns
an error. -/
theorem decodeBencode_nonStringKey (es : List (Bytes × Value)) (encoded : List (Bytes × Bytes))
    (key value : Value) (K V rest : Bytes)
    (hes : Value.EntriesBencode es) (henc : encodeValues es = .ok encoded)
    (hkey : key.IsBencode) (hns : ∀ k, key ≠ .str k) (hK : encodeBencode key = .ok K)
    (hvalue : value.IsBencode) (hV : encodeBencode value = .ok V) :
    decodeBencode ((100 : Byte) :: ((encoded.map (fun p => encodeString p.1 ++ p.2)).flatten
      ++ (K ++ (V ++ rest)))) = .error Fault.error := by
  have h := decodeDictLoop_nonStringKey key value K V rest hkey hns hK hvalue hV es hes
    encoded henc
    ((100 : Byte) :: ((encoded.map (fun p => encodeString p.1 ++ p.2)).flatten
      ++ (K ++ (V ++ rest)))) 1 []
    (2 * ((encoded.map (fun p => encodeString p.1 ++ p.2)).flatten
      ++ (K ++ (V ++ rest))).length + 2) rfl
    (by simp only [List.length_append]; omega)
  unfold decodeBencode
  rw [show 2 * ((100 : Byte) :: ((encoded.map (fun p => encodeString p.1 ++ p.2)).flatten
      ++ (K ++ (V ++ rest)))).length + 1
      = (2 * ((encoded.map (fun p => encodeString p.1 ++ p.2)).flatten
      ++ (K ++ (V ++ rest))).length + 2) + 1 from by simp only [List.length_cons]; omega]
  simp only [decodeFuel]
  rw [if_pos trivial]
  exact h

/-- C25 at the input `d3:fooi1ei1ei2ee`, whose second key is the integer 1. -/
theorem decodeBencode_nonStringKey_witness :
    decodeBencode [100, 51, 58, 102, 111, 111, 105, 49, 101, 105, 49, 101, 105, 50, 101, 101]
      = .error Fault.error :=
  decodeBencode_nonStringKey [([102, 111, 111], .int 1)]
    [([102, 111, 111], [105, 49, 101])] (.int 1) (.int 2) [105, 49, 101] [105, 50, 101] [101]
    (by simp only [Value.EntriesBencode, Value.IsBencode]; decide) (by rfl)
    (by simp only [Value.IsBencode]; decide) (by intro k h; cases h) (by rfl)
    (by simp only [Value.IsBencode]; decide) (by rfl)

/-! ### The bounds of the metadata slice -/

/-- C29 fails: on the payload `01 d8:msg_typei1e5:piecei0e10:total_sizei-1ee`,
whose header announces the `total_size` -1, the payload handling of
`getMetadataFromMagnet` and of `magnetInfo` passes the size check and slices
`payload[43:42]`, which panics, whatever the info-hash; so does the payload
that is the extension id alone, on which `decodeBencode` reads the first byte
of an empty header. A `total_size` larger than what follows the header is
answered with an error. -/
theorem metadataFromPayload_negative_size (sha1 : Bytes → Bytes) (infoHashHex : Bytes) :
    decodeBencode (negativeSizePayload.drop 1)
      = .ok (.dict [(keyMsgType, .int 1), (keyPiece, .int 0), (keyTotalSize, .int (-1))], 42) ∧
    negativeSizePayload.length = 43 ∧
    metadataFromPayload sha1 infoHashHex 1 negativeSizePayload = .error Fault.panic ∧
    magnetInfoPayload sha1 infoHashHex 1 negativeSizePayload = .error Fault.panic ∧
    metadataFromPayload sha1 infoHashHex 1 [1] = .error Fault.panic ∧
    magnetInfoPayload sha1 infoHashHex 1 [1] = .error Fault.panic ∧
    metadataFromPayload sha1 infoHashHex 1 oversizePayload = .error Fault.error ∧
    magnetInfoPayload sha1 infoHashHex 1 oversizePayload = .error Fault.error :=
  ⟨by rfl, by rfl, by rfl, by rfl, by rfl, by rfl, by rfl, by rfl⟩

/-! ### Keep-alive frames and the message with id 0 -/

/-- Apart from the message with id 0 and an empty payload, the result of
`readPeerMessage` on a framed message is not the result on a keep-alive. -/
theorem readPeerMessage_not_keepAlive (messageID : Byte) (payload rest rest2 : Bytes)
    (out : List Bytes) (budget : Nat) (h : 1 + payload.length < 2 ^ 32)
    (hne : messageID ≠ 0 ∨ payload ≠ []) :
    (readPeerMessage ⟨buildPeerMessage messageID payload ++ rest, out, budget⟩).1
      ≠ (readPeerMessage ⟨keepAlive ++ rest2, out, budget⟩).1 := by
  rw [readPeerMessage_buildPeerMessage messageID payload rest out budget h,
    readPeerMessage_keepAlive]
  intro heq
  simp only [Except.ok.injEq, Prod.mk.injEq] at heq
  rcases hne with h1 | h1
  · exact h1 heq.1
  · exact h1 heq.2

/-- C30 (amended): for every message id and every payload `p` with
`1 + |p| < 2^32`, `readPeerMessage` returns `(id, p)` on the frame
`buildPeerMessage(id, p)` and `(0, nil)` on a keep-alive frame, both without
an error, whatever follows on the stream; so the two results differ exactly
when the id is not 0 or the payload is not empty, and for the message with id
0 and an empty payload (choke) the result is that of a keep-alive. -/
theorem readPeerMessage_distinguishes (messageID : Byte) (payload rest rest2 : Bytes)
    (out : List Bytes) (budget : Nat) (h : 1 + payload.length < 2 ^ 32) :
    (readPeerMessage ⟨buildPeerMessage messageID payload ++ rest, out, budget⟩).1
      = .ok (messageID, payload) ∧
    (readPeerMessage ⟨keepAlive ++ rest2, out, budget⟩).1 = .ok (0, []) ∧
    ((readPeerMessage ⟨buildPeerMessage messageID payload ++ rest, out, budget⟩).1
        ≠ (readPeerMessage ⟨keepAlive ++ rest2, out, budget⟩).1
      ↔ (messageID ≠ 0 ∨ payload ≠ [])) := by
  have h1 := readPeerMessage_buildPeerMessage messageID payload rest out budget h
  have h2 := readPeerMessage_keepAlive rest2 out budget
  refine ⟨by rw [h1], by rw [h2], ?_⟩
  constructor
  · intro hne
    by_contra hc
    have hid : messageID = 0 := by
      by_contra hx
      exact hc (Or.inl hx)
    have hp : payload = [] := by
      by_contra hx
      exact hc (Or.inr hx)
    apply hne
    rw [h1, h2, hid, hp]
  · exact readPeerMessage_not_keepAlive messageID payload rest rest2 out budget h

/-- C30 (amended) at the message with id 7 and the payload `[1, 2, 3]`, whose
result is not that of a keep-alive. -/
theorem readPeerMessage_distinguishes_witness :
    (readPeerMessage ⟨buildPeerMessage 7 [1, 2, 3] ++ [9], [], 0⟩).1
      ≠ (readPeerMessage ⟨keepAlive ++ [9], [], 0⟩).1 :=
  (readPeerMessage_distinguishes 7 [1, 2, 3] [9] [9] [] 0 (by decide)).2.2.mpr
    (Or.inl (by decide))

/-- C30 fails as stated: `buildPeerMessage(0, nil)` is the frame
`00 00 00 01 00`, and on it `readPeerMessage` returns the message id 0 with a
nil payload and no error, which is exactly its result on the keep-alive frame
`00 00 00 00`. -/
theorem readPeerMessage_distinguishes_counterexample :
    buildPeerMessage 0 [] = chokeFrame ∧
    readPeerMessage ⟨chokeFrame, [], 0⟩ = (.ok (0, []), ⟨[], [], 0⟩) ∧
    readPeerMessage ⟨keepAlive, [], 0⟩ = (.ok (0, []), ⟨[], [], 0⟩) :=
  ⟨by rfl, by rfl, by rfl⟩

/-! ### Choosing a peer -/

theorem peerLoop_noConn {α : Type} (attempt : Option Conn → Except Fault (Attempt α))
    (hnone : attempt none = .ok .noConn) :
    ∀ (n : Nat), peerLoop attempt (List.replicate n none) .noConn = .ok .noConn
  | 0 => rfl
  | n + 1 => by
    show peerLoop attempt (none :: List.replicate n none) .noConn = .ok .noConn
    rw [peerLoop, hnone]
    exact peerLoop_noConn attempt hnone n

/-- When no peer accepts the connection, both loops report an error. -/
theorem select_all_dials_fail (infoHashBytes peerID : Bytes) (n : Nat) :
    downloadPieceConn infoHashBytes peerID (List.replicate n none) = .error Fault.error ∧
    magnetHandshake infoHashBytes peerID (List.replicate n none) = .error Fault.error := by
  cases n with
  | zero => exact ⟨rfl, rfl⟩
  | succ m =>
    have h1 := peerLoop_noConn (downloadPieceAttempt infoHashBytes peerID) rfl (m + 1)
    have h2 := peerLoop_noConn (magnetHandshakeAttempt infoHashBytes peerID) rfl (m + 1)
    have hl : ¬ ((List.replicate (m + 1) (none : Option Conn)).length = 0) := by simp
    constructor
    · unfold downloadPieceConn
      rw [if_neg hl, h1]
    · unfold magnetHandshake
      rw [if_neg hl, h2]

/-- C27 fails: when the only peer (or the last one tried, after peers that
could not be reached) accepts the connection, answers the handshake and then
ends the stream, the wait for the bitfield fails, the pass closes the
connection and leaves it in `conn`; `conn == nil` is false after the loop, so
the loop of `downloadPiece` reports no error and the function goes on with the
closed connection, and `magnetHandshake` returns the closed connection with
an empty peer id, the extension id 0 and a nil error. A ready peer for
comparison, and peers that all refuse the connection, give what the claim
says. -/
theorem peer_selection_closed_conn (infoHashBytes peerID : Bytes) :
    (waitForBitfield ⟨[], [(19 : Byte) :: protocolString ++ List.replicate 8 (0 : Byte)
        ++ infoHashBytes ++ peerID], 3⟩).1 = .error Fault.error ∧
    (∃ conn, downloadPieceConn infoHashBytes peerID [some handshakeOnlyPeer]
      = .ok ⟨conn, true⟩) ∧
    (∃ conn, downloadPieceConn infoHashBytes peerID [none, some handshakeOnlyPeer]
      = .ok ⟨conn, true⟩) ∧
    (∃ conn, magnetHandshake infoHashBytes peerID [some handshakeOnlyPeer]
      = .ok (⟨conn, true⟩, [], 0)) ∧
    (∃ conn, magnetHandshake infoHashBytes peerID [none, some handshakeOnlyPeer]
      = .ok (⟨conn, true⟩, [], 0)) ∧
    (∃ conn, downloadPieceConn infoHashBytes peerID [some handshakeOnlyPeer, some readyPeer]
      = .ok ⟨conn, false⟩) ∧
    (∃ conn, magnetHandshake (List.replicate 20 7) (List.replicate 20 1)
        [some handshakeOnlyPeer, some readyPeer]
      = .ok (⟨conn, false⟩, List.replicate 20 9, 0)) ∧
    downloadPieceConn infoHashBytes peerID [some handshakeOnlyPeer, none] = .error Fault.error ∧
    magnetHandshake infoHashBytes peerID [some handshakeOnlyPeer, none] = .error Fault.error :=
  ⟨by rfl, ⟨_, by rfl⟩, ⟨_, by rfl⟩, ⟨_, by rfl⟩, ⟨_, by rfl⟩, ⟨_, by rfl⟩, ⟨_, by rfl⟩,
    by rfl, by rfl⟩

/-! ### Concurrent sessions commit every index at most once -/

theorem WorkQueue.Add_count (wq : WorkQueue) (p x : Int) :
    (wq.Add p).queue.count x ≤ wq.queue.count x + [p].count x := by
  unfold WorkQueue.Add
  simp only
  split
  · exact Nat.le_add_right _ _
  · simp only [List.count_append]
    exact Nat.le_refl _

theorem count_held_set (x : Int) : ∀ (sessions : List SessionPc) (k : Nat) (pc pc2 : SessionPc),
    sessions[k]? = some pc →
    ((sessions.set k pc2).map SessionPc.held).flatten.count x + pc.held.count x
      = (sessions.map SessionPc.held).flatten.count x + pc2.held.count x
  | [], k, _, _, h => by simp at h
  | s :: rest, 0, pc, pc2, h => by
    simp only [List.getElem?_cons_zero, Option.some.injEq] at h
    subst h
    simp only [List.set_cons_zero, List.map_cons, List.flatten_cons, List.count_append]
    omega
  | s :: rest, k + 1, pc, pc2, h => by
    simp only [List.getElem?_cons_succ] at h
    have ih := count_held_set x rest k pc pc2 h
    simp only [List.set_cons_succ, List.map_cons, List.flatten_cons, List.count_append]
    omega

theorem getElem?_set_self (sessions : List SessionPc) (k : Nat) (pc pc2 : SessionPc)
    (h : sessions[k]? = some pc) : (sessions.set k pc2)[k]? = some pc2 := by
  have hlt : k < sessions.length := by
    by_contra hc
    rw [List.getElem?_eq_none (by omega)] at h
    cases h
  simp [List.getElem?_set, hlt]

/-- No step adds to the number of times an index occurs in the queue, among
the held indices and in the log of commits taken together. -/
theorem Coordinator.step_count (st : Coordinator) (session : Nat) (outcome : Option Bytes)
    (x : Int) :
    (st.step session outcome).queue.queue.count x + (st.step session outcome).held.count x
        + (st.step session outcome).commits.count x
      ≤ st.queue.queue.count x + st.held.count x + st.commits.count x := by
  unfold Coordinator.step
  cases hs : st.sessions[session]? with
  | none => simp only; exact Nat.le_refl _
  | some pc =>
    cases pc with
    | finished => simp only; exact Nat.le_refl _
    | atIsEmpty =>
      simp only
      split
      · have := count_held_set x st.sessions session .atIsEmpty .finished hs
        simp only [Coordinator.held, SessionPc.held, List.count_nil] at this ⊢
        omega
      · have := count_held_set x st.sessions session .atIsEmpty .atGet hs
        simp only [Coordinator.held, SessionPc.held, List.count_nil] at this ⊢
        omega
    | atGet =>
      simp only
      cases hq : st.queue.queue with
      | nil =>
        have hg : st.queue.Get = ((0, false), st.queue) := by
          simp only [WorkQueue.Get, hq]
        rw [hg]
        have := count_held_set x st.sessions session .atGet .finished hs
        simp only [Coordinator.held, SessionPc.held, List.count_nil, hq] at this ⊢
        omega
      | cons p rest =>
        have hg : st.queue.Get = ((p, true), { st.queue with queue := rest }) := by
          simp only [WorkQueue.Get, hq]
        rw [hg]
        have := count_held_set x st.sessions session .atGet (.atCheck p) hs
        simp only [Coordinator.held, SessionPc.held, List.count_nil] at this ⊢
        have hc : (p :: rest).count x = rest.count x + [p].count x := by
          rw [show p :: rest = [p] ++ rest from rfl, List.count_append]
          omega
        omega
    | atCheck pieceIndex =>
      simp only
      cases st.buffer.Get pieceIndex with
      | some d =>
        have := count_held_set x st.sessions session (.atCheck pieceIndex) .atIsEmpty hs
        simp only [Coordinator.held, SessionPc.held, List.count_nil] at this ⊢
        omega
      | none =>
        have := count_held_set x st.sessions session (.atCheck pieceIndex)
          (.atDownload pieceIndex) hs
        simp only [Coordinator.held, SessionPc.held] at this ⊢
        omega
    | atDownload pieceIndex =>
      simp only
      cases outcome with
      | none =>
        have := count_held_set x st.sessions session (.atDownload pieceIndex) .atIsEmpty hs
        have hadd := WorkQueue.Add_count st.queue pieceIndex x
        simp only [Coordinator.held, SessionPc.held, List.count_nil] at this ⊢
        omega
      | some data =>
        have := count_held_set x st.sessions session (.atDownload pieceIndex) .atIsEmpty hs
        simp only [Coordinator.held, SessionPc.held, List.count_nil, List.count_append]
          at this ⊢
        omega

theorem Coordinator.run_count (schedule : List (Nat × Option Bytes)) :
    ∀ (st : Coordinator) (x : Int),
    (st.run schedule).queue.queue.count x + (st.run schedule).held.count x
        + (st.run schedule).commits.count x
      ≤ st.queue.queue.count x + st.held.count x + st.commits.count x := by
  induction schedule with
  | nil => intro st x; exact Nat.le_refl _
  | cons ev rest ih =>
    intro st x
    have h1 := ih (st.step ev.1 ev.2) x
    have h2 := Coordinator.step_count st ev.1 ev.2 x
    simp only [Coordinator.run, List.foldl_cons] at h1 ⊢
    omega

/-- The buffer holds exactly the indices of the log of commits, step by step. -/
theorem Coordinator.step_buffer (st : Coordinator) (session : Nat) (outcome : Option Bytes)
    (h : ∀ i, (∃ d, st.buffer.Get i = some d) ↔ i ∈ st.commits) :
    ∀ i, (∃ d, (st.step session outcome).buffer.Get i = some d)
      ↔ i ∈ (st.step session outcome).commits := by
  unfold Coordinator.step
  cases hs : st.sessions[session]? with
  | none => exact h
  | some pc =>
    cases pc with
    | finished => exact h
    | atIsEmpty => simp only; split <;> exact h
    | atGet =>
      simp only
      cases hq : st.queue.queue with
      | nil =>
        have hg : st.queue.Get = ((0, false), st.queue) := by
          simp only [WorkQueue.Get, hq]
        rw [hg]
        exact h
      | cons p rest =>
        have hg : st.queue.Get = ((p, true), { st.queue with queue := rest }) := by
          simp only [WorkQueue.Get, hq]
        rw [hg]
        exact h
    | atCheck pieceIndex =>
      simp only
      cases st.buffer.Get pieceIndex <;> exact h
    | atDownload pieceIndex =>
      simp only
      cases outcome with
      | none => exact h
      | some data =>
        intro i
        simp only [PieceBuffer.Get, PieceBuffer.Set, List.mem_append, List.mem_singleton]
        by_cases hi : pieceIndex = i
        · subst hi
          rw [mapGet_mapSet_int_same]
          exact ⟨fun _ => Or.inr rfl, fun _ => ⟨data, rfl⟩⟩
        · rw [mapGet_mapSet_int_other _ _ _ _ hi]
          have hi2 : ¬ (i = pieceIndex) := fun e => hi e.symm
          constructor
          · intro hd
            exact Or.inl ((h i).mp hd)
          · intro hd
            rcases hd with hd | hd
            · exact (h i).mpr hd
            · exact absurd hd hi2

theorem Coordinator.run_buffer (schedule : List (Nat × Option Bytes)) :
    ∀ (st : Coordinator), (∀ i, (∃ d, st.buffer.Get i = some d) ↔ i ∈ st.commits) →
    ∀ i, (∃ d, (st.run schedule).buffer.Get i = some d) ↔ i ∈ (st.run schedule).commits := by
  induction schedule with
  | nil => intro st h; exact h
  | cons ev rest ih =>
    intro st h
    have h1 := ih (st.step ev.1 ev.2) (Coordinator.step_buffer st ev.1 ev.2 h)
    simpa only [Coordinator.run, List.foldl_cons] using h1

/-- The queue the coordinator starts with holds the indices `0 .. piecesLen-1`
in order, each once. -/
theorem initialQueue_spec : ∀ (n : Nat),
    (initialQueue n).Started ∧
    (initialQueue n).queue = (List.range n).map (fun (i : Nat) => (i : Int)) ∧
    ∀ q : Int, (n : Int) ≤ q → (initialQueue n).counter q = 0
  | 0 => ⟨Or.inl rfl, rfl, fun _ _ => rfl⟩
  | n + 1 => by
    obtain ⟨h1, h2, h3⟩ := initialQueue_spec n
    obtain ⟨a1, _, _, a4⟩ := WorkQueue.Add_spec (initialQueue n) (n : Int) h1
    have hc : (initialQueue n).counter (n : Int) < 3 := by
      rw [h3 (n : Int) (le_refl _)]
      decide
    obtain ⟨b1, _, b3⟩ := a4 hc
    refine ⟨a1, ?_, ?_⟩
    · show ((initialQueue n).Add (n : Int)).queue = _
      rw [b1, h2, List.range_succ, List.map_append]
      rfl
    · intro q hq
      show ((initialQueue n).Add (n : Int)).counter q = 0
      have hne : q ≠ (n : Int) := by
        push_cast at hq
        omega
      rw [b3 q hne]
      exact h3 q (by push_cast at hq; omega)

theorem held_replicate : ∀ (workers : Nat),
    ((List.replicate workers SessionPc.atIsEmpty).map SessionPc.held).flatten = []
  | 0 => rfl
  | n + 1 => by
    rw [List.replicate_succ, List.map_cons, List.flatten_cons, held_replicate n]
    rfl

/-- C26: a concurrent run of the download coordinator is an interleaving of
the calls its sessions make on the shared queue and buffer (each one a method
of `download.go` that holds the mutex for its whole body). Starting from the
queue with the indices `0 .. piecesLen-1` and any number of workers, after
every schedule, so at every point of every run: the log of commits has no
index twice; no two sessions hold the same index; an index that a session
holds is neither committed nor in the queue; the buffer holds exactly the
committed indices; and a session that finds its index in the buffer when it
checks goes back to the head of the loop without a commit. -/
theorem coordinator_commits_once (piecesLen workers : Nat)
    (schedule : List (Nat × Option Bytes)) :
    (Coordinator.start piecesLen workers).queue.queue
      = (List.range piecesLen).map (fun (i : Nat) => (i : Int)) ∧
    ((Coordinator.start piecesLen workers).run schedule).commits.Nodup ∧
    ((Coordinator.start piecesLen workers).run schedule).held.Nodup ∧
    (∀ i ∈ ((Coordinator.start piecesLen workers).run schedule).held,
      i ∉ ((Coordinator.start piecesLen workers).run schedule).commits ∧
      i ∉ ((Coordinator.start piecesLen workers).run schedule).queue.queue) ∧
    (∀ i, (∃ d, ((Coordinator.start piecesLen workers).run schedule).buffer.Get i = some d)
      ↔ i ∈ ((Coordinator.start piecesLen workers).run schedule).commits) ∧
    (∀ (st : Coordinator) (session : Nat) (pieceIndex : Int) (outcome : Option Bytes),
      st.sessions[session]? = some (.atCheck pieceIndex) →
      (∃ d, st.buffer.Get pieceIndex = some d) →
      (st.step session outcome).buffer = st.buffer ∧
      (st.step session outcome).commits = st.commits ∧
      (st.step session outcome).sessions[session]? = some .atIsEmpty) := by
  obtain ⟨_, hq, _⟩ := initialQueue_spec piecesLen
  have hstart : ∀ x : Int,
      (Coordinator.start piecesLen workers).queue.queue.count x
        + (Coordinator.start piecesLen workers).held.count x
        + (Coordinator.start piecesLen workers).commits.count x ≤ 1 := by
    intro x
    have hnd : ((List.range piecesLen).map (fun (i : Nat) => (i : Int))).Nodup :=
      (List.nodup_range piecesLen).map (fun a b h => by exact_mod_cast h)
    have hc := List.nodup_iff_count_le_one.mp hnd x
    simp only [Coordinator.start, Coordinator.held, held_replicate, hq, List.count_nil]
    omega
  have hrun : ∀ x : Int,
      ((Coordinator.start piecesLen workers).run schedule).queue.queue.count x
        + ((Coordinator.start piecesLen workers).run schedule).held.count x
        + ((Coordinator.start piecesLen workers).run schedule).commits.count x ≤ 1 :=
    fun x => le_trans (Coordinator.run_count schedule _ x) (hstart x)
  refine ⟨hq, ?_, ?_, ?_, ?_, ?_⟩
  · exact List.nodup_iff_count_le_one.mpr (fun x => by have := hrun x; omega)
  · exact List.nodup_iff_count_le_one.mpr (fun x => by have := hrun x; omega)
  · intro i hi
    have h1 := hrun i
    have h2 : 0 < ((Coordinator.start piecesLen workers).run schedule).held.count i :=
      List.count_pos_iff.mpr hi
    constructor
    · intro hc
      have := List.count_pos_iff.mpr hc
      omega
    · intro hc
      have := List.count_pos_iff.mpr hc
      omega
  · exact Coordinator.run_buffer schedule _ (by
      intro i
      simp [Coordinator.start, PieceBuffer.Get, mapGet])
  · intro st session pieceIndex outcome hs hd
    obtain ⟨d, hd⟩ := hd
    unfold Coordinator.step
    rw [hs]
    simp only [hd]
    exact ⟨trivial, trivial, getElem?_set_self st.sessions session _ _ hs⟩

/-- A run of two sessions over two pieces: session 1 commits piece 1, session
0 fails on piece 0, takes it from the queue again and commits it. -/
theorem coordinator_sample_run :
    ((Coordinator.start 2 2).run sampleSchedule).commits = [1, 0] ∧
    ((Coordinator.start 2 2).run sampleSchedule).buffer.pieces = [(0, [8]), (1, [7])] ∧
    ((Coordinator.start 2 2).run sampleSchedule).sessions = [.finished, .finished] ∧
    ((Coordinator.start 2 2).run (sampleSchedule.take 6)).held = [0, 1] := by
  decide

end BitTorrent
